import Mathlib

/-!
# AES-NI glue layer: RFC4106 (GCM) and CCM front ends

A shallow embedding of the C glue code in `arch/x86/crypto/aesni-intel_glue.c`.

Conventions of the embedding.

* A byte is a `Nat`; a buffer reached through a pointer is the `List Nat` of the
  bytes that start at the pointer.  A `(pointer, length)` argument pair is passed
  on as the pair of the buffer and the length.
* `unsigned int` arithmetic is reduced modulo `2 ^ 32`, `unsigned long` arithmetic
  modulo `2 ^ 64` (the RFC4106 and CCM code is compiled for x86-64 only).
* Return codes are `Int`, exactly as in C (`0` or a negated errno value).
* The assembler routines, the generic crypto API and the allocator are external:
  they are fields of an environment record, and every call the glue code makes to
  them is appended to a trace of `Event`s, in program order.
-/

namespace AesniGlue

/-! ## Constants -/

/-- Modelled from the spec: the AES block size `AES_BLOCK_SIZE` of `crypto/aes.h`
(a header that is not among the sources); the spec fixes it to 16 bytes. -/
def AES_BLOCK_SIZE : Nat := 16

/-- Modelled from the spec: `AES_KEYSIZE_128` of `crypto/aes.h`, the byte length of
a 128-bit key. -/
def AES_KEYSIZE_128 : Nat := 16

/-- Modelled from the spec: `AES_KEYSIZE_192` of `crypto/aes.h`, the byte length of
a 192-bit key. -/
def AES_KEYSIZE_192 : Nat := 24

/-- Modelled from the spec: `AES_KEYSIZE_256` of `crypto/aes.h`, the byte length of
a 256-bit key. -/
def AES_KEYSIZE_256 : Nat := 32

/-- The size of the GHASH subkey, `#define RFC4106_HASH_SUBKEY_SIZE 16`. -/
def RFC4106_HASH_SUBKEY_SIZE : Nat := 16

/-- Modelled from the spec: the errno constant `EINVAL` (invalid argument) of the
kernel's `errno-base.h`, which is not among the sources; its Linux value is 22. -/
def EINVAL : Int := 22

/-- Modelled from the spec: the errno constant `ENOMEM` (allocation failure) of the
kernel's `errno-base.h`, which is not among the sources; its Linux value is 12. -/
def ENOMEM : Int := 12

/-- Modelled from the spec: the errno constant `EBADMSG` (authentication failure) of
the kernel's `errno.h`, which is not among the sources; its Linux value is 74. -/
def EBADMSG : Int := 74

/-- Modelled from the spec: the errno constant `EOVERFLOW` (length overflow) of the
kernel's `errno.h`, which is not among the sources; its Linux value is 75. -/
def EOVERFLOW : Int := 75

/-- Modelled from the spec: the result flag `CRYPTO_TFM_RES_BAD_KEY_LEN` of
`linux/crypto.h`, which is not among the sources; the bit that reports the spec's
BadKeyLength error. -/
def CRYPTO_TFM_RES_BAD_KEY_LEN : Nat := 0x00200000

/-- Modelled from the spec: `PAGE_SIZE` of the x86 page headers, which are not among
the sources; the size of the spec's "one virtual page". -/
def PAGE_SIZE : Nat := 4096

/-! ## Machine integers and memory -/

/-- Truncation to `unsigned int` / `u32`. -/
def u32 (x : Nat) : Nat := x % 2 ^ 32

/-- Truncation to `unsigned long` / `size_t` on x86-64. -/
def u64 (x : Nat) : Nat := x % 2 ^ 64

/-- Subtraction of `unsigned int` values, wrapping modulo `2 ^ 32`. -/
def sub_u32 (a b : Nat) : Nat := (u32 a + 2 ^ 32 - u32 b) % 2 ^ 32

/-- Subtraction of `unsigned long` values, wrapping modulo `2 ^ 64`. -/
def sub_u64 (a b : Nat) : Nat := (u64 a + 2 ^ 64 - u64 b) % 2 ^ 64

/-- Byte swap of a 32-bit word. -/
def swab32 (x : Nat) : Nat :=
  (x % 256) * 2 ^ 24 + (x / 2 ^ 8 % 256) * 2 ^ 16 + (x / 2 ^ 16 % 256) * 2 ^ 8 + x / 2 ^ 24 % 256

/-- On x86 (little endian) `cpu_to_be32` is a byte swap. -/
def cpu_to_be32 (x : Nat) : Nat := swab32 x

/-- The four bytes a 32-bit word occupies in x86 memory, lowest address first. -/
def u32_bytes (v : Nat) : List Nat :=
  [v % 256, v / 2 ^ 8 % 256, v / 2 ^ 16 % 256, v / 2 ^ 24 % 256]

/-- The call `memcpy(dst + off, src, n)` seen on the buffer `dst`: bytes
`off .. off + n - 1` are replaced by the first `n` bytes of `src`. -/
def memcpy_at (dst : List Nat) (off : Nat) (src : List Nat) (n : Nat) : List Nat :=
  dst.take off ++ src.take n ++ dst.drop (off + n)

/-- The call `memset(dst + off, c, n)` seen on the buffer `dst`. -/
def memset_at (dst : List Nat) (off : Nat) (c : Nat) (n : Nat) : List Nat :=
  dst.take off ++ List.replicate n c ++ dst.drop (off + n)

/-- The kernel's `crypto_memneq(a, b, n)`: true when the first `n` bytes differ
somewhere. -/
def crypto_memneq (a b : List Nat) (n : Nat) : Bool :=
  (List.range n).any (fun i => a.getD i 0 != b.getD i 0)

/-! ## Data model -/

/-- The expanded key `struct crypto_aes_ctx` of `crypto/aes.h`: encryption and
decryption round keys and the key length in bytes. -/
structure crypto_aes_ctx where
  key_enc : List Nat
  key_dec : List Nat
  key_length : Nat
deriving DecidableEq

/-- The per-transform data `struct aesni_rfc4106_gcm_ctx`. -/
structure aesni_rfc4106_gcm_ctx where
  hash_subkey : List Nat
  aes_key_expanded : crypto_aes_ctx
  nonce : List Nat
deriving DecidableEq

/-- The part of `struct crypto_aead` the glue code reads and writes: the flag word
`base.crt_flags`, the tag size returned by `crypto_aead_authsize` and the private
context returned by `crypto_aead_ctx`, of type `κ`. -/
structure crypto_aead (κ : Type) where
  crt_flags : Nat
  authsize : Nat
  ctx : κ
deriving DecidableEq

/-- One `struct scatterlist` entry: offset within its page, byte length, and the
bytes of the region (what `scatterwalk_map` makes addressable). -/
structure scatterlist where
  offset : Nat
  length : Nat
  data : List Nat
deriving DecidableEq

/-- The fields of `struct aead_request` used by the glue code.  `src_is_dst` is the
pointer comparison `req->src == req->dst`. -/
structure aead_request where
  assoclen : Nat
  cryptlen : Nat
  iv : List Nat
  src : List scatterlist
  dst : List scatterlist
  src_is_dst : Bool
deriving DecidableEq

/-- Calls to external code, and the construction of the GCM pre-counter block, in
the order the glue code performs them. -/
inductive Event where
  | iv_built (iv : List Nat)
  | kmalloc (size : Nat)
  | kfree
  | kernel_fpu_begin
  | kernel_fpu_end
  | aesni_gcm_enc_tfm (len : Nat) (iv : List Nat) (aad_len : Nat) (auth_tag_len : Nat)
  | aesni_gcm_dec_tfm (len : Nat) (iv : List Nat) (aad_len : Nat) (auth_tag_len : Nat)
  | set_flags (mask : Nat)
  | crypto_aes_expand_key (key_len : Nat)
  | aesni_set_key (key_len : Nat)
  | crypto_alloc_cipher
  | crypto_cipher_setkey (key_len : Nat)
  | crypto_cipher_encrypt_one
  | crypto_free_cipher
  | crypto_aead_setauthsize (authsize : Nat)
  | aesni_enc
  | aesni_ctr_enc (len : Nat)
  | blkcipher_walk_done (residue : Nat)
  | aesni_ecb_enc (len : Nat)
  | aesni_ecb_dec (len : Nat)
  | aesni_cbc_enc (len : Nat)
  | aesni_cbc_dec (len : Nat)
  | aesni_ctr_enc_tfm (len : Nat)
  | aesni_dec
  | crypto_aes_encrypt_x86
  | crypto_aes_decrypt_x86
  | crypto_aead_encrypt
  | crypto_aead_decrypt
deriving DecidableEq

/-- The AAD length of a GCM backend call, `none` for any other event. -/
def Event.gcm_aad_len : Event → Option Nat
  | .aesni_gcm_enc_tfm _ _ aad_len _ => some aad_len
  | .aesni_gcm_dec_tfm _ _ aad_len _ => some aad_len
  | _ => none

/-- The pre-counter block of a GCM backend call, `none` for any other event. -/
def Event.gcm_iv : Event → Option (List Nat)
  | .aesni_gcm_enc_tfm _ iv _ _ => some iv
  | .aesni_gcm_dec_tfm _ iv _ _ => some iv
  | _ => none

/-! ## Scatter lists -/

/-- The entry a `struct scatterlist *` points at. -/
def sg_first (sg : List scatterlist) : scatterlist :=
  sg.headD { offset := 0, length := 0, data := [] }

/-- The test `sg_is_last(sg)`: the entry pointed at ends the list. -/
def sg_is_last (sg : List scatterlist) : Bool :=
  sg.tail.isEmpty

/-- The bytes of a scatter list, in order. -/
def sg_bytes : List scatterlist → List Nat
  | [] => []
  | e :: es => e.data.take e.length ++ sg_bytes es

/-- The call `scatterwalk_map_and_copy(buf, sg, start, nbytes, 0)`: the `nbytes`
bytes of `sg` from position `start`. -/
def sg_copy_from (sg : List scatterlist) (start nbytes : Nat) : List Nat :=
  ((sg_bytes sg).drop start).take nbytes

/-- The call `scatterwalk_map_and_copy(buf, sg, start, nbytes, 1)`: the first
`nbytes` bytes of `buf` are stored in `sg` from position `start`. -/
def sg_copy_to : List scatterlist → Nat → List Nat → Nat → List scatterlist
  | [], _, _, _ => []
  | e :: es, start, buf, nbytes =>
    if e.length ≤ start then
      e :: sg_copy_to es (start - e.length) buf nbytes
    else
      let room := min (e.length - start) nbytes
      { e with data := memcpy_at e.data start buf room }
        :: sg_copy_to es 0 (buf.drop room) (nbytes - room)

/-! ## RFC4106 request helpers -/

/-- The signature shared by `aesni_gcm_enc`, `aesni_gcm_dec` and their AVX
dispatchers: key schedule, input buffer, payload length, pre-counter block, hash
subkey, AAD buffer, AAD length, tag length; the result is the pair of the bytes
stored through `out` and the bytes stored through `auth_tag`. -/
abbrev gcm_fn : Type :=
  crypto_aes_ctx → List Nat → Nat → List Nat → List Nat → List Nat → Nat → Nat →
    List Nat × List Nat

/-- What the RFC4106 helpers use from outside: the two function pointers bound by
`aesni_init`, and whether `kmalloc(size, GFP_ATOMIC)` succeeds. -/
structure gcm_env where
  aesni_gcm_enc_tfm : gcm_fn
  aesni_gcm_dec_tfm : gcm_fn
  kmalloc : Nat → Bool

/-- What a request helper leaves behind: the return code, the trace of external
calls, and the destination scatter list (which is also the source when the request
is in place). -/
structure aead_result where
  ret : Int
  trace : List Event
  dst : List scatterlist
deriving DecidableEq

/-- The block commented "IV below built" in both helpers: `iv[i] = ctx->nonce[i]`
for `i < 4`, `iv[4 + i] = req->iv[i]` for `i < 8`, and the big-endian word
`cpu_to_be32(1)` stored at `iv + 12`.  The local array starts out unspecified; it
is taken as zeroes. -/
def rfc4106_build_iv (nonce req_iv : List Nat) : List Nat :=
  let iv0 := List.replicate 16 0
  let iv1 := (List.range 4).foldl (fun iv i => iv.set i (nonce.getD i 0)) iv0
  let iv2 := (List.range 8).foldl (fun iv i => iv.set (4 + i) (req_iv.getD i 0)) iv1
  memcpy_at iv2 12 (u32_bytes (cpu_to_be32 1)) 4

/-- The single-entry test of `helper_rfc4106_encrypt` (it also requires a non-empty
destination entry). -/
def one_entry_in_sg_enc (req : aead_request) : Bool :=
  sg_is_last req.src &&
  decide ((sg_first req.src).offset + (sg_first req.src).length ≤ PAGE_SIZE) &&
  sg_is_last req.dst && decide ((sg_first req.dst).length ≠ 0) &&
  decide ((sg_first req.dst).offset + (sg_first req.dst).length ≤ PAGE_SIZE)

/-- The single-entry test of `helper_rfc4106_decrypt`. -/
def one_entry_in_sg_dec (req : aead_request) : Bool :=
  sg_is_last req.src &&
  decide ((sg_first req.src).offset + (sg_first req.src).length ≤ PAGE_SIZE) &&
  sg_is_last req.dst &&
  decide ((sg_first req.dst).offset + (sg_first req.dst).length ≤ PAGE_SIZE)

/-- Replaces the data of the first entry of a scatter list. -/
def sg_set_first (sg : List scatterlist) (data : List Nat) : List scatterlist :=
  match sg with
  | [] => []
  | e :: es => { e with data := data } :: es

/-- The function `helper_rfc4106_encrypt`. -/
def helper_rfc4106_encrypt (E : gcm_env) (tfm : crypto_aead aesni_rfc4106_gcm_ctx)
    (req : aead_request) : aead_result :=
  let ctx := tfm.ctx
  let auth_tag_len := tfm.authsize
  if req.assoclen ≠ 16 ∧ req.assoclen ≠ 20 then
    { ret := -EINVAL, trace := [], dst := req.dst }
  else
    let iv := rfc4106_build_iv ctx.nonce req.iv
    let aad_len := sub_u32 req.assoclen 8
    if one_entry_in_sg_enc req then
      let assoc := (sg_first req.src).data
      let src := assoc.drop req.assoclen
      let page := if req.src_is_dst then assoc else (sg_first req.dst).data
      let r := E.aesni_gcm_enc_tfm ctx.aes_key_expanded src req.cryptlen iv
        ctx.hash_subkey assoc aad_len auth_tag_len
      let page1 := memcpy_at page req.assoclen r.1 req.cryptlen
      let page2 := memcpy_at page1 (req.assoclen + req.cryptlen) r.2 auth_tag_len
      { ret := 0,
        trace := [.iv_built iv, .kernel_fpu_begin,
          .aesni_gcm_enc_tfm req.cryptlen iv aad_len auth_tag_len, .kernel_fpu_end],
        dst := sg_set_first req.dst page2 }
    else
      let size := u64 (req.cryptlen + auth_tag_len + req.assoclen)
      if ¬ E.kmalloc size then
        { ret := -ENOMEM, trace := [.iv_built iv, .kmalloc size], dst := req.dst }
      else
        let assoc := memcpy_at (List.replicate size 0) 0
          (sg_copy_from req.src 0 (u32 (req.assoclen + req.cryptlen)))
          (u32 (req.assoclen + req.cryptlen))
        let src := assoc.drop req.assoclen
        let r := E.aesni_gcm_enc_tfm ctx.aes_key_expanded src req.cryptlen iv
          ctx.hash_subkey assoc aad_len auth_tag_len
        let buf1 := memcpy_at assoc req.assoclen r.1 req.cryptlen
        let buf2 := memcpy_at buf1 (req.assoclen + req.cryptlen) r.2 auth_tag_len
        { ret := 0,
          trace := [.iv_built iv, .kmalloc size, .kernel_fpu_begin,
            .aesni_gcm_enc_tfm req.cryptlen iv aad_len auth_tag_len, .kernel_fpu_end,
            .kfree],
          dst := sg_copy_to req.dst req.assoclen (buf2.drop req.assoclen)
            (u32 (req.cryptlen + auth_tag_len)) }

/-- The function `helper_rfc4106_decrypt`.  The tag is read at the pointer
`src + tempCipherLen`, computed modulo `2 ^ 64`: `src` is position `assoclen` of its
buffer, so the tag is read at position `(assoclen + tempCipherLen) mod 2 ^ 64`, which
for a `tempCipherLen` that has wrapped lies before `src`. -/
def helper_rfc4106_decrypt (E : gcm_env) (tfm : crypto_aead aesni_rfc4106_gcm_ctx)
    (req : aead_request) : aead_result :=
  let ctx := tfm.ctx
  let auth_tag_len := tfm.authsize
  if req.assoclen ≠ 16 ∧ req.assoclen ≠ 20 then
    { ret := -EINVAL, trace := [], dst := req.dst }
  else
    let tempCipherLen := sub_u64 req.cryptlen auth_tag_len
    let iv := rfc4106_build_iv ctx.nonce req.iv
    let aad_len := sub_u32 req.assoclen 8
    if one_entry_in_sg_dec req then
      let assoc := (sg_first req.src).data
      let src := assoc.drop req.assoclen
      let page := if req.src_is_dst then assoc else (sg_first req.dst).data
      let r := E.aesni_gcm_dec_tfm ctx.aes_key_expanded src tempCipherLen iv
        ctx.hash_subkey assoc aad_len auth_tag_len
      let page1 := memcpy_at page req.assoclen r.1 tempCipherLen
      let assoc1 := if req.src_is_dst then page1 else assoc
      let retval : Int :=
        if crypto_memneq (assoc1.drop (u64 (req.assoclen + tempCipherLen))) r.2 auth_tag_len
        then -EBADMSG else 0
      { ret := retval,
        trace := [.iv_built iv, .kernel_fpu_begin,
          .aesni_gcm_dec_tfm tempCipherLen iv aad_len auth_tag_len, .kernel_fpu_end],
        dst := sg_set_first req.dst page1 }
    else
      let size := u32 (req.cryptlen + req.assoclen)
      if ¬ E.kmalloc size then
        { ret := -ENOMEM, trace := [.iv_built iv, .kmalloc size], dst := req.dst }
      else
        let assoc := memcpy_at (List.replicate size 0) 0
          (sg_copy_from req.src 0 (u32 (req.assoclen + req.cryptlen)))
          (u32 (req.assoclen + req.cryptlen))
        let src := assoc.drop req.assoclen
        let r := E.aesni_gcm_dec_tfm ctx.aes_key_expanded src tempCipherLen iv
          ctx.hash_subkey assoc aad_len auth_tag_len
        let buf1 := memcpy_at assoc req.assoclen r.1 tempCipherLen
        let src1 := buf1.drop req.assoclen
        let retval : Int :=
          if crypto_memneq (buf1.drop (u64 (req.assoclen + tempCipherLen))) r.2 auth_tag_len
          then -EBADMSG else 0
        { ret := retval,
          trace := [.iv_built iv, .kmalloc size, .kernel_fpu_begin,
            .aesni_gcm_dec_tfm tempCipherLen iv aad_len auth_tag_len, .kernel_fpu_end,
            .kfree],
          dst := sg_copy_to req.dst req.assoclen src1 (u32 tempCipherLen) }

/-! ## Key setup -/

/-- Modelled from the spec: `MAX_ERRNO` of `linux/err.h`, which is not among the
sources; pointers in the last 4095 addresses encode the spec's error results. -/
def MAX_ERRNO : Int := 4095

/-- The test `IS_ERR(ptr)` of `linux/err.h` on a pointer read as a `long`. -/
def IS_ERR (ptr : Int) : Bool := decide (-MAX_ERRNO ≤ ptr ∧ ptr < 0)

/-- What key setup uses from outside.  `irq_fpu_usable` is the answer of the context
query; the two expansion routines take the schedule they write to, the key buffer
and the key length, and give back status and schedule; `crypto_alloc_cipher` is the
pointer `crypto_alloc_cipher("aes", 0, 0)` returns, read as a `long`;
`crypto_cipher_setkey` gives the status of keying that cipher;
`crypto_cipher_encrypt_one k b` is the block the cipher keyed with the bytes `k`
writes for the input buffer `b`. -/
structure key_env where
  irq_fpu_usable : Bool
  crypto_aes_expand_key : crypto_aes_ctx → List Nat → Nat → Int × crypto_aes_ctx
  aesni_set_key : crypto_aes_ctx → List Nat → Nat → Int × crypto_aes_ctx
  crypto_alloc_cipher : Int
  crypto_cipher_setkey : List Nat → Nat → Int
  crypto_cipher_encrypt_one : List Nat → List Nat → List Nat

/-- What `aes_set_key_common` leaves behind: return code, the flag word
`tfm->crt_flags`, the key schedule, and the trace of external calls. -/
structure setkey_result where
  ret : Int
  crt_flags : Nat
  ctx : crypto_aes_ctx
  trace : List Event
deriving DecidableEq

/-- The function `aes_set_key_common`; `crt_flags` is `tfm->crt_flags` and `ctx` the
schedule `aes_ctx(raw_ctx)` points at. -/
def aes_set_key_common (E : key_env) (crt_flags : Nat) (ctx : crypto_aes_ctx)
    (in_key : List Nat) (key_len : Nat) : setkey_result :=
  if key_len ≠ AES_KEYSIZE_128 ∧ key_len ≠ AES_KEYSIZE_192 ∧ key_len ≠ AES_KEYSIZE_256 then
    { ret := -EINVAL, crt_flags := crt_flags ||| CRYPTO_TFM_RES_BAD_KEY_LEN, ctx := ctx,
      trace := [.set_flags CRYPTO_TFM_RES_BAD_KEY_LEN] }
  else if ¬ E.irq_fpu_usable then
    let r := E.crypto_aes_expand_key ctx in_key key_len
    { ret := r.1, crt_flags := crt_flags, ctx := r.2,
      trace := [.crypto_aes_expand_key key_len] }
  else
    let r := E.aesni_set_key ctx in_key key_len
    { ret := r.1, crt_flags := crt_flags, ctx := r.2,
      trace := [.kernel_fpu_begin, .aesni_set_key key_len, .kernel_fpu_end] }

/-- The key-expansion routine `aes_set_key_common` selects in the environment `E`. -/
def key_expansion_provider (E : key_env) :
    crypto_aes_ctx → List Nat → Nat → Int × crypto_aes_ctx :=
  if ¬ E.irq_fpu_usable then E.crypto_aes_expand_key else E.aesni_set_key

/-- The function `rfc4106_set_hash_subkey`: return code, the hash-subkey buffer
afterwards, and the trace.  The cipher allocated here is keyed with the `key_len`
bytes at `key`. -/
def rfc4106_set_hash_subkey (E : key_env) (hash_subkey : List Nat) (key : List Nat)
    (key_len : Nat) : Int × List Nat × List Event :=
  let tfm := E.crypto_alloc_cipher
  if IS_ERR tfm then
    (tfm, hash_subkey, [.crypto_alloc_cipher])
  else
    let ret := E.crypto_cipher_setkey key key_len
    if ret ≠ 0 then
      (ret, hash_subkey,
        [.crypto_alloc_cipher, .crypto_cipher_setkey key_len, .crypto_free_cipher])
    else
      let hs0 := memset_at hash_subkey 0 0 RFC4106_HASH_SUBKEY_SIZE
      let hs1 := memcpy_at hs0 0 (E.crypto_cipher_encrypt_one (key.take key_len) hs0)
        AES_BLOCK_SIZE
      (ret, hs1,
        [.crypto_alloc_cipher, .crypto_cipher_setkey key_len, .crypto_cipher_encrypt_one,
          .crypto_free_cipher])

/-- What `common_rfc4106_set_key` leaves behind: return code, the transform (flags
and RFC4106 context) and the trace. -/
structure rfc4106_setkey_result where
  ret : Int
  tfm : crypto_aead aesni_rfc4106_gcm_ctx
  trace : List Event
deriving DecidableEq

/-- The function `common_rfc4106_set_key`. -/
def common_rfc4106_set_key (E : key_env) (aead : crypto_aead aesni_rfc4106_gcm_ctx)
    (key : List Nat) (key_len : Nat) : rfc4106_setkey_result :=
  let ctx := aead.ctx
  if key_len < 4 then
    { ret := -EINVAL,
      tfm := { aead with crt_flags := aead.crt_flags ||| CRYPTO_TFM_RES_BAD_KEY_LEN },
      trace := [.set_flags CRYPTO_TFM_RES_BAD_KEY_LEN] }
  else
    let key_len := key_len - 4
    let nonce := memcpy_at ctx.nonce 0 (key.drop key_len) 4
    let r := aes_set_key_common E aead.crt_flags ctx.aes_key_expanded key key_len
    if r.ret ≠ 0 then
      { ret := r.ret,
        tfm := { aead with crt_flags := r.crt_flags,
                           ctx := { ctx with nonce := nonce, aes_key_expanded := r.ctx } },
        trace := r.trace }
    else
      let h := rfc4106_set_hash_subkey E ctx.hash_subkey key key_len
      { ret := h.1,
        tfm := { aead with crt_flags := r.crt_flags,
                           ctx := { hash_subkey := h.2.1, aes_key_expanded := r.ctx,
                                    nonce := nonce } },
        trace := r.trace ++ h.2.2 }

/-- The array sizes of `struct aesni_rfc4106_gcm_ctx`: 16 bytes of hash subkey and
4 bytes of salt. -/
def rfc4106_ctx_sized (c : aesni_rfc4106_gcm_ctx) : Prop :=
  c.hash_subkey.length = 16 ∧ c.nonce.length = 4

instance (c : aesni_rfc4106_gcm_ctx) : Decidable (rfc4106_ctx_sized c) := by
  unfold rfc4106_ctx_sized; infer_instance

/-- The contract of a key-expansion routine, as assumed for the assembler and the
generic C routine: status and schedule written depend on the `key_len` key bytes
only, not on the bytes behind them or on the previous schedule. -/
def expands_key_only (f : crypto_aes_ctx → List Nat → Nat → Int × crypto_aes_ctx) : Prop :=
  ∀ c c' key key_len, f c key key_len = f c' (key.take key_len) key_len

/-! ## Tag sizes -/

/-- The function `__ccm_setauthsize` (its transform argument is unused). -/
def __ccm_setauthsize (authsize : Nat) : Int :=
  if authsize &&& 1 ≠ 0 ∨ authsize < 4 then -EINVAL else 0

/-- The function `ccm_setauthsize`; `fallback_setauthsize` is
`crypto_aead_setauthsize(ctx->fallback, ·)`.  The result is the return code and the
trace of calls to the fallback transform. -/
def ccm_setauthsize (fallback_setauthsize : Nat → Int) (authsize : Nat) : Int × List Event :=
  let err := __ccm_setauthsize authsize
  if err ≠ 0 then
    (err, [])
  else
    (fallback_setauthsize authsize, [.crypto_aead_setauthsize authsize])

/-- The function `common_rfc4106_set_authsize` (its transform argument is unused). -/
def common_rfc4106_set_authsize (authsize : Nat) : Int :=
  match authsize with
  | 8 => 0
  | 12 => 0
  | 16 => 0
  | _ => -EINVAL

/-! ## CCM: the first MAC block -/

/-- The function `set_msg_len`.  The pointer `block` is the position `off` of the
buffer `buf`; the result is the return code and the buffer afterwards. -/
def set_msg_len (buf : List Nat) (off : Nat) (msglen : Nat) (csize : Nat) : Int × List Nat :=
  let buf1 := memset_at buf off 0 csize
  let block := off + csize
  let store := fun (csize : Nat) =>
    ((0 : Int),
      memcpy_at buf1 (block - csize) ((u32_bytes (cpu_to_be32 msglen)).drop (4 - csize)) csize)
  if csize ≥ 4 then
    store 4
  else if msglen > 1 <<< (8 * csize) then
    (-EOVERFLOW, buf1)
  else
    store csize

/-- What `ccm_init_mac` leaves behind: return code, the request IV and the MAC
block. -/
structure init_mac_result where
  ret : Int
  iv : List Nat
  maciv : List Nat
deriving DecidableEq

/-- The length-field size `L` that `ccm_init_mac` reads: `u32 l = req->iv[0] + 1`. -/
def ccm_L (req : aead_request) : Nat := u32 (req.iv.getD 0 0 + 1)

/-- The function `ccm_init_mac`; `authsize` is `crypto_aead_authsize(aead)`. -/
def ccm_init_mac (authsize : Nat) (req : aead_request) (maciv : List Nat) (msglen : Nat) :
    init_mac_result :=
  let l := ccm_L req
  if l < 2 ∨ l > 8 then
    { ret := -EINVAL, iv := req.iv, maciv := maciv }
  else if l < 4 ∧ msglen >>> (8 * l) ≠ 0 then
    { ret := -EOVERFLOW, iv := req.iv, maciv := maciv }
  else
    let m1 := memcpy_at maciv (AES_BLOCK_SIZE - 8) (u32_bytes 0) 4
    let m2 := memcpy_at m1 (AES_BLOCK_SIZE - 4) (u32_bytes (cpu_to_be32 msglen)) 4
    let m3 := memcpy_at m2 0 req.iv (AES_BLOCK_SIZE - l)
    let m4 := m3.set 0 ((m3.getD 0 0 ||| u32 (sub_u32 authsize 2 <<< 2)) % 256)
    let m5 := if req.assoclen ≠ 0 then m4.set 0 ((m4.getD 0 0 ||| 0x40) % 256) else m4
    let iv1 := memset_at req.iv (AES_BLOCK_SIZE - l) 0 l
    let r := set_msg_len m5 (AES_BLOCK_SIZE - l) msglen l
    { ret := r.1, iv := iv1, maciv := r.2 }

/-! ## CCM: CBC-MAC over scattered data -/

/-- The kernel's `crypto_xor(dst, src, size)`: the first `size` bytes of `dst` are
xor-ed with those of `src`. -/
def crypto_xor (dst src : List Nat) (size : Nat) : List Nat :=
  dst.mapIdx (fun i b => if i < size then b ^^^ src.getD i 0 else b)

/-- What the CCM code uses from outside.  `aesni_enc ctx b` is the block the
assembler routine stores for the input buffer `b`; `aesni_ctr_enc ctx inp len iv`
gives the `len` bytes stored through `out` and the counter block afterwards;
`walk total` is the answer of the block-cipher walker when `total` bytes remain to be
walked: the status it returns and the size `walk.nbytes` of the chunk it maps. -/
structure ccm_env where
  aesni_enc : crypto_aes_ctx → List Nat → List Nat
  aesni_ctr_enc : crypto_aes_ctx → List Nat → Nat → List Nat → List Nat × List Nat
  walk : Nat → Int × Nat

/-- The running state of the MAC computation: the MAC block, the carry buffer
`idata`, the number `ilen` of carried bytes, and the trace of cipher calls. -/
structure mac_state where
  mac : List Nat
  idata : List Nat
  ilen : Nat
  trace : List Event
deriving DecidableEq

/-- The loop `while (datalen >= bs)` of `compute_mac`, on the MAC block, the data
pointer and `datalen`; it gives back these three and the trace.  The first argument
bounds the number of iterations; `datalen` itself is always enough. -/
def compute_mac_loop (E : ccm_env) (ctx : crypto_aes_ctx) :
    Nat → List Nat → List Nat → Nat → List Nat × List Nat × Nat × List Event
  | 0, odata, data, datalen => (odata, data, datalen, [])
  | fuel + 1, odata, data, datalen =>
    if datalen ≥ AES_BLOCK_SIZE then
      let odata1 := crypto_xor odata data AES_BLOCK_SIZE
      let odata2 := memcpy_at odata1 0 (E.aesni_enc ctx odata1) AES_BLOCK_SIZE
      let r := compute_mac_loop E ctx fuel odata2 (data.drop AES_BLOCK_SIZE)
        (datalen - AES_BLOCK_SIZE)
      (r.1, r.2.1, r.2.2.1, Event.aesni_enc :: r.2.2.2)
    else
      (odata, data, datalen, [])

/-- The function `compute_mac`; the returned `ilen` is its return value.  `ilen` is
at most 16 on entry, so `getlen = bs - ilen` does not wrap. -/
def compute_mac (E : ccm_env) (ctx : crypto_aes_ctx) (mac data : List Nat) (n : Nat)
    (ilen : Nat) (idata : List Nat) : mac_state :=
  let bs := AES_BLOCK_SIZE
  let getlen := bs - ilen
  -- first time in here, block may be partially filled
  let s1 : mac_state × List Nat × Nat :=
    if n ≥ getlen then
      let idata1 := memcpy_at idata ilen data getlen
      let odata1 := crypto_xor mac idata1 bs
      let odata2 := memcpy_at odata1 0 (E.aesni_enc ctx odata1) bs
      ({ mac := odata2, idata := idata1, ilen := 0, trace := [.aesni_enc] },
        data.drop getlen, n - getlen)
    else
      ({ mac := mac, idata := idata, ilen := ilen, trace := [] }, data, n)
  -- now encrypt rest of data
  let r := compute_mac_loop E ctx s1.2.2 s1.1.mac s1.2.1 s1.2.2
  -- leftover data that was not enough to fill a block
  if r.2.2.1 ≠ 0 then
    { mac := r.1, idata := memcpy_at s1.1.idata s1.1.ilen r.2.1 r.2.2.1,
      ilen := s1.1.ilen + r.2.2.1, trace := s1.1.trace ++ r.2.2.2 }
  else
    { mac := r.1, idata := s1.1.idata, ilen := s1.1.ilen, trace := s1.1.trace ++ r.2.2.2 }

/-- Modelled from the spec: the scatter walk of `crypto/scatterwalk.h`, which is not
among the sources.  The `len` bytes of `sg` from position `start` are presented as a
sequence of non-empty fragments, one run per scatter-list entry ("the largest run
of bytes available in the current fragment"). -/
def sg_frags : List scatterlist → Nat → Nat → List (List Nat)
  | [], _, _ => []
  | e :: es, start, len =>
    if len = 0 then []
    else if e.length ≤ start then sg_frags es (start - e.length) len
    else
      ((e.data.take e.length).drop start).take (min len (e.length - start))
        :: sg_frags es 0 (len - min len (e.length - start))

/-- The loop `while (len)` of `get_data_to_compute`: every fragment the scatter walk
maps is fed to `compute_mac` with its length, and the traces are chained. -/
def get_data_to_compute_walk (E : ccm_env) (ctx : crypto_aes_ctx) (s : mac_state)
    (frags : List (List Nat)) : mac_state :=
  frags.foldl
    (fun (s : mac_state) (data_src : List Nat) =>
      let r := compute_mac E ctx s.mac data_src data_src.length s.ilen s.idata
      { r with trace := s.trace ++ r.trace })
    s

/-- The function `get_data_to_compute`.  The scatter walk over `len` bytes of `sg` is
given by the fragments `frags` it maps, one per iteration of `while (len)`; a
non-empty carry is then zero-padded and absorbed.  The returned `ilen` is the return
value. -/
def get_data_to_compute (E : ccm_env) (ctx : crypto_aes_ctx) (mac idata : List Nat)
    (frags : List (List Nat)) (ilen : Nat) : mac_state :=
  let s := get_data_to_compute_walk E ctx
    { mac := mac, idata := idata, ilen := ilen, trace := [] } frags
  if s.ilen ≠ 0 then
    let padlen := AES_BLOCK_SIZE - s.ilen
    let idata1 := memset_at s.idata s.ilen 0 padlen
    let odata1 := crypto_xor s.mac idata1 AES_BLOCK_SIZE
    let odata2 := memcpy_at odata1 0 (E.aesni_enc ctx odata1) AES_BLOCK_SIZE
    { mac := odata2, idata := idata1, ilen := 0, trace := s.trace ++ [.aesni_enc] }
  else
    s

/-- The two bytes of a 16-bit word stored big-endian (`cpu_to_be16` followed by the
store). -/
def be16_bytes (v : Nat) : List Nat := [v / 2 ^ 8 % 256, v % 256]

/-- The function `ccm_calculate_auth_mac`: the MAC block afterwards and the trace of
cipher calls.  `src` and `src_start` give the scatter list and the position in it
that the C argument `src` points at; the local `idata` starts out as zeroes. -/
def ccm_calculate_auth_mac (E : ccm_env) (req : aead_request) (ctx : crypto_aes_ctx)
    (mac : List Nat) (src : List scatterlist) (src_start : Nat) (cryptlen : Nat) :
    List Nat × List Event :=
  let idata0 := List.replicate AES_BLOCK_SIZE 0
  let len := u32 req.assoclen
  let mac1 := memcpy_at mac 0 (E.aesni_enc ctx mac) AES_BLOCK_SIZE
  let s1 : mac_state :=
    if len ≠ 0 then
      -- prepend the AAD with a length tag
      let tagged : List Nat × Nat :=
        if len < 0xff00 then
          (memcpy_at idata0 0 (be16_bytes len) 2, 2)
        else
          (memcpy_at (memcpy_at idata0 0 (be16_bytes 0xfffe) 2) 2
            (u32_bytes (cpu_to_be32 len)) 4, 6)
      get_data_to_compute E ctx mac1 tagged.1 (sg_frags req.src 0 req.assoclen) tagged.2
    else
      { mac := mac1, idata := idata0, ilen := 0, trace := [] }
  -- compute plaintext into mac
  if cryptlen ≠ 0 then
    let s2 := get_data_to_compute E ctx s1.mac s1.idata (sg_frags src src_start cryptlen)
      s1.ilen
    (s2.mac, Event.aesni_enc :: s1.trace ++ s2.trace)
  else
    (s1.mac, Event.aesni_enc :: s1.trace)

/-! ## CCM: the CTR pass and the request functions -/

/-- The mask `AES_BLOCK_MASK`, `~(AES_BLOCK_SIZE - 1)` as an `unsigned int`. -/
def AES_BLOCK_MASK : Nat := 2 ^ 32 - AES_BLOCK_SIZE

/-- Adds one to a little-endian byte string, dropping the final carry. -/
def inc_le : List Nat → List Nat
  | [] => []
  | b :: bs => if (b + 1) % 256 = 0 then 0 :: inc_le bs else (b + 1) % 256 :: bs

/-- Modelled from the spec: `crypto_inc(a, size)` of `crypto/algapi.c`, which is not
among the sources: the first `size` bytes of `a`, read as a big-endian counter, are
"incremented per processed block". -/
def crypto_inc (a : List Nat) (size : Nat) : List Nat :=
  (inc_le (a.take size).reverse).reverse ++ a.drop size

/-- The walk of `struct blkcipher_walk` as the glue code sees it: the status of the
last walker call, the chunk size `walk.nbytes`, the bytes left to walk, the position
of the chunk in the walked streams, the counter block `walk.iv`, the destination
stream, and the trace. -/
structure walk_state where
  err : Int
  nbytes : Nat
  total : Nat
  pos : Nat
  iv : List Nat
  out : List Nat
  trace : List Event
deriving DecidableEq

/-- Modelled from the spec: `blkcipher_walk_done(desc, walk, residue)` of
`crypto/blkcipher.c`, which is not among the sources ("`advance(consumed_len)`:
commits progress"): the chunk minus `residue` bytes is committed and the walker
answers with a status and the next chunk. -/
def blkcipher_walk_done (E : ccm_env) (w : walk_state) (residue : Nat) : walk_state :=
  let total := w.total - (w.nbytes - residue)
  { w with err := (E.walk total).1, nbytes := (E.walk total).2, total := total,
           pos := w.pos + (w.nbytes - residue),
           trace := w.trace ++ [.blkcipher_walk_done residue] }

/-- Modelled from the spec: `blkcipher_aead_walk_virt_block` after
`blkcipher_walk_init(&walk, dst, src, total)`, of `crypto/blkcipher.c`
("`begin(src_regions, dst_regions, total_len, block_align)`: establishes
cursors"): the walker answers with a status and the first chunk. -/
def blkcipher_walk_start (E : ccm_env) (total : Nat) (iv out : List Nat) : walk_state :=
  { err := (E.walk total).1, nbytes := (E.walk total).2, total := total, pos := 0,
    iv := iv, out := out, trace := [] }

/-- The function `ctr_crypt_final`; `inp` is the source stream of the walk. -/
def ctr_crypt_final (E : ccm_env) (ctx : crypto_aes_ctx) (inp : List Nat) (w : walk_state) :
    walk_state :=
  let ctrblk := w.iv
  let src := inp.drop w.pos
  let nbytes := w.nbytes
  let keystream := memcpy_at (List.replicate AES_BLOCK_SIZE 0) 0 (E.aesni_enc ctx ctrblk)
    AES_BLOCK_SIZE
  let keystream1 := crypto_xor keystream src nbytes
  { w with out := memcpy_at w.out w.pos keystream1 nbytes,
           iv := crypto_inc ctrblk AES_BLOCK_SIZE,
           trace := w.trace ++ [.aesni_enc] }

/-- The loop `while ((len = walk.nbytes) >= AES_BLOCK_SIZE)` of `__ccm_encrypt` and
`__ccm_decrypt`; `inp` is the source stream of the walk.  The first argument bounds
the number of iterations. -/
def ccm_ctr_loop (E : ccm_env) (ctx : crypto_aes_ctx) (inp : List Nat) :
    Nat → walk_state → walk_state
  | 0, w => w
  | fuel + 1, w =>
    if w.nbytes ≥ AES_BLOCK_SIZE then
      let len := w.nbytes
      let r := E.aesni_ctr_enc ctx (inp.drop w.pos) (len &&& AES_BLOCK_MASK) w.iv
      let w1 := { w with iv := r.2,
                         out := memcpy_at w.out w.pos r.1 (len &&& AES_BLOCK_MASK),
                         trace := w.trace ++ [.aesni_ctr_enc (len &&& AES_BLOCK_MASK)] }
      ccm_ctr_loop E ctx inp fuel (blkcipher_walk_done E w1 (len &&& (AES_BLOCK_SIZE - 1)))
    else
      w

/-- The CTR pass shared by `__ccm_encrypt` and `__ccm_decrypt`: the loop over whole
blocks, then `ctr_crypt_final` and a last `blkcipher_walk_done` when a partial chunk
is left. -/
def ccm_ctr_pass (E : ccm_env) (ctx : crypto_aes_ctx) (inp : List Nat) (w0 : walk_state) :
    walk_state :=
  let w1 := ccm_ctr_loop E ctx inp w0.total w0
  if w1.nbytes ≠ 0 then
    blkcipher_walk_done E (ctr_crypt_final E ctx inp w1) 0
  else
    w1

/-- What a CCM request function leaves behind: return code, trace of cipher and
walker calls, the request IV, and the destination scatter list. -/
structure ccm_result where
  ret : Int
  trace : List Event
  iv : List Nat
  dst : List scatterlist
deriving DecidableEq

/-- The function `__ccm_encrypt`.  The local `mac` starts out as zeroes; the walked
source stream is `mac` followed by the payload of `req->src` behind the associated
data, the destination stream is `mac` followed by the payload area of `pdst`. -/
def __ccm_encrypt (E : ccm_env) (aead : crypto_aead crypto_aes_ctx) (req : aead_request) :
    ccm_result :=
  let ctx := aead.ctx
  let len := u32 req.cryptlen
  let i := ccm_init_mac aead.authsize req (List.replicate AES_BLOCK_SIZE 0) len
  if i.ret ≠ 0 then
    { ret := i.ret, trace := [], iv := i.iv, dst := req.dst }
  else
    let pdst := if req.src_is_dst then req.src else req.dst
    let m := ccm_calculate_auth_mac E req ctx i.maciv req.src req.assoclen len
    let len1 := u32 (len + AES_BLOCK_SIZE)
    let inp := m.1 ++ sg_copy_from req.src req.assoclen len
    let w0 := blkcipher_walk_start E len1 i.iv (m.1 ++ sg_copy_from pdst req.assoclen len)
    let w := ccm_ctr_pass E ctx inp w0
    let dst1 := sg_copy_to pdst req.assoclen (w.out.drop AES_BLOCK_SIZE) len
    if w.err ≠ 0 then
      { ret := w.err, trace := m.2 ++ w.trace, iv := w.iv, dst := dst1 }
    else
      -- copy authtag to end of dst
      { ret := 0, trace := m.2 ++ w.trace, iv := w.iv,
        dst := sg_copy_to dst1 (req.assoclen + len) (w.out.take AES_BLOCK_SIZE)
          aead.authsize }

/-- The function `__ccm_decrypt`.  The locals `authtag` and `mac` start out as
zeroes; the walked source stream is `authtag` followed by the ciphertext of
`req->src`, and the MAC is computed over the destination after the CTR pass. -/
def __ccm_decrypt (E : ccm_env) (aead : crypto_aead crypto_aes_ctx) (req : aead_request) :
    ccm_result :=
  let ctx := aead.ctx
  let authsize := u32 aead.authsize
  if u32 req.cryptlen < authsize then
    { ret := -EINVAL, trace := [], iv := req.iv, dst := req.dst }
  else
    let len := sub_u32 req.cryptlen authsize
    let i := ccm_init_mac aead.authsize req (List.replicate AES_BLOCK_SIZE 0) len
    if i.ret ≠ 0 then
      { ret := i.ret, trace := [], iv := i.iv, dst := req.dst }
    else
      let pdst := if req.src_is_dst then req.src else req.dst
      let authtag := memcpy_at (List.replicate AES_BLOCK_SIZE 0) 0
        (sg_copy_from req.src (req.assoclen + len) authsize) authsize
      let len1 := u32 (len + AES_BLOCK_SIZE)
      let inp := authtag ++ sg_copy_from req.src req.assoclen len
      let w0 := blkcipher_walk_start E len1 i.iv
        (authtag ++ sg_copy_from pdst req.assoclen len)
      let w := ccm_ctr_pass E ctx inp w0
      let dst1 := sg_copy_to pdst req.assoclen (w.out.drop AES_BLOCK_SIZE) len
      let req1 := { req with src := if req.src_is_dst then dst1 else req.src }
      let m := ccm_calculate_auth_mac E req1 ctx i.maciv dst1 req.assoclen len
      if w.err ≠ 0 then
        { ret := w.err, trace := w.trace ++ m.2, iv := w.iv, dst := dst1 }
      else if crypto_memneq m.1 (w.out.take AES_BLOCK_SIZE) authsize then
        -- compare calculated auth tag with the stored one
        { ret := -EBADMSG, trace := w.trace ++ m.2, iv := w.iv, dst := dst1 }
      else
        { ret := 0, trace := w.trace ++ m.2, iv := w.iv, dst := dst1 }

/-! ## Reference definitions for the CCM claims -/

/-- Modelled from the spec: the `L`-byte big-endian encoding of a length (RFC 3610,
"msglen as an L-byte big-endian integer"). -/
def be_encode (L x : Nat) : List Nat :=
  (List.range L).map (fun i => x / 2 ^ (8 * (L - 1 - i)) % 256)

/-- Modelled from the spec: the bytewise exclusive or of two byte strings. -/
def xor_bytes (a b : List Nat) : List Nat := List.zipWith (fun x y => x ^^^ y) a b

/-- Modelled from the spec: CBC-MAC chaining ("CBC-MAC over a framed message").
`k` blocks of 16 bytes are taken from `msg`; each is xor-ed into the running value,
which is then encrypted with the block function `enc`. -/
def cbc_mac_absorb (enc : List Nat → List Nat) : Nat → List Nat → List Nat → List Nat
  | 0, mac, _ => mac
  | k + 1, mac, msg => cbc_mac_absorb enc k (enc (xor_bytes mac (msg.take 16))) (msg.drop 16)

/-- Modelled from the spec: the CBC-MAC of a message of whole blocks, with the zero
block as initial value. -/
def cbc_mac (enc : List Nat → List Nat) (msg : List Nat) : List Nat :=
  cbc_mac_absorb enc (msg.length / 16) (List.replicate 16 0) msg

/-- Modelled from the spec: padding "to block boundaries", by the fewest zero bytes
that reach a multiple of 16. -/
def pad16 (d : List Nat) : List Nat :=
  d ++ List.replicate ((16 - d.length % 16) % 16) 0

/-- Modelled from the spec: the length prefix of the associated data in the CCM
framing: two big-endian bytes below `0xff00`, else `ff fe` and four big-endian
bytes. -/
def ccm_aad_len_field (a : List Nat) : List Nat :=
  if a.length < 0xff00 then be_encode 2 a.length else [0xff, 0xfe] ++ be_encode 4 a.length

/-- Modelled from the spec: the framed message of CCM: the block B0, then the
length-prefixed associated data (absent when there is none), then the payload, the
last two each padded to a block boundary. -/
def ccm_framed (b0 a m : List Nat) : List Nat :=
  b0 ++ (if a.length = 0 then [] else pad16 (ccm_aad_len_field a ++ a)) ++ pad16 m

/-- The contract of the block function `aesni_enc`: it stores one 16-byte block. -/
def stores_block (E : ccm_env) : Prop :=
  ∀ ctx b, (E.aesni_enc ctx b).length = 16

/-- The carry of a MAC state: the first `ilen` bytes of the carry buffer. -/
def mac_state.carry (s : mac_state) : List Nat := s.idata.take s.ilen

/-- The sizes of a MAC state in the C code: a 16-byte MAC block, a 16-byte carry
buffer, and fewer than 16 carried bytes. -/
def mac_state.sized (s : mac_state) : Prop :=
  s.mac.length = 16 ∧ s.idata.length = 16 ∧ s.ilen < 16

instance (s : mac_state) : Decidable s.sized := by
  unfold mac_state.sized; infer_instance

/-- A scatter list whose entries hold at least as many bytes as their length says. -/
def sg_sized (sg : List scatterlist) : Prop :=
  ∀ e ∈ sg, e.length ≤ e.data.length

instance (sg : List scatterlist) : Decidable (sg_sized sg) := by
  unfold sg_sized; infer_instance

/-! ## Reference definitions for counter mode -/

/-- Modelled from the spec: the counter block after `k` increments ("a 16-byte
counter block is incremented per processed block"). -/
def ctr_iv : Nat → List Nat → List Nat
  | 0, iv => iv
  | k + 1, iv => ctr_iv k (crypto_inc iv 16)

/-- Modelled from the spec: `k` blocks of key stream, the images under the block
function `enc` of the successive counter blocks. -/
def ctr_keystream (enc : List Nat → List Nat) : Nat → List Nat → List Nat
  | 0, _ => []
  | k + 1, iv => enc iv ++ ctr_keystream enc k (crypto_inc iv 16)

/-- Modelled from the spec: what a bulk counter-mode routine does on `k` blocks of
input: each 16-byte block is xor-ed with the image of the current counter block,
which is then incremented; the result is the output and the counter block
afterwards. -/
def ctr_blocks (enc : List Nat → List Nat) : Nat → List Nat → List Nat → List Nat × List Nat
  | 0, _, iv => ([], iv)
  | k + 1, inp, iv =>
    (xor_bytes (inp.take 16) (enc iv) ++ (ctr_blocks enc k (inp.drop 16) (crypto_inc iv 16)).1,
      (ctr_blocks enc k (inp.drop 16) (crypto_inc iv 16)).2)

/-- The contract of the bulk routine `aesni_ctr_enc`, stated with the block function
`aesni_enc` of the same environment. -/
def ctr_contract (E : ccm_env) : Prop :=
  ∀ ctx inp len iv,
    E.aesni_ctr_enc ctx inp len iv = ctr_blocks (E.aesni_enc ctx) (len / 16) inp iv

/-- Modelled from the spec: the contract of the block-cipher walker for a walk with
block size 16: it does not fail, a chunk is never longer than what is left, it is
"the exact remainder" when fewer than 16 bytes are left and at least one block
otherwise. -/
def walker_ok (E : ccm_env) : Prop :=
  ∀ total, (E.walk total).1 = 0 ∧ (E.walk total).2 ≤ total ∧
    (total < 16 → (E.walk total).2 = total) ∧ (16 ≤ total → 16 ≤ (E.walk total).2)

/-- A walk state as the walker leaves it in a walk over `N` bytes: status and chunk
size are the walker's answer for what is left, position and rest add up to `N`, the
counter block has 16 bytes and the destination stream `N`. -/
def walk_state.answered (E : ccm_env) (N : Nat) (w : walk_state) : Prop :=
  w.err = (E.walk w.total).1 ∧ w.nbytes = (E.walk w.total).2 ∧ w.pos + w.total = N ∧
    w.iv.length = 16 ∧ w.out.length = N

/-- Modelled from the spec: the counter-mode transform of a byte string ("payload is
transformed with CTR mode"): the xor with the key stream that starts at the counter
block `iv`. -/
def ctr_crypt_ref (enc : List Nat → List Nat) (iv data : List Nat) : List Nat :=
  xor_bytes data (ctr_keystream enc (data.length / 16 + 1) iv)

/-- The contracts of the external routines the CCM code calls: the block function
stores a block, the bulk routine is counter mode over it, the walker is well
behaved. -/
def ccm_env_ok (E : ccm_env) : Prop :=
  stores_block E ∧ ctr_contract E ∧ walker_ok E

/-- The buffers of a CCM request: entries as long as they say, `inlen` payload bytes
behind the associated data in the source, and room for `outlen` bytes behind the
associated data in the destination (the source itself when the request is in
place). -/
def ccm_buffers_ok (req : aead_request) (inlen outlen : Nat) : Prop :=
  sg_sized req.src ∧ sg_sized req.dst ∧
  req.assoclen + inlen ≤ (sg_bytes req.src).length ∧
  req.assoclen + outlen ≤ (sg_bytes (if req.src_is_dst then req.src else req.dst)).length

instance (req : aead_request) (inlen outlen : Nat) :
    Decidable (ccm_buffers_ok req inlen outlen) := by
  unfold ccm_buffers_ok; infer_instance

/-- The buffer `assoc` of `helper_rfc4106_decrypt` at the backend call: the mapped
first source entry on the single-entry path, the filled staging buffer otherwise. -/
def rfc4106_dec_assoc (req : aead_request) : List Nat :=
  if one_entry_in_sg_dec req then
    (sg_first req.src).data
  else
    memcpy_at (List.replicate (u32 (req.cryptlen + req.assoclen)) 0) 0
      (sg_copy_from req.src 0 (u32 (req.assoclen + req.cryptlen)))
      (u32 (req.assoclen + req.cryptlen))

/-- The backend call of `helper_rfc4106_decrypt`: what `aesni_gcm_dec_tfm` stores
through `out` and through `authTag` for the arguments the function passes. -/
def rfc4106_dec_call (E : gcm_env) (tfm : crypto_aead aesni_rfc4106_gcm_ctx)
    (req : aead_request) : List Nat × List Nat :=
  E.aesni_gcm_dec_tfm tfm.ctx.aes_key_expanded ((rfc4106_dec_assoc req).drop req.assoclen)
    (sub_u64 req.cryptlen tfm.authsize) (rfc4106_build_iv tfm.ctx.nonce req.iv)
    tfm.ctx.hash_subkey (rfc4106_dec_assoc req) (sub_u32 req.assoclen 8) tfm.authsize

/-! ## GCM dispatchers and module initialisation -/

/-- The macro `AVX_GEN2_OPTSIZE`. -/
def AVX_GEN2_OPTSIZE : Nat := 640

/-- The macro `AVX_GEN4_OPTSIZE`. -/
def AVX_GEN4_OPTSIZE : Nat := 4096

/-- The arguments common to the GCM routines and their dispatchers: key schedule,
input buffer, payload length, pre-counter block, hash subkey, AAD buffer, AAD length
and tag length (`out` and `auth_tag` are outputs). -/
structure gcm_args where
  ctx : crypto_aes_ctx
  inp : List Nat
  len : Nat
  iv : List Nat
  hash_subkey : List Nat
  aad : List Nat
  aad_len : Nat
  auth_tag_len : Nat
deriving DecidableEq

/-- The assembler routines the GCM dispatchers call. -/
inductive gcm_routine where
  | aesni_gcm_enc
  | aesni_gcm_dec
  | aesni_gcm_precomp_avx_gen2
  | aesni_gcm_enc_avx_gen2
  | aesni_gcm_dec_avx_gen2
  | aesni_gcm_precomp_avx_gen4
  | aesni_gcm_enc_avx_gen4
  | aesni_gcm_dec_avx_gen4
deriving DecidableEq

/-- The generations of the GCM backends. -/
inductive gcm_tier where
  | baseline
  | gen2
  | gen4
deriving DecidableEq

/-- The generation of an encrypt or decrypt routine; `none` for the precomputation
routines, which are no backends. -/
def gcm_routine.tier : gcm_routine → Option gcm_tier
  | .aesni_gcm_enc => some .baseline
  | .aesni_gcm_dec => some .baseline
  | .aesni_gcm_enc_avx_gen2 => some .gen2
  | .aesni_gcm_dec_avx_gen2 => some .gen2
  | .aesni_gcm_enc_avx_gen4 => some .gen4
  | .aesni_gcm_dec_avx_gen4 => some .gen4
  | .aesni_gcm_precomp_avx_gen2 => none
  | .aesni_gcm_precomp_avx_gen4 => none

/-- The function `aesni_gcm_enc_avx`: the routines it calls, in order.  Every routine
gets the arguments of the dispatcher unchanged (the precomputation the context and
the hash subkey). -/
def aesni_gcm_enc_avx (a : gcm_args) : List gcm_routine :=
  if a.len < AVX_GEN2_OPTSIZE ∨ a.ctx.key_length ≠ AES_KEYSIZE_128 then
    [.aesni_gcm_enc]
  else
    [.aesni_gcm_precomp_avx_gen2, .aesni_gcm_enc_avx_gen2]

/-- The function `aesni_gcm_dec_avx`. -/
def aesni_gcm_dec_avx (a : gcm_args) : List gcm_routine :=
  if a.len < AVX_GEN2_OPTSIZE ∨ a.ctx.key_length ≠ AES_KEYSIZE_128 then
    [.aesni_gcm_dec]
  else
    [.aesni_gcm_precomp_avx_gen2, .aesni_gcm_dec_avx_gen2]

/-- The function `aesni_gcm_enc_avx2`. -/
def aesni_gcm_enc_avx2 (a : gcm_args) : List gcm_routine :=
  if a.len < AVX_GEN2_OPTSIZE ∨ a.ctx.key_length ≠ AES_KEYSIZE_128 then
    [.aesni_gcm_enc]
  else if a.len < AVX_GEN4_OPTSIZE then
    [.aesni_gcm_precomp_avx_gen2, .aesni_gcm_enc_avx_gen2]
  else
    [.aesni_gcm_precomp_avx_gen4, .aesni_gcm_enc_avx_gen4]

/-- The function `aesni_gcm_dec_avx2`. -/
def aesni_gcm_dec_avx2 (a : gcm_args) : List gcm_routine :=
  if a.len < AVX_GEN2_OPTSIZE ∨ a.ctx.key_length ≠ AES_KEYSIZE_128 then
    [.aesni_gcm_dec]
  else if a.len < AVX_GEN4_OPTSIZE then
    [.aesni_gcm_precomp_avx_gen2, .aesni_gcm_dec_avx_gen2]
  else
    [.aesni_gcm_precomp_avx_gen4, .aesni_gcm_dec_avx_gen4]

/-- The backends among the routines a dispatcher called, by generation. -/
def gcm_backends (calls : List gcm_routine) : List gcm_tier :=
  calls.filterMap gcm_routine.tier

/-- The functions `aesni_init` can store in `aesni_gcm_enc_tfm` and
`aesni_gcm_dec_tfm`. -/
inductive gcm_target where
  | aesni_gcm_enc
  | aesni_gcm_dec
  | aesni_gcm_enc_avx
  | aesni_gcm_dec_avx
  | aesni_gcm_enc_avx2
  | aesni_gcm_dec_avx2
deriving DecidableEq

/-- A call through one of the GCM function pointers: the routines that run. -/
def gcm_target.call : gcm_target → gcm_args → List gcm_routine
  | .aesni_gcm_enc, _ => [.aesni_gcm_enc]
  | .aesni_gcm_dec, _ => [.aesni_gcm_dec]
  | .aesni_gcm_enc_avx, a => AesniGlue.aesni_gcm_enc_avx a
  | .aesni_gcm_dec_avx, a => AesniGlue.aesni_gcm_dec_avx a
  | .aesni_gcm_enc_avx2, a => AesniGlue.aesni_gcm_enc_avx2 a
  | .aesni_gcm_dec_avx2, a => AesniGlue.aesni_gcm_dec_avx2 a

/-- The functions `aesni_init` can store in `aesni_ctr_enc_tfm`. -/
inductive ctr_target where
  | aesni_ctr_enc
  | aesni_ctr_enc_avx_tfm
deriving DecidableEq

/-- Modelled from the spec: `ENODEV` of `uapi/asm-generic/errno-base.h`, which is not
among the sources; the code of the spec's "no such device" result of module
initialisation. -/
def ENODEV : Int := 19

/-- What `aesni_init` sees: the configuration macros that select its code, the CPU
features it tests, and the status of the three calls it makes. -/
structure init_env where
  CONFIG_X86_64 : Bool
  CONFIG_AS_AVX : Bool
  CONFIG_AS_AVX2 : Bool
  x86_match_cpu : Bool
  boot_cpu_has_avx : Bool
  boot_cpu_has_avx2 : Bool
  crypto_fpu_init : Int
  crypto_register_algs : Int
  crypto_register_aeads : Int

/-- The assignments and calls of `aesni_init`, in order. -/
inductive init_event where
  | set_aesni_gcm_enc_tfm (f : gcm_target)
  | set_aesni_gcm_dec_tfm (f : gcm_target)
  | set_aesni_ctr_enc_tfm (f : ctr_target)
  | crypto_fpu_init
  | crypto_register_algs
  | crypto_register_aeads
  | crypto_unregister_algs
  | crypto_fpu_exit
deriving DecidableEq

/-- The three function pointers and the trace of `aesni_init`.  The pointers are
static variables and start out null (`none`). -/
structure init_state where
  aesni_gcm_enc_tfm : Option gcm_target
  aesni_gcm_dec_tfm : Option gcm_target
  aesni_ctr_enc_tfm : Option ctr_target
  trace : List init_event
deriving DecidableEq

/-- The part of `aesni_init` under `#ifdef CONFIG_X86_64`: the binding of the three
function pointers.  Code under `#ifdef CONFIG_AS_AVX2` or `#ifdef CONFIG_AS_AVX` is
there when the macro is defined. -/
def aesni_init_bind (env : init_env) (s : init_state) : init_state :=
  let s1 : init_state :=
    if env.CONFIG_AS_AVX2 ∧ env.boot_cpu_has_avx2 then
      { s with aesni_gcm_enc_tfm := some .aesni_gcm_enc_avx2,
               aesni_gcm_dec_tfm := some .aesni_gcm_dec_avx2,
               trace := s.trace ++ [.set_aesni_gcm_enc_tfm .aesni_gcm_enc_avx2,
                 .set_aesni_gcm_dec_tfm .aesni_gcm_dec_avx2] }
    else if env.CONFIG_AS_AVX ∧ env.boot_cpu_has_avx then
      { s with aesni_gcm_enc_tfm := some .aesni_gcm_enc_avx,
               aesni_gcm_dec_tfm := some .aesni_gcm_dec_avx,
               trace := s.trace ++ [.set_aesni_gcm_enc_tfm .aesni_gcm_enc_avx,
                 .set_aesni_gcm_dec_tfm .aesni_gcm_dec_avx] }
    else
      { s with aesni_gcm_enc_tfm := some .aesni_gcm_enc,
               aesni_gcm_dec_tfm := some .aesni_gcm_dec,
               trace := s.trace ++ [.set_aesni_gcm_enc_tfm .aesni_gcm_enc,
                 .set_aesni_gcm_dec_tfm .aesni_gcm_dec] }
  let s2 : init_state :=
    { s1 with aesni_ctr_enc_tfm := some .aesni_ctr_enc,
              trace := s1.trace ++ [.set_aesni_ctr_enc_tfm .aesni_ctr_enc] }
  if env.CONFIG_AS_AVX ∧ env.boot_cpu_has_avx then
    -- optimize performance of ctr mode encryption transform
    { s2 with aesni_ctr_enc_tfm := some .aesni_ctr_enc_avx_tfm,
              trace := s2.trace ++ [.set_aesni_ctr_enc_tfm .aesni_ctr_enc_avx_tfm] }
  else
    s2

/-- The function `aesni_init`: its return value and the state it leaves. -/
def aesni_init (env : init_env) : Int × init_state :=
  let s0 : init_state :=
    { aesni_gcm_enc_tfm := none, aesni_gcm_dec_tfm := none, aesni_ctr_enc_tfm := none,
      trace := [] }
  if ¬ env.x86_match_cpu then
    (-ENODEV, s0)
  else
    let s1 := if env.CONFIG_X86_64 then aesni_init_bind env s0 else s0
    let s2 := { s1 with trace := s1.trace ++ [init_event.crypto_fpu_init] }
    if env.crypto_fpu_init ≠ 0 then
      (env.crypto_fpu_init, s2)
    else
      let s3 := { s2 with trace := s2.trace ++ [init_event.crypto_register_algs] }
      if env.crypto_register_algs ≠ 0 then
        -- fpu_exit:
        (env.crypto_register_algs, { s3 with trace := s3.trace ++ [init_event.crypto_fpu_exit] })
      else
        let s4 := { s3 with trace := s3.trace ++ [init_event.crypto_register_aeads] }
        if env.crypto_register_aeads ≠ 0 then
          -- unregister_algs:
          (env.crypto_register_aeads,
            { s4 with trace := s4.trace ++ [init_event.crypto_unregister_algs, init_event.crypto_fpu_exit] })
        else
          (env.crypto_register_aeads, s4)
/-- The assignments to the three function pointers among the events of
`aesni_init`. -/
def init_event.is_binding : init_event → Bool
  | .set_aesni_gcm_enc_tfm _ => true
  | .set_aesni_gcm_dec_tfm _ => true
  | .set_aesni_ctr_enc_tfm _ => true
  | _ => false

/-- The registration calls among the events of `aesni_init`. -/
def init_event.is_registration : init_event → Bool
  | .crypto_register_algs => true
  | .crypto_register_aeads => true
  | _ => false

/-! ## Block-cipher modes over the walker -/

/-- What the block-cipher functions use from outside, on top of the CCM environment
(whose `aesni_enc` and `walk` they share): the bulk assembler routines, which give
the `len` bytes stored through `out` (and, for the chained modes, the IV afterwards),
the function pointer `aesni_ctr_enc_tfm` bound by `aesni_init`, the single-block
routines, and the answer of `irq_fpu_usable()`. -/
structure blk_env extends ccm_env where
  aesni_ecb_enc : crypto_aes_ctx → List Nat → Nat → List Nat
  aesni_ecb_dec : crypto_aes_ctx → List Nat → Nat → List Nat
  aesni_cbc_enc : crypto_aes_ctx → List Nat → Nat → List Nat → List Nat × List Nat
  aesni_cbc_dec : crypto_aes_ctx → List Nat → Nat → List Nat → List Nat × List Nat
  aesni_ctr_enc_tfm : crypto_aes_ctx → List Nat → Nat → List Nat → List Nat × List Nat
  aesni_dec : crypto_aes_ctx → List Nat → List Nat
  crypto_aes_encrypt_x86 : crypto_aes_ctx → List Nat → List Nat
  crypto_aes_decrypt_x86 : crypto_aes_ctx → List Nat → List Nat
  irq_fpu_usable : Bool

/-- The loop shared by the block-cipher functions,
`while ((nbytes = walk.nbytes) >= least) { prim(..., nbytes & AES_BLOCK_MASK, ...);
nbytes &= AES_BLOCK_SIZE - 1; err = blkcipher_walk_done(desc, &walk, nbytes); }`,
with `least = 1` for the test `(nbytes = walk.nbytes)` of ECB and CBC and
`least = AES_BLOCK_SIZE` for CTR.  `prim` is the bulk routine with its context, `ev`
its trace event, `inp` the source stream; the first numeric argument bounds the
number of iterations. -/
def blk_loop (E : ccm_env) (least : Nat)
    (prim : List Nat → Nat → List Nat → List Nat × List Nat) (ev : Nat → Event)
    (inp : List Nat) : Nat → walk_state → walk_state
  | 0, w => w
  | fuel + 1, w =>
    if w.nbytes ≥ least then
      let nbytes := w.nbytes
      let r := prim (inp.drop w.pos) (nbytes &&& AES_BLOCK_MASK) w.iv
      let w1 := { w with iv := r.2,
                         out := memcpy_at w.out w.pos r.1 (nbytes &&& AES_BLOCK_MASK),
                         trace := w.trace ++ [ev (nbytes &&& AES_BLOCK_MASK)] }
      blk_loop E least prim ev inp fuel
        (blkcipher_walk_done E w1 (nbytes &&& (AES_BLOCK_SIZE - 1)))
    else
      w

/-- What a block-cipher function leaves behind: the status it returns, the
destination stream, the IV in `desc->info`, and the trace. -/
structure blk_result where
  err : Int
  out : List Nat
  iv : List Nat
  trace : List Event
deriving DecidableEq

/-- The function `ecb_encrypt`; `inp` and `out` are the source and destination
streams, `iv` is `desc->info`.  The flag `CRYPTO_TFM_REQ_MAY_SLEEP` it clears in
`desc->flags` is read by the walker only. -/
def ecb_encrypt (E : blk_env) (ctx : crypto_aes_ctx) (inp out iv : List Nat) (nbytes : Nat) :
    blk_result :=
  let w0 := blkcipher_walk_start E.toccm_env (u32 nbytes) iv out
  let w := blk_loop E.toccm_env 1 (fun i len v => (E.aesni_ecb_enc ctx i len, v))
    .aesni_ecb_enc inp w0.total { w0 with trace := [.kernel_fpu_begin] }
  { err := w.err, out := w.out, iv := w.iv, trace := w.trace ++ [.kernel_fpu_end] }

/-- The function `ecb_decrypt`. -/
def ecb_decrypt (E : blk_env) (ctx : crypto_aes_ctx) (inp out iv : List Nat) (nbytes : Nat) :
    blk_result :=
  let w0 := blkcipher_walk_start E.toccm_env (u32 nbytes) iv out
  let w := blk_loop E.toccm_env 1 (fun i len v => (E.aesni_ecb_dec ctx i len, v))
    .aesni_ecb_dec inp w0.total { w0 with trace := [.kernel_fpu_begin] }
  { err := w.err, out := w.out, iv := w.iv, trace := w.trace ++ [.kernel_fpu_end] }

/-- The function `cbc_encrypt`. -/
def cbc_encrypt (E : blk_env) (ctx : crypto_aes_ctx) (inp out iv : List Nat) (nbytes : Nat) :
    blk_result :=
  let w0 := blkcipher_walk_start E.toccm_env (u32 nbytes) iv out
  let w := blk_loop E.toccm_env 1 (E.aesni_cbc_enc ctx) .aesni_cbc_enc inp w0.total
    { w0 with trace := [.kernel_fpu_begin] }
  { err := w.err, out := w.out, iv := w.iv, trace := w.trace ++ [.kernel_fpu_end] }

/-- The function `cbc_decrypt`. -/
def cbc_decrypt (E : blk_env) (ctx : crypto_aes_ctx) (inp out iv : List Nat) (nbytes : Nat) :
    blk_result :=
  let w0 := blkcipher_walk_start E.toccm_env (u32 nbytes) iv out
  let w := blk_loop E.toccm_env 1 (E.aesni_cbc_dec ctx) .aesni_cbc_dec inp w0.total
    { w0 with trace := [.kernel_fpu_begin] }
  { err := w.err, out := w.out, iv := w.iv, trace := w.trace ++ [.kernel_fpu_end] }

/-- The function `ctr_crypt`: the loop over whole blocks through the pointer
`aesni_ctr_enc_tfm`, then `ctr_crypt_final` and a last `blkcipher_walk_done` when a
partial chunk is left. -/
def ctr_crypt (E : blk_env) (ctx : crypto_aes_ctx) (inp out iv : List Nat) (nbytes : Nat) :
    blk_result :=
  let w0 := blkcipher_walk_start E.toccm_env (u32 nbytes) iv out
  let w1 := blk_loop E.toccm_env AES_BLOCK_SIZE (E.aesni_ctr_enc_tfm ctx) .aesni_ctr_enc_tfm
    inp w0.total { w0 with trace := [.kernel_fpu_begin] }
  let w :=
    if w1.nbytes ≠ 0 then
      blkcipher_walk_done E.toccm_env (ctr_crypt_final E.toccm_env ctx inp w1) 0
    else
      w1
  { err := w.err, out := w.out, iv := w.iv, trace := w.trace ++ [.kernel_fpu_end] }

/-- The function `aes_encrypt`: the block stored through `dst` and the trace. -/
def aes_encrypt (E : blk_env) (ctx : crypto_aes_ctx) (src : List Nat) :
    List Nat × List Event :=
  if ¬ E.irq_fpu_usable then
    (E.crypto_aes_encrypt_x86 ctx src, [.crypto_aes_encrypt_x86])
  else
    (E.aesni_enc ctx src, [.kernel_fpu_begin, .aesni_enc, .kernel_fpu_end])

/-- The function `aes_decrypt`. -/
def aes_decrypt (E : blk_env) (ctx : crypto_aes_ctx) (src : List Nat) :
    List Nat × List Event :=
  if ¬ E.irq_fpu_usable then
    (E.crypto_aes_decrypt_x86 ctx src, [.crypto_aes_decrypt_x86])
  else
    (E.aesni_dec ctx src, [.kernel_fpu_begin, .aesni_dec, .kernel_fpu_end])

/-- The chunks a loop of the block-cipher functions sees when it starts on a chunk of
`n` bytes with `total` bytes left: each chunk is committed up to a multiple of 16 and
the walker answers with the next one. -/
def blk_chunks (E : ccm_env) (least : Nat) : Nat → Nat → Nat → List Nat
  | 0, _, _ => []
  | fuel + 1, n, total =>
    if n ≥ least then
      n :: blk_chunks E least fuel (E.walk (total - (n - n % 16))).2 (total - (n - n % 16))
    else
      []

/-- The events of one chunk of `n` bytes: the bulk call on `n` rounded down to a
multiple of 16, and the walker call that reports `n mod 16` bytes as not
processed. -/
def chunk_events (ev : Nat → Event) (n : Nat) : List Event :=
  [ev (n - n % 16), .blkcipher_walk_done (n % 16)]

/-- A walker that never maps more bytes than are left to walk. -/
def walk_bounded (E : ccm_env) : Prop := ∀ total, (E.walk total).2 ≤ total

/-- The events of the single-block paths of the CCM and CTR functions: calls of
`aesni_enc` (by the MAC and by `ctr_crypt_final`) and the walker call that follows
`ctr_crypt_final`. -/
def single_block_events (l : List Event) : Prop :=
  ∀ e ∈ l, e = Event.aesni_enc ∨ e = Event.blkcipher_walk_done 0

/-- Modelled from the spec: the value of a byte string read "as a big-endian 128-bit
integer", most significant byte first. -/
def be_value (l : List Nat) : Nat := l.foldl (fun acc b => acc * 256 + b) 0

/-- The CCM environment whose bulk routine is the one the pointer `aesni_ctr_enc_tfm`
is bound to. -/
def blk_env.ctr_env (E : blk_env) : ccm_env :=
  { aesni_enc := E.aesni_enc, aesni_ctr_enc := E.aesni_ctr_enc_tfm, walk := E.walk }

/-- Two walks that agree on everything but the trace. -/
def walk_state.same (a b : walk_state) : Prop :=
  a.err = b.err ∧ a.nbytes = b.nbytes ∧ a.total = b.total ∧ a.pos = b.pos ∧ a.iv = b.iv ∧
    a.out = b.out

/-! ## The CCM request wrappers -/

/-- The private context `struct ccm_async_ctx`: the AES key schedule and the fallback
transform (a handle). -/
structure ccm_async_ctx where
  ctx : crypto_aes_ctx
  fallback : Nat
deriving DecidableEq

/-- The fields of `req->base` the CCM wrappers read: request flags, completion
callback and its data (handles). -/
structure crypto_async_request where
  flags : Nat
  complete : Nat
  data : Nat
deriving DecidableEq

/-- The request the CCM wrappers build in `aead_req_data` for the fallback
transform. -/
structure fallback_request where
  tfm : Nat
  assoclen : Nat
  cryptlen : Nat
  iv : List Nat
  src : List scatterlist
  dst : List scatterlist
  src_is_dst : Bool
  base : crypto_async_request
deriving DecidableEq

/-- The buffer `aead_req_data` after `memset(aead_req, 0, sizeof(aead_req_data))`. -/
def fallback_request.zero : fallback_request :=
  { tfm := 0, assoclen := 0, cryptlen := 0, iv := [], src := [], dst := [],
    src_is_dst := true, base := { flags := 0, complete := 0, data := 0 } }

/-- Modelled from the spec: `aead_request_set_tfm` of `crypto/aead.h`, which is not
among the sources; one of the setters by which "all request parameters" are "copied
across": it stores the transform. -/
def aead_request_set_tfm (r : fallback_request) (tfm : Nat) : fallback_request :=
  { r with tfm := tfm }

/-- Modelled from the spec: `aead_request_set_ad` of `crypto/aead.h`: it stores the
associated-data length. -/
def aead_request_set_ad (r : fallback_request) (assoclen : Nat) : fallback_request :=
  { r with assoclen := assoclen }

/-- Modelled from the spec: `aead_request_set_crypt` of `crypto/aead.h`: it stores
source, destination (and with the two pointers whether they are the same list),
payload length and IV. -/
def aead_request_set_crypt (r : fallback_request) (src dst : List scatterlist)
    (src_is_dst : Bool) (cryptlen : Nat) (iv : List Nat) : fallback_request :=
  { r with src := src, dst := dst, src_is_dst := src_is_dst, cryptlen := cryptlen, iv := iv }

/-- Modelled from the spec: `aead_request_set_callback` of `crypto/aead.h`: it stores
flags, completion callback and callback data. -/
def aead_request_set_callback (r : fallback_request) (flags complete data : Nat) :
    fallback_request :=
  { r with base := { flags := flags, complete := complete, data := data } }

/-- What the CCM wrappers use from outside, on top of the CCM environment: the answer
of `irq_fpu_usable()` and the fallback's `crypto_aead_encrypt` and
`crypto_aead_decrypt`, which give a status and the destination they leave. -/
structure ccm_async_env extends ccm_env where
  irq_fpu_usable : Bool
  crypto_aead_encrypt : fallback_request → Int × List scatterlist
  crypto_aead_decrypt : fallback_request → Int × List scatterlist

/-- What a CCM wrapper leaves behind: return code, trace, destination, and the
request it submitted to the fallback, if any. -/
structure ccm_async_result where
  ret : Int
  trace : List Event
  dst : List scatterlist
  submitted : Option fallback_request
deriving DecidableEq

/-- The transform as `__ccm_encrypt` and `__ccm_decrypt` see it: `aes_ctx` of the
private context is the key schedule at its start. -/
def ccm_async_aead (aead : crypto_aead ccm_async_ctx) : crypto_aead crypto_aes_ctx :=
  { crt_flags := aead.crt_flags, authsize := aead.authsize, ctx := aead.ctx.ctx }

/-- The request the wrappers build for the fallback from `req`. -/
def ccm_fallback_request (aead : crypto_aead ccm_async_ctx) (req : aead_request)
    (base : crypto_async_request) : fallback_request :=
  let r1 := aead_request_set_tfm fallback_request.zero aead.ctx.fallback
  let r2 := aead_request_set_ad r1 req.assoclen
  let r3 := aead_request_set_crypt r2 req.src req.dst req.src_is_dst req.cryptlen req.iv
  aead_request_set_callback r3 base.flags base.complete base.data

/-- The function `ccm_encrypt`; `base` is `req->base`. -/
def ccm_encrypt (E : ccm_async_env) (aead : crypto_aead ccm_async_ctx) (req : aead_request)
    (base : crypto_async_request) : ccm_async_result :=
  if ¬ E.irq_fpu_usable then
    let aead_req := ccm_fallback_request aead req base
    let r := E.crypto_aead_encrypt aead_req
    { ret := r.1, trace := [.crypto_aead_encrypt], dst := r.2, submitted := some aead_req }
  else
    let r := __ccm_encrypt E.toccm_env (ccm_async_aead aead) req
    { ret := r.ret, trace := [.kernel_fpu_begin] ++ r.trace ++ [.kernel_fpu_end],
      dst := r.dst, submitted := none }

/-- The function `ccm_decrypt`. -/
def ccm_decrypt (E : ccm_async_env) (aead : crypto_aead ccm_async_ctx) (req : aead_request)
    (base : crypto_async_request) : ccm_async_result :=
  if ¬ E.irq_fpu_usable then
    let aead_req := ccm_fallback_request aead req base
    let r := E.crypto_aead_decrypt aead_req
    { ret := r.1, trace := [.crypto_aead_decrypt], dst := r.2, submitted := some aead_req }
  else
    let r := __ccm_decrypt E.toccm_env (ccm_async_aead aead) req
    { ret := r.ret, trace := [.kernel_fpu_begin] ++ r.trace ++ [.kernel_fpu_end],
      dst := r.dst, submitted := none }

/-! ## The FPU guard -/

/-- The calls of accelerated primitives (assembler routines that use the FPU
registers) among the events. -/
def Event.accelerated : Event → Bool
  | .aesni_gcm_enc_tfm _ _ _ _ => true
  | .aesni_gcm_dec_tfm _ _ _ _ => true
  | .aesni_set_key _ => true
  | .aesni_enc => true
  | .aesni_dec => true
  | .aesni_ctr_enc _ => true
  | .aesni_ctr_enc_tfm _ => true
  | .aesni_ecb_enc _ => true
  | .aesni_ecb_dec _ => true
  | .aesni_cbc_enc _ => true
  | .aesni_cbc_dec _ => true
  | _ => false

/-- The two guard events, `kernel_fpu_begin` and `kernel_fpu_end`. -/
def Event.guard : Event → Bool
  | .kernel_fpu_begin => true
  | .kernel_fpu_end => true
  | _ => false

/-- The guard discipline on a trace, read from a state in which the guard is held or
not: the guard is entered only when not held, left only when held, accelerated
primitives are called only while it is held, and it is not held at the end. -/
def guard_scan : Bool → List Event → Bool
  | held, [] => !held
  | held, .kernel_fpu_begin :: t => !held && guard_scan true t
  | held, .kernel_fpu_end :: t => held && guard_scan false t
  | held, e :: t => (!e.accelerated || held) && guard_scan held t

/-- Guard pairing of the trace of a function: the discipline of `guard_scan` from
the state "not held", with at most one enter. -/
def guard_paired (l : List Event) : Prop :=
  guard_scan false l = true ∧ l.count .kernel_fpu_begin ≤ 1

instance (l : List Event) : Decidable (guard_paired l) := by
  unfold guard_paired; infer_instance

/-! ## Concrete inputs used to evaluate the definitions -/

/-- A GCM routine for evaluation only: it copies the payload and returns a tag of
zero bytes. -/
def gcm_copy : gcm_fn :=
  fun _ inp len _ _ _ _ tag_len => (inp.take len, List.replicate tag_len 0)

/-- An environment in which every allocation succeeds. -/
def env0 : gcm_env :=
  { aesni_gcm_enc_tfm := gcm_copy, aesni_gcm_dec_tfm := gcm_copy, kmalloc := fun _ => true }

/-- A keyed RFC4106 transform with salt `de ad be ef` and 16-byte tags. -/
def tfm0 : crypto_aead aesni_rfc4106_gcm_ctx :=
  { crt_flags := 0, authsize := 16,
    ctx := { hash_subkey := List.replicate 16 7,
             aes_key_expanded := { key_enc := [1, 2], key_dec := [3, 4], key_length := 16 },
             nonce := [0xde, 0xad, 0xbe, 0xef] } }

/-- An in-place single-entry request with `assoclen` bytes of associated data, four
bytes of payload, and room for the tag. -/
def req0 (assoclen : Nat) : aead_request :=
  let e : scatterlist :=
    { offset := 0, length := assoclen + 4 + 16, data := List.range (assoclen + 4 + 16) }
  { assoclen := assoclen, cryptlen := 4, iv := [10, 11, 12, 13, 14, 15, 16, 17],
    src := [e], dst := [e], src_is_dst := true }

/-- A key expansion for evaluation only: it stores the key bytes and their reverse. -/
def expand0 (_c : crypto_aes_ctx) (key : List Nat) (key_len : Nat) : Int × crypto_aes_ctx :=
  (0, { key_enc := key.take key_len, key_dec := (key.take key_len).reverse,
        key_length := key_len })

/-- A key-setup environment in which every external call succeeds; its block cipher
adds the key length to each input byte. -/
def kenv0 : key_env :=
  { irq_fpu_usable := true,
    crypto_aes_expand_key := expand0,
    aesni_set_key := expand0,
    crypto_alloc_cipher := 4096,
    crypto_cipher_setkey := fun _ _ => 0,
    crypto_cipher_encrypt_one := fun k b => (b.take 16).map (fun x => (x + k.length) % 256) }

/-- The 20-byte RFC4106 key `00 01 .. 13`: a 128-bit AES key and a 4-byte salt. -/
def key20 : List Nat := List.range 20

/-- A CCM request with the 16-byte IV `iv0 01 02 .. 0f` and no associated data. -/
def ccm_req0 (iv0 : Nat) : aead_request :=
  { assoclen := 0, cryptlen := 16, iv := iv0 :: (List.range 16).tail,
    src := [], dst := [], src_is_dst := true }

/-- A block function for evaluation only: it reverses the 16-byte block and adds the
key length plus one to every byte. -/
def toy_enc (ctx : crypto_aes_ctx) (b : List Nat) : List Nat :=
  (List.range 16).map (fun i => (b.getD (15 - i) 0 + ctx.key_length + 1) % 256)

/-- A counter-mode routine for evaluation only, built on `toy_enc`: each 16-byte
block is xor-ed with the image of the counter block, which is then incremented. -/
def toy_ctr (ctx : crypto_aes_ctx) : Nat → List Nat → List Nat → List Nat × List Nat
  | 0, _, iv => ([], iv)
  | k + 1, inp, iv =>
    let r := toy_ctr ctx k (inp.drop 16) (crypto_inc iv 16)
    (crypto_xor (inp.take 16) (toy_enc ctx iv) 16 ++ r.1, r.2)

/-- A CCM environment for evaluation only: the walker maps everything that is left
as one chunk. -/
def ccm_env0 : ccm_env :=
  { aesni_enc := toy_enc,
    aesni_ctr_enc := fun ctx inp len iv => toy_ctr ctx (len / 16) inp iv,
    walk := fun total => (0, total) }

/-- A keyed CCM transform with 4-byte tags. -/
def ccm_tfm0 : crypto_aead crypto_aes_ctx :=
  { crt_flags := 0, authsize := 4,
    ctx := { key_enc := [1, 2], key_dec := [3, 4], key_length := 16 } }

/-- An in-place CCM request with first IV byte `iv0`, `assoclen` bytes of associated
data and `cryptlen` bytes of payload, in one scatter-list entry with room for a
16-byte tag. -/
def ccm_req1 (iv0 assoclen cryptlen : Nat) : aead_request :=
  let e : scatterlist :=
    { offset := 0, length := assoclen + cryptlen + 16,
      data := List.range (assoclen + cryptlen + 16) }
  { assoclen := assoclen, cryptlen := cryptlen, iv := iv0 :: (List.range 16).tail,
    src := [e], dst := [e], src_is_dst := true }

/-- A MAC state with three carried bytes. -/
def mac_state0 : mac_state :=
  { mac := List.replicate 16 1, idata := List.range 16, ilen := 3, trace := [] }

/-- The decrypt request made from the output of encrypting `ccm_req1 1 0 16` with
`ccm_tfm0`: `L = 2`, no associated data, 16 bytes of ciphertext followed by the
4-byte tag, in place. -/
def ccm_req2 : aead_request :=
  { assoclen := 0, cryptlen := 20, iv := (ccm_req1 1 0 16).iv,
    src := (__ccm_encrypt ccm_env0 ccm_tfm0 (ccm_req1 1 0 16)).dst,
    dst := (__ccm_encrypt ccm_env0 ccm_tfm0 (ccm_req1 1 0 16)).dst,
    src_is_dst := true }

/-- The request `ccm_req2` with the first byte of the tag changed. -/
def ccm_req3 : aead_request :=
  { assoclen := 0, cryptlen := 20, iv := ccm_req2.iv,
    src := sg_copy_to ccm_req2.src 16 [((sg_copy_from ccm_req2.src 16 1).getD 0 0 + 1) % 256] 1,
    dst := sg_copy_to ccm_req2.src 16 [((sg_copy_from ccm_req2.src 16 1).getD 0 0 + 1) % 256] 1,
    src_is_dst := true }

/-- A second CCM environment for evaluation only, whose walker maps at most 16 bytes
at a time. -/
def ccm_env1 : ccm_env :=
  { aesni_enc := toy_enc,
    aesni_ctr_enc := fun ctx inp len iv => toy_ctr ctx (len / 16) inp iv,
    walk := fun total => (0, min total 16) }

/-- A CCM request at the 32-bit limit, not in place: `L = 4`, no associated data, a
payload of `2 ^ 32 - 16` bytes of value 1, and a destination of zero bytes with room
for the payload and a 4-byte tag. -/
def ccm_req_big : aead_request :=
  { assoclen := 0, cryptlen := 4294967280, iv := 3 :: (List.range 16).tail,
    src := [{ offset := 0, length := 4294967284, data := List.replicate 4294967284 1 }],
    dst := [{ offset := 0, length := 4294967284, data := List.replicate 4294967284 0 }],
    src_is_dst := false }

/-- The decrypt request made from the output of encrypting `ccm_req_big` with
`ccm_tfm0`: the same IV, the stored ciphertext and 4-byte tag as source, and a
destination of zero bytes. -/
def ccm_req_big2 : aead_request :=
  { assoclen := 0, cryptlen := 4294967284, iv := ccm_req_big.iv,
    src := (__ccm_encrypt ccm_env0 ccm_tfm0 ccm_req_big).dst,
    dst := [{ offset := 0, length := 4294967280, data := List.replicate 4294967280 0 }],
    src_is_dst := false }

/-- An in-place RFC4106 decrypt request: `assoclen` bytes of associated data, 4 bytes
of ciphertext and a 16-byte tag in one scatter-list entry. -/
def req_dec0 (assoclen : Nat) : aead_request :=
  let e : scatterlist :=
    { offset := 0, length := assoclen + 4 + 16, data := List.range (assoclen + 4 + 16) }
  { assoclen := assoclen, cryptlen := 20, iv := [10, 11, 12, 13, 14, 15, 16, 17],
    src := [e], dst := [e], src_is_dst := true }

/-- A CPU with AES-NI, AVX and AVX2, an assembler that knows both, and calls that
succeed. -/
def init_env0 : init_env :=
  { CONFIG_X86_64 := true, CONFIG_AS_AVX := true, CONFIG_AS_AVX2 := true,
    x86_match_cpu := true, boot_cpu_has_avx := true, boot_cpu_has_avx2 := true,
    crypto_fpu_init := 0, crypto_register_algs := 0, crypto_register_aeads := 0 }

/-- A CPU with AES-NI but neither AVX nor AVX2. -/
def init_env1 : init_env :=
  { CONFIG_X86_64 := true, CONFIG_AS_AVX := true, CONFIG_AS_AVX2 := true,
    x86_match_cpu := true, boot_cpu_has_avx := false, boot_cpu_has_avx2 := false,
    crypto_fpu_init := 0, crypto_register_algs := 0, crypto_register_aeads := 0 }

/-- GCM arguments with a 128-bit key and a payload of `len` bytes. -/
def gcm_args0 (len : Nat) : gcm_args :=
  { ctx := { key_enc := [1, 2], key_dec := [3, 4], key_length := 16 },
    inp := List.replicate len 0, len := len, iv := List.replicate 16 0,
    hash_subkey := List.replicate 16 7, aad := List.replicate 8 0, aad_len := 8,
    auth_tag_len := 16 }

/-- A block-cipher environment for evaluation only, on top of `ccm_env0`: the bulk
routines add the key length to every byte they are given. -/
def blk_env0 : blk_env :=
  { toccm_env := ccm_env0,
    aesni_ecb_enc := fun ctx i len => (i.take len).map (fun b => (b + ctx.key_length) % 256),
    aesni_ecb_dec := fun ctx i len =>
      (i.take len).map (fun b => (b + 256 - ctx.key_length % 256) % 256),
    aesni_cbc_enc := fun ctx i len v =>
      ((i.take len).map (fun b => (b + ctx.key_length) % 256), v),
    aesni_cbc_dec := fun ctx i len v =>
      ((i.take len).map (fun b => (b + 256 - ctx.key_length % 256) % 256), v),
    aesni_ctr_enc_tfm := fun ctx inp len v => toy_ctr ctx (len / 16) inp v,
    aesni_dec := fun ctx b => toy_enc ctx b,
    crypto_aes_encrypt_x86 := fun ctx b => toy_enc ctx b,
    crypto_aes_decrypt_x86 := fun ctx b => toy_enc ctx b,
    irq_fpu_usable := true }

/-- A walk that has 5 bytes left after one block, with the counter block at its
largest value. -/
def walk_state0 : walk_state :=
  { err := 0, nbytes := 5, total := 5, pos := 16, iv := List.replicate 16 255,
    out := List.replicate 21 0, trace := [] }
/-- The block-cipher environment `blk_env0` with a walker that maps at most 16 bytes
at a time. -/
def blk_env1 : blk_env :=
  { blk_env0 with toccm_env := ccm_env1 }

/-- A decrypt request made from the output of encrypting `ccm_req_big` with
`ccm_tfm0`, with the first of the 4 tag bytes replaced by `v` and ciphertext and IV
unchanged, not in place: the destination holds `2 ^ 32 - 17` bytes of value 1 and a
last byte 0 before the call. -/
def ccm_req_big3 (v : Nat) : aead_request :=
  { assoclen := 0, cryptlen := 4294967284, iv := ccm_req_big.iv,
    src := sg_copy_to (__ccm_encrypt ccm_env0 ccm_tfm0 ccm_req_big).dst 4294967280 [v] 1,
    dst := [{ offset := 0, length := 4294967280,
              data := List.replicate 4294967264 1 ++
                [1, 1, 1, 1, 1, 1, 1, 1, 1, 1, 1, 1, 1, 1, 1, 0] }],
    src_is_dst := false }

/-! ## Theorems -/

/-- The pre-counter block built by the helpers is salt, then the first eight IV
bytes, then `00 00 00 01`. -/
theorem rfc4106_build_iv_eq (nonce req_iv : List Nat) (hn : nonce.length = 4)
    (hiv : 8 ≤ req_iv.length) :
    rfc4106_build_iv nonce req_iv = nonce ++ req_iv.take 8 ++ [0, 0, 0, 1] := by
  match nonce, hn with
  | [a, b, c, d], _ =>
    match req_iv, hiv with
    | i0 :: i1 :: i2 :: i3 :: i4 :: i5 :: i6 :: i7 :: rest, _ =>
      simp [rfc4106_build_iv, memcpy_at, u32_bytes, cpu_to_be32, swab32, List.range,
        List.range.loop, List.replicate]

/-- C1 (as the code has it): a request whose associated-data length is neither 16
nor 20 is refused by both helpers with `-EINVAL`, with an empty trace (no
pre-counter block, no allocation, no backend call) and an untouched destination;
for lengths 16 and 20 neither helper returns `-EINVAL`. -/
theorem rfc4106_assoclen_check (E : gcm_env) (tfm : crypto_aead aesni_rfc4106_gcm_ctx)
    (req : aead_request) :
    ((req.assoclen ≠ 16 ∧ req.assoclen ≠ 20) →
      helper_rfc4106_encrypt E tfm req = { ret := -EINVAL, trace := [], dst := req.dst } ∧
      helper_rfc4106_decrypt E tfm req = { ret := -EINVAL, trace := [], dst := req.dst }) ∧
    ((req.assoclen = 16 ∨ req.assoclen = 20) →
      (helper_rfc4106_encrypt E tfm req).ret ≠ -EINVAL ∧
      (helper_rfc4106_decrypt E tfm req).ret ≠ -EINVAL) := by
  constructor
  · intro h
    simp [helper_rfc4106_encrypt, helper_rfc4106_decrypt, h]
  · intro h
    have h' : ¬ (req.assoclen ≠ 16 ∧ req.assoclen ≠ 20) := by omega
    constructor
    · simp only [helper_rfc4106_encrypt, if_neg h']
      split_ifs <;> simp [EINVAL, ENOMEM]
    · simp only [helper_rfc4106_decrypt, if_neg h']
      split_ifs <;> simp [EINVAL, ENOMEM, EBADMSG]

/-- Witness of C1: associated-data length 7 is refused, length 20 is not. -/
theorem rfc4106_assoclen_check_witness :
    (helper_rfc4106_encrypt env0 tfm0 (req0 7) =
        { ret := -EINVAL, trace := [], dst := (req0 7).dst } ∧
      helper_rfc4106_decrypt env0 tfm0 (req0 7) =
        { ret := -EINVAL, trace := [], dst := (req0 7).dst }) ∧
    ((helper_rfc4106_encrypt env0 tfm0 (req0 20)).ret ≠ -EINVAL ∧
      (helper_rfc4106_decrypt env0 tfm0 (req0 20)).ret ≠ -EINVAL) :=
  ⟨(rfc4106_assoclen_check env0 tfm0 (req0 7)).1 (by decide),
   (rfc4106_assoclen_check env0 tfm0 (req0 20)).2 (by decide)⟩

/-- C1 as stated fails: with 8 bytes of associated data both helpers return
`-EINVAL`, and with 16 bytes (neither 8 nor 20) encryption succeeds. -/
theorem rfc4106_assoclen_8_refused :
    (helper_rfc4106_encrypt env0 tfm0 (req0 8)).ret = -EINVAL ∧
    (helper_rfc4106_decrypt env0 tfm0 (req0 8)).ret = -EINVAL ∧
    (helper_rfc4106_encrypt env0 tfm0 (req0 16)).ret = 0 := by
  decide

/-- C2: every GCM backend call made by the helpers carries the AAD length
`assoclen - 8`, which is 8 or 12; and every request that gets past the length check
and the staging allocation makes exactly one backend call, with that AAD length. -/
theorem rfc4106_aad_len (E : gcm_env) (tfm : crypto_aead aesni_rfc4106_gcm_ctx)
    (req : aead_request) :
    (∀ n ∈ ((helper_rfc4106_encrypt E tfm req).trace ++
          (helper_rfc4106_decrypt E tfm req).trace).filterMap Event.gcm_aad_len,
        n = req.assoclen - 8 ∧ (n = 8 ∨ n = 12)) ∧
    ((helper_rfc4106_encrypt E tfm req).ret = 0 →
      (req.assoclen = 16 ∨ req.assoclen = 20) ∧
      (helper_rfc4106_encrypt E tfm req).trace.filterMap Event.gcm_aad_len =
        [req.assoclen - 8]) ∧
    ((helper_rfc4106_decrypt E tfm req).ret = 0 ∨
        (helper_rfc4106_decrypt E tfm req).ret = -EBADMSG →
      (req.assoclen = 16 ∨ req.assoclen = 20) ∧
      (helper_rfc4106_decrypt E tfm req).trace.filterMap Event.gcm_aad_len =
        [req.assoclen - 8]) := by
  by_cases h : req.assoclen ≠ 16 ∧ req.assoclen ≠ 20
  · simp [helper_rfc4106_encrypt, helper_rfc4106_decrypt, h, EINVAL, EBADMSG]
  · have h16 : req.assoclen = 16 ∨ req.assoclen = 20 := by omega
    have hs : sub_u32 req.assoclen 8 = req.assoclen - 8 := by
      rcases h16 with e | e <;> rw [e] <;> decide
    simp only [helper_rfc4106_encrypt, helper_rfc4106_decrypt, if_neg h, hs]
    refine ⟨?_, ?_, ?_⟩
    · intro n hn
      have : n = req.assoclen - 8 := by
        split_ifs at hn <;> simp [Event.gcm_aad_len] at hn <;> omega
      omega
    · split_ifs <;> simp [Event.gcm_aad_len, ENOMEM, h16]
    · split_ifs <;> simp [Event.gcm_aad_len, ENOMEM, EBADMSG, h16]

/-- Witness of C2 on a 20-byte associated-data request: both helpers call the
backend once, with AAD length 12. -/
theorem rfc4106_aad_len_witness :
    (helper_rfc4106_encrypt env0 tfm0 (req0 20)).trace.filterMap Event.gcm_aad_len = [12] ∧
    (helper_rfc4106_decrypt env0 tfm0 (req0 20)).trace.filterMap Event.gcm_aad_len = [12] :=
  ⟨((rfc4106_aad_len env0 tfm0 (req0 20)).2.1 (by decide)).2,
   ((rfc4106_aad_len env0 tfm0 (req0 20)).2.2 (by decide)).2⟩

/-- C3: with a 4-byte salt in the context and at least 8 IV bytes in the request,
every GCM backend call of either helper receives the pre-counter block
salt ‖ IV[0..7] ‖ 00 00 00 01, and a request that reaches the backend does so
exactly once; encryption and decryption therefore use the same block. -/
theorem rfc4106_pre_counter_block (E : gcm_env) (tfm : crypto_aead aesni_rfc4106_gcm_ctx)
    (req : aead_request) (hn : tfm.ctx.nonce.length = 4) (hiv : 8 ≤ req.iv.length) :
    (∀ iv ∈ ((helper_rfc4106_encrypt E tfm req).trace ++
          (helper_rfc4106_decrypt E tfm req).trace).filterMap Event.gcm_iv,
        iv = tfm.ctx.nonce ++ req.iv.take 8 ++ [0, 0, 0, 1]) ∧
    ((helper_rfc4106_encrypt E tfm req).ret = 0 →
      (helper_rfc4106_encrypt E tfm req).trace.filterMap Event.gcm_iv =
        [tfm.ctx.nonce ++ req.iv.take 8 ++ [0, 0, 0, 1]]) ∧
    ((helper_rfc4106_decrypt E tfm req).ret = 0 ∨
        (helper_rfc4106_decrypt E tfm req).ret = -EBADMSG →
      (helper_rfc4106_decrypt E tfm req).trace.filterMap Event.gcm_iv =
        [tfm.ctx.nonce ++ req.iv.take 8 ++ [0, 0, 0, 1]]) := by
  have hb := rfc4106_build_iv_eq tfm.ctx.nonce req.iv hn hiv
  by_cases h : req.assoclen ≠ 16 ∧ req.assoclen ≠ 20
  · simp [helper_rfc4106_encrypt, helper_rfc4106_decrypt, h, EINVAL, EBADMSG]
  · simp only [helper_rfc4106_encrypt, helper_rfc4106_decrypt, if_neg h, hb]
    refine ⟨?_, ?_, ?_⟩
    · intro iv hmem
      split_ifs at hmem <;> simp [Event.gcm_iv] at hmem <;> simp [hmem]
    · split_ifs <;> simp [Event.gcm_iv, ENOMEM]
    · split_ifs <;> simp [Event.gcm_iv, ENOMEM, EBADMSG]

/-- Witness of C3 on a 16-byte associated-data request with salt `de ad be ef` and
IV `0a .. 11`. -/
theorem rfc4106_pre_counter_block_witness :
    (helper_rfc4106_encrypt env0 tfm0 (req0 16)).trace.filterMap Event.gcm_iv =
      [[0xde, 0xad, 0xbe, 0xef, 10, 11, 12, 13, 14, 15, 16, 17, 0, 0, 0, 1]] :=
  (rfc4106_pre_counter_block env0 tfm0 (req0 16) (by decide) (by decide)).2.1 (by decide)

/-- On a supported key length `aes_set_key_common` hands over to the selected
key-expansion routine and leaves the flag word alone. -/
theorem aes_set_key_common_supported (E : key_env) (crt_flags : Nat) (ctx : crypto_aes_ctx)
    (in_key : List Nat) (key_len : Nat) (h : key_len = 16 ∨ key_len = 24 ∨ key_len = 32) :
    (aes_set_key_common E crt_flags ctx in_key key_len).ret =
        (key_expansion_provider E ctx in_key key_len).1 ∧
    (aes_set_key_common E crt_flags ctx in_key key_len).ctx =
        (key_expansion_provider E ctx in_key key_len).2 ∧
    (aes_set_key_common E crt_flags ctx in_key key_len).crt_flags = crt_flags ∧
    (∀ m, Event.set_flags m ∉ (aes_set_key_common E crt_flags ctx in_key key_len).trace) := by
  have h' : ¬ (key_len ≠ AES_KEYSIZE_128 ∧ key_len ≠ AES_KEYSIZE_192 ∧
      key_len ≠ AES_KEYSIZE_256) := by
    simp only [AES_KEYSIZE_128, AES_KEYSIZE_192, AES_KEYSIZE_256]; omega
  simp only [aes_set_key_common, if_neg h', key_expansion_provider]
  cases E.irq_fpu_usable <;> simp

/-- On an unsupported key length `aes_set_key_common` only sets the flag and
returns `-EINVAL`. -/
theorem aes_set_key_common_unsupported (E : key_env) (crt_flags : Nat) (ctx : crypto_aes_ctx)
    (in_key : List Nat) (key_len : Nat) (h : key_len ≠ 16 ∧ key_len ≠ 24 ∧ key_len ≠ 32) :
    aes_set_key_common E crt_flags ctx in_key key_len =
      { ret := -EINVAL, crt_flags := crt_flags ||| CRYPTO_TFM_RES_BAD_KEY_LEN, ctx := ctx,
        trace := [.set_flags CRYPTO_TFM_RES_BAD_KEY_LEN] } := by
  have h' : key_len ≠ AES_KEYSIZE_128 ∧ key_len ≠ AES_KEYSIZE_192 ∧
      key_len ≠ AES_KEYSIZE_256 := by
    simpa only [AES_KEYSIZE_128, AES_KEYSIZE_192, AES_KEYSIZE_256] using h
  simp only [aes_set_key_common, if_pos h']

/-- C4: `aes_set_key_common` returns `-EINVAL` together with setting
`CRYPTO_TFM_RES_BAD_KEY_LEN` exactly when the key length is not 16, 24 or 32; then
the flag is or-ed into the flag word, no key-expansion routine is called and the key
schedule is untouched.  For 16, 24 and 32 it returns the status of the key-expansion
routine it selects, installs that routine's schedule, and does not touch the flags. -/
theorem aes_set_key_common_key_len (E : key_env) (crt_flags : Nat) (ctx : crypto_aes_ctx)
    (in_key : List Nat) (key_len : Nat) :
    (((aes_set_key_common E crt_flags ctx in_key key_len).ret = -EINVAL ∧
        Event.set_flags CRYPTO_TFM_RES_BAD_KEY_LEN ∈
          (aes_set_key_common E crt_flags ctx in_key key_len).trace) ↔
      (key_len ≠ 16 ∧ key_len ≠ 24 ∧ key_len ≠ 32)) ∧
    ((key_len ≠ 16 ∧ key_len ≠ 24 ∧ key_len ≠ 32) →
      (aes_set_key_common E crt_flags ctx in_key key_len).crt_flags =
        crt_flags ||| CRYPTO_TFM_RES_BAD_KEY_LEN ∧
      (aes_set_key_common E crt_flags ctx in_key key_len).ctx = ctx ∧
      (aes_set_key_common E crt_flags ctx in_key key_len).trace =
        [.set_flags CRYPTO_TFM_RES_BAD_KEY_LEN]) ∧
    ((key_len = 16 ∨ key_len = 24 ∨ key_len = 32) →
      (aes_set_key_common E crt_flags ctx in_key key_len).ret =
        (key_expansion_provider E ctx in_key key_len).1 ∧
      (aes_set_key_common E crt_flags ctx in_key key_len).ctx =
        (key_expansion_provider E ctx in_key key_len).2 ∧
      (aes_set_key_common E crt_flags ctx in_key key_len).crt_flags = crt_flags ∧
      (∀ m, Event.set_flags m ∉ (aes_set_key_common E crt_flags ctx in_key key_len).trace)) := by
  refine ⟨⟨?_, ?_⟩, ?_, ?_⟩
  · rintro ⟨-, hmem⟩
    by_contra hgood
    have hg : key_len = 16 ∨ key_len = 24 ∨ key_len = 32 := by omega
    exact (aes_set_key_common_supported E crt_flags ctx in_key key_len hg).2.2.2 _ hmem
  · intro h
    rw [aes_set_key_common_unsupported E crt_flags ctx in_key key_len h]
    simp
  · intro h
    rw [aes_set_key_common_unsupported E crt_flags ctx in_key key_len h]
    simp
  · exact aes_set_key_common_supported E crt_flags ctx in_key key_len

/-- Witness of C4: a 5-byte key is refused without touching the schedule, a 16-byte
key is expanded. -/
theorem aes_set_key_common_key_len_witness :
    ((aes_set_key_common kenv0 0 tfm0.ctx.aes_key_expanded key20 5).ret = -EINVAL ∧
      Event.set_flags CRYPTO_TFM_RES_BAD_KEY_LEN ∈
        (aes_set_key_common kenv0 0 tfm0.ctx.aes_key_expanded key20 5).trace) ∧
    (aes_set_key_common kenv0 0 tfm0.ctx.aes_key_expanded key20 5).ctx =
      tfm0.ctx.aes_key_expanded ∧
    (aes_set_key_common kenv0 0 tfm0.ctx.aes_key_expanded key20 16).ret = 0 :=
  ⟨(aes_set_key_common_key_len kenv0 0 tfm0.ctx.aes_key_expanded key20 5).1.2 (by decide),
   ((aes_set_key_common_key_len kenv0 0 tfm0.ctx.aes_key_expanded key20 5).2.1
      (by decide)).2.1,
   ((aes_set_key_common_key_len kenv0 0 tfm0.ctx.aes_key_expanded key20 16).2.2
      (by decide)).1.trans (by decide)⟩

/-- C5 (as the code has it): a key whose length is not 20, 28 or 36 makes
`common_rfc4106_set_key` return `-EINVAL` after setting the bad-key-length flag and
nothing else: no key-expansion or cipher routine is called, the expanded AES key and
the hash subkey are unchanged, and for a key shorter than 4 bytes the whole context
is unchanged. -/
theorem common_rfc4106_set_key_bad_len (E : key_env)
    (aead : crypto_aead aesni_rfc4106_gcm_ctx) (key : List Nat) (key_len : Nat)
    (h : key_len ≠ 20 ∧ key_len ≠ 28 ∧ key_len ≠ 36) :
    (common_rfc4106_set_key E aead key key_len).ret = -EINVAL ∧
    (common_rfc4106_set_key E aead key key_len).trace =
      [.set_flags CRYPTO_TFM_RES_BAD_KEY_LEN] ∧
    (common_rfc4106_set_key E aead key key_len).tfm.ctx.aes_key_expanded =
      aead.ctx.aes_key_expanded ∧
    (common_rfc4106_set_key E aead key key_len).tfm.ctx.hash_subkey =
      aead.ctx.hash_subkey ∧
    (key_len < 4 → (common_rfc4106_set_key E aead key key_len).tfm.ctx = aead.ctx) := by
  by_cases h4 : key_len < 4
  · simp [common_rfc4106_set_key, h4]
  · have hb : key_len - 4 ≠ 16 ∧ key_len - 4 ≠ 24 ∧ key_len - 4 ≠ 32 := by omega
    have hne : (-EINVAL : Int) ≠ 0 := by decide
    simp only [common_rfc4106_set_key, if_neg h4,
      aes_set_key_common_unsupported E _ _ key (key_len - 4) hb]
    simp [hne, h4]

/-- Witness of C5 on a 3-byte and a 5-byte key. -/
theorem common_rfc4106_set_key_bad_len_witness :
    (common_rfc4106_set_key kenv0 tfm0 [1, 2, 3] 3).tfm.ctx = tfm0.ctx ∧
    (common_rfc4106_set_key kenv0 tfm0 [1, 2, 3, 4, 5] 5).ret = -EINVAL :=
  ⟨(common_rfc4106_set_key_bad_len kenv0 tfm0 [1, 2, 3] 3 (by decide)).2.2.2.2 (by decide),
   (common_rfc4106_set_key_bad_len kenv0 tfm0 [1, 2, 3, 4, 5] 5 (by decide)).1⟩

/-- C5 as stated fails: the 5-byte key `01 02 03 04 05` is refused with `-EINVAL`,
yet the salt `de ad be ef` of the context has been replaced by `02 03 04 05`. -/
theorem common_rfc4106_set_key_bad_len_changes_salt :
    (common_rfc4106_set_key kenv0 tfm0 [1, 2, 3, 4, 5] 5).ret = -EINVAL ∧
    tfm0.ctx.nonce = [0xde, 0xad, 0xbe, 0xef] ∧
    (common_rfc4106_set_key kenv0 tfm0 [1, 2, 3, 4, 5] 5).tfm.ctx.nonce = [2, 3, 4, 5] ∧
    (common_rfc4106_set_key kenv0 tfm0 [1, 2, 3, 4, 5] 5).tfm.ctx ≠ tfm0.ctx := by
  decide

/-- A zero return of `rfc4106_set_hash_subkey` means the cipher was allocated and
keyed, and the buffer holds the encryption of the zeroed buffer. -/
theorem rfc4106_set_hash_subkey_ok (E : key_env) (hash_subkey key : List Nat)
    (key_len : Nat) (h0 : (rfc4106_set_hash_subkey E hash_subkey key key_len).1 = 0) :
    (rfc4106_set_hash_subkey E hash_subkey key key_len).2.1 =
      memcpy_at (memset_at hash_subkey 0 0 16) 0
        (E.crypto_cipher_encrypt_one (key.take key_len) (memset_at hash_subkey 0 0 16)) 16 := by
  unfold rfc4106_set_hash_subkey at h0 ⊢
  by_cases he : IS_ERR E.crypto_alloc_cipher = true
  · simp only [he, if_true] at h0
    rw [h0] at he
    exact absurd he (by decide)
  · by_cases hr : E.crypto_cipher_setkey key key_len ≠ 0
    · simp [he, hr] at h0
    · simp [he, hr, RFC4106_HASH_SUBKEY_SIZE, AES_BLOCK_SIZE]

/-- The return code of `rfc4106_set_hash_subkey` does not depend on the buffer. -/
theorem rfc4106_set_hash_subkey_ret (E : key_env) (hs hs' key : List Nat) (key_len : Nat) :
    (rfc4106_set_hash_subkey E hs key key_len).1 =
      (rfc4106_set_hash_subkey E hs' key key_len).1 := by
  unfold rfc4106_set_hash_subkey
  by_cases he : IS_ERR E.crypto_alloc_cipher = true
  · simp [he]
  · by_cases hr : E.crypto_cipher_setkey key key_len ≠ 0
    · simp [he, hr]
    · simp [he, hr]

/-- What a successful `common_rfc4106_set_key` leaves in the context, for a context
with the array sizes of the C structure. -/
theorem common_rfc4106_set_key_ok (E : key_env) (aead : crypto_aead aesni_rfc4106_gcm_ctx)
    (key : List Nat) (key_len : Nat) (hk : key.length = key_len)
    (hs : rfc4106_ctx_sized aead.ctx)
    (h0 : (common_rfc4106_set_key E aead key key_len).ret = 0) :
    (key_len = 20 ∨ key_len = 28 ∨ key_len = 36) ∧
    (key_expansion_provider E aead.ctx.aes_key_expanded key (key_len - 4)).1 = 0 ∧
    (rfc4106_set_hash_subkey E aead.ctx.hash_subkey key (key_len - 4)).1 = 0 ∧
    (common_rfc4106_set_key E aead key key_len).tfm.ctx =
      { hash_subkey :=
          (E.crypto_cipher_encrypt_one (key.take (key_len - 4)) (List.replicate 16 0)).take 16,
        aes_key_expanded :=
          (key_expansion_provider E aead.ctx.aes_key_expanded key (key_len - 4)).2,
        nonce := key.drop (key_len - 4) } := by
  have hne : (-EINVAL : Int) ≠ 0 := by decide
  by_cases h4 : key_len < 4
  · simp [common_rfc4106_set_key, h4, hne] at h0
  · by_cases hb : key_len - 4 ≠ 16 ∧ key_len - 4 ≠ 24 ∧ key_len - 4 ≠ 32
    · simp [common_rfc4106_set_key, h4,
        aes_set_key_common_unsupported E _ _ key (key_len - 4) hb, hne] at h0
    · have hg : key_len - 4 = 16 ∨ key_len - 4 = 24 ∨ key_len - 4 = 32 := by omega
      obtain ⟨hret, hctx, -, -⟩ :=
        aes_set_key_common_supported E aead.crt_flags aead.ctx.aes_key_expanded key
          (key_len - 4) hg
      have hlen : (key.drop (key_len - 4)).length = 4 := by
        rw [List.length_drop]; omega
      have hz : memset_at aead.ctx.hash_subkey 0 0 16 = List.replicate 16 0 := by
        simp [memset_at, hs.1]
      have hn : memcpy_at aead.ctx.nonce 0 (key.drop (key_len - 4)) 4
          = key.drop (key_len - 4) := by
        have h1 : (key.drop (key_len - 4)).take 4 = key.drop (key_len - 4) :=
          List.take_of_length_le (by omega)
        have h2 : aead.ctx.nonce.drop 4 = [] := List.drop_of_length_le (le_of_eq hs.2)
        simp only [memcpy_at, List.take_zero, List.nil_append, Nat.zero_add, h1, h2,
          List.append_nil]
      by_cases hr : (aes_set_key_common E aead.crt_flags aead.ctx.aes_key_expanded key
          (key_len - 4)).ret ≠ 0
      · simp only [common_rfc4106_set_key, if_neg h4, if_pos hr] at h0
        exact absurd h0 hr
      · simp only [common_rfc4106_set_key, if_neg h4, if_neg hr] at h0 ⊢
        have hsub := rfc4106_set_hash_subkey_ok E aead.ctx.hash_subkey key (key_len - 4) h0
        refine ⟨by omega, ?_, h0, ?_⟩
        · rw [← hret]; exact not_not.mp hr
        · rw [hsub, hz, hctx, hn]
          simp [memcpy_at]

/-- C6: after a successful `common_rfc4106_set_key` with a key `k` of length `n`, on
a context with the array sizes of the C structure and with a key-expansion routine
that reads only the key bytes it is given: `n` is 20, 28 or 36; the salt is the last
4 bytes of `k`; the key schedule is the expansion of the first `n - 4` bytes of `k`;
the hash subkey is the block the cipher keyed with those `n - 4` bytes produces for
the all-zero block; and starting from any other context gives the same return code
and the same context. -/
theorem common_rfc4106_set_key_success (E : key_env)
    (aead : crypto_aead aesni_rfc4106_gcm_ctx) (key : List Nat) (key_len : Nat)
    (hk : key.length = key_len) (hs : rfc4106_ctx_sized aead.ctx)
    (hx : expands_key_only (key_expansion_provider E))
    (h0 : (common_rfc4106_set_key E aead key key_len).ret = 0) :
    (key_len = 20 ∨ key_len = 28 ∨ key_len = 36) ∧
    (common_rfc4106_set_key E aead key key_len).tfm.ctx.nonce = key.drop (key_len - 4) ∧
    (∀ c, (common_rfc4106_set_key E aead key key_len).tfm.ctx.aes_key_expanded =
      (key_expansion_provider E c (key.take (key_len - 4)) (key_len - 4)).2) ∧
    (common_rfc4106_set_key E aead key key_len).tfm.ctx.hash_subkey =
      (E.crypto_cipher_encrypt_one (key.take (key_len - 4)) (List.replicate 16 0)).take 16 ∧
    (∀ aead' : crypto_aead aesni_rfc4106_gcm_ctx, rfc4106_ctx_sized aead'.ctx →
      (common_rfc4106_set_key E aead' key key_len).ret = 0 ∧
      (common_rfc4106_set_key E aead' key key_len).tfm.ctx =
        (common_rfc4106_set_key E aead key key_len).tfm.ctx) := by
  obtain ⟨hn, hp, hh, hctx⟩ := common_rfc4106_set_key_ok E aead key key_len hk hs h0
  refine ⟨hn, by rw [hctx], ?_, by rw [hctx], ?_⟩
  · intro c
    rw [hctx]
    exact congrArg Prod.snd (hx aead.ctx.aes_key_expanded c key (key_len - 4))
  · intro aead' hs'
    have h4 : ¬ key_len < 4 := by omega
    have hg : key_len - 4 = 16 ∨ key_len - 4 = 24 ∨ key_len - 4 = 32 := by omega
    have hpe : key_expansion_provider E aead'.ctx.aes_key_expanded key (key_len - 4) =
        key_expansion_provider E aead.ctx.aes_key_expanded key (key_len - 4) :=
      (hx aead'.ctx.aes_key_expanded aead.ctx.aes_key_expanded key (key_len - 4)).trans
        (hx aead.ctx.aes_key_expanded aead.ctx.aes_key_expanded key (key_len - 4)).symm
    obtain ⟨hret, -, -, -⟩ :=
      aes_set_key_common_supported E aead'.crt_flags aead'.ctx.aes_key_expanded key
        (key_len - 4) hg
    have hr : ¬ (aes_set_key_common E aead'.crt_flags aead'.ctx.aes_key_expanded key
        (key_len - 4)).ret ≠ 0 := by
      rw [hret, hpe, hp]; simp
    have h0' : (common_rfc4106_set_key E aead' key key_len).ret = 0 := by
      simp only [common_rfc4106_set_key, if_neg h4, if_neg hr]
      rw [rfc4106_set_hash_subkey_ret E aead'.ctx.hash_subkey aead.ctx.hash_subkey]
      exact hh
    refine ⟨h0', ?_⟩
    rw [(common_rfc4106_set_key_ok E aead' key key_len hk hs' h0').2.2.2, hctx, hpe]

/-- Witness of C6: the 20-byte key `00 .. 13` is accepted; the salt becomes
`10 11 12 13`. -/
theorem common_rfc4106_set_key_success_witness :
    (common_rfc4106_set_key kenv0 tfm0 key20 20).tfm.ctx.nonce = [16, 17, 18, 19] :=
  (common_rfc4106_set_key_success kenv0 tfm0 key20 20 (by decide) (by decide)
    (fun _ _ _ _ => by simp [key_expansion_provider, kenv0, expand0])
    (by decide)).2.1.trans (by decide)

/-- C7: `__ccm_setauthsize` returns 0 exactly for the even tag sizes from 4 up and
`-EINVAL` for every other size; for those other sizes `ccm_setauthsize` returns
`-EINVAL` without a call to the fallback transform, and for the accepted sizes it
makes that one call and returns its status. -/
theorem ccm_setauthsize_even_ge_4 (fallback_setauthsize : Nat → Int) (authsize : Nat) :
    (__ccm_setauthsize authsize = 0 ↔ (authsize % 2 = 0 ∧ 4 ≤ authsize)) ∧
    (¬ (authsize % 2 = 0 ∧ 4 ≤ authsize) →
      __ccm_setauthsize authsize = -EINVAL ∧
      ccm_setauthsize fallback_setauthsize authsize = (-EINVAL, [])) ∧
    ((authsize % 2 = 0 ∧ 4 ≤ authsize) →
      ccm_setauthsize fallback_setauthsize authsize =
        (fallback_setauthsize authsize, [.crypto_aead_setauthsize authsize])) := by
  have hne : (-EINVAL : Int) ≠ 0 := by decide
  by_cases h : authsize % 2 = 0 ∧ 4 ≤ authsize
  · have hc : ¬ (authsize &&& 1 ≠ 0 ∨ authsize < 4) := by
      rw [Nat.and_one_is_mod]; omega
    simp [ccm_setauthsize, __ccm_setauthsize, hc, h]
  · have hc : authsize &&& 1 ≠ 0 ∨ authsize < 4 := by
      rw [Nat.and_one_is_mod]; omega
    simp only [ccm_setauthsize, __ccm_setauthsize, if_pos hc]
    simp [hne, h]

/-- Witness of C7: size 5 is refused without a call to the fallback, size 8 is
forwarded. -/
theorem ccm_setauthsize_even_ge_4_witness :
    ccm_setauthsize (fun _ => 0) 5 = (-EINVAL, []) ∧
    ccm_setauthsize (fun _ => 0) 8 = (0, [.crypto_aead_setauthsize 8]) :=
  ⟨((ccm_setauthsize_even_ge_4 (fun _ => 0) 5).2.1 (by decide)).2,
   (ccm_setauthsize_even_ge_4 (fun _ => 0) 8).2.2 (by decide)⟩

/-- C8: `common_rfc4106_set_authsize` returns 0 exactly for the tag sizes 8, 12 and
16, and `-EINVAL` for every other size. -/
theorem common_rfc4106_set_authsize_8_12_16 (authsize : Nat) :
    (common_rfc4106_set_authsize authsize = 0 ↔
      (authsize = 8 ∨ authsize = 12 ∨ authsize = 16)) ∧
    (¬ (authsize = 8 ∨ authsize = 12 ∨ authsize = 16) →
      common_rfc4106_set_authsize authsize = -EINVAL) := by
  have hne : (-EINVAL : Int) ≠ 0 := by decide
  unfold common_rfc4106_set_authsize
  split <;> simp_all

/-- Witness of C8: size 10 is refused. -/
theorem common_rfc4106_set_authsize_8_12_16_witness :
    common_rfc4106_set_authsize 10 = -EINVAL :=
  (common_rfc4106_set_authsize_8_12_16 10).2 (by decide)

/-- The only return codes of `set_msg_len` are 0 and `-EOVERFLOW`. -/
theorem set_msg_len_ret (buf : List Nat) (off msglen csize : Nat) :
    (set_msg_len buf off msglen csize).1 = 0 ∨
    (set_msg_len buf off msglen csize).1 = -EOVERFLOW := by
  unfold set_msg_len
  split_ifs <;> simp

/-- The function `set_msg_len` never returns `-EINVAL`. -/
theorem set_msg_len_ne_einval (buf : List Nat) (off msglen csize : Nat) :
    (set_msg_len buf off msglen csize).1 ≠ -EINVAL := by
  rcases set_msg_len_ret buf off msglen csize with e | e <;> rw [e] <;> decide

/-- A length below `2 ^ (8 * csize)` never takes the overflow branch of
`set_msg_len`, and neither does any length once `csize` is 4 or more. -/
theorem set_msg_len_fits (buf : List Nat) (off msglen csize : Nat)
    (h : 4 ≤ csize ∨ msglen < 2 ^ (8 * csize)) :
    (set_msg_len buf off msglen csize).1 = 0 := by
  unfold set_msg_len
  by_cases h4 : csize ≥ 4
  · simp [h4]
  · have hlt : ¬ msglen > 1 <<< (8 * csize) := by
      rw [Nat.one_shiftLeft]; omega
    simp [h4, hlt]

/-- The second test of `ccm_init_mac`, `msglen >> (8 * l)`, is nonzero exactly when
`msglen` does not fit in `l` bytes. -/
theorem shiftRight_ne_zero_iff (msglen l : Nat) :
    msglen >>> (8 * l) ≠ 0 ↔ 2 ^ (8 * l) ≤ msglen := by
  rw [Nat.shiftRight_eq_div_pow, ← Nat.pos_iff_ne_zero]
  exact Nat.div_pos_iff (by positivity)

/-- C9: `ccm_init_mac` reads `L` as the first IV byte plus one and returns `-EINVAL`
exactly when `L` is outside `[2, 8]`, that is when the first IV byte is 0 or more
than 7; the IV and the MAC block are then unchanged. -/
theorem ccm_init_mac_L_check (authsize : Nat) (req : aead_request) (maciv : List Nat)
    (msglen : Nat) (hb : req.iv.getD 0 0 < 256) :
    ccm_L req = req.iv.getD 0 0 + 1 ∧
    ((ccm_init_mac authsize req maciv msglen).ret = -EINVAL ↔
      (ccm_L req < 2 ∨ 8 < ccm_L req)) ∧
    ((ccm_L req < 2 ∨ 8 < ccm_L req) ↔ (req.iv.getD 0 0 = 0 ∨ 7 < req.iv.getD 0 0)) ∧
    ((ccm_init_mac authsize req maciv msglen).ret = -EINVAL →
      (ccm_init_mac authsize req maciv msglen).iv = req.iv ∧
      (ccm_init_mac authsize req maciv msglen).maciv = maciv) := by
  have hL : ccm_L req = req.iv.getD 0 0 + 1 := by
    unfold ccm_L u32; omega
  have hne : (-EOVERFLOW : Int) ≠ -EINVAL := by decide
  have hne0 : (0 : Int) ≠ -EINVAL := by decide
  by_cases h : ccm_L req < 2 ∨ ccm_L req > 8
  · have h' : ccm_L req < 2 ∨ 8 < ccm_L req := h
    refine ⟨hL, ?_, by omega, ?_⟩ <;> simp [ccm_init_mac, h, h']
  · have h' : ¬ (ccm_L req < 2 ∨ 8 < ccm_L req) := h
    have hret : (ccm_init_mac authsize req maciv msglen).ret ≠ -EINVAL := by
      simp only [ccm_init_mac, if_neg h]
      split_ifs
      all_goals first
        | exact hne
        | exact set_msg_len_ne_einval _ _ _ _
    refine ⟨hL, ?_, by omega, ?_⟩
    · exact ⟨fun e => absurd e hret, fun e => absurd e h'⟩
    · exact fun e => absurd e hret

/-- Witness of C9: a first IV byte of 0 gives `-EINVAL` and leaves IV and MAC block
alone. -/
theorem ccm_init_mac_L_check_witness :
    (ccm_init_mac 8 (ccm_req0 0) (List.replicate 16 0xaa) 16).ret = -EINVAL ∧
    (ccm_init_mac 8 (ccm_req0 0) (List.replicate 16 0xaa) 16).iv = (ccm_req0 0).iv ∧
    (ccm_init_mac 8 (ccm_req0 0) (List.replicate 16 0xaa) 16).maciv = List.replicate 16 0xaa :=
  have h := ccm_init_mac_L_check 8 (ccm_req0 0) (List.replicate 16 0xaa) 16 (by decide)
  ⟨h.2.1.2 (by decide), h.2.2.2 (h.2.1.2 (by decide))⟩

/-- When `L` is in `[2, 8]` and `msglen` does not fit in `L < 4` bytes,
`ccm_init_mac` returns `-EOVERFLOW` and has stored nothing. -/
theorem ccm_init_mac_of_overflow (authsize : Nat) (req : aead_request) (maciv : List Nat)
    (msglen : Nat) (hL : 2 ≤ ccm_L req ∧ ccm_L req ≤ 8)
    (ho : ccm_L req < 4 ∧ 2 ^ (8 * ccm_L req) ≤ msglen) :
    ccm_init_mac authsize req maciv msglen =
      { ret := -EOVERFLOW, iv := req.iv, maciv := maciv } := by
  have h : ¬ (ccm_L req < 2 ∨ ccm_L req > 8) := by omega
  have ho' : ccm_L req < 4 ∧ msglen >>> (8 * ccm_L req) ≠ 0 :=
    ⟨ho.1, (shiftRight_ne_zero_iff _ _).mpr ho.2⟩
  simp only [ccm_init_mac, if_neg h, if_pos ho']

/-- C10: for `L` in `[2, 8]`, `ccm_init_mac` returns `-EOVERFLOW` exactly when
`L < 4` and `msglen ≥ 2 ^ (8 * L)`, and then has changed neither the IV nor the MAC
block; in every other case it returns 0, and the call of `set_msg_len` it ends with
(offset `16 - L`, length `msglen`, size `L`) returns 0 whatever the buffer holds, so
the overflow branch of `set_msg_len` is not taken.  In `__ccm_encrypt` and
`__ccm_decrypt` the overflow is returned with an empty trace, that is before any
call of the block cipher, the counter-mode routine or the walker, and with the
destination untouched. -/
theorem ccm_init_mac_overflow (authsize : Nat) (req : aead_request) (maciv : List Nat)
    (msglen : Nat) (hL : 2 ≤ ccm_L req ∧ ccm_L req ≤ 8) :
    ((ccm_init_mac authsize req maciv msglen).ret = -EOVERFLOW ↔
      (ccm_L req < 4 ∧ 2 ^ (8 * ccm_L req) ≤ msglen)) ∧
    ((ccm_L req < 4 ∧ 2 ^ (8 * ccm_L req) ≤ msglen) →
      ccm_init_mac authsize req maciv msglen =
        { ret := -EOVERFLOW, iv := req.iv, maciv := maciv }) ∧
    (¬ (ccm_L req < 4 ∧ 2 ^ (8 * ccm_L req) ≤ msglen) →
      (ccm_init_mac authsize req maciv msglen).ret = 0 ∧
      ∀ buf, (set_msg_len buf (AES_BLOCK_SIZE - ccm_L req) msglen (ccm_L req)).1 = 0) ∧
    (∀ (E : ccm_env) (aead : crypto_aead crypto_aes_ctx),
      ((ccm_L req < 4 ∧ 2 ^ (8 * ccm_L req) ≤ u32 req.cryptlen) →
        __ccm_encrypt E aead req =
          { ret := -EOVERFLOW, trace := [], iv := req.iv, dst := req.dst }) ∧
      (u32 aead.authsize ≤ u32 req.cryptlen →
        (ccm_L req < 4 ∧ 2 ^ (8 * ccm_L req) ≤ sub_u32 req.cryptlen (u32 aead.authsize)) →
        __ccm_decrypt E aead req =
          { ret := -EOVERFLOW, trace := [], iv := req.iv, dst := req.dst })) := by
  have h : ¬ (ccm_L req < 2 ∨ ccm_L req > 8) := by omega
  have hne : (0 : Int) ≠ -EOVERFLOW := by decide
  have hne' : (-EOVERFLOW : Int) ≠ 0 := by decide
  have hcallers : ∀ (E : ccm_env) (aead : crypto_aead crypto_aes_ctx),
      ((ccm_L req < 4 ∧ 2 ^ (8 * ccm_L req) ≤ u32 req.cryptlen) →
        __ccm_encrypt E aead req =
          { ret := -EOVERFLOW, trace := [], iv := req.iv, dst := req.dst }) ∧
      (u32 aead.authsize ≤ u32 req.cryptlen →
        (ccm_L req < 4 ∧ 2 ^ (8 * ccm_L req) ≤ sub_u32 req.cryptlen (u32 aead.authsize)) →
        __ccm_decrypt E aead req =
          { ret := -EOVERFLOW, trace := [], iv := req.iv, dst := req.dst }) := by
    intro E aead
    constructor
    · intro ho
      simp only [__ccm_encrypt, ccm_init_mac_of_overflow aead.authsize req _ _ hL ho]
      simp [hne']
    · intro ha ho
      have hlt : ¬ u32 req.cryptlen < u32 aead.authsize := by omega
      simp only [__ccm_decrypt, if_neg hlt,
        ccm_init_mac_of_overflow aead.authsize req _ _ hL ho]
      simp [hne']
  by_cases ho : ccm_L req < 4 ∧ 2 ^ (8 * ccm_L req) ≤ msglen
  · have he := ccm_init_mac_of_overflow authsize req maciv msglen hL ho
    exact ⟨⟨fun _ => ho, fun _ => by rw [he]⟩, fun _ => he, fun hn => absurd ho hn,
      hcallers⟩
  · have ho' : ¬ (ccm_L req < 4 ∧ msglen >>> (8 * ccm_L req) ≠ 0) := by
      rw [shiftRight_ne_zero_iff]; exact ho
    have hfit : 4 ≤ ccm_L req ∨ msglen < 2 ^ (8 * ccm_L req) := by
      by_cases h4 : ccm_L req < 4
      · exact Or.inr (Nat.lt_of_not_le fun hle => ho ⟨h4, hle⟩)
      · exact Or.inl (by omega)
    have hz : (ccm_init_mac authsize req maciv msglen).ret = 0 := by
      simp only [ccm_init_mac, if_neg h, if_neg ho']
      exact set_msg_len_fits _ _ _ _ hfit
    refine ⟨⟨fun e => ?_, fun hp => absurd hp ho⟩, fun hp => absurd hp ho,
      fun _ => ⟨hz, fun buf => set_msg_len_fits buf _ _ _ hfit⟩, hcallers⟩
    rw [hz] at e
    exact absurd e hne

/-- Witness of C10 with `L = 2`: a length of `0x10000` overflows, in `ccm_init_mac`
and in `__ccm_encrypt`; `0xffff` does not. -/
theorem ccm_init_mac_overflow_witness :
    ccm_init_mac 8 (ccm_req1 1 3 0x10000) (List.replicate 16 0xaa) 0x10000 =
      { ret := -EOVERFLOW, iv := (ccm_req1 1 3 0x10000).iv,
        maciv := List.replicate 16 0xaa } ∧
    (ccm_init_mac 8 (ccm_req0 1) (List.replicate 16 0xaa) 0xffff).ret = 0 ∧
    (__ccm_encrypt ccm_env0 ccm_tfm0 (ccm_req1 1 3 0x10000)).ret = -EOVERFLOW ∧
    (__ccm_encrypt ccm_env0 ccm_tfm0 (ccm_req1 1 3 0x10000)).trace = [] :=
  have hL : 2 ≤ ccm_L (ccm_req1 1 3 0x10000) ∧ ccm_L (ccm_req1 1 3 0x10000) ≤ 8 := by
    decide
  have ho : ccm_L (ccm_req1 1 3 0x10000) < 4 ∧
      2 ^ (8 * ccm_L (ccm_req1 1 3 0x10000)) ≤ u32 (ccm_req1 1 3 0x10000).cryptlen := by
    decide
  have he := ((ccm_init_mac_overflow 8 (ccm_req1 1 3 0x10000) (List.replicate 16 0xaa)
    0x10000 hL).2.2.2 ccm_env0 ccm_tfm0).1 ho
  ⟨(ccm_init_mac_overflow 8 (ccm_req1 1 3 0x10000) (List.replicate 16 0xaa) 0x10000 hL).2.1
      (by decide),
   ((ccm_init_mac_overflow 8 (ccm_req0 1) (List.replicate 16 0xaa) 0xffff (by decide)).2.2.1
      (by decide)).1,
   by rw [he], by rw [he]⟩

/-- Big-endian bytes of `cpu_to_be32 x` as stored on x86. -/
theorem u32_bytes_cpu_to_be32 (x : Nat) :
    u32_bytes (cpu_to_be32 x) = [x / 2 ^ 24 % 256, x / 2 ^ 16 % 256, x / 2 ^ 8 % 256, x % 256] := by
  simp only [u32_bytes, cpu_to_be32, swab32]
  have ha : x % 256 < 256 := Nat.mod_lt _ (by norm_num)
  have hb : x / 2 ^ 8 % 256 < 256 := Nat.mod_lt _ (by norm_num)
  have hc : x / 2 ^ 16 % 256 < 256 := Nat.mod_lt _ (by norm_num)
  have hd : x / 2 ^ 24 % 256 < 256 := Nat.mod_lt _ (by norm_num)
  generalize x % 256 = a at ha ⊢
  generalize x / 2 ^ 8 % 256 = b at hb ⊢
  generalize x / 2 ^ 16 % 256 = c at hc ⊢
  generalize x / 2 ^ 24 % 256 = d at hd ⊢
  have e1 : (a * 2 ^ 24 + b * 2 ^ 16 + c * 2 ^ 8 + d) % 256 = d := by omega
  have e2 : (a * 2 ^ 24 + b * 2 ^ 16 + c * 2 ^ 8 + d) / 2 ^ 8 % 256 = c := by omega
  have e3 : (a * 2 ^ 24 + b * 2 ^ 16 + c * 2 ^ 8 + d) / 2 ^ 16 % 256 = b := by omega
  have e4 : (a * 2 ^ 24 + b * 2 ^ 16 + c * 2 ^ 8 + d) / 2 ^ 24 % 256 = a := by omega
  rw [e1, e2, e3, e4]

/-- The flag byte of the first MAC block: the bits of `L - 1`, of the tag size and of
the associated-data marker do not overlap. -/
theorem ccm_flags_byte (i0 authsize : Nat) (hi : i0 ≤ 7)
    (hM : authsize % 2 = 0 ∧ 4 ≤ authsize ∧ authsize ≤ 16) :
    (i0 ||| u32 (sub_u32 authsize 2 <<< 2)) % 256 = 8 * ((authsize - 2) / 2) + i0 ∧
    ((8 * ((authsize - 2) / 2) + i0) ||| 0x40) % 256 = 64 + 8 * ((authsize - 2) / 2) + i0 := by
  obtain ⟨h2, h4, h16⟩ := hM
  interval_cases authsize <;> simp at h2 <;> interval_cases i0 <;> decide

/-- C11: when `ccm_init_mac` succeeds on a 16-byte IV whose first byte is a byte,
with an even tag size `M` in `[4, 16]` and a 32-bit message length, the MAC block is
the RFC 3610 block B0: the flag byte `64 * (assoclen ≠ 0) + 8 * ((M - 2) / 2) +
(L - 1)`, then bytes `1 .. 15 - L` of the IV, then `msglen` as an `L`-byte
big-endian integer. -/
theorem ccm_init_mac_b0 (authsize : Nat) (req : aead_request) (maciv : List Nat)
    (msglen : Nat) (hiv : req.iv.length = 16) (hm : maciv.length = 16)
    (hb : req.iv.getD 0 0 < 256)
    (hM : authsize % 2 = 0 ∧ 4 ≤ authsize ∧ authsize ≤ 16) (hlen : msglen < 2 ^ 32)
    (h0 : (ccm_init_mac authsize req maciv msglen).ret = 0) :
    (2 ≤ ccm_L req ∧ ccm_L req ≤ 8) ∧
    (ccm_init_mac authsize req maciv msglen).maciv =
      [64 * (if req.assoclen ≠ 0 then 1 else 0) + 8 * ((authsize - 2) / 2) + (ccm_L req - 1)]
        ++ (req.iv.drop 1).take (15 - ccm_L req) ++ be_encode (ccm_L req) msglen := by
  have hL : ccm_L req = req.iv.getD 0 0 + 1 := by unfold ccm_L u32; omega
  have hne : (-EINVAL : Int) ≠ 0 := by decide
  have hne' : (-EOVERFLOW : Int) ≠ 0 := by decide
  have hr : 2 ≤ ccm_L req ∧ ccm_L req ≤ 8 := by
    by_contra hc
    have hc' : ccm_L req < 2 ∨ ccm_L req > 8 := by omega
    simp [ccm_init_mac, hc', hne] at h0
  refine ⟨hr, ?_⟩
  have hov : ¬ (ccm_L req < 4 ∧ msglen >>> (8 * ccm_L req) ≠ 0) := by
    intro hc
    have hc' : ¬ (ccm_L req < 2 ∨ ccm_L req > 8) := by omega
    simp only [ccm_init_mac, if_neg hc', if_pos hc] at h0
    exact hne' h0
  have hc' : ¬ (ccm_L req < 2 ∨ ccm_L req > 8) := by omega
  have hi : 1 ≤ req.iv.getD 0 0 ∧ req.iv.getD 0 0 ≤ 7 := by omega
  have hfl := ccm_flags_byte (req.iv.getD 0 0) authsize hi.2 hM
  simp only [ccm_init_mac, if_neg hc', if_neg hov, u32_bytes_cpu_to_be32]
  rw [shiftRight_ne_zero_iff] at hov
  rw [hL] at hov ⊢
  generalize req.iv = iv at hiv hi hfl hov ⊢
  match iv, hiv with
  | [i0, i1, i2, i3, i4, i5, i6, i7, i8, i9, i10, i11, i12, i13, i14, i15], _ =>
    match maciv, hm with
    | [m0, m1, m2, m3, m4, m5, m6, m7, m8, m9, m10, m11, m12, m13, m14, m15], _ =>
      simp only [List.getD_cons_zero] at hi hfl hov ⊢
      obtain ⟨hi1, hi7⟩ := hi
      interval_cases i0
      all_goals have hz : u32_bytes 0 = [0, 0, 0, 0] := by decide
      all_goals simp only [set_msg_len, memcpy_at, memset_at, AES_BLOCK_SIZE,
        u32_bytes_cpu_to_be32, hz, be_encode, List.range, List.range.loop, Nat.one_shiftLeft]
      all_goals by_cases ha : req.assoclen = 0
      all_goals simp [ha, hfl.1, hfl.2] at hov ⊢
      all_goals first
        | omega
        | rw [if_neg (by omega)]

/-- Witness of C11 for `L = 2`, `M = 8`, no associated data and `msglen = 0x1234`. -/
theorem ccm_init_mac_b0_witness :
    (ccm_init_mac 8 (ccm_req0 1) (List.replicate 16 0xaa) 0x1234).maciv =
      [25, 1, 2, 3, 4, 5, 6, 7, 8, 9, 10, 11, 12, 13, 0x12, 0x34] :=
  (ccm_init_mac_b0 8 (ccm_req0 1) (List.replicate 16 0xaa) 0x1234 (by decide) (by decide)
    (by decide) (by decide) (by decide) (by decide)).2.trans (by decide)

/-- On a 16-byte block `crypto_xor` over 16 bytes is the bytewise exclusive or with
the first 16 source bytes. -/
theorem crypto_xor_block (mac src : List Nat) (hm : mac.length = 16) (hs : 16 ≤ src.length) :
    crypto_xor mac src 16 = xor_bytes mac (src.take 16) := by
  apply List.ext_getElem
  · simp [crypto_xor, xor_bytes, hm, hs]
  · intro i h1 h2
    have hi : i < 16 := by simpa [crypto_xor, hm] using h1
    simp [crypto_xor, xor_bytes, hi, List.getElem?_eq_getElem (show i < src.length by omega)]

/-- Storing a 16-byte block over a 16-byte buffer leaves the block. -/
theorem memcpy_at_block (x y : List Nat) (hx : x.length = 16) (hy : y.length = 16) :
    memcpy_at x 0 y 16 = y := by
  have h1 : y.take 16 = y := List.take_of_length_le (le_of_eq hy)
  have h2 : x.drop 16 = [] := List.drop_of_length_le (le_of_eq hx)
  simp [memcpy_at, h1, h2]

/-- The xor of two 16-byte blocks is a 16-byte block. -/
theorem xor_bytes_length (a b : List Nat) (ha : a.length = 16) (hb : b.length = 16) :
    (xor_bytes a b).length = 16 := by
  simp [xor_bytes, ha, hb]

/-- CBC-MAC chaining keeps the running value 16 bytes long. -/
theorem cbc_mac_absorb_length (enc : List Nat → List Nat) (hE : ∀ b, (enc b).length = 16) :
    ∀ (k : Nat) (mac msg : List Nat), mac.length = 16 →
      (cbc_mac_absorb enc k mac msg).length = 16
  | 0, _, _, h => h
  | k + 1, _, msg, _ => cbc_mac_absorb_length enc hE k _ (msg.drop 16) (hE _)

/-- CBC-MAC chaining over `k1 + k2` blocks is chaining over `k1` blocks and then over
the next `k2`. -/
theorem cbc_mac_absorb_add (enc : List Nat → List Nat) :
    ∀ (k1 k2 : Nat) (mac msg : List Nat),
      cbc_mac_absorb enc (k1 + k2) mac msg =
        cbc_mac_absorb enc k2 (cbc_mac_absorb enc k1 mac msg) (msg.drop (16 * k1))
  | 0, k2, mac, msg => by simp [cbc_mac_absorb]
  | k1 + 1, k2, mac, msg => by
    rw [show k1 + 1 + k2 = (k1 + k2) + 1 by omega]
    simp only [cbc_mac_absorb]
    rw [cbc_mac_absorb_add enc k1 k2, List.drop_drop]
    congr 2
    omega

/-- CBC-MAC chaining over `k` blocks reads the first `16 * k` bytes only. -/
theorem cbc_mac_absorb_append (enc : List Nat → List Nat) :
    ∀ (k : Nat) (mac x y : List Nat), 16 * k ≤ x.length →
      cbc_mac_absorb enc k mac (x ++ y) = cbc_mac_absorb enc k mac x
  | 0, _, _, _, _ => rfl
  | k + 1, mac, x, y, h => by
    simp only [cbc_mac_absorb]
    rw [List.take_append_of_le_length (by omega), List.drop_append_of_le_length (by omega)]
    exact cbc_mac_absorb_append enc k _ _ y (by rw [List.length_drop]; omega)

/-- The block loop of `compute_mac` is CBC-MAC chaining over the `n / 16` whole
blocks of the data; `n % 16` bytes are left. -/
theorem compute_mac_loop_eq (E : ccm_env) (ctx : crypto_aes_ctx) (hE : stores_block E) :
    ∀ (fuel : Nat) (mac data : List Nat) (n : Nat), mac.length = 16 → n ≤ data.length →
      n ≤ fuel →
      compute_mac_loop E ctx fuel mac data n =
        (cbc_mac_absorb (E.aesni_enc ctx) (n / 16) mac data, data.drop (16 * (n / 16)),
          n % 16, List.replicate (n / 16) Event.aesni_enc)
  | 0, mac, data, n, _, _, hf => by
    have : n = 0 := by omega
    subst this
    simp [compute_mac_loop, cbc_mac_absorb]
  | fuel + 1, mac, data, n, hm, hn, hf => by
    by_cases h16 : n ≥ AES_BLOCK_SIZE
    · have h16' : 16 ≤ n := h16
      have hx := crypto_xor_block mac data hm (by omega)
      have hl : (xor_bytes mac (data.take 16)).length = 16 :=
        xor_bytes_length _ _ hm (by rw [List.length_take]; omega)
      have hq : n / 16 = (n - 16) / 16 + 1 := by omega
      have hr : n % 16 = (n - 16) % 16 := by omega
      simp only [compute_mac_loop, if_pos h16, AES_BLOCK_SIZE] at *
      rw [hx, memcpy_at_block _ _ hl (hE ctx _),
        compute_mac_loop_eq E ctx hE fuel _ (data.drop 16) (n - 16) (hE ctx _)
          (by rw [List.length_drop]; omega) (by omega)]
      rw [hq, hr, show 16 * ((n - 16) / 16 + 1) = 16 + 16 * ((n - 16) / 16) by ring]
      simp only [cbc_mac_absorb, List.drop_drop, List.replicate_succ]
      rw [if_pos h16]
    · have h16' : n < 16 := by simpa [AES_BLOCK_SIZE] using h16
      have hq : n / 16 = 0 := by omega
      have hr : n % 16 = n := by omega
      simp [compute_mac_loop, if_neg h16, hq, hr, cbc_mac_absorb]

/-- One call of `compute_mac` on a well-formed state: the carry followed by the data
is cut into 16-byte blocks, the whole blocks are chained into the MAC, and the rest
becomes the new carry. -/
theorem compute_mac_eq (E : ccm_env) (ctx : crypto_aes_ctx) (hE : stores_block E)
    (mac data idata : List Nat) (ilen : Nat) (hm : mac.length = 16)
    (hid : idata.length = 16) (hil : ilen < 16) :
    (compute_mac E ctx mac data data.length ilen idata).mac =
      cbc_mac_absorb (E.aesni_enc ctx) ((idata.take ilen ++ data).length / 16) mac
        (idata.take ilen ++ data) ∧
    (compute_mac E ctx mac data data.length ilen idata).ilen =
      (idata.take ilen ++ data).length % 16 ∧
    (compute_mac E ctx mac data data.length ilen idata).carry =
      (idata.take ilen ++ data).drop (16 * ((idata.take ilen ++ data).length / 16)) ∧
    (compute_mac E ctx mac data data.length ilen idata).idata.length = 16 ∧
    (compute_mac E ctx mac data data.length ilen idata).trace =
      List.replicate ((idata.take ilen ++ data).length / 16) Event.aesni_enc := by
  have hlen : (idata.take ilen ++ data).length = ilen + data.length := by
    simp [List.length_take, hid]; omega
  have htl : (idata.take ilen).length = ilen := by
    rw [List.length_take]; omega
  by_cases hg : data.length ≥ AES_BLOCK_SIZE - ilen
  · have hg' : 16 - ilen ≤ data.length := hg
    -- the first block
    have hi1 : memcpy_at idata ilen data (16 - ilen) = (idata.take ilen ++ data).take 16 := by
      have hd : idata.drop (ilen + (16 - ilen)) = [] :=
        List.drop_of_length_le (by omega)
      rw [memcpy_at, hd, List.append_nil, List.take_append_eq_append_take, htl,
        List.take_of_length_le (show (idata.take ilen).length ≤ 16 by omega)]
    have hl1 : ((idata.take ilen ++ data).take 16).length = 16 := by
      rw [List.length_take, hlen]; omega
    have hx := crypto_xor_block mac ((idata.take ilen ++ data).take 16) hm (le_of_eq hl1.symm)
    rw [List.take_take, Nat.min_self] at hx
    have hlx : (xor_bytes mac ((idata.take ilen ++ data).take 16)).length = 16 :=
      xor_bytes_length _ _ hm hl1
    have hdrop : (idata.take ilen ++ data).drop 16 = data.drop (16 - ilen) := by
      rw [List.drop_append_eq_append_drop, htl,
        List.drop_of_length_le (show (idata.take ilen).length ≤ 16 by omega), List.nil_append]
    have hloop := compute_mac_loop_eq E ctx hE (data.length - (16 - ilen))
      (E.aesni_enc ctx (xor_bytes mac ((idata.take ilen ++ data).take 16)))
      (data.drop (16 - ilen)) (data.length - (16 - ilen)) (hE ctx _)
      (by rw [List.length_drop]) (le_refl _)
    have hq : (ilen + data.length) / 16 = (data.length - (16 - ilen)) / 16 + 1 := by omega
    have hr : (ilen + data.length) % 16 = (data.length - (16 - ilen)) % 16 := by omega
    have hrest : ((data.drop (16 - ilen)).drop (16 * ((data.length - (16 - ilen)) / 16))).length
        = (data.length - (16 - ilen)) % 16 := by
      simp only [List.length_drop]; omega
    simp only [compute_mac, AES_BLOCK_SIZE, if_pos hg', hi1, hx,
      memcpy_at_block _ _ hlx (hE ctx _), hloop, hlen, hq, hr, mac_state.carry]
    have hd2 : (idata.take ilen ++ data).drop (16 * ((data.length - (16 - ilen)) / 16 + 1))
        = (data.drop (16 - ilen)).drop (16 * ((data.length - (16 - ilen)) / 16)) := by
      rw [← hdrop, List.drop_drop]
      congr 1
      ring
    by_cases hz : (data.length - (16 - ilen)) % 16 ≠ 0
    · simp only [if_pos hz, cbc_mac_absorb, hdrop, hd2, List.replicate_succ]
      refine ⟨trivial, by omega, ?_, ?_, by simp⟩
      · simp only [memcpy_at, List.take_zero, List.nil_append, Nat.zero_add]
        rw [List.take_append_of_le_length (by rw [List.length_take, hrest]; omega),
          List.take_take, Nat.min_self, List.take_of_length_le (le_of_eq hrest)]
      · simp only [memcpy_at, List.take_zero, List.nil_append, Nat.zero_add,
          List.length_append, List.length_take, List.length_drop, hrest, hl1]
        omega
    · have hz' : (data.length - (16 - ilen)) % 16 = 0 := not_not.mp hz
      simp only [if_neg hz, cbc_mac_absorb, hdrop, hd2, List.replicate_succ]
      refine ⟨trivial, by omega, ?_, hl1, by simp⟩
      rw [List.take_zero]
      exact (List.eq_nil_of_length_eq_zero (by rw [hrest, hz'])).symm
  · have hg' : data.length < 16 - ilen := by
      simp only [AES_BLOCK_SIZE] at hg; omega
    have hloop := compute_mac_loop_eq E ctx hE data.length mac data data.length hm
      (le_refl _) (le_refl _)
    have hq0 : data.length / 16 = 0 := by omega
    have hr0 : data.length % 16 = data.length := by omega
    have hq : (ilen + data.length) / 16 = 0 := by omega
    have hr : (ilen + data.length) % 16 = ilen + data.length := by omega
    have hng : ¬ data.length ≥ 16 - ilen := by omega
    simp only [compute_mac, AES_BLOCK_SIZE, if_neg hng, hloop, hlen, hq, hr, hq0, hr0,
      mac_state.carry, cbc_mac_absorb, Nat.mul_zero, List.drop_zero, List.replicate_zero]
    by_cases hz : data.length ≠ 0
    · simp only [if_pos hz]
      refine ⟨trivial, trivial, ?_, ?_, by simp⟩
      · rw [memcpy_at, List.append_assoc, List.take_append_eq_append_take, htl,
          List.take_of_length_le (show (idata.take ilen).length ≤ ilen + data.length by omega),
          List.take_length, show ilen + data.length - ilen = data.length by omega,
          List.take_append_of_le_length (le_refl _), List.take_length]
      · simp only [memcpy_at, List.length_append, List.length_take, List.length_drop, hid]
        omega
    · have hz' : data.length = 0 := not_not.mp hz
      have hnil : data = [] := List.eq_nil_of_length_eq_zero hz'
      simp only [if_neg hz]
      refine ⟨trivial, by omega, ?_, hid, by simp⟩
      simp [hnil]

/-- Chaining over the whole blocks of `x ++ y` is chaining over the whole blocks of
`x` and then over the whole blocks of what `x` left followed by `y`; the bytes left
at the end are the same. -/
theorem cbc_mac_absorb_split (enc : List Nat → List Nat) (mac x y : List Nat) :
    cbc_mac_absorb enc ((x ++ y).length / 16) mac (x ++ y) =
      cbc_mac_absorb enc ((x.drop (16 * (x.length / 16)) ++ y).length / 16)
        (cbc_mac_absorb enc (x.length / 16) mac x) (x.drop (16 * (x.length / 16)) ++ y) ∧
    (x ++ y).drop (16 * ((x ++ y).length / 16)) =
      (x.drop (16 * (x.length / 16)) ++ y).drop
        (16 * ((x.drop (16 * (x.length / 16)) ++ y).length / 16)) ∧
    (x ++ y).length / 16 =
      x.length / 16 + (x.drop (16 * (x.length / 16)) ++ y).length / 16 ∧
    (x ++ y).length % 16 = (x.drop (16 * (x.length / 16)) ++ y).length % 16 := by
  have hl : (x.drop (16 * (x.length / 16)) ++ y).length = x.length % 16 + y.length := by
    simp only [List.length_append, List.length_drop]; omega
  have hq : (x ++ y).length / 16 = x.length / 16 + (x.length % 16 + y.length) / 16 := by
    simp only [List.length_append]; omega
  have hr : (x ++ y).length % 16 = (x.length % 16 + y.length) % 16 := by
    simp only [List.length_append]; omega
  have hle : 16 * (x.length / 16) ≤ x.length := by omega
  have hd : (x ++ y).drop (16 * (x.length / 16)) = x.drop (16 * (x.length / 16)) ++ y :=
    List.drop_append_of_le_length hle
  refine ⟨?_, ?_, by rw [hl, hq], by rw [hl, hr]⟩
  · rw [hl, hq, cbc_mac_absorb_add, hd, cbc_mac_absorb_append enc _ mac x y hle]
  · rw [hl, hq, ← hd, List.drop_drop]
    congr 1
    ring

/-- The running MAC of `compute_mac` stays 16 bytes long. -/
theorem compute_mac_sized (E : ccm_env) (ctx : crypto_aes_ctx) (hE : stores_block E)
    (s : mac_state) (data : List Nat) (hs : s.sized) :
    (compute_mac E ctx s.mac data data.length s.ilen s.idata).sized := by
  obtain ⟨hm, hid, hil⟩ := hs
  obtain ⟨h1, h2, -, h4, -⟩ := compute_mac_eq E ctx hE s.mac data s.idata s.ilen hm hid hil
  refine ⟨?_, h4, ?_⟩
  · rw [h1]; exact cbc_mac_absorb_length _ (hE ctx) _ _ _ hm
  · rw [h2]; exact Nat.mod_lt _ (by norm_num)

/-- The fragment loop of `get_data_to_compute`: feeding the fragments one by one
chains the whole blocks of carry ‖ fragments into the MAC and carries the rest. -/
theorem get_data_to_compute_walk_eq (E : ccm_env) (ctx : crypto_aes_ctx) (hE : stores_block E) :
    ∀ (frags : List (List Nat)) (s : mac_state), s.sized →
      (get_data_to_compute_walk E ctx s frags).sized ∧
      (get_data_to_compute_walk E ctx s frags).mac =
        cbc_mac_absorb (E.aesni_enc ctx) ((s.carry ++ frags.flatten).length / 16) s.mac
          (s.carry ++ frags.flatten) ∧
      (get_data_to_compute_walk E ctx s frags).ilen = (s.carry ++ frags.flatten).length % 16 ∧
      (get_data_to_compute_walk E ctx s frags).carry =
        (s.carry ++ frags.flatten).drop (16 * ((s.carry ++ frags.flatten).length / 16)) ∧
      (get_data_to_compute_walk E ctx s frags).trace =
        s.trace ++ List.replicate ((s.carry ++ frags.flatten).length / 16) Event.aesni_enc
  | [], s, hs => by
    have hc : s.carry.length = s.ilen := by
      simp only [mac_state.carry, List.length_take]; have := hs.2.1; have := hs.2.2; omega
    have hq : s.carry.length / 16 = 0 := by have := hs.2.2; omega
    have hr : s.carry.length % 16 = s.ilen := by have := hs.2.2; omega
    simp [get_data_to_compute_walk, hs, hq, hr, cbc_mac_absorb]
  | d :: fs, s, hs => by
    obtain ⟨hm, hid, hil⟩ := hs
    obtain ⟨h1, h2, h3, h4, h5⟩ :=
      compute_mac_eq E ctx hE s.mac d s.idata s.ilen hm hid hil
    have hs1 := compute_mac_sized E ctx hE s d ⟨hm, hid, hil⟩
    obtain ⟨t, hdef⟩ : ∃ t : mac_state, t =
        { compute_mac E ctx s.mac d d.length s.ilen s.idata with
          trace := s.trace ++ (compute_mac E ctx s.mac d d.length s.ilen s.idata).trace } :=
      ⟨_, rfl⟩
    have hw : get_data_to_compute_walk E ctx s (d :: fs) =
        get_data_to_compute_walk E ctx t fs := by
      rw [hdef]; simp [get_data_to_compute_walk]
    have e_mac : t.mac = cbc_mac_absorb (E.aesni_enc ctx)
        ((s.idata.take s.ilen ++ d).length / 16) s.mac (s.idata.take s.ilen ++ d) := by
      rw [hdef]; exact h1
    have e_car : t.carry = (s.idata.take s.ilen ++ d).drop
        (16 * ((s.idata.take s.ilen ++ d).length / 16)) := by
      rw [hdef]; exact h3
    have e_tr : t.trace = s.trace ++
        List.replicate ((s.idata.take s.ilen ++ d).length / 16) Event.aesni_enc := by
      rw [hdef]; show s.trace ++ _ = _; rw [h5]
    have ht : t.sized := by rw [hdef]; exact hs1
    obtain ⟨i0, i1, i2, i3, i4⟩ := get_data_to_compute_walk_eq E ctx hE fs t ht
    obtain ⟨p1, p2, p3, p4⟩ := cbc_mac_absorb_split (E.aesni_enc ctx) s.mac
      (s.idata.take s.ilen ++ d) fs.flatten
    have hfl : s.carry ++ (d :: fs).flatten = (s.idata.take s.ilen ++ d) ++ fs.flatten := by
      simp [mac_state.carry]
    rw [hw, hfl]
    refine ⟨i0, ?_, ?_, ?_, ?_⟩
    · rw [i1, e_car, e_mac, p1]
    · rw [i2, e_car, p4]
    · rw [i3, e_car, p2]
    · rw [i4, e_car, e_tr, p3, List.append_assoc, List.replicate_add]

/-- The padded length is a multiple of 16. -/
theorem pad16_length (d : List Nat) : (pad16 d).length % 16 = 0 := by
  simp only [pad16, List.length_append, List.length_replicate]; omega

/-- Chaining over two strings of whole blocks is chaining over the first and then
over the second. -/
theorem cbc_mac_absorb_blocks (enc : List Nat → List Nat) (mac x y : List Nat)
    (hx : x.length % 16 = 0) :
    cbc_mac_absorb enc ((x ++ y).length / 16) mac (x ++ y) =
      cbc_mac_absorb enc (y.length / 16) (cbc_mac_absorb enc (x.length / 16) mac x) y := by
  have hd : x.drop (16 * (x.length / 16)) = [] :=
    List.drop_of_length_le (by omega)
  have h := (cbc_mac_absorb_split enc mac x y).1
  rw [hd, List.nil_append] at h
  exact h

/-- What `get_data_to_compute` computes on a well-formed state: the carry followed by
the fragments, zero-padded to a block boundary, is chained into the MAC; no carry is
left. -/
theorem get_data_to_compute_eq (E : ccm_env) (ctx : crypto_aes_ctx) (hE : stores_block E)
    (mac idata : List Nat) (frags : List (List Nat)) (ilen : Nat) (hm : mac.length = 16)
    (hid : idata.length = 16) (hil : ilen < 16) :
    (get_data_to_compute E ctx mac idata frags ilen).mac =
      cbc_mac_absorb (E.aesni_enc ctx) ((pad16 (idata.take ilen ++ frags.flatten)).length / 16)
        mac (pad16 (idata.take ilen ++ frags.flatten)) ∧
    (get_data_to_compute E ctx mac idata frags ilen).ilen = 0 ∧
    (get_data_to_compute E ctx mac idata frags ilen).sized := by
  obtain ⟨w0, w1, w2, w3, -⟩ := get_data_to_compute_walk_eq E ctx hE frags
    { mac := mac, idata := idata, ilen := ilen, trace := [] } ⟨hm, hid, hil⟩
  simp only [mac_state.carry] at w1 w2 w3
  obtain ⟨t, ht⟩ : ∃ t : mac_state, t = get_data_to_compute_walk E ctx
      { mac := mac, idata := idata, ilen := ilen, trace := [] } frags := ⟨_, rfl⟩
  rw [← ht] at w0 w1 w2 w3
  obtain ⟨X, hX⟩ : ∃ X : List Nat, X = idata.take ilen ++ frags.flatten := ⟨_, rfl⟩
  rw [← hX] at w1 w2 w3 ⊢
  by_cases hz : t.ilen ≠ 0
  · have hr : X.length % 16 ≠ 0 := by rw [← w2]; exact hz
    have hr16 : t.ilen < 16 := w0.2.2
    have hi1 : memset_at t.idata t.ilen 0 (16 - t.ilen) =
        X.drop (16 * (X.length / 16)) ++ List.replicate (16 - t.ilen) 0 := by
      have hd : t.idata.drop (t.ilen + (16 - t.ilen)) = [] :=
        List.drop_of_length_le (by have := w0.2.1; omega)
      rw [memset_at, hd, List.append_nil, w3]
    have hcl : (X.drop (16 * (X.length / 16))).length = t.ilen := by
      rw [List.length_drop, w2]; omega
    have hl1 : (X.drop (16 * (X.length / 16)) ++ List.replicate (16 - t.ilen) 0).length = 16 := by
      rw [List.length_append, List.length_replicate, hcl]; omega
    have hx := crypto_xor_block t.mac _ w0.1 (le_of_eq hl1.symm)
    rw [List.take_of_length_le (le_of_eq hl1)] at hx
    have hlx := xor_bytes_length t.mac _ w0.1 hl1
    have hpad : pad16 X = X ++ List.replicate (16 - t.ilen) 0 := by
      rw [pad16, w2, Nat.mod_eq_of_lt (show 16 - X.length % 16 < 16 by omega)]
    have hq : (X ++ List.replicate (16 - t.ilen) 0).length / 16 = X.length / 16 + 1 := by
      rw [List.length_append, List.length_replicate, w2]; omega
    have hres : get_data_to_compute E ctx mac idata frags ilen =
        { mac := E.aesni_enc ctx (xor_bytes t.mac
            (X.drop (16 * (X.length / 16)) ++ List.replicate (16 - t.ilen) 0)),
          idata := X.drop (16 * (X.length / 16)) ++ List.replicate (16 - t.ilen) 0,
          ilen := 0, trace := t.trace ++ [.aesni_enc] } := by
      simp only [get_data_to_compute, ← ht, if_pos hz, AES_BLOCK_SIZE, hi1, hx,
        memcpy_at_block _ _ hlx (hE ctx _)]
    rw [hres, hpad, hq, cbc_mac_absorb_add]
    refine ⟨?_, rfl, hE ctx _, hl1, by norm_num⟩
    simp only [cbc_mac_absorb]
    rw [cbc_mac_absorb_append _ _ _ X _ (by omega), ← w1,
      List.drop_append_of_le_length (by omega), List.take_of_length_le (le_of_eq hl1)]
  · have hz' : t.ilen = 0 := not_not.mp hz
    have hr : X.length % 16 = 0 := by rw [← w2]; exact hz'
    have hpad : pad16 X = X := by
      rw [pad16, hr]; simp
    have hres : get_data_to_compute E ctx mac idata frags ilen = t := by
      simp only [get_data_to_compute, ← ht, if_neg hz]
    rw [hres, hpad]
    exact ⟨w1, hz', w0⟩

/-- The fragments the scatter walk maps are, in order, the bytes
`scatterwalk_map_and_copy` reads: both are the `len` bytes of the list from `start`. -/
theorem sg_frags_flatten : ∀ (sg : List scatterlist) (start len : Nat),
    sg_sized sg → (sg_frags sg start len).flatten = sg_copy_from sg start len
  | [], start, len, _ => by simp [sg_frags, sg_copy_from, sg_bytes]
  | e :: es, start, len, h => by
    have he : e.length ≤ e.data.length := h e (List.mem_cons_self _ _)
    have hes : sg_sized es := fun x hx => h x (List.mem_cons_of_mem _ hx)
    have hl : (e.data.take e.length).length = e.length := by
      rw [List.length_take]; omega
    by_cases h0 : len = 0
    · simp [sg_frags, sg_copy_from, h0]
    · by_cases hs : e.length ≤ start
      · simp only [sg_frags, if_neg h0, if_pos hs, sg_frags_flatten es _ _ hes, sg_copy_from,
          sg_bytes]
        rw [List.drop_append_eq_append_drop, hl,
          List.drop_of_length_le (show (e.data.take e.length).length ≤ start by omega),
          List.nil_append]
      · have hdl : ((e.data.take e.length).drop start).length = e.length - start := by
          rw [List.length_drop, hl]
        simp only [sg_frags, if_neg h0, if_neg hs, List.flatten_cons,
          sg_frags_flatten es _ _ hes, sg_copy_from, sg_bytes, List.drop_zero]
        rw [List.drop_append_of_le_length (show start ≤ (e.data.take e.length).length by omega),
          List.take_append_eq_append_take, hdl, ← List.take_take,
          List.take_of_length_le (le_of_eq hdl),
          show len - min len (e.length - start) = len - (e.length - start) by omega]

/-- The xor of the zero block with a 16-byte block is that block. -/
theorem xor_bytes_zero (b : List Nat) (hb : b.length = 16) :
    xor_bytes (List.replicate 16 0) b = b := by
  apply List.ext_getElem
  · simp [xor_bytes, hb]
  · intro i h1 h2
    simp only [xor_bytes, List.getElem_zipWith, List.getElem_replicate, Nat.zero_xor]

/-- The two length prefixes written by `ccm_calculate_auth_mac` are those of the CCM
framing. -/
theorem ccm_aad_len_field_eq (a : List Nat) (h32 : a.length < 2 ^ 32) :
    ccm_aad_len_field a =
      if a.length < 0xff00 then be16_bytes a.length
      else be16_bytes 0xfffe ++ u32_bytes (cpu_to_be32 a.length) := by
  have h4 : a.length / 2 ^ 24 % 256 = a.length / 2 ^ 24 := by omega
  simp [ccm_aad_len_field, be_encode, be16_bytes, u32_bytes_cpu_to_be32, List.range,
    List.range.loop]

/-- The number of bytes `scatterwalk_map_and_copy` reads when the list is long
enough. -/
theorem sg_copy_from_length (sg : List scatterlist) (start n : Nat)
    (h : start + n ≤ (sg_bytes sg).length) : (sg_copy_from sg start n).length = n := by
  simp only [sg_copy_from, List.length_take, List.length_drop]; omega

/-- What `ccm_calculate_auth_mac` computes, as chaining steps: the block in `mac` is
encrypted, then the padded length-prefixed associated data is chained in (when there
is any), then the padded payload. -/
theorem ccm_calculate_auth_mac_chain (E : ccm_env) (hE : stores_block E)
    (req : aead_request) (ctx : crypto_aes_ctx) (mac : List Nat) (src : List scatterlist)
    (src_start cryptlen : Nat) (hm : mac.length = 16) (ha32 : req.assoclen < 2 ^ 32)
    (hsa : sg_sized req.src) (hsp : sg_sized src)
    (ha : req.assoclen ≤ (sg_bytes req.src).length)
    (hp : src_start + cryptlen ≤ (sg_bytes src).length) :
    (ccm_calculate_auth_mac E req ctx mac src src_start cryptlen).1 =
      cbc_mac_absorb (E.aesni_enc ctx)
        ((pad16 (sg_copy_from src src_start cryptlen)).length / 16)
        (cbc_mac_absorb (E.aesni_enc ctx)
          ((if (sg_copy_from req.src 0 req.assoclen).length = 0 then []
            else pad16 (ccm_aad_len_field (sg_copy_from req.src 0 req.assoclen) ++
              sg_copy_from req.src 0 req.assoclen)).length / 16)
          (E.aesni_enc ctx mac)
          (if (sg_copy_from req.src 0 req.assoclen).length = 0 then []
            else pad16 (ccm_aad_len_field (sg_copy_from req.src 0 req.assoclen) ++
              sg_copy_from req.src 0 req.assoclen)))
        (pad16 (sg_copy_from src src_start cryptlen)) := by
  have hal := sg_copy_from_length req.src 0 req.assoclen (by omega)
  have hml := sg_copy_from_length src src_start cryptlen hp
  have hfa := sg_frags_flatten req.src 0 req.assoclen hsa
  have hfm := sg_frags_flatten src src_start cryptlen hsp
  obtain ⟨a, hadef⟩ : ∃ a : List Nat, a = sg_copy_from req.src 0 req.assoclen := ⟨_, rfl⟩
  obtain ⟨m, hmdef⟩ : ∃ m : List Nat, m = sg_copy_from src src_start cryptlen := ⟨_, rfl⟩
  rw [← hadef] at hal hfa ⊢
  rw [← hmdef] at hml hfm ⊢
  have hu : u32 req.assoclen = req.assoclen := Nat.mod_eq_of_lt ha32
  have hmac1 : memcpy_at mac 0 (E.aesni_enc ctx mac) AES_BLOCK_SIZE = E.aesni_enc ctx mac :=
    memcpy_at_block _ _ hm (hE ctx _)
  have hi0 : (List.replicate AES_BLOCK_SIZE 0).length = 16 := by simp [AES_BLOCK_SIZE]
  -- the payload step
  have hpay : ∀ s1 : mac_state, s1.sized → s1.ilen = 0 →
      (if cryptlen ≠ 0 then
        (get_data_to_compute E ctx s1.mac s1.idata (sg_frags src src_start cryptlen)
          s1.ilen).mac
       else s1.mac) =
      cbc_mac_absorb (E.aesni_enc ctx) ((pad16 m).length / 16) s1.mac (pad16 m) := by
    intro s1 hs1 hil
    by_cases hc : cryptlen ≠ 0
    · rw [if_pos hc, (get_data_to_compute_eq E ctx hE s1.mac s1.idata _ s1.ilen hs1.1
        hs1.2.1 hs1.2.2).1, hfm, hil, List.take_zero, List.nil_append]
    · have hm0 : m = [] := List.eq_nil_of_length_eq_zero (by rw [hml]; exact not_not.mp hc)
      rw [if_neg hc, hm0]
      simp [pad16, cbc_mac_absorb]
  have hfst : ∀ (c : Prop) [Decidable c] (x y : List Nat) (t t' : List Event),
      (if c then (x, t) else (y, t')).1 = if c then x else y := by
    intro c _ x y t t'; split_ifs <;> rfl
  by_cases hl0 : req.assoclen ≠ 0
  · have hane : ¬ a.length = 0 := by rw [hal]; exact hl0
    -- the carry buffer holding the length prefix
    obtain ⟨idata, ilen, hcarry, hidl, hil, htag⟩ : ∃ (idata : List Nat) (ilen : Nat),
        idata.take ilen = ccm_aad_len_field a ∧ idata.length = 16 ∧ ilen < 16 ∧
        (if req.assoclen < 0xff00 then
          (memcpy_at (List.replicate AES_BLOCK_SIZE 0) 0 (be16_bytes req.assoclen) 2, 2)
        else
          (memcpy_at (memcpy_at (List.replicate AES_BLOCK_SIZE 0) 0 (be16_bytes 0xfffe) 2) 2
            (u32_bytes (cpu_to_be32 req.assoclen)) 4, 6)) = (idata, ilen) := by
      rw [ccm_aad_len_field_eq a (by rw [hal]; exact ha32), hal]
      by_cases hlt : req.assoclen < 0xff00
      · exact ⟨memcpy_at (List.replicate AES_BLOCK_SIZE 0) 0 (be16_bytes req.assoclen) 2, 2,
          by simp [if_pos hlt, memcpy_at, be16_bytes, AES_BLOCK_SIZE],
          by simp [memcpy_at, be16_bytes, AES_BLOCK_SIZE], by norm_num, by rw [if_pos hlt]⟩
      · exact ⟨memcpy_at (memcpy_at (List.replicate AES_BLOCK_SIZE 0) 0 (be16_bytes 0xfffe) 2) 2
            (u32_bytes (cpu_to_be32 req.assoclen)) 4, 6,
          by simp [if_neg hlt, memcpy_at, be16_bytes, u32_bytes, AES_BLOCK_SIZE],
          by simp [memcpy_at, be16_bytes, u32_bytes, AES_BLOCK_SIZE], by norm_num,
          by rw [if_neg hlt]⟩
    obtain ⟨g1, g2, g3⟩ := get_data_to_compute_eq E ctx hE (E.aesni_enc ctx mac) idata
      (sg_frags req.src 0 req.assoclen) ilen (hE ctx _) hidl hil
    rw [hfa, hcarry] at g1
    simp only [ccm_calculate_auth_mac, hmac1, hu, if_pos hl0, htag, hfst]
    rw [hpay _ g3 g2, g1, if_neg hane]
  · have ha0 : a.length = 0 := by rw [hal]; exact not_not.mp hl0
    simp only [ccm_calculate_auth_mac, hmac1, hu, if_neg hl0, hfst]
    rw [hpay (⟨E.aesni_enc ctx mac, List.replicate AES_BLOCK_SIZE 0, 0, []⟩ : mac_state)
        ⟨hE ctx _, hi0, by norm_num⟩ rfl, if_pos ha0]
    simp [cbc_mac_absorb]

/-- The CBC-MAC of a framed message, as chaining steps: B0 is encrypted, then the
associated-data part is chained in, then the payload part. -/
theorem cbc_mac_ccm_framed (enc : List Nat → List Nat) (b0 a m : List Nat)
    (hb : b0.length = 16) :
    cbc_mac enc (ccm_framed b0 a m) =
      cbc_mac_absorb enc ((pad16 m).length / 16)
        (cbc_mac_absorb enc
          ((if a.length = 0 then [] else pad16 (ccm_aad_len_field a ++ a)).length / 16)
          (enc b0) (if a.length = 0 then [] else pad16 (ccm_aad_len_field a ++ a)))
        (pad16 m) := by
  obtain ⟨A, hA⟩ : ∃ A : List Nat, A =
      (if a.length = 0 then [] else pad16 (ccm_aad_len_field a ++ a)) := ⟨_, rfl⟩
  have hAl : A.length % 16 = 0 := by
    rw [hA]; split_ifs
    · rfl
    · exact pad16_length _
  -- the first block of the framed message is B0 itself
  have h1 : cbc_mac_absorb enc (b0.length / 16) (List.replicate 16 0) b0 = enc b0 := by
    rw [hb]
    simp only [Nat.div_self (show 0 < 16 by norm_num), cbc_mac_absorb]
    rw [List.take_of_length_le (le_of_eq hb), xor_bytes_zero b0 hb]
  rw [ccm_framed, ← hA, cbc_mac, List.append_assoc,
    cbc_mac_absorb_blocks _ _ b0 (A ++ pad16 _) (by rw [hb]), h1,
    cbc_mac_absorb_blocks _ _ A (pad16 _) hAl]

/-- C12: started on a 16-byte block B0, with a block function that stores 16 bytes
and scatter lists that hold the associated data `a` (`assoclen` bytes of `req->src`)
and the payload `m` (`cryptlen` bytes from the position `src` points at),
`ccm_calculate_auth_mac` leaves in `mac` the CBC-MAC with zero initial value of the
framed message B0 ‖ pad16(len_prefix(a) ‖ a) ‖ pad16(m), where the associated-data
part is absent when `a` is empty and the payload part is empty when `m` is. -/
theorem ccm_calculate_auth_mac_cbc_mac (E : ccm_env) (hE : stores_block E)
    (req : aead_request) (ctx : crypto_aes_ctx) (mac : List Nat) (src : List scatterlist)
    (src_start cryptlen : Nat) (hm : mac.length = 16) (ha32 : req.assoclen < 2 ^ 32)
    (hsa : sg_sized req.src) (hsp : sg_sized src)
    (ha : req.assoclen ≤ (sg_bytes req.src).length)
    (hp : src_start + cryptlen ≤ (sg_bytes src).length) :
    (ccm_calculate_auth_mac E req ctx mac src src_start cryptlen).1 =
      cbc_mac (E.aesni_enc ctx)
        (ccm_framed mac (sg_copy_from req.src 0 req.assoclen)
          (sg_copy_from src src_start cryptlen)) := by
  rw [ccm_calculate_auth_mac_chain E hE req ctx mac src src_start cryptlen hm ha32 hsa hsp
    ha hp, cbc_mac_ccm_framed _ mac _ _ hm]

/-- The block function of the evaluation environment stores 16 bytes. -/
theorem ccm_env0_stores_block : stores_block ccm_env0 := by
  intro ctx b
  simp [ccm_env0, toy_enc]

/-- Witness of C12: 3 bytes of associated data and 20 bytes of payload in one
scatter-list entry. -/
theorem ccm_calculate_auth_mac_cbc_mac_witness :
    (ccm_calculate_auth_mac ccm_env0 (ccm_req1 1 3 20) ccm_tfm0.ctx (List.replicate 16 1)
        (ccm_req1 1 3 20).src 3 20).1 =
      cbc_mac (ccm_env0.aesni_enc ccm_tfm0.ctx)
        (ccm_framed (List.replicate 16 1) (sg_copy_from (ccm_req1 1 3 20).src 0 3)
          (sg_copy_from (ccm_req1 1 3 20).src 3 20)) :=
  ccm_calculate_auth_mac_cbc_mac ccm_env0 ccm_env0_stores_block (ccm_req1 1 3 20)
    ccm_tfm0.ctx (List.replicate 16 1) (ccm_req1 1 3 20).src 3 20 (by decide) (by decide)
    (by decide) (by decide) (by decide) (by decide)

/-- C13: the MAC accumulation does not depend on the fragmentation.  For a block
function that stores 16 bytes, any 16-byte MAC value, any carry of fewer than 16
bytes in a 16-byte buffer and any list of fragments, feeding the fragments one by
one through `compute_mac`, as the loop of `get_data_to_compute` does, ends with the
same MAC value, the same carry length, the same carried bytes and the same cipher
calls as one `compute_mac` call on the concatenation of the fragments. -/
theorem compute_mac_fragmentation (E : ccm_env) (ctx : crypto_aes_ctx) (hE : stores_block E)
    (s : mac_state) (hs : s.sized) (frags : List (List Nat)) :
    (get_data_to_compute_walk E ctx s frags).mac =
      (compute_mac E ctx s.mac frags.flatten frags.flatten.length s.ilen s.idata).mac ∧
    (get_data_to_compute_walk E ctx s frags).ilen =
      (compute_mac E ctx s.mac frags.flatten frags.flatten.length s.ilen s.idata).ilen ∧
    (get_data_to_compute_walk E ctx s frags).carry =
      (compute_mac E ctx s.mac frags.flatten frags.flatten.length s.ilen s.idata).carry ∧
    (get_data_to_compute_walk E ctx s frags).trace =
      s.trace ++
        (compute_mac E ctx s.mac frags.flatten frags.flatten.length s.ilen s.idata).trace := by
  obtain ⟨-, w1, w2, w3, w4⟩ := get_data_to_compute_walk_eq E ctx hE frags s hs
  obtain ⟨c1, c2, c3, -, c5⟩ :=
    compute_mac_eq E ctx hE s.mac frags.flatten s.idata s.ilen hs.1 hs.2.1 hs.2.2
  simp only [mac_state.carry] at w1 w2 w3 w4 c3 ⊢
  exact ⟨by rw [w1, c1], by rw [w2, c2], by rw [w3, c3], by rw [w4, c5]⟩

/-- Witness of C13: 3 carried bytes, then fragments of 5, 1 and 30 bytes. -/
theorem compute_mac_fragmentation_witness :
    (get_data_to_compute_walk ccm_env0 ccm_tfm0.ctx mac_state0
        [List.range 5, [7], List.range 30]).mac =
      (compute_mac ccm_env0 ccm_tfm0.ctx mac_state0.mac
        [List.range 5, [7], List.range 30].flatten
        [List.range 5, [7], List.range 30].flatten.length mac_state0.ilen
        mac_state0.idata).mac :=
  (compute_mac_fragmentation ccm_env0 ccm_tfm0.ctx ccm_env0_stores_block mac_state0
    (by decide) [List.range 5, [7], List.range 30]).1

/-- Incrementing a little-endian counter keeps its length. -/
theorem inc_le_length : ∀ l : List Nat, (inc_le l).length = l.length
  | [] => rfl
  | b :: bs => by
    unfold inc_le
    split_ifs <;> simp [inc_le_length bs]

/-- The function `crypto_inc` keeps a 16-byte counter block 16 bytes long. -/
theorem crypto_inc_length (iv : List Nat) (h : iv.length = 16) :
    (crypto_inc iv 16).length = 16 := by
  simp [crypto_inc, inc_le_length, h]

/-- Successive counter blocks are 16 bytes long. -/
theorem ctr_iv_length : ∀ (k : Nat) (iv : List Nat), iv.length = 16 → (ctr_iv k iv).length = 16
  | 0, _, h => h
  | k + 1, iv, h => ctr_iv_length k _ (crypto_inc_length iv h)

/-- Incrementing `k1 + k2` times is incrementing `k1` times and then `k2` times. -/
theorem ctr_iv_add : ∀ (k1 k2 : Nat) (iv : List Nat),
    ctr_iv (k1 + k2) iv = ctr_iv k2 (ctr_iv k1 iv)
  | 0, k2, iv => by simp [ctr_iv]
  | k1 + 1, k2, iv => by
    rw [show k1 + 1 + k2 = (k1 + k2) + 1 by omega]
    simp only [ctr_iv]
    exact ctr_iv_add k1 k2 _

/-- The key stream of `k` blocks is `16 * k` bytes long. -/
theorem ctr_keystream_length (enc : List Nat → List Nat) (hE : ∀ b, (enc b).length = 16) :
    ∀ (k : Nat) (iv : List Nat), (ctr_keystream enc k iv).length = 16 * k
  | 0, _ => rfl
  | k + 1, iv => by
    simp only [ctr_keystream, List.length_append, hE, ctr_keystream_length enc hE k]
    omega

/-- The key stream of `k1 + k2` blocks is that of `k1` blocks followed by that of
`k2` blocks from the counter reached. -/
theorem ctr_keystream_add (enc : List Nat → List Nat) : ∀ (k1 k2 : Nat) (iv : List Nat),
    ctr_keystream enc (k1 + k2) iv =
      ctr_keystream enc k1 iv ++ ctr_keystream enc k2 (ctr_iv k1 iv)
  | 0, k2, iv => by simp [ctr_keystream, ctr_iv]
  | k1 + 1, k2, iv => by
    rw [show k1 + 1 + k2 = (k1 + k2) + 1 by omega]
    simp only [ctr_keystream, ctr_iv, List.append_assoc]
    rw [ctr_keystream_add enc k1 k2]

/-- The bulk routine of the contract xors the first `16 * k` input bytes with the key
stream and advances the counter by `k`. -/
theorem ctr_blocks_eq (enc : List Nat → List Nat) (hE : ∀ b, (enc b).length = 16) :
    ∀ (k : Nat) (inp iv : List Nat), 16 * k ≤ inp.length →
      ctr_blocks enc k inp iv =
        (xor_bytes (inp.take (16 * k)) (ctr_keystream enc k iv), ctr_iv k iv)
  | 0, inp, iv, _ => by simp [ctr_blocks, ctr_keystream, ctr_iv, xor_bytes]
  | k + 1, inp, iv, h => by
    have ih := ctr_blocks_eq enc hE k (inp.drop 16) (crypto_inc iv 16)
      (by rw [List.length_drop]; omega)
    have ht : inp.take (16 * (k + 1)) = inp.take 16 ++ (inp.drop 16).take (16 * k) := by
      rw [show 16 * (k + 1) = 16 + 16 * k by ring, List.take_add]
    simp only [ctr_blocks, ih, ctr_keystream, ctr_iv, ht, xor_bytes]
    rw [List.zipWith_append _ _ _ _ _ (by rw [List.length_take, hE]; omega)]

/-- On an `unsigned int`, `n & AES_BLOCK_MASK` rounds `n` down to a multiple of 16. -/
theorem and_block_mask (n : Nat) (h : n < 2 ^ 32) : n &&& AES_BLOCK_MASK = n - n % 16 := by
  have hM : AES_BLOCK_MASK = 2 ^ 4 * (2 ^ 28 - 1) := by decide
  have hn : n - n % 16 = 2 ^ 4 * (n / 2 ^ 4) := by omega
  rw [hM, hn]
  apply Nat.eq_of_testBit_eq
  intro i
  rw [Nat.testBit_and, Nat.testBit_mul_pow_two, Nat.testBit_mul_pow_two,
    Nat.testBit_two_pow_sub_one, ← Nat.shiftRight_eq_div_pow, Nat.testBit_shiftRight]
  by_cases h4 : i ≥ 4
  · have e : 4 + (i - 4) = i := by omega
    by_cases h28 : i - 4 < 28
    · simp [h4, h28, e]
    · have hlt : n < 2 ^ i := lt_of_lt_of_le h (Nat.pow_le_pow_right (by norm_num) (by omega))
      simp [h4, h28, e, Nat.testBit_lt_two_pow hlt]
  · simp [h4]

/-- The residue `n & (AES_BLOCK_SIZE - 1)` is `n % 16`. -/
theorem and_block_residue (n : Nat) : n &&& (AES_BLOCK_SIZE - 1) = n % 16 := by
  have h := Nat.and_pow_two_sub_one_eq_mod n 4
  simpa [AES_BLOCK_SIZE] using h

/-- The bytewise exclusive or is commutative. -/
theorem xor_bytes_comm (a b : List Nat) : xor_bytes a b = xor_bytes b a := by
  unfold xor_bytes
  rw [List.zipWith_comm]
  congr 1
  funext x y
  exact Nat.xor_comm y x

/-- The first `n` bytes after `crypto_xor` over `n` bytes. -/
theorem crypto_xor_take (dst src : List Nat) (n : Nat) (hd : n ≤ dst.length)
    (hs : n ≤ src.length) :
    (crypto_xor dst src n).take n = xor_bytes (dst.take n) (src.take n) := by
  apply List.ext_getElem
  · simp [crypto_xor, xor_bytes, hd, hs]
  · intro i h1 h2
    have hi : i < n := by simp [crypto_xor] at h1; omega
    simp [crypto_xor, xor_bytes, hi, List.getElem?_eq_getElem (show i < src.length by omega)]

/-- The xor with a longer second string reads only as many bytes as the first has. -/
theorem xor_bytes_append_right (a b c : List Nat) (h : a.length ≤ b.length) :
    xor_bytes a (b ++ c) = xor_bytes a b := by
  unfold xor_bytes
  have h1 : List.zipWith (fun x y => x ^^^ y) a (b ++ c) =
      (List.zipWith (fun x y => x ^^^ y) a (b ++ c)).take a.length :=
    (List.take_of_length_le (by simp)).symm
  have h2 : List.zipWith (fun x y => x ^^^ y) a b =
      (List.zipWith (fun x y => x ^^^ y) a b).take a.length :=
    (List.take_of_length_le (by simp)).symm
  rw [h1, h2, List.take_zipWith, List.take_zipWith, List.take_append_of_le_length h]

/-- The xor of an appended string with an appended key stream, when the first parts
have the same length. -/
theorem xor_bytes_append (a b c d : List Nat) (h : a.length = c.length) :
    xor_bytes (a ++ b) (c ++ d) = xor_bytes a c ++ xor_bytes b d :=
  List.zipWith_append _ _ _ _ _ h

/-- The whole-block loop of the CCM counter pass under the walker and counter-mode
contracts: it stops with fewer than 16 bytes left, having xor-ed `k` blocks of input
with the key stream and advanced the counter by `k`. -/
theorem ccm_ctr_loop_eq (E : ccm_env) (ctx : crypto_aes_ctx) (hE : stores_block E)
    (hC : ctr_contract E) (hW : walker_ok E) (inp : List Nat) (N : Nat) (hN : N < 2 ^ 32)
    (hinp : inp.length = N) :
    ∀ (fuel : Nat) (w : walk_state), w.answered E N → w.total ≤ fuel →
      ∃ k, (ccm_ctr_loop E ctx inp fuel w).answered E N ∧
        (ccm_ctr_loop E ctx inp fuel w).total < 16 ∧
        (ccm_ctr_loop E ctx inp fuel w).pos = w.pos + 16 * k ∧
        (ccm_ctr_loop E ctx inp fuel w).iv = ctr_iv k w.iv ∧
        (ccm_ctr_loop E ctx inp fuel w).out =
          w.out.take w.pos ++
            xor_bytes ((inp.drop w.pos).take (16 * k))
              (ctr_keystream (E.aesni_enc ctx) k w.iv) ++
            w.out.drop (w.pos + 16 * k)
  | 0, w, ha, hf => by
    have hstep : ccm_ctr_loop E ctx inp 0 w = w := rfl
    rw [hstep]
    refine ⟨0, ha, by omega, rfl, rfl, ?_⟩
    simp [ctr_keystream, xor_bytes]
  | fuel + 1, w, ha, hf => by
    obtain ⟨a1, a2, a3, a4, a5⟩ := ha
    obtain ⟨-, w2, w3, w4⟩ := hW w.total
    by_cases h16 : w.nbytes ≥ AES_BLOCK_SIZE
    · have h16' : 16 ≤ w.nbytes := h16
      have hnt : w.nbytes ≤ w.total := by rw [a2]; exact w2
      have hb : w.nbytes &&& AES_BLOCK_MASK = 16 * (w.nbytes / 16) := by
        rw [and_block_mask _ (by omega)]; omega
      have hr : w.nbytes &&& (AES_BLOCK_SIZE - 1) = w.nbytes % 16 := and_block_residue _
      have hk : 16 * (w.nbytes / 16) / 16 = w.nbytes / 16 := by omega
      have hdl : (inp.drop w.pos).length = w.total := by rw [List.length_drop]; omega
      have hctr := ctr_blocks_eq (E.aesni_enc ctx) (hE ctx) (w.nbytes / 16) (inp.drop w.pos)
        w.iv (by omega)
      have hx1 : (xor_bytes ((inp.drop w.pos).take (16 * (w.nbytes / 16)))
          (ctr_keystream (E.aesni_enc ctx) (w.nbytes / 16) w.iv)).length
          = 16 * (w.nbytes / 16) := by
        simp only [xor_bytes, List.length_zipWith, List.length_take, hdl,
          ctr_keystream_length _ (hE ctx)]
        omega
      -- the state after one iteration
      obtain ⟨v, hv⟩ : ∃ v : walk_state, v = blkcipher_walk_done E
          { w with iv := (E.aesni_ctr_enc ctx (inp.drop w.pos) (w.nbytes &&& AES_BLOCK_MASK) w.iv).2,
                   out := memcpy_at w.out w.pos
                     (E.aesni_ctr_enc ctx (inp.drop w.pos) (w.nbytes &&& AES_BLOCK_MASK) w.iv).1
                     (w.nbytes &&& AES_BLOCK_MASK),
                   trace := w.trace ++ [.aesni_ctr_enc (w.nbytes &&& AES_BLOCK_MASK)] }
          (w.nbytes &&& (AES_BLOCK_SIZE - 1)) := ⟨_, rfl⟩
      have hstep : ccm_ctr_loop E ctx inp (fuel + 1) w = ccm_ctr_loop E ctx inp fuel v := by
        rw [hv]; simp only [ccm_ctr_loop, if_pos h16]
      have v_total : v.total = w.total - 16 * (w.nbytes / 16) := by
        rw [hv]; simp only [blkcipher_walk_done, hr]; omega
      have v_pos : v.pos = w.pos + 16 * (w.nbytes / 16) := by
        rw [hv]; simp only [blkcipher_walk_done, hr]; omega
      have v_iv : v.iv = ctr_iv (w.nbytes / 16) w.iv := by
        rw [hv]; simp only [blkcipher_walk_done, hC ctx, hb, hk, hctr]
      have v_out : v.out = w.out.take w.pos ++
          xor_bytes ((inp.drop w.pos).take (16 * (w.nbytes / 16)))
            (ctr_keystream (E.aesni_enc ctx) (w.nbytes / 16) w.iv) ++
          w.out.drop (w.pos + 16 * (w.nbytes / 16)) := by
        rw [hv]; simp only [blkcipher_walk_done, hC ctx, hb, hk, hctr, memcpy_at]
        rw [List.take_of_length_le (le_of_eq hx1)]
      have v_err : v.err = (E.walk v.total).1 := by
        rw [v_total, hv]; simp only [blkcipher_walk_done, hr]
        congr 2; omega
      have v_nb : v.nbytes = (E.walk v.total).2 := by
        rw [v_total, hv]; simp only [blkcipher_walk_done, hr]
        congr 2; omega
      have v_ans : v.answered E N := by
        refine ⟨v_err, v_nb, by rw [v_pos, v_total]; omega, ?_, ?_⟩
        · rw [v_iv]; exact ctr_iv_length _ _ a4
        · rw [v_out]
          simp only [List.length_append, List.length_take, List.length_drop, hx1]
          omega
      obtain ⟨k', i1, i2, i3, i4, i5⟩ := ccm_ctr_loop_eq E ctx hE hC hW inp N hN hinp fuel v
        v_ans (by rw [v_total]; omega)
      refine ⟨w.nbytes / 16 + k', by rw [hstep]; exact i1, by rw [hstep]; exact i2,
        by rw [hstep, i3, v_pos]; ring, by rw [hstep, i4, v_iv, ctr_iv_add], ?_⟩
      rw [hstep, i5, v_pos, v_iv, v_out]
      have e1 : (w.out.take w.pos ++
          xor_bytes ((inp.drop w.pos).take (16 * (w.nbytes / 16)))
            (ctr_keystream (E.aesni_enc ctx) (w.nbytes / 16) w.iv) ++
          w.out.drop (w.pos + 16 * (w.nbytes / 16))).take (w.pos + 16 * (w.nbytes / 16))
          = w.out.take w.pos ++
            xor_bytes ((inp.drop w.pos).take (16 * (w.nbytes / 16)))
              (ctr_keystream (E.aesni_enc ctx) (w.nbytes / 16) w.iv) := by
        rw [List.take_append_of_le_length (by
          simp only [List.length_append, List.length_take, hx1]; omega)]
        exact List.take_of_length_le (by
          simp only [List.length_append, List.length_take, hx1]; omega)
      have e2 : (w.out.take w.pos ++
          xor_bytes ((inp.drop w.pos).take (16 * (w.nbytes / 16)))
            (ctr_keystream (E.aesni_enc ctx) (w.nbytes / 16) w.iv) ++
          w.out.drop (w.pos + 16 * (w.nbytes / 16))).drop
            (w.pos + 16 * (w.nbytes / 16) + 16 * k')
          = w.out.drop (w.pos + 16 * (w.nbytes / 16 + k')) := by
        rw [List.drop_append_eq_append_drop, List.drop_of_length_le (by
          simp only [List.length_append, List.length_take, hx1]; omega), List.nil_append,
          List.drop_drop]
        congr 1
        simp only [List.length_append, List.length_take, hx1]
        omega
      have e3 : (inp.drop w.pos).take (16 * (w.nbytes / 16 + k')) =
          (inp.drop w.pos).take (16 * (w.nbytes / 16)) ++
            (inp.drop (w.pos + 16 * (w.nbytes / 16))).take (16 * k') := by
        rw [show 16 * (w.nbytes / 16 + k') = 16 * (w.nbytes / 16) + 16 * k' by ring,
          List.take_add, List.drop_drop]
      rw [e1, e2, e3, ctr_keystream_add, xor_bytes_append _ _ _ _ (by
        rw [List.length_take, hdl, ctr_keystream_length _ (hE ctx)]; omega)]
      simp only [List.append_assoc]
    · have hlt : w.nbytes < 16 := by simpa [AES_BLOCK_SIZE] using h16
      have hstep : ccm_ctr_loop E ctx inp (fuel + 1) w = w := by
        simp only [ccm_ctr_loop, if_neg h16]
      have ht : w.total < 16 := by
        by_contra hc
        have := w4 (by omega)
        omega
      rw [hstep]
      refine ⟨0, ⟨a1, a2, a3, a4, a5⟩, ht, rfl, rfl, ?_⟩
      simp [ctr_keystream, xor_bytes]

/-- The CCM counter pass under the walker and counter-mode contracts: whatever the
chunks, it succeeds and leaves the input xor-ed with the key stream that starts at
the initial counter block. -/
theorem ccm_ctr_pass_eq (E : ccm_env) (ctx : crypto_aes_ctx) (hE : stores_block E)
    (hC : ctr_contract E) (hW : walker_ok E) (inp out0 iv : List Nat) (N : Nat)
    (hN : N < 2 ^ 32) (hinp : inp.length = N) (hout : out0.length = N)
    (hiv : iv.length = 16) :
    (ccm_ctr_pass E ctx inp (blkcipher_walk_start E N iv out0)).err = 0 ∧
    (ccm_ctr_pass E ctx inp (blkcipher_walk_start E N iv out0)).out =
      xor_bytes inp (ctr_keystream (E.aesni_enc ctx) (N / 16 + 1) iv) := by
  have h0 : (blkcipher_walk_start E N iv out0).answered E N :=
    ⟨rfl, rfl, by simp [blkcipher_walk_start], hiv, hout⟩
  obtain ⟨k, ⟨a1, a2, a3, a4, a5⟩, l2, l3, l4, l5⟩ :=
    ccm_ctr_loop_eq E ctx hE hC hW inp N hN hinp N _ h0 (le_refl _)
  have hp0 : (blkcipher_walk_start E N iv out0).pos = 0 := rfl
  have ht0 : (blkcipher_walk_start E N iv out0).total = N := rfl
  have hi0 : (blkcipher_walk_start E N iv out0).iv = iv := rfl
  have ho0 : (blkcipher_walk_start E N iv out0).out = out0 := rfl
  rw [hp0, hi0, ho0] at l5
  rw [hp0] at l3
  rw [hi0] at l4
  simp only [Nat.zero_add, List.take_zero, List.nil_append, List.drop_zero] at l3 l5
  obtain ⟨v, hv⟩ : ∃ v : walk_state,
      v = ccm_ctr_loop E ctx inp N (blkcipher_walk_start E N iv out0) := ⟨_, rfl⟩
  have hpass : ccm_ctr_pass E ctx inp (blkcipher_walk_start E N iv out0) =
      if v.nbytes ≠ 0 then blkcipher_walk_done E (ctr_crypt_final E ctx inp v) 0 else v := by
    rw [hv]; simp only [ccm_ctr_pass, ht0]
  rw [← hv] at a1 a2 a3 a4 a5 l2 l3 l4 l5
  obtain ⟨-, -, w3, -⟩ := hW v.total
  have hnb : v.nbytes = v.total := by rw [a2]; exact w3 l2
  have hk : N / 16 = k := by omega
  have hx1 : (xor_bytes (inp.take (16 * k)) (ctr_keystream (E.aesni_enc ctx) k iv)).length
      = 16 * k := by
    simp only [xor_bytes, List.length_zipWith, List.length_take,
      ctr_keystream_length _ (hE ctx)]
    omega
  have hks : ctr_keystream (E.aesni_enc ctx) (k + 1) iv =
      ctr_keystream (E.aesni_enc ctx) k iv ++ E.aesni_enc ctx v.iv := by
    rw [ctr_keystream_add, l4]; simp [ctr_keystream]
  have hsplit : inp = inp.take (16 * k) ++ inp.drop (16 * k) := (List.take_append_drop _ _).symm
  have htl : (inp.take (16 * k)).length =
      (ctr_keystream (E.aesni_enc ctx) k iv).length := by
    rw [List.length_take, ctr_keystream_length _ (hE ctx)]; omega
  rw [hpass, hk, hks]
  by_cases hz : v.nbytes ≠ 0
  · rw [if_pos hz]
    have hdl : (inp.drop v.pos).length = v.nbytes := by
      rw [List.length_drop]; omega
    have hkey : memcpy_at (List.replicate AES_BLOCK_SIZE 0) 0 (E.aesni_enc ctx v.iv)
        AES_BLOCK_SIZE = E.aesni_enc ctx v.iv :=
      memcpy_at_block _ _ (by simp [AES_BLOCK_SIZE]) (hE ctx _)
    have hxt := crypto_xor_take (E.aesni_enc ctx v.iv) (inp.drop v.pos) v.nbytes
      (by rw [hE ctx]; omega) (le_of_eq hdl.symm)
    rw [List.take_of_length_le (le_of_eq hdl), xor_bytes_comm] at hxt
    have hfin : xor_bytes (inp.drop v.pos) ((E.aesni_enc ctx v.iv).take v.nbytes) =
        xor_bytes (inp.drop v.pos) (E.aesni_enc ctx v.iv) := by
      have h := xor_bytes_append_right (inp.drop v.pos) ((E.aesni_enc ctx v.iv).take v.nbytes)
        ((E.aesni_enc ctx v.iv).drop v.nbytes) (by rw [List.length_take, hE ctx]; omega)
      rw [List.take_append_drop] at h
      exact h.symm
    have t1 : v.out.take v.pos =
        xor_bytes (inp.take (16 * k)) (ctr_keystream (E.aesni_enc ctx) k iv) := by
      rw [l5, l3, List.take_append_of_le_length (le_of_eq hx1.symm),
        List.take_of_length_le (le_of_eq hx1)]
    have t2 : v.out.drop (v.pos + v.nbytes) = [] :=
      List.drop_of_length_le (by omega)
    refine ⟨by simp only [blkcipher_walk_done]; exact (hW _).1, ?_⟩
    simp only [blkcipher_walk_done, ctr_crypt_final, hkey]
    simp only [memcpy_at, hxt, hfin, t1, t2, List.append_nil]
    rw [l3]
    conv_rhs => rw [hsplit]
    rw [xor_bytes_append _ _ _ _ htl]
  · rw [if_neg hz]
    have hz' : v.nbytes = 0 := not_not.mp hz
    have hN' : N = 16 * k := by omega
    refine ⟨by rw [a1]; exact (hW _).1, ?_⟩
    rw [l5, List.drop_of_length_le (by omega), List.append_nil,
      List.take_of_length_le (by omega),
      xor_bytes_append_right _ _ _ (by rw [ctr_keystream_length _ (hE ctx)]; omega)]

/-- The length of a buffer after `memcpy`, when source and destination are long
enough. -/
theorem memcpy_at_length (dst src : List Nat) (off n : Nat) (hs : n ≤ src.length)
    (hd : off + n ≤ dst.length) : (memcpy_at dst off src n).length = dst.length := by
  simp only [memcpy_at, List.length_append, List.length_take, List.length_drop]; omega

/-- Reading back what `memcpy` stored. -/
theorem memcpy_at_region (dst src : List Nat) (off n : Nat) (hs : n ≤ src.length)
    (hd : off + n ≤ dst.length) :
    ((memcpy_at dst off src n).drop off).take n = src.take n := by
  have h1 : (dst.take off).length = off := by rw [List.length_take]; omega
  have h2 : (src.take n).length = n := by rw [List.length_take]; omega
  rw [memcpy_at, List.append_assoc, List.drop_append_eq_append_drop, h1,
    List.drop_of_length_le (le_of_eq h1), List.nil_append, Nat.sub_self, List.drop_zero,
    List.take_append_of_le_length (le_of_eq h2.symm), List.take_of_length_le (le_of_eq h2)]

/-- Bytes in front of the stored region are not changed by `memcpy`. -/
theorem memcpy_at_before (dst src : List Nat) (off n s k : Nat) (hd : off + n ≤ dst.length)
    (hk : s + k ≤ off) :
    ((memcpy_at dst off src n).drop s).take k = (dst.drop s).take k := by
  have h1 : (dst.take off).length = off := by rw [List.length_take]; omega
  rw [memcpy_at, List.append_assoc, List.drop_append_of_le_length (by omega),
    List.take_append_of_le_length (by rw [List.length_drop]; omega),
    List.drop_take, List.take_take, Nat.min_eq_left (by omega)]

/-- On the bytes of a scatter list, `scatterwalk_map_and_copy` towards the list is a
`memcpy` at the starting position, and it keeps the entries as long as they were. -/
theorem sg_bytes_copy_to : ∀ (sg : List scatterlist) (start : Nat) (buf : List Nat) (n : Nat),
    sg_sized sg → n ≤ buf.length → start + n ≤ (sg_bytes sg).length →
      sg_bytes (sg_copy_to sg start buf n) = memcpy_at (sg_bytes sg) start buf n ∧
      sg_sized (sg_copy_to sg start buf n)
  | [], start, buf, n, _, _, hl => by
    have h0 : n = 0 := by simp [sg_bytes] at hl; omega
    subst h0
    refine ⟨by simp [sg_copy_to, sg_bytes, memcpy_at], fun e he => ?_⟩
    simp [sg_copy_to] at he
  | e :: es, start, buf, n, hs, hb, hl => by
    have he : e.length ≤ e.data.length := hs e (List.mem_cons_self _ _)
    have hes : sg_sized es := fun x hx => hs x (List.mem_cons_of_mem _ hx)
    have hE : (e.data.take e.length).length = e.length := by
      rw [List.length_take]; omega
    have hl' : start + n ≤ e.length + (sg_bytes es).length := by
      simpa [sg_bytes, hE] using hl
    by_cases h : e.length ≤ start
    · obtain ⟨i1, i2⟩ := sg_bytes_copy_to es (start - e.length) buf n hes hb (by omega)
      refine ⟨?_, ?_⟩
      · simp only [sg_copy_to, if_pos h, sg_bytes, i1, memcpy_at]
        obtain ⟨Ed, hEd⟩ : ∃ Ed : List Nat, Ed = e.data.take e.length := ⟨_, rfl⟩
        rw [← hEd] at hE ⊢
        rw [List.take_append_eq_append_take,
          List.take_of_length_le (show Ed.length ≤ start by omega), hE,
          List.drop_append_eq_append_drop,
          List.drop_of_length_le (show Ed.length ≤ start + n by omega), hE,
          List.nil_append, show start + n - e.length = start - e.length + n by omega]
        simp only [List.append_assoc]
      · intro x hx
        simp only [sg_copy_to, if_pos h, List.mem_cons] at hx
        rcases hx with rfl | hx
        · exact he
        · exact i2 x hx
    · have hroom : min (e.length - start) n ≤ buf.length := by omega
      obtain ⟨i1, i2⟩ := sg_bytes_copy_to es 0 (buf.drop (min (e.length - start) n))
        (n - min (e.length - start) n) hes (by rw [List.length_drop]; omega) (by omega)
      have hdat : (memcpy_at e.data start buf (min (e.length - start) n)).length
          = e.data.length := memcpy_at_length _ _ _ _ hroom (by omega)
      refine ⟨?_, ?_⟩
      · simp only [sg_copy_to, if_neg h, sg_bytes, i1]
        have hent : (memcpy_at e.data start buf (min (e.length - start) n)).take e.length =
            (e.data.take e.length).take start ++ buf.take (min (e.length - start) n) ++
              (e.data.take e.length).drop (start + min (e.length - start) n) := by
          have t1 : (e.data.take start).length = start := by rw [List.length_take]; omega
          have t2 : (buf.take (min (e.length - start) n)).length = min (e.length - start) n := by
            rw [List.length_take]; omega
          rw [memcpy_at, List.take_append_eq_append_take, List.take_append_eq_append_take,
            List.length_append, t1, t2,
            List.take_of_length_le (show (e.data.take start).length ≤ e.length by omega),
            List.take_of_length_le
              (show (buf.take (min (e.length - start) n)).length ≤ e.length - start by omega),
            List.take_take, Nat.min_eq_left (show start ≤ e.length by omega), List.drop_take]
        rw [hent]
        simp only [memcpy_at, List.take_zero, List.nil_append, Nat.zero_add]
        rw [List.take_append_of_le_length (by omega),
          List.drop_append_eq_append_drop, hE]
        by_cases hn : n ≤ e.length - start
        · have hm : min (e.length - start) n = n := by omega
          simp only [hm, Nat.sub_self, List.take_zero, List.drop_zero, List.nil_append,
            show start + n - e.length = 0 by omega, List.append_assoc]
        · have hm : min (e.length - start) n = e.length - start := by omega
          have hdn : (e.data.take e.length).drop (start + (e.length - start)) = [] :=
            List.drop_of_length_le (by omega)
          have hdn' : (e.data.take e.length).drop (start + n) = [] :=
            List.drop_of_length_le (by omega)
          have hbt : buf.take n = buf.take (e.length - start) ++
              (buf.drop (e.length - start)).take (n - (e.length - start)) := by
            rw [← List.take_add]; congr 1; omega
          simp only [hm, hdn, hdn', hbt, List.append_nil, List.nil_append, List.append_assoc,
            show start + n - e.length = n - (e.length - start) by omega]
      · intro x hx
        simp only [sg_copy_to, if_neg h, List.mem_cons] at hx
        rcases hx with rfl | hx
        · show e.length ≤ (memcpy_at e.data start buf (min (e.length - start) n)).length
          rw [hdat]; exact he
        · exact i2 x hx

/-- The length of a buffer after `memset` inside it. -/
theorem memset_at_length (dst : List Nat) (off c n : Nat) (hd : off + n ≤ dst.length) :
    (memset_at dst off c n).length = dst.length := by
  simp only [memset_at, List.length_append, List.length_take, List.length_drop,
    List.length_replicate]; omega

/-- The function `set_msg_len` keeps a 16-byte block 16 bytes long when it writes the
last `csize ≤ 8` bytes. -/
theorem set_msg_len_length (buf : List Nat) (msglen csize : Nat) (hb : buf.length = 16)
    (hc : csize ≤ 8) : (set_msg_len buf (16 - csize) msglen csize).2.length = 16 := by
  have h1 : (memset_at buf (16 - csize) 0 csize).length = 16 := by
    rw [memset_at_length _ _ _ _ (by omega), hb]
  have hbytes : (u32_bytes (cpu_to_be32 msglen)).length = 4 := by simp [u32_bytes]
  unfold set_msg_len
  split_ifs with h4 ho
  · simp only []
    rw [memcpy_at_length _ _ _ _ (by rw [List.length_drop, hbytes]) (by omega), h1]
  · exact h1
  · simp only []
    rw [memcpy_at_length _ _ _ _ (by rw [List.length_drop, hbytes]; omega) (by omega), h1]

/-- A successful `ccm_init_mac`: for `L` in `[2, 8]` and a length that fits, it
returns 0 and leaves a 16-byte IV and a 16-byte MAC block. -/
theorem ccm_init_mac_ok (authsize : Nat) (req : aead_request) (maciv : List Nat)
    (msglen : Nat) (hiv : req.iv.length = 16) (hm : maciv.length = 16)
    (hL : 2 ≤ ccm_L req ∧ ccm_L req ≤ 8)
    (hfit : 4 ≤ ccm_L req ∨ msglen < 2 ^ (8 * ccm_L req)) :
    (ccm_init_mac authsize req maciv msglen).ret = 0 ∧
    (ccm_init_mac authsize req maciv msglen).iv.length = 16 ∧
    (ccm_init_mac authsize req maciv msglen).maciv.length = 16 := by
  have h : ¬ (ccm_L req < 2 ∨ ccm_L req > 8) := by omega
  have ho : ¬ (ccm_L req < 4 ∧ msglen >>> (8 * ccm_L req) ≠ 0) := by
    rw [shiftRight_ne_zero_iff]; omega
  have hbytes : ∀ x, (u32_bytes x).length = 4 := fun x => by simp [u32_bytes]
  have l1 : (memcpy_at maciv (AES_BLOCK_SIZE - 8) (u32_bytes 0) 4).length = 16 := by
    rw [memcpy_at_length _ _ _ _ (by rw [hbytes]) (by rw [hm]; decide), hm]
  have l2 : (memcpy_at (memcpy_at maciv (AES_BLOCK_SIZE - 8) (u32_bytes 0) 4)
      (AES_BLOCK_SIZE - 4) (u32_bytes (cpu_to_be32 msglen)) 4).length = 16 := by
    rw [memcpy_at_length _ _ _ _ (by rw [hbytes]) (by rw [l1]; decide), l1]
  have l3 : (memcpy_at (memcpy_at (memcpy_at maciv (AES_BLOCK_SIZE - 8) (u32_bytes 0) 4)
      (AES_BLOCK_SIZE - 4) (u32_bytes (cpu_to_be32 msglen)) 4) 0 req.iv
      (AES_BLOCK_SIZE - ccm_L req)).length = 16 := by
    rw [memcpy_at_length _ _ _ _ (by simp only [AES_BLOCK_SIZE]; omega)
      (by rw [l2]; simp only [AES_BLOCK_SIZE]; omega), l2]
  simp only [ccm_init_mac, if_neg h, if_neg ho]
  refine ⟨set_msg_len_fits _ _ _ _ hfit, ?_, ?_⟩
  · rw [memset_at_length _ _ _ _ (by simp only [AES_BLOCK_SIZE]; omega), hiv]
  · have h16 : AES_BLOCK_SIZE - ccm_L req = 16 - ccm_L req := rfl
    rw [h16]
    apply set_msg_len_length _ _ _ _ hL.2
    split_ifs
    · rw [List.length_set, List.length_set]; exact l3
    · rw [List.length_set]; exact l3

/-- The function `ccm_init_mac` reads only the IV and the associated-data length of
the request. -/
theorem ccm_init_mac_congr (authsize : Nat) (req req' : aead_request) (maciv : List Nat)
    (msglen : Nat) (hiv : req'.iv = req.iv) (ha : req'.assoclen = req.assoclen) :
    ccm_init_mac authsize req' maciv msglen = ccm_init_mac authsize req maciv msglen := by
  simp only [ccm_init_mac, ccm_L, hiv, ha]

/-- The comparison `crypto_memneq` over `n` bytes of buffers that hold them. -/
theorem crypto_memneq_iff (a b : List Nat) (n : Nat) (ha : n ≤ a.length) (hb : n ≤ b.length) :
    crypto_memneq a b n = true ↔ a.take n ≠ b.take n := by
  constructor
  · intro h hc
    simp only [crypto_memneq, List.any_eq_true, List.mem_range, bne_iff_ne] at h
    obtain ⟨i, hi, hne⟩ := h
    apply hne
    have hA : a.getD i 0 = a[i] := List.getD_eq_getElem a 0 (by omega)
    have hB : b.getD i 0 = b[i] := List.getD_eq_getElem b 0 (by omega)
    rw [hA, hB, List.getElem_take' a (by omega) hi, List.getElem_take' b (by omega) hi]
    simp only [hc]
  · intro h
    by_contra hc
    apply h
    simp only [crypto_memneq, List.any_eq_true, List.mem_range, bne_iff_ne, not_exists,
      not_and, not_not] at hc
    apply List.ext_getElem
    · simp [ha, hb]
    · intro i h1 h2
      have hi : i < n := by simp at h1; omega
      have hA : a.getD i 0 = a[i] := List.getD_eq_getElem a 0 (by omega)
      have hB : b.getD i 0 = b[i] := List.getD_eq_getElem b 0 (by omega)
      have := hc i hi
      rw [hA, hB] at this
      simpa using this

/-- What `__ccm_encrypt` computes on a well-formed request: it returns 0, and the
destination holds, behind the associated data, the counter-mode image of the payload
followed by the first `authsize` bytes of the counter-mode image of the CBC-MAC
value, the MAC value and the payload being one counter-mode stream. -/
theorem __ccm_encrypt_eq (E : ccm_env) (aead : crypto_aead crypto_aes_ctx)
    (req : aead_request) (hE : ccm_env_ok E) (hM : aead.authsize ≤ 16)
    (hiv : req.iv.length = 16) (hL : 2 ≤ ccm_L req ∧ ccm_L req ≤ 8)
    (hfit : 4 ≤ ccm_L req ∨ req.cryptlen < 2 ^ (8 * ccm_L req))
    (ha32 : req.assoclen < 2 ^ 32) (hc32 : req.cryptlen + 16 < 2 ^ 32)
    (hbuf : ccm_buffers_ok req req.cryptlen (req.cryptlen + aead.authsize))
    (I : init_mac_result) (T out : List Nat)
    (hI : I = ccm_init_mac aead.authsize req (List.replicate 16 0) req.cryptlen)
    (hT : T = cbc_mac (E.aesni_enc aead.ctx) (ccm_framed I.maciv
      (sg_copy_from req.src 0 req.assoclen)
      (sg_copy_from req.src req.assoclen req.cryptlen)))
    (hout : out = ctr_crypt_ref (E.aesni_enc aead.ctx) I.iv
      (T ++ sg_copy_from req.src req.assoclen req.cryptlen)) :
    (__ccm_encrypt E aead req).ret = 0 ∧
    T.length = 16 ∧ out.length = req.cryptlen + 16 ∧
    sg_bytes (__ccm_encrypt E aead req).dst =
      memcpy_at
        (memcpy_at (sg_bytes (if req.src_is_dst then req.src else req.dst)) req.assoclen
          (out.drop 16) req.cryptlen)
        (req.assoclen + req.cryptlen) (out.take 16) aead.authsize := by
  obtain ⟨hS, hC, hW⟩ := hE
  obtain ⟨hs1, hs2, hb1, hb2⟩ := hbuf
  have hu : u32 req.cryptlen = req.cryptlen := by unfold u32; omega
  have hu1 : u32 (req.cryptlen + 16) = req.cryptlen + 16 := by unfold u32; omega
  obtain ⟨i0, i1, i2⟩ := ccm_init_mac_ok aead.authsize req (List.replicate 16 0)
    req.cryptlen hiv (by simp) hL hfit
  rw [← hI] at i0 i1 i2
  have hm := sg_copy_from_length req.src req.assoclen req.cryptlen hb1
  have hsd : sg_sized (if req.src_is_dst then req.src else req.dst) := by
    split_ifs
    · exact hs1
    · exact hs2
  have hmd := sg_copy_from_length (if req.src_is_dst then req.src else req.dst)
    req.assoclen req.cryptlen (by omega)
  have hc := ccm_calculate_auth_mac_chain E hS req aead.ctx I.maciv req.src req.assoclen
    req.cryptlen i2 (by omega) hs1 hs1 (by omega) hb1
  rw [← cbc_mac_ccm_framed _ I.maciv _ _ i2, ← hT] at hc
  have hTl : T.length = 16 := by
    rw [hT, cbc_mac_ccm_framed _ I.maciv _ _ i2]
    exact cbc_mac_absorb_length _ (hS aead.ctx) _ _ _
      (cbc_mac_absorb_length _ (hS aead.ctx) _ _ _ (hS aead.ctx _))
  have hil : (T ++ sg_copy_from req.src req.assoclen req.cryptlen).length =
      req.cryptlen + 16 := by rw [List.length_append, hTl, hm]; omega
  obtain ⟨p0, p1⟩ := ccm_ctr_pass_eq E aead.ctx hS hC hW
    (T ++ sg_copy_from req.src req.assoclen req.cryptlen)
    (T ++ sg_copy_from (if req.src_is_dst then req.src else req.dst) req.assoclen
      req.cryptlen) I.iv (req.cryptlen + 16) (by omega) hil
    (by rw [List.length_append, hTl, hmd]; omega) i1
  rw [← hil, ← ctr_crypt_ref, ← hout, hil] at p1
  have hol : out.length = req.cryptlen + 16 := by
    rw [hout, ctr_crypt_ref, xor_bytes, List.length_zipWith, hil,
      ctr_keystream_length _ (hS aead.ctx)]
    omega
  obtain ⟨c1, c2⟩ := sg_bytes_copy_to (if req.src_is_dst then req.src else req.dst)
    req.assoclen (out.drop 16) req.cryptlen hsd (by rw [List.length_drop]; omega)
    (by omega)
  obtain ⟨d1, _⟩ := sg_bytes_copy_to _ (req.assoclen + req.cryptlen) (out.take 16)
    aead.authsize c2 (by rw [List.length_take]; omega)
    (by rw [c1, memcpy_at_length _ _ _ _ (by rw [List.length_drop]; omega) (by omega)]
        omega)
  refine ⟨?_, hTl, hol, ?_⟩
  · simp only [__ccm_encrypt, hu, hu1, AES_BLOCK_SIZE, ← hI, i0, hc, p0]
    simp
  · simp only [__ccm_encrypt, hu, hu1, AES_BLOCK_SIZE, ← hI, i0, hc, p0, p1]
    simp only [ne_eq, not_true_eq_false, if_false]
    rw [d1, c1]

/-- What `__ccm_decrypt` computes on a well-formed request of `len` payload bytes
and a tag: the destination holds, behind the associated data, the counter-mode image
of the received payload, and the result is `-EBADMSG` exactly when the first
`authsize` bytes of the CBC-MAC value over that image differ from those of the
counter-mode image of the received tag, and 0 otherwise. -/
theorem __ccm_decrypt_eq (E : ccm_env) (aead : crypto_aead crypto_aes_ctx)
    (req : aead_request) (hE : ccm_env_ok E) (hM : aead.authsize ≤ 16)
    (hiv : req.iv.length = 16) (hL : 2 ≤ ccm_L req ∧ ccm_L req ≤ 8)
    (len : Nat) (hlen : req.cryptlen = len + aead.authsize)
    (hfit : 4 ≤ ccm_L req ∨ len < 2 ^ (8 * ccm_L req))
    (ha32 : req.assoclen < 2 ^ 32) (hc32 : len + 16 < 2 ^ 32)
    (hbuf : ccm_buffers_ok req req.cryptlen len)
    (I : init_mac_result) (tag out T : List Nat)
    (hI : I = ccm_init_mac aead.authsize req (List.replicate 16 0) len)
    (htag : tag = sg_copy_from req.src (req.assoclen + len) aead.authsize ++
      List.replicate (16 - aead.authsize) 0)
    (hout : out = ctr_crypt_ref (E.aesni_enc aead.ctx) I.iv
      (tag ++ sg_copy_from req.src req.assoclen len))
    (hT : T = cbc_mac (E.aesni_enc aead.ctx) (ccm_framed I.maciv
      (sg_copy_from req.src 0 req.assoclen) (out.drop 16))) :
    out.length = len + 16 ∧ T.length = 16 ∧
    sg_bytes (__ccm_decrypt E aead req).dst =
      memcpy_at (sg_bytes (if req.src_is_dst then req.src else req.dst)) req.assoclen
        (out.drop 16) len ∧
    (__ccm_decrypt E aead req).ret =
      if T.take aead.authsize ≠ (out.take 16).take aead.authsize then -EBADMSG else 0 := by
  obtain ⟨hS, hC, hW⟩ := hE
  obtain ⟨hs1, hs2, hb1, hb2⟩ := hbuf
  have hua : u32 aead.authsize = aead.authsize := by unfold u32; omega
  have hu : u32 req.cryptlen = req.cryptlen := by unfold u32; omega
  have hsub : sub_u32 req.cryptlen aead.authsize = len := by unfold sub_u32 u32; omega
  have hu1 : u32 (len + 16) = len + 16 := by unfold u32; omega
  have hge : ¬ req.cryptlen < aead.authsize := by omega
  obtain ⟨i0, i1, i2⟩ := ccm_init_mac_ok aead.authsize req (List.replicate 16 0)
    len hiv (by simp) hL hfit
  rw [← hI] at i0 i1 i2
  have hc := sg_copy_from_length req.src req.assoclen len (by omega)
  have htl := sg_copy_from_length req.src (req.assoclen + len) aead.authsize (by omega)
  have hsd : sg_sized (if req.src_is_dst then req.src else req.dst) := by
    split_ifs
    · exact hs1
    · exact hs2
  have hmd := sg_copy_from_length (if req.src_is_dst then req.src else req.dst)
    req.assoclen len (by omega)
  have hat : memcpy_at (List.replicate 16 0) 0
      (sg_copy_from req.src (req.assoclen + len) aead.authsize) aead.authsize = tag := by
    rw [htag, memcpy_at, List.take_of_length_le (le_of_eq htl)]
    simp only [List.take_zero, List.nil_append, Nat.zero_add, List.drop_replicate]
  have htagl : tag.length = 16 := by
    rw [htag, List.length_append, htl, List.length_replicate]; omega
  have hil : (tag ++ sg_copy_from req.src req.assoclen len).length = len + 16 := by
    rw [List.length_append, htagl, hc]; omega
  obtain ⟨p0, p1⟩ := ccm_ctr_pass_eq E aead.ctx hS hC hW
    (tag ++ sg_copy_from req.src req.assoclen len)
    (tag ++ sg_copy_from (if req.src_is_dst then req.src else req.dst) req.assoclen len)
    I.iv (len + 16) (by omega) hil
    (by rw [List.length_append, htagl, hmd]; omega) i1
  rw [← hil, ← ctr_crypt_ref, ← hout, hil] at p1
  have hol : out.length = len + 16 := by
    rw [hout, ctr_crypt_ref, xor_bytes, List.length_zipWith, hil,
      ctr_keystream_length _ (hS aead.ctx)]
    omega
  have hdl : (out.drop 16).length = len := by rw [List.length_drop]; omega
  obtain ⟨c1, c2⟩ := sg_bytes_copy_to (if req.src_is_dst then req.src else req.dst)
    req.assoclen (out.drop 16) len hsd (le_of_eq hdl.symm) (by omega)
  have c3 : (sg_bytes (sg_copy_to (if req.src_is_dst then req.src else req.dst)
      req.assoclen (out.drop 16) len)).length =
      (sg_bytes (if req.src_is_dst then req.src else req.dst)).length := by
    rw [c1, memcpy_at_length _ _ _ _ (le_of_eq hdl.symm) (by omega)]
  -- the payload the MAC is computed over
  have hpay : sg_copy_from (sg_copy_to (if req.src_is_dst then req.src else req.dst)
      req.assoclen (out.drop 16) len) req.assoclen len = out.drop 16 := by
    rw [sg_copy_from, c1, memcpy_at_region _ _ _ _ (le_of_eq hdl.symm) (by omega),
      List.take_of_length_le (le_of_eq hdl)]
  -- the associated data the MAC is computed over
  obtain ⟨S1, hS1⟩ : ∃ S1 : List scatterlist, S1 = if req.src_is_dst then
      sg_copy_to (if req.src_is_dst then req.src else req.dst) req.assoclen (out.drop 16) len
      else req.src := ⟨_, rfl⟩
  have a1 : sg_sized S1 ∧ req.assoclen ≤ (sg_bytes S1).length ∧
      sg_copy_from S1 0 req.assoclen = sg_copy_from req.src 0 req.assoclen := by
    rw [hS1]
    by_cases hb : req.src_is_dst = true
    · rw [if_pos hb]
      refine ⟨c2, by omega, ?_⟩
      rw [sg_copy_from, c1, memcpy_at_before _ _ _ _ 0 req.assoclen (by omega) (by omega),
        if_pos hb, sg_copy_from]
    · rw [if_neg hb]
      exact ⟨hs1, by omega, rfl⟩
  obtain ⟨a1, a2, a3⟩ := a1
  have hch := ccm_calculate_auth_mac_chain E hS
    { req with src := S1 } aead.ctx I.maciv
    (sg_copy_to (if req.src_is_dst then req.src else req.dst) req.assoclen (out.drop 16) len)
    req.assoclen len i2 (by show req.assoclen < 2 ^ 32; omega) a1 c2 a2 (by omega)
  simp only [a3, hpay] at hch
  rw [← cbc_mac_ccm_framed _ I.maciv _ _ i2, ← hT, hS1] at hch
  have hTl : T.length = 16 := by
    rw [hT, cbc_mac_ccm_framed _ I.maciv _ _ i2]
    exact cbc_mac_absorb_length _ (hS aead.ctx) _ _ _
      (cbc_mac_absorb_length _ (hS aead.ctx) _ _ _ (hS aead.ctx _))
  have hneq := crypto_memneq_iff T (out.take 16) aead.authsize (by omega)
    (by rw [List.length_take]; omega)
  refine ⟨hol, hTl, ?_, ?_⟩
  · simp only [__ccm_decrypt, hua, hu, hsub, hu1, hge, AES_BLOCK_SIZE, ← hI, i0, hat, p0, p1,
      hch]
    simp only [ne_eq, not_true_eq_false, if_false]
    by_cases hn : crypto_memneq T (out.take 16) aead.authsize = true
    · rw [if_pos hn]
      exact c1
    · rw [if_neg hn]
      exact c1
  · simp only [__ccm_decrypt, hua, hu, hsub, hu1, hge, AES_BLOCK_SIZE, ← hI, i0, hat, p0, p1,
      hch]
    simp only [ne_eq, not_true_eq_false, if_false]
    by_cases hn : crypto_memneq T (out.take 16) aead.authsize = true
    · rw [if_pos hn, if_pos (hneq.1 hn)]
    · rw [if_neg hn, if_neg (fun h => hn (hneq.2 h))]

/-- Xor-ing a key stream in twice gives the bytes back. -/
theorem xor_bytes_cancel : ∀ (a k : List Nat), a.length ≤ k.length →
    xor_bytes (xor_bytes a k) k = a
  | [], _, _ => by simp [xor_bytes]
  | _ :: _, [], h => by simp at h
  | x :: a, y :: k, h => by
    have ih := xor_bytes_cancel a k (by simpa using h)
    simp only [xor_bytes, List.zipWith_cons_cons] at ih ⊢
    rw [ih, Nat.xor_cancel_right]

/-- The counter-mode image of a 16-byte block followed by a payload, read back: its
first `M` bytes are those of the block xor the key stream, and everything behind
the block is the payload xor the rest of the key stream. -/
theorem ctr_crypt_ref_parts (enc : List Nat → List Nat) (hE : ∀ b, (enc b).length = 16)
    (iv B m : List Nat) (M : Nat) (hB : B.length = 16) (hM : M ≤ 16) :
    (ctr_crypt_ref enc iv (B ++ m)).take M =
      xor_bytes (B.take M) ((ctr_keystream enc (m.length / 16 + 2) iv).take M) ∧
    (ctr_crypt_ref enc iv (B ++ m)).drop 16 =
      xor_bytes m ((ctr_keystream enc (m.length / 16 + 2) iv).drop 16) ∧
    m.length ≤ ((ctr_keystream enc (m.length / 16 + 2) iv).drop 16).length ∧
    ((ctr_keystream enc (m.length / 16 + 2) iv).take M).length = M := by
  have hk : (B ++ m).length / 16 + 1 = m.length / 16 + 2 := by
    rw [List.length_append, hB]; omega
  have hl := ctr_keystream_length enc hE (m.length / 16 + 2) iv
  refine ⟨?_, ?_, ?_, ?_⟩
  · rw [ctr_crypt_ref, hk, xor_bytes, List.take_zipWith,
      List.take_append_of_le_length (by omega)]
    rfl
  · rw [ctr_crypt_ref, hk, xor_bytes, List.drop_zipWith,
      List.drop_append_of_le_length (by omega), ← hB, List.drop_length, List.nil_append]
    rfl
  · rw [List.length_drop, hl]; omega
  · rw [List.length_take, hl]; omega

/-- A region of a scatter list splits into its first `n` bytes and the `k` bytes
behind them. -/
theorem sg_copy_from_add (sg : List scatterlist) (s n k : Nat) :
    sg_copy_from sg s n = (sg_copy_from sg s (n + k)).take n ∧
    sg_copy_from sg (s + n) k = (sg_copy_from sg s (n + k)).drop n := by
  refine ⟨?_, ?_⟩
  · rw [sg_copy_from, sg_copy_from, List.take_take, Nat.min_eq_left (by omega)]
  · rw [sg_copy_from, sg_copy_from, List.drop_take, List.drop_drop,
      show n + k - n = k by omega, show s + n = n + s by omega]

/-- Decryption after encryption.  `req2` is a decrypt request with the IV and the
associated data of the encrypt request `req`, whose source holds the ciphertext that
`__ccm_encrypt` stored, followed by `authsize` tag bytes.  Then `__ccm_decrypt`
writes back the payload of `req`, and it returns 0 when the tag bytes are those that
`__ccm_encrypt` stored and `-EBADMSG` when they are not.  The two calls may see
different walkers. -/
theorem __ccm_decrypt_after_encrypt (E E2 : ccm_env) (aead : crypto_aead crypto_aes_ctx)
    (req req2 : aead_request) (res : ccm_result) (hres : res = __ccm_encrypt E aead req)
    (hE : ccm_env_ok E) (hE2 : ccm_env_ok E2) (henc : E2.aesni_enc = E.aesni_enc)
    (hM : aead.authsize ≤ 16) (hiv : req.iv.length = 16)
    (hL : 2 ≤ ccm_L req ∧ ccm_L req ≤ 8)
    (hfit : 4 ≤ ccm_L req ∨ req.cryptlen < 2 ^ (8 * ccm_L req))
    (ha32 : req.assoclen < 2 ^ 32) (hc32 : req.cryptlen + 16 < 2 ^ 32)
    (hbuf : ccm_buffers_ok req req.cryptlen (req.cryptlen + aead.authsize))
    (hiv2 : req2.iv = req.iv) (ha2 : req2.assoclen = req.assoclen)
    (hc2 : req2.cryptlen = req.cryptlen + aead.authsize)
    (hbuf2 : ccm_buffers_ok req2 req2.cryptlen req.cryptlen)
    (had : sg_copy_from req2.src 0 req.assoclen = sg_copy_from req.src 0 req.assoclen)
    (hct : sg_copy_from req2.src req.assoclen req.cryptlen =
      sg_copy_from res.dst req.assoclen req.cryptlen) :
    res.ret = 0 ∧
    sg_copy_from (__ccm_decrypt E2 aead req2).dst req.assoclen req.cryptlen =
      sg_copy_from req.src req.assoclen req.cryptlen ∧
    (__ccm_decrypt E2 aead req2).ret =
      if sg_copy_from req2.src (req.assoclen + req.cryptlen) aead.authsize ≠
          sg_copy_from res.dst (req.assoclen + req.cryptlen) aead.authsize
      then -EBADMSG else 0 := by
  have hS := hE.1
  obtain ⟨I, hI⟩ : ∃ I, I = ccm_init_mac aead.authsize req (List.replicate 16 0)
    req.cryptlen := ⟨_, rfl⟩
  obtain ⟨T, hT⟩ : ∃ T, T = cbc_mac (E.aesni_enc aead.ctx) (ccm_framed I.maciv
    (sg_copy_from req.src 0 req.assoclen)
    (sg_copy_from req.src req.assoclen req.cryptlen)) := ⟨_, rfl⟩
  obtain ⟨out, hout⟩ : ∃ out, out = ctr_crypt_ref (E.aesni_enc aead.ctx) I.iv
    (T ++ sg_copy_from req.src req.assoclen req.cryptlen) := ⟨_, rfl⟩
  obtain ⟨e0, eT, eo, eb⟩ := __ccm_encrypt_eq E aead req hE hM hiv hL hfit ha32 hc32 hbuf
    I T out hI hT hout
  rw [← hres] at e0 eb
  have hm := sg_copy_from_length req.src req.assoclen req.cryptlen hbuf.2.2.1
  have hdl : (out.drop 16).length = req.cryptlen := by rw [List.length_drop]; omega
  have hB := hbuf.2.2.2
  have hin : (memcpy_at (sg_bytes (if req.src_is_dst then req.src else req.dst))
      req.assoclen (out.drop 16) req.cryptlen).length =
      (sg_bytes (if req.src_is_dst then req.src else req.dst)).length :=
    memcpy_at_length _ _ _ _ (le_of_eq hdl.symm) (by omega)
  -- what the encryption stored
  have hsc : sg_copy_from res.dst req.assoclen req.cryptlen = out.drop 16 := by
    rw [sg_copy_from, eb, memcpy_at_before _ _ _ _ req.assoclen req.cryptlen
      (by rw [hin]; omega) (le_refl _),
      memcpy_at_region _ _ _ _ (le_of_eq hdl.symm) (by omega),
      List.take_of_length_le (le_of_eq hdl)]
  have hst : sg_copy_from res.dst (req.assoclen + req.cryptlen) aead.authsize =
      out.take aead.authsize := by
    rw [sg_copy_from, eb, memcpy_at_region _ _ _ _ (by rw [List.length_take]; omega)
      (by rw [hin]; omega), List.take_take, Nat.min_eq_left hM]
  obtain ⟨k1, k2, k3, k4⟩ := ctr_crypt_ref_parts (E.aesni_enc aead.ctx) (hS aead.ctx) I.iv T
    (sg_copy_from req.src req.assoclen req.cryptlen) aead.authsize eT hM
  rw [← hout, hm] at k1 k2
  rw [hm] at k3 k4
  -- the decryption
  have hL2 : ccm_L req2 = ccm_L req := by rw [ccm_L, ccm_L, hiv2]
  obtain ⟨tag, htag⟩ : ∃ tag, tag = sg_copy_from req2.src (req2.assoclen + req.cryptlen)
    aead.authsize ++ List.replicate (16 - aead.authsize) 0 := ⟨_, rfl⟩
  obtain ⟨out2, hout2⟩ : ∃ out2, out2 = ctr_crypt_ref (E2.aesni_enc aead.ctx) I.iv
    (tag ++ sg_copy_from req2.src req2.assoclen req.cryptlen) := ⟨_, rfl⟩
  obtain ⟨T2, hT2⟩ : ∃ T2, T2 = cbc_mac (E2.aesni_enc aead.ctx) (ccm_framed I.maciv
    (sg_copy_from req2.src 0 req2.assoclen) (out2.drop 16)) := ⟨_, rfl⟩
  obtain ⟨d0, _, db, dr⟩ := __ccm_decrypt_eq E2 aead req2 hE2 hM (by rw [hiv2]; exact hiv)
    (by rw [hL2]; exact hL) req.cryptlen hc2 (by rw [hL2]; exact hfit)
    (by rw [ha2]; exact ha32) hc32 hbuf2 I tag out2 T2
    (by rw [hI]; exact (ccm_init_mac_congr _ req req2 _ _ hiv2 ha2).symm) htag hout2 hT2
  rw [ha2] at htag hout2 hT2 db
  rw [henc] at hout2 hT2
  have htl : (sg_copy_from req2.src (req.assoclen + req.cryptlen) aead.authsize).length =
      aead.authsize :=
    sg_copy_from_length _ _ _ (by have := hbuf2.2.2.1; rw [ha2, hc2] at this; omega)
  have htagl : tag.length = 16 := by
    rw [htag, List.length_append, htl, List.length_replicate]; omega
  obtain ⟨j1, j2, _, _⟩ := ctr_crypt_ref_parts (E.aesni_enc aead.ctx) (hS aead.ctx) I.iv tag
    (sg_copy_from req2.src req.assoclen req.cryptlen) aead.authsize htagl hM
  rw [← hout2, hct, hsc, hdl] at j1 j2
  rw [k2, xor_bytes_cancel _ _ (by rw [hm]; exact k3)] at j2
  rw [htag, List.take_append_of_le_length (le_of_eq htl.symm),
    List.take_of_length_le (le_of_eq htl)] at j1
  rw [j2, had, ← hT] at hT2
  have hdl2 : (out2.drop 16).length = req.cryptlen := by rw [j2]; exact hm
  have hB2 := hbuf2.2.2.2
  refine ⟨e0, ?_, ?_⟩
  · rw [sg_copy_from, db, memcpy_at_region _ _ _ _ (le_of_eq hdl2.symm)
      (by rw [ha2] at hB2; omega), List.take_of_length_le (le_of_eq hdl2), j2]
  · rw [dr, List.take_take, Nat.min_eq_left hM, j1, hT2, hst, k1]
    have hTM : (T.take aead.authsize).length = aead.authsize := by
      rw [List.length_take]; omega
    by_cases h : sg_copy_from req2.src (req.assoclen + req.cryptlen) aead.authsize =
        xor_bytes (T.take aead.authsize)
          ((ctr_keystream (E.aesni_enc aead.ctx) (req.cryptlen / 16 + 2) I.iv).take
            aead.authsize)
    · rw [if_neg (not_not.2 h), if_neg]
      rw [h, xor_bytes_cancel _ _ (by rw [hTM, k4]), not_not]
    · rw [if_pos h, if_pos]
      intro hc
      apply h
      rw [hc, xor_bytes_cancel _ _ (by rw [htl, k4])]

/-- When `size` covers the whole of `dst`, `crypto_xor` is the bytewise xor. -/
theorem crypto_xor_short (dst src : List Nat) (n : Nat) (hd : dst.length ≤ n)
    (hs : dst.length ≤ src.length) : crypto_xor dst src n = xor_bytes dst src := by
  apply List.ext_getElem
  · simp [crypto_xor, xor_bytes, hs]
  · intro i h1 h2
    have hi : i < dst.length := by simpa [crypto_xor] using h1
    simp [crypto_xor, xor_bytes, show i < n by omega,
      List.getElem?_eq_getElem (show i < src.length by omega)]

/-- The counter-mode routine of the evaluation environment is counter mode over its
block function. -/
theorem toy_ctr_eq (ctx : crypto_aes_ctx) : ∀ (k : Nat) (inp iv : List Nat),
    toy_ctr ctx k inp iv = ctr_blocks (toy_enc ctx) k inp iv
  | 0, _, _ => rfl
  | k + 1, inp, iv => by
    simp only [toy_ctr, ctr_blocks]
    rw [toy_ctr_eq ctx k, crypto_xor_short _ _ 16 (by simp) (by simp [toy_enc])]

/-- The evaluation environment meets the contracts of the CCM code. -/
theorem ccm_env0_ok : ccm_env_ok ccm_env0 := by
  refine ⟨ccm_env0_stores_block, ?_, ?_⟩
  · intro ctx inp len iv
    exact toy_ctr_eq ctx (len / 16) inp iv
  · intro total
    simp [ccm_env0]

/-- The second evaluation environment meets the contracts of the CCM code. -/
theorem ccm_env1_ok : ccm_env_ok ccm_env1 := by
  refine ⟨fun ctx b => by simp [ccm_env1, toy_enc], ?_, ?_⟩
  · intro ctx inp len iv
    exact toy_ctr_eq ctx (len / 16) inp iv
  · intro total
    show (0 : Int) = 0 ∧ min total 16 ≤ total ∧ (total < 16 → min total 16 = total) ∧
      (16 ≤ total → 16 ≤ min total 16)
    omega

/-- C14 (amended): CCM round trip.  For every key, every IV with valid `L`, every
tag size `M` up to 16 (so every even `M` in `[4, 16]`), every associated data and
every payload whose length fits in `L` bytes and, with the 16-byte MAC block in front
of it, in the 32-bit length of the walk (`cryptlen + 16 < 2 ^ 32`): `__ccm_encrypt`
returns 0, and `__ccm_decrypt` applied to a request with the same key, IV and
associated data whose source holds what `__ccm_encrypt` stored (the ciphertext
followed by the `M`-byte tag) returns 0 and writes back exactly the payload.  The
external routines meet their contracts; the two calls may be walked differently. -/
theorem ccm_round_trip (E E2 : ccm_env) (aead : crypto_aead crypto_aes_ctx)
    (req req2 : aead_request)
    (hE : ccm_env_ok E) (hE2 : ccm_env_ok E2) (henc : E2.aesni_enc = E.aesni_enc)
    (hM : aead.authsize ≤ 16) (hiv : req.iv.length = 16)
    (hL : 2 ≤ ccm_L req ∧ ccm_L req ≤ 8)
    (hfit : req.cryptlen < 2 ^ (8 * ccm_L req))
    (ha32 : req.assoclen < 2 ^ 32) (hc32 : req.cryptlen + 16 < 2 ^ 32)
    (hbuf : ccm_buffers_ok req req.cryptlen (req.cryptlen + aead.authsize))
    (hiv2 : req2.iv = req.iv) (ha2 : req2.assoclen = req.assoclen)
    (hc2 : req2.cryptlen = req.cryptlen + aead.authsize)
    (hbuf2 : ccm_buffers_ok req2 req2.cryptlen req.cryptlen)
    (had : sg_copy_from req2.src 0 req.assoclen = sg_copy_from req.src 0 req.assoclen)
    (hct : sg_copy_from req2.src req.assoclen (req.cryptlen + aead.authsize) =
      sg_copy_from (__ccm_encrypt E aead req).dst req.assoclen
        (req.cryptlen + aead.authsize)) :
    (__ccm_encrypt E aead req).ret = 0 ∧
    (__ccm_decrypt E2 aead req2).ret = 0 ∧
    sg_copy_from (__ccm_decrypt E2 aead req2).dst req.assoclen req.cryptlen =
      sg_copy_from req.src req.assoclen req.cryptlen := by
  obtain ⟨s1, s2⟩ := sg_copy_from_add req2.src req.assoclen req.cryptlen aead.authsize
  obtain ⟨s3, s4⟩ := sg_copy_from_add (__ccm_encrypt E aead req).dst req.assoclen
    req.cryptlen aead.authsize
  obtain ⟨r0, r1, r2⟩ := __ccm_decrypt_after_encrypt E E2 aead req req2 _ rfl hE hE2 henc hM
    hiv hL (Or.inr hfit) ha32 hc32 hbuf hiv2 ha2 hc2 hbuf2 had (by rw [s1, s3, hct])
  refine ⟨r0, ?_, r1⟩
  rw [r2, if_neg (not_not.2 (by rw [s2, s4, hct]))]

theorem ccm_round_trip_witness :
    (__ccm_encrypt ccm_env0 ccm_tfm0 (ccm_req1 1 0 16)).ret = 0 ∧
    (__ccm_decrypt ccm_env1 ccm_tfm0 ccm_req2).ret = 0 ∧
    sg_copy_from (__ccm_decrypt ccm_env1 ccm_tfm0 ccm_req2).dst (ccm_req1 1 0 16).assoclen
        (ccm_req1 1 0 16).cryptlen =
      sg_copy_from (ccm_req1 1 0 16).src (ccm_req1 1 0 16).assoclen
        (ccm_req1 1 0 16).cryptlen :=
  ccm_round_trip ccm_env0 ccm_env1 ccm_tfm0 (ccm_req1 1 0 16) ccm_req2 ccm_env0_ok
    ccm_env1_ok rfl (by decide) (by decide) (by decide) (by decide) (by decide) (by decide)
    (by decide) rfl rfl rfl (by decide) rfl rfl

/-- C15 (amended): CCM rejects a corrupted tag.  For every output of `__ccm_encrypt`
(any key, valid IV, tag size `M` up to 16, any associated data, any payload that fits
in `L` bytes and, with the 16-byte MAC block in front of it, in the 32-bit length of
the walk, `cryptlen + 16 < 2 ^ 32`): a decrypt request with the
same key, IV and associated data and the unchanged ciphertext, whose `M` tag bytes
differ from the stored ones in some byte `j` (which the difference places among the
`M` tag bytes), makes `__ccm_decrypt` return `-EBADMSG`. -/
theorem ccm_corrupted_tag_rejected (E E2 : ccm_env) (aead : crypto_aead crypto_aes_ctx)
    (req req2 : aead_request)
    (hE : ccm_env_ok E) (hE2 : ccm_env_ok E2) (henc : E2.aesni_enc = E.aesni_enc)
    (hM : aead.authsize ≤ 16) (hiv : req.iv.length = 16)
    (hL : 2 ≤ ccm_L req ∧ ccm_L req ≤ 8)
    (hfit : req.cryptlen < 2 ^ (8 * ccm_L req))
    (ha32 : req.assoclen < 2 ^ 32) (hc32 : req.cryptlen + 16 < 2 ^ 32)
    (hbuf : ccm_buffers_ok req req.cryptlen (req.cryptlen + aead.authsize))
    (hiv2 : req2.iv = req.iv) (ha2 : req2.assoclen = req.assoclen)
    (hc2 : req2.cryptlen = req.cryptlen + aead.authsize)
    (hbuf2 : ccm_buffers_ok req2 req2.cryptlen req.cryptlen)
    (had : sg_copy_from req2.src 0 req.assoclen = sg_copy_from req.src 0 req.assoclen)
    (hct : sg_copy_from req2.src req.assoclen req.cryptlen =
      sg_copy_from (__ccm_encrypt E aead req).dst req.assoclen req.cryptlen)
    (j : Nat)
    (hbad : (sg_copy_from req2.src (req.assoclen + req.cryptlen) aead.authsize).getD j 0 ≠
      (sg_copy_from (__ccm_encrypt E aead req).dst (req.assoclen + req.cryptlen)
        aead.authsize).getD j 0) :
    (__ccm_decrypt E2 aead req2).ret = -EBADMSG := by
  obtain ⟨_, _, r2⟩ := __ccm_decrypt_after_encrypt E E2 aead req req2 _ rfl hE hE2 henc hM
    hiv hL (Or.inr hfit) ha32 hc32 hbuf hiv2 ha2 hc2 hbuf2 had hct
  rw [r2, if_pos (fun h => hbad (by rw [h]))]

theorem ccm_corrupted_tag_rejected_witness :
    (__ccm_decrypt ccm_env1 ccm_tfm0 ccm_req3).ret = -EBADMSG :=
  ccm_corrupted_tag_rejected ccm_env0 ccm_env1 ccm_tfm0 (ccm_req1 1 0 16) ccm_req3
    ccm_env0_ok ccm_env1_ok rfl (by decide) (by decide) (by decide) (by decide) (by decide)
    (by decide) (by decide) rfl rfl rfl (by decide) rfl (by decide) 0 (by decide)

/-- A walk over no bytes: the CTR pass leaves the walk as it started. -/
theorem ccm_ctr_pass_zero (E : ccm_env) (hW : walker_ok E) (ctx : crypto_aes_ctx)
    (inp iv out0 : List Nat) :
    ccm_ctr_pass E ctx inp (blkcipher_walk_start E 0 iv out0) =
      blkcipher_walk_start E 0 iv out0 := by
  have h := (hW 0).2.1
  have h0 : (E.walk 0).2 = 0 := by omega
  simp only [ccm_ctr_pass, blkcipher_walk_start, ccm_ctr_loop, h0]
  simp

/-- The function `__ccm_encrypt` on a payload of `2 ^ 32 - 16` bytes: the walk length
`len + 16` wraps to 0 in 32 bits, nothing is walked, and the call returns 0 with a
destination of the size it had. -/
theorem __ccm_encrypt_wrap (E : ccm_env) (aead : crypto_aead crypto_aes_ctx)
    (req : aead_request) (hE : ccm_env_ok E) (hM : aead.authsize ≤ 16)
    (hiv : req.iv.length = 16) (hL : 4 ≤ ccm_L req ∧ ccm_L req ≤ 8)
    (ha32 : req.assoclen < 2 ^ 32) (hw : req.cryptlen + 16 = 2 ^ 32)
    (hbuf : ccm_buffers_ok req req.cryptlen (req.cryptlen + aead.authsize)) :
    (__ccm_encrypt E aead req).ret = 0 ∧
    (sg_bytes (__ccm_encrypt E aead req).dst).length =
      (sg_bytes (if req.src_is_dst then req.src else req.dst)).length := by
  obtain ⟨hS, hC, hW⟩ := hE
  obtain ⟨hs1, hs2, hb1, hb2⟩ := hbuf
  have hu : u32 req.cryptlen = req.cryptlen := by unfold u32; omega
  have hu1 : u32 (req.cryptlen + 16) = 0 := by unfold u32; omega
  obtain ⟨I, hI⟩ : ∃ I, I = ccm_init_mac aead.authsize req (List.replicate 16 0)
    req.cryptlen := ⟨_, rfl⟩
  obtain ⟨i0, i1, i2⟩ := ccm_init_mac_ok aead.authsize req (List.replicate 16 0)
    req.cryptlen hiv (by simp) ⟨by omega, hL.2⟩ (Or.inl hL.1)
  rw [← hI] at i0 i1 i2
  have hsd : sg_sized (if req.src_is_dst then req.src else req.dst) := by
    split_ifs
    · exact hs1
    · exact hs2
  have hmd := sg_copy_from_length (if req.src_is_dst then req.src else req.dst)
    req.assoclen req.cryptlen (by omega)
  obtain ⟨T, hT⟩ : ∃ T, T = (ccm_calculate_auth_mac E req aead.ctx I.maciv req.src
    req.assoclen req.cryptlen).1 := ⟨_, rfl⟩
  have hTl : T.length = 16 := by
    rw [hT, ccm_calculate_auth_mac_chain E hS req aead.ctx I.maciv req.src req.assoclen
      req.cryptlen i2 ha32 hs1 hs1 (by omega) hb1]
    exact cbc_mac_absorb_length _ (hS aead.ctx) _ _ _
      (cbc_mac_absorb_length _ (hS aead.ctx) _ _ _ (hS aead.ctx _))
  have hd : ((T ++ sg_copy_from (if req.src_is_dst then req.src else req.dst) req.assoclen
      req.cryptlen).drop 16).length = req.cryptlen := by
    rw [List.length_drop, List.length_append, hTl, hmd]; omega
  obtain ⟨c1, c2⟩ := sg_bytes_copy_to (if req.src_is_dst then req.src else req.dst)
    req.assoclen ((T ++ sg_copy_from (if req.src_is_dst then req.src else req.dst)
      req.assoclen req.cryptlen).drop 16) req.cryptlen hsd (le_of_eq hd.symm) (by omega)
  have c3 := memcpy_at_length (sg_bytes (if req.src_is_dst then req.src else req.dst))
    ((T ++ sg_copy_from (if req.src_is_dst then req.src else req.dst)
      req.assoclen req.cryptlen).drop 16) req.assoclen req.cryptlen (le_of_eq hd.symm)
    (by omega)
  obtain ⟨d1, _⟩ := sg_bytes_copy_to _ (req.assoclen + req.cryptlen)
    ((T ++ sg_copy_from (if req.src_is_dst then req.src else req.dst)
      req.assoclen req.cryptlen).take 16) aead.authsize c2
    (by rw [List.length_take, List.length_append, hTl]; omega)
    (by rw [c1, c3]; omega)
  have hwe : (blkcipher_walk_start E 0 I.iv
      (T ++ sg_copy_from (if req.src_is_dst then req.src else req.dst) req.assoclen
        req.cryptlen)).err = 0 := (hW 0).1
  have hwo : (blkcipher_walk_start E 0 I.iv
      (T ++ sg_copy_from (if req.src_is_dst then req.src else req.dst) req.assoclen
        req.cryptlen)).out = T ++ sg_copy_from (if req.src_is_dst then req.src else req.dst)
        req.assoclen req.cryptlen := rfl
  refine ⟨?_, ?_⟩
  · simp only [__ccm_encrypt, hu, hu1, AES_BLOCK_SIZE, ← hI, i0, ← hT,
      ccm_ctr_pass_zero E hW, hwe]
    simp
  · simp only [__ccm_encrypt, hu, hu1, AES_BLOCK_SIZE, ← hI, i0, ← hT,
      ccm_ctr_pass_zero E hW, hwe, hwo]
    simp only [ne_eq, not_true_eq_false, if_false]
    rw [d1, memcpy_at_length _ _ _ _ (by rw [List.length_take, List.length_append, hTl]; omega)
      (by rw [c1, c3]; omega), c1, c3]

/-- The function `__ccm_decrypt` on a payload of `2 ^ 32 - 16` bytes, not in place:
the walk length wraps to 0 in 32 bits, nothing is walked, and the payload region of
the destination is left as it was. -/
theorem __ccm_decrypt_wrap (E : ccm_env) (aead : crypto_aead crypto_aes_ctx)
    (req : aead_request) (hW : walker_ok E) (hM : aead.authsize < 16) (len : Nat)
    (hlen : req.cryptlen = len + aead.authsize) (hw : len + 16 = 2 ^ 32)
    (hnot : req.src_is_dst = false) (hs : sg_sized req.dst)
    (hsrc : req.assoclen + req.cryptlen ≤ (sg_bytes req.src).length)
    (hdst : req.assoclen + len ≤ (sg_bytes req.dst).length) :
    sg_copy_from (__ccm_decrypt E aead req).dst req.assoclen len =
      sg_copy_from req.dst req.assoclen len := by
  have hua : u32 aead.authsize = aead.authsize := by unfold u32; omega
  have hu : u32 req.cryptlen = req.cryptlen := by unfold u32; omega
  have hsub : sub_u32 req.cryptlen aead.authsize = len := by unfold sub_u32 u32; omega
  have hu1 : u32 (len + 16) = 0 := by unfold u32; omega
  have htl := sg_copy_from_length req.src (req.assoclen + len) aead.authsize (by omega)
  have hpl := sg_copy_from_length req.dst req.assoclen len hdst
  obtain ⟨tag, htag⟩ : ∃ tag, tag = memcpy_at (List.replicate 16 0) 0
      (sg_copy_from req.src (req.assoclen + len) aead.authsize) aead.authsize := ⟨_, rfl⟩
  have htagl : tag.length = 16 := by
    rw [htag, memcpy_at_length _ _ _ _ (le_of_eq htl.symm) (by simp; omega)]
    simp
  have hd : (tag ++ sg_copy_from req.dst req.assoclen len).drop 16 =
      sg_copy_from req.dst req.assoclen len := by
    rw [List.drop_append_of_le_length (le_of_eq htagl.symm), ← htagl, List.drop_length,
      List.nil_append]
  obtain ⟨c1, _⟩ := sg_bytes_copy_to req.dst req.assoclen
    (sg_copy_from req.dst req.assoclen len) len hs (le_of_eq hpl.symm) hdst
  have key : sg_copy_from (sg_copy_to req.dst req.assoclen
      (sg_copy_from req.dst req.assoclen len) len) req.assoclen len =
      sg_copy_from req.dst req.assoclen len := by
    rw [sg_copy_from, c1, memcpy_at_region _ _ _ _ (le_of_eq hpl.symm) hdst,
      List.take_of_length_le (le_of_eq hpl)]
  have hwo : (blkcipher_walk_start E 0
      (ccm_init_mac aead.authsize req (List.replicate 16 0) len).iv
      (tag ++ sg_copy_from req.dst req.assoclen len)).out =
      tag ++ sg_copy_from req.dst req.assoclen len := rfl
  simp only [__ccm_decrypt, hua, hu, hsub, hu1, AES_BLOCK_SIZE, hnot, Bool.false_eq_true,
    if_false, ← htag, ccm_ctr_pass_zero E hW, hwo, hd]
  split_ifs <;> first | rfl | exact key

/-- C14, as stated, fails at the 32-bit limit: with `L = 4`, a 4-byte tag and a payload
of `2 ^ 32 - 16` bytes (which fits in 4 bytes), `__ccm_encrypt` returns 0, but the
walk length `len + 16` has wrapped to 0, and `__ccm_decrypt` applied to its output
does not write the payload back. -/
theorem ccm_round_trip_wraps :
    ccm_L ccm_req_big = 4 ∧ ccm_req_big.cryptlen < 2 ^ (8 * ccm_L ccm_req_big) ∧
    (__ccm_encrypt ccm_env0 ccm_tfm0 ccm_req_big).ret = 0 ∧
    ¬ ((__ccm_decrypt ccm_env0 ccm_tfm0 ccm_req_big2).ret = 0 ∧
      sg_copy_from (__ccm_decrypt ccm_env0 ccm_tfm0 ccm_req_big2).dst ccm_req_big.assoclen
          ccm_req_big.cryptlen =
        sg_copy_from ccm_req_big.src ccm_req_big.assoclen ccm_req_big.cryptlen) := by
  have hL : ccm_L ccm_req_big = 4 := by decide
  have hs : sg_sized ccm_req_big.src := by
    intro e he
    simp only [ccm_req_big, List.mem_singleton] at he
    rw [he]
    simp only [List.length_replicate, le_refl]
  have hd : sg_sized ccm_req_big.dst := by
    intro e he
    simp only [ccm_req_big, List.mem_singleton] at he
    rw [he]
    simp only [List.length_replicate, le_refl]
  have hbs : sg_bytes ccm_req_big.src = List.replicate 4294967284 1 := by
    simp only [ccm_req_big, sg_bytes, List.take_replicate, Nat.min_self, List.append_nil]
  have hbd : sg_bytes ccm_req_big.dst = List.replicate 4294967284 0 := by
    simp only [ccm_req_big, sg_bytes, List.take_replicate, Nat.min_self, List.append_nil]
  have hbuf : ccm_buffers_ok ccm_req_big ccm_req_big.cryptlen
      (ccm_req_big.cryptlen + ccm_tfm0.authsize) := by
    refine ⟨hs, hd, ?_, ?_⟩
    · rw [hbs, List.length_replicate]
      decide
    · rw [show (if ccm_req_big.src_is_dst = true then ccm_req_big.src else ccm_req_big.dst) =
        ccm_req_big.dst from rfl, hbd, List.length_replicate]
      decide
  obtain ⟨e0, e1⟩ := __ccm_encrypt_wrap ccm_env0 ccm_tfm0 ccm_req_big ccm_env0_ok
    (by decide) (by decide) (by rw [hL]; decide) (by decide) (by decide) hbuf
  rw [show (if ccm_req_big.src_is_dst = true then ccm_req_big.src else ccm_req_big.dst) =
    ccm_req_big.dst from rfl, hbd, List.length_replicate] at e1
  have hd2 : sg_sized ccm_req_big2.dst := by
    intro e he
    simp only [ccm_req_big2, List.mem_singleton] at he
    rw [he]
    simp only [List.length_replicate, le_refl]
  have hbd2 : sg_bytes ccm_req_big2.dst = List.replicate 4294967280 0 := by
    simp only [ccm_req_big2, sg_bytes, List.take_replicate, Nat.min_self, List.append_nil]
  have hw := __ccm_decrypt_wrap ccm_env0 ccm_tfm0 ccm_req_big2 ccm_env0_ok.2.2 (by decide)
    4294967280 rfl (by decide) rfl hd2
    (by rw [show ccm_req_big2.src = (__ccm_encrypt ccm_env0 ccm_tfm0 ccm_req_big).dst from rfl,
          e1]
        decide)
    (by rw [hbd2, List.length_replicate]; decide)
  refine ⟨hL, by rw [hL]; decide, e0, ?_⟩
  rintro ⟨_, h⟩
  rw [show ccm_req_big.assoclen = ccm_req_big2.assoclen from rfl,
    show ccm_req_big.cryptlen = 4294967280 from rfl, hw] at h
  rw [sg_copy_from, sg_copy_from, hbd2, hbs] at h
  have h1 := congrArg (fun l => l[0]?) h
  simp only [show ccm_req_big2.assoclen = 0 from rfl, List.drop_zero, List.take_replicate,
    List.getElem?_replicate] at h1
  rw [if_pos (by decide), if_pos (by decide)] at h1
  exact absurd h1 (by decide)

/-- The comparison `crypto_memneq(a, b, n)` finds a difference exactly when some byte
among the first `n` differs. -/
theorem crypto_memneq_exists (a b : List Nat) (n : Nat) :
    crypto_memneq a b n = true ↔ ∃ i, i < n ∧ a.getD i 0 ≠ b.getD i 0 := by
  simp only [crypto_memneq, List.any_eq_true, List.mem_range, bne_iff_ne]

/-- The comparison `crypto_memneq(a, b, n)` reads the first `n` bytes of `a` only. -/
theorem crypto_memneq_congr (a a2 b : List Nat) (n : Nat)
    (h : ∀ i, i < n → a.getD i 0 = a2.getD i 0) :
    crypto_memneq a b n = crypto_memneq a2 b n := by
  rw [Bool.eq_iff_iff, crypto_memneq_exists, crypto_memneq_exists]
  constructor
  · rintro ⟨i, hi, hne⟩
    exact ⟨i, hi, by rw [← h i hi]; exact hne⟩
  · rintro ⟨i, hi, hne⟩
    exact ⟨i, hi, by rw [h i hi]; exact hne⟩

/-- Behind the region it writes, `memcpy` leaves the destination as it was. -/
theorem memcpy_at_after (dst src : List Nat) (off n : Nat) (hs : n ≤ src.length)
    (hd : off + n ≤ dst.length) :
    ((memcpy_at dst off src n).drop off).drop n = dst.drop (off + n) := by
  have l1 : (dst.take off).length = off := by rw [List.length_take]; omega
  have l2 : (src.take n).length = n := by rw [List.length_take]; omega
  rw [memcpy_at, List.append_assoc, List.drop_append_of_le_length (le_of_eq l1.symm)]
  nth_rewrite 1 [← l1]
  rw [List.drop_length, List.nil_append, List.drop_append_of_le_length (le_of_eq l2.symm)]
  nth_rewrite 1 [← l2]
  rw [List.drop_length, List.nil_append]

/-- The bytes of a buffer from position `k` on, read through `getD`, are those of
its first `L` bytes as long as the position stays below `L`. -/
theorem getD_drop_take (X : List Nat) (L k n i : Nat) (hi : i < n) (hL : k + n ≤ L) :
    (X.drop k).getD i 0 = (((X.take L).drop k).take n).getD i 0 := by
  simp only [List.getD_eq_getElem?_getD, List.getElem?_take, List.getElem?_drop, hi,
    if_true, show k + i < L by omega]

/-- The verdict of `helper_rfc4106_decrypt`: after the backend call the function
compares the tag the backend stored with the `auth_tag_len` bytes that follow the
ciphertext in the source, and returns `-EBADMSG` when they differ and 0 when they do
not. -/
theorem helper_rfc4106_decrypt_ret (E : gcm_env) (tfm : crypto_aead aesni_rfc4106_gcm_ctx)
    (req : aead_request) (ha : req.assoclen = 16 ∨ req.assoclen = 20)
    (hk : one_entry_in_sg_dec req = true ∨
      E.kmalloc (u32 (req.cryptlen + req.assoclen)) = true)
    (hM : tfm.authsize ≤ req.cryptlen) (h32 : req.assoclen + req.cryptlen < 2 ^ 32)
    (hs : sg_sized req.src) (hb : req.assoclen + req.cryptlen ≤ (sg_bytes req.src).length)
    (hout : req.cryptlen - tfm.authsize ≤ (rfc4106_dec_call E tfm req).1.length) :
    (helper_rfc4106_decrypt E tfm req).ret =
      if crypto_memneq
          (sg_copy_from req.src (req.assoclen + (req.cryptlen - tfm.authsize)) tfm.authsize)
          (rfc4106_dec_call E tfm req).2 tfm.authsize
      then -EBADMSG else 0 := by
  have ht : sub_u64 req.cryptlen tfm.authsize = req.cryptlen - tfm.authsize := by
    unfold sub_u64 u64; omega
  have hto : u64 (req.assoclen + (req.cryptlen - tfm.authsize)) =
      req.assoclen + (req.cryptlen - tfm.authsize) := by
    unfold u64; omega
  have hna : ¬ (req.assoclen ≠ 16 ∧ req.assoclen ≠ 20) := by omega
  have hu : u32 (req.assoclen + req.cryptlen) = req.assoclen + req.cryptlen := by
    unfold u32; omega
  have hu2 : u32 (req.cryptlen + req.assoclen) = req.assoclen + req.cryptlen := by
    unfold u32; omega
  by_cases h1 : one_entry_in_sg_dec req = true
  · have hA : rfc4106_dec_assoc req = (sg_first req.src).data := by
      rw [rfc4106_dec_assoc, if_pos h1]
    -- the source is one entry
    have hl : sg_is_last req.src = true := by
      simp only [one_entry_in_sg_dec, Bool.and_eq_true] at h1
      exact h1.1.1.1
    obtain ⟨e, he⟩ : ∃ e, req.src = [e] := by
      cases hsrc : req.src with
      | nil => rw [hsrc] at hb; simp [sg_bytes] at hb; omega
      | cons e es =>
        rw [hsrc] at hl
        simp only [sg_is_last, List.tail_cons, List.isEmpty_iff] at hl
        exact ⟨e, by rw [hl]⟩
    have hel : e.length ≤ e.data.length := hs e (by rw [he]; exact List.mem_singleton_self e)
    have hB : sg_bytes req.src = e.data.take e.length := by
      rw [he, sg_bytes, sg_bytes, List.append_nil]
    have hD : (sg_first req.src).data = e.data := by rw [he]; rfl
    rw [hB, List.length_take] at hb
    rw [rfc4106_dec_call, ht, hA, hD] at hout
    have key : ∀ i, i < tfm.authsize →
        (e.data.drop (req.assoclen + (req.cryptlen - tfm.authsize))).getD i 0 =
        (sg_copy_from req.src (req.assoclen + (req.cryptlen - tfm.authsize))
          tfm.authsize).getD i 0 := by
      intro i hi
      rw [sg_copy_from, hB]
      exact getD_drop_take _ _ _ _ i hi (by omega)
    simp only [helper_rfc4106_decrypt, hna, if_false, h1, if_true, ht, rfc4106_dec_call, hA, hD]
    by_cases hp : req.src_is_dst = true
    · simp only [hp, if_true, hto]
      rw [← List.drop_drop, memcpy_at_after _ _ _ _ hout (by omega),
        crypto_memneq_congr _ _ _ _ key]
    · simp only [hp, if_false, Bool.false_eq_true, hto]
      rw [crypto_memneq_congr _ _ _ _ key]
  · have hkm : E.kmalloc (req.assoclen + req.cryptlen) = true := by
      rcases hk with hk | hk
      · exact absurd hk h1
      · rw [← hu2]; exact hk
    have hS := sg_copy_from_length req.src 0 (req.assoclen + req.cryptlen) (by omega)
    have hm : memcpy_at (List.replicate (req.assoclen + req.cryptlen) 0) 0
        (sg_copy_from req.src 0 (req.assoclen + req.cryptlen)) (req.assoclen + req.cryptlen) =
        sg_copy_from req.src 0 (req.assoclen + req.cryptlen) := by
      rw [memcpy_at, List.take_of_length_le (le_of_eq hS)]
      simp
    have hA : rfc4106_dec_assoc req = sg_copy_from req.src 0 (req.assoclen + req.cryptlen) := by
      rw [rfc4106_dec_assoc, if_neg h1, hu, hu2, hm]
    rw [rfc4106_dec_call, ht, hA] at hout
    have key : ∀ i, i < tfm.authsize →
        ((sg_copy_from req.src 0 (req.assoclen + req.cryptlen)).drop
          (req.assoclen + (req.cryptlen - tfm.authsize))).getD i 0 =
        (sg_copy_from req.src (req.assoclen + (req.cryptlen - tfm.authsize))
          tfm.authsize).getD i 0 := by
      intro i hi
      simp only [sg_copy_from, List.drop_zero, List.getD_eq_getElem?_getD, List.getElem?_take,
        List.getElem?_drop, hi, if_true,
        show req.assoclen + (req.cryptlen - tfm.authsize) + i < req.assoclen + req.cryptlen
          by omega]
    simp only [helper_rfc4106_decrypt, hna, if_false, h1, Bool.false_eq_true, ht,
      rfc4106_dec_call, hA, hu, hu2, hkm, not_true_eq_false, hm, hto]
    rw [← List.drop_drop, memcpy_at_after _ _ _ _ hout (by rw [hS]; omega),
      crypto_memneq_congr _ _ _ _ key]

/-- The return codes of `helper_rfc4106_decrypt`. -/
theorem helper_rfc4106_decrypt_codes (E : gcm_env) (tfm : crypto_aead aesni_rfc4106_gcm_ctx)
    (req : aead_request) :
    (helper_rfc4106_decrypt E tfm req).ret = -EINVAL ∨
    (helper_rfc4106_decrypt E tfm req).ret = -ENOMEM ∨
    (helper_rfc4106_decrypt E tfm req).ret = -EBADMSG ∨
    (helper_rfc4106_decrypt E tfm req).ret = 0 := by
  simp only [helper_rfc4106_decrypt]
  split_ifs <;> simp

/-- C16: for every RFC4106 decrypt request with accepted associated-data length and a
successful staging allocation (or none needed), whose source holds the bytes the
request names and whose backend stores the plaintext, `helper_rfc4106_decrypt`
returns `-EBADMSG` if and only if the tag computed by the backend differs from the
received tag (the `auth_tag_len` bytes that follow the ciphertext) in at least one of
the first `auth_tag_len` bytes, and returns 0 otherwise; `-EBADMSG` is distinct from
`-EINVAL` and `-ENOMEM`, the only other failure codes of the function. -/
theorem helper_rfc4106_decrypt_ebadmsg (E : gcm_env)
    (tfm : crypto_aead aesni_rfc4106_gcm_ctx) (req : aead_request)
    (ha : req.assoclen = 16 ∨ req.assoclen = 20)
    (hk : one_entry_in_sg_dec req = true ∨
      E.kmalloc (u32 (req.cryptlen + req.assoclen)) = true)
    (hM : tfm.authsize ≤ req.cryptlen) (h32 : req.assoclen + req.cryptlen < 2 ^ 32)
    (hs : sg_sized req.src) (hb : req.assoclen + req.cryptlen ≤ (sg_bytes req.src).length)
    (hout : req.cryptlen - tfm.authsize ≤ (rfc4106_dec_call E tfm req).1.length) :
    ((helper_rfc4106_decrypt E tfm req).ret = -EBADMSG ↔
      ∃ i, i < tfm.authsize ∧
        (sg_copy_from req.src (req.assoclen + (req.cryptlen - tfm.authsize))
          tfm.authsize).getD i 0 ≠ (rfc4106_dec_call E tfm req).2.getD i 0) ∧
    ((helper_rfc4106_decrypt E tfm req).ret ≠ -EBADMSG →
      (helper_rfc4106_decrypt E tfm req).ret = 0) ∧
    -EBADMSG ≠ -EINVAL ∧ -EBADMSG ≠ -ENOMEM ∧
    (∀ req2, (helper_rfc4106_decrypt E tfm req2).ret = -EINVAL ∨
      (helper_rfc4106_decrypt E tfm req2).ret = -ENOMEM ∨
      (helper_rfc4106_decrypt E tfm req2).ret = -EBADMSG ∨
      (helper_rfc4106_decrypt E tfm req2).ret = 0) := by
  have h := helper_rfc4106_decrypt_ret E tfm req ha hk hM h32 hs hb hout
  rw [← crypto_memneq_exists]
  refine ⟨?_, ?_, by decide, by decide, helper_rfc4106_decrypt_codes E tfm⟩
  · rw [h]
    by_cases hc : crypto_memneq
        (sg_copy_from req.src (req.assoclen + (req.cryptlen - tfm.authsize)) tfm.authsize)
        (rfc4106_dec_call E tfm req).2 tfm.authsize = true
    · simp only [hc, if_true]
    · simp only [hc, if_false, Bool.false_eq_true, iff_false]
      decide
  · rw [h]
    split_ifs
    · intro hne; exact absurd rfl hne
    · intro _; rfl

theorem helper_rfc4106_decrypt_ebadmsg_witness :
    ((helper_rfc4106_decrypt env0 tfm0 (req_dec0 16)).ret = -EBADMSG ↔
      ∃ i, i < tfm0.authsize ∧
        (sg_copy_from (req_dec0 16).src
          ((req_dec0 16).assoclen + ((req_dec0 16).cryptlen - tfm0.authsize))
          tfm0.authsize).getD i 0 ≠ (rfc4106_dec_call env0 tfm0 (req_dec0 16)).2.getD i 0) ∧
    ((helper_rfc4106_decrypt env0 tfm0 (req_dec0 16)).ret ≠ -EBADMSG →
      (helper_rfc4106_decrypt env0 tfm0 (req_dec0 16)).ret = 0) ∧
    -EBADMSG ≠ -EINVAL ∧ -EBADMSG ≠ -ENOMEM ∧
    (∀ req2, (helper_rfc4106_decrypt env0 tfm0 req2).ret = -EINVAL ∨
      (helper_rfc4106_decrypt env0 tfm0 req2).ret = -ENOMEM ∨
      (helper_rfc4106_decrypt env0 tfm0 req2).ret = -EBADMSG ∨
      (helper_rfc4106_decrypt env0 tfm0 req2).ret = 0) :=
  helper_rfc4106_decrypt_ebadmsg env0 tfm0 (req_dec0 16) (by decide) (by decide) (by decide)
    (by decide) (by decide) (by decide) (by decide)

/-- C17: GCM backend selection is a function of payload length and key size only.
In `aesni_gcm_enc_avx2` and `aesni_gcm_dec_avx2` the baseline routine is called when
`len < 640` or the key is not 128-bit, the gen2 routine (after the gen2
precomputation) when the key is 128-bit and `640 <= len < 4096`, the gen4 routine
(after the gen4 precomputation) when the key is 128-bit and `len >= 4096`; in
`aesni_gcm_enc_avx` and `aesni_gcm_dec_avx` the baseline routine when `len < 640` or
the key is not 128-bit, gen2 otherwise.  Exactly one backend is called per
invocation, and the encrypt and decrypt dispatchers of a tier choose the same
generation. -/
theorem gcm_backend_selection (a : gcm_args) :
    ((a.len < 640 ∨ a.ctx.key_length ≠ 16) →
      aesni_gcm_enc_avx2 a = [.aesni_gcm_enc] ∧ aesni_gcm_dec_avx2 a = [.aesni_gcm_dec] ∧
      aesni_gcm_enc_avx a = [.aesni_gcm_enc] ∧ aesni_gcm_dec_avx a = [.aesni_gcm_dec]) ∧
    ((a.ctx.key_length = 16 ∧ 640 ≤ a.len ∧ a.len < 4096) →
      aesni_gcm_enc_avx2 a = [.aesni_gcm_precomp_avx_gen2, .aesni_gcm_enc_avx_gen2] ∧
      aesni_gcm_dec_avx2 a = [.aesni_gcm_precomp_avx_gen2, .aesni_gcm_dec_avx_gen2]) ∧
    ((a.ctx.key_length = 16 ∧ 4096 ≤ a.len) →
      aesni_gcm_enc_avx2 a = [.aesni_gcm_precomp_avx_gen4, .aesni_gcm_enc_avx_gen4] ∧
      aesni_gcm_dec_avx2 a = [.aesni_gcm_precomp_avx_gen4, .aesni_gcm_dec_avx_gen4]) ∧
    ((a.ctx.key_length = 16 ∧ 640 ≤ a.len) →
      aesni_gcm_enc_avx a = [.aesni_gcm_precomp_avx_gen2, .aesni_gcm_enc_avx_gen2] ∧
      aesni_gcm_dec_avx a = [.aesni_gcm_precomp_avx_gen2, .aesni_gcm_dec_avx_gen2]) ∧
    ((gcm_backends (aesni_gcm_enc_avx a)).length = 1 ∧
      (gcm_backends (aesni_gcm_dec_avx a)).length = 1 ∧
      (gcm_backends (aesni_gcm_enc_avx2 a)).length = 1 ∧
      (gcm_backends (aesni_gcm_dec_avx2 a)).length = 1) ∧
    gcm_backends (aesni_gcm_enc_avx a) = gcm_backends (aesni_gcm_dec_avx a) ∧
    gcm_backends (aesni_gcm_enc_avx2 a) = gcm_backends (aesni_gcm_dec_avx2 a) ∧
    (∀ b : gcm_args, b.len = a.len → b.ctx.key_length = a.ctx.key_length →
      aesni_gcm_enc_avx b = aesni_gcm_enc_avx a ∧ aesni_gcm_dec_avx b = aesni_gcm_dec_avx a ∧
      aesni_gcm_enc_avx2 b = aesni_gcm_enc_avx2 a ∧
      aesni_gcm_dec_avx2 b = aesni_gcm_dec_avx2 a) := by
  simp only [aesni_gcm_enc_avx, aesni_gcm_dec_avx, aesni_gcm_enc_avx2, aesni_gcm_dec_avx2,
    AVX_GEN2_OPTSIZE, AVX_GEN4_OPTSIZE, AES_KEYSIZE_128]
  refine ⟨?_, ?_, ?_, ?_, ?_, ?_, ?_, ?_⟩
  · intro h
    simp only [h, if_true, and_self]
  · rintro ⟨hk, h1, h2⟩
    have hn : ¬ (a.len < 640 ∨ a.ctx.key_length ≠ 16) := by omega
    simp only [hn, if_false, h2, if_true, and_self]
  · rintro ⟨hk, h1⟩
    have hn : ¬ (a.len < 640 ∨ a.ctx.key_length ≠ 16) := by omega
    have h2 : ¬ a.len < 4096 := by omega
    simp only [hn, if_false, h2, and_self]
  · rintro ⟨hk, h1⟩
    have hn : ¬ (a.len < 640 ∨ a.ctx.key_length ≠ 16) := by omega
    simp only [hn, if_false, and_self]
  · refine ⟨?_, ?_, ?_, ?_⟩ <;> split_ifs <;> rfl
  · split_ifs <;> rfl
  · split_ifs <;> rfl
  · intro b hl hk
    simp only [hl, hk, and_self]
/-- The trace of `aesni_init` starts with the trace of the binding part. -/
theorem aesni_init_trace (env : init_env) (hx : env.CONFIG_X86_64 = true)
    (hc : env.x86_match_cpu = true) :
    ∃ post, (aesni_init env).2.trace =
        (aesni_init_bind env ⟨none, none, none, []⟩).trace ++ post ∧
      (∀ e ∈ post, e.is_binding = false) ∧
      (aesni_init env).2.aesni_gcm_enc_tfm =
        (aesni_init_bind env ⟨none, none, none, []⟩).aesni_gcm_enc_tfm ∧
      (aesni_init env).2.aesni_gcm_dec_tfm =
        (aesni_init_bind env ⟨none, none, none, []⟩).aesni_gcm_dec_tfm ∧
      (aesni_init env).2.aesni_ctr_enc_tfm =
        (aesni_init_bind env ⟨none, none, none, []⟩).aesni_ctr_enc_tfm := by
  simp only [aesni_init, hx, hc, not_true_eq_false, if_false, if_true]
  split_ifs
  · exact ⟨[.crypto_fpu_init], rfl, by simp [init_event.is_binding], rfl, rfl, rfl⟩
  · exact ⟨[.crypto_fpu_init, .crypto_register_algs, .crypto_fpu_exit],
      by simp, by simp [init_event.is_binding], rfl, rfl, rfl⟩
  · exact ⟨[.crypto_fpu_init, .crypto_register_algs, .crypto_register_aeads,
      .crypto_unregister_algs, .crypto_fpu_exit],
      by simp, by simp [init_event.is_binding], rfl, rfl, rfl⟩
  · exact ⟨[.crypto_fpu_init, .crypto_register_algs, .crypto_register_aeads],
      by simp, by simp [init_event.is_binding], rfl, rfl, rfl⟩

/-- C19: on a 64-bit build and a CPU with AES-NI, `aesni_init` binds each operation
to the highest supported tier.  The GCM encrypt and decrypt pointers are bound to the
AVX2 dispatchers when AVX2 is present (known to the assembler and to the CPU),
otherwise to the AVX dispatchers when AVX is present, otherwise to the baseline
routines; the bulk CTR pointer is bound to the by8 dispatcher when AVX is present and
to the baseline routine otherwise.  The two GCM pointers are always of the same
tier, and the trace splits into the bindings followed by calls that bind nothing, so
that all three pointers are bound before any algorithm is registered. -/
theorem aesni_init_binding (env : init_env) (hx : env.CONFIG_X86_64 = true)
    (hc : env.x86_match_cpu = true) :
    ((env.CONFIG_AS_AVX2 = true ∧ env.boot_cpu_has_avx2 = true) →
      (aesni_init env).2.aesni_gcm_enc_tfm = some .aesni_gcm_enc_avx2 ∧
      (aesni_init env).2.aesni_gcm_dec_tfm = some .aesni_gcm_dec_avx2) ∧
    (¬ (env.CONFIG_AS_AVX2 = true ∧ env.boot_cpu_has_avx2 = true) →
      (env.CONFIG_AS_AVX = true ∧ env.boot_cpu_has_avx = true) →
      (aesni_init env).2.aesni_gcm_enc_tfm = some .aesni_gcm_enc_avx ∧
      (aesni_init env).2.aesni_gcm_dec_tfm = some .aesni_gcm_dec_avx) ∧
    (¬ (env.CONFIG_AS_AVX2 = true ∧ env.boot_cpu_has_avx2 = true) →
      ¬ (env.CONFIG_AS_AVX = true ∧ env.boot_cpu_has_avx = true) →
      (aesni_init env).2.aesni_gcm_enc_tfm = some .aesni_gcm_enc ∧
      (aesni_init env).2.aesni_gcm_dec_tfm = some .aesni_gcm_dec) ∧
    ((env.CONFIG_AS_AVX = true ∧ env.boot_cpu_has_avx = true) →
      (aesni_init env).2.aesni_ctr_enc_tfm = some .aesni_ctr_enc_avx_tfm) ∧
    (¬ (env.CONFIG_AS_AVX = true ∧ env.boot_cpu_has_avx = true) →
      (aesni_init env).2.aesni_ctr_enc_tfm = some .aesni_ctr_enc) ∧
    (∃ pre post, (aesni_init env).2.trace = pre ++ post ∧
      (∀ e ∈ pre, e.is_binding = true) ∧ (∀ e ∈ post, e.is_binding = false) ∧
      (∀ e ∈ pre, e.is_registration = false) ∧
      (∃ f, .set_aesni_gcm_enc_tfm f ∈ pre) ∧ (∃ f, .set_aesni_gcm_dec_tfm f ∈ pre) ∧
      (∃ f, .set_aesni_ctr_enc_tfm f ∈ pre)) := by
  obtain ⟨post, t0, t1, t2, t3, t4⟩ := aesni_init_trace env hx hc
  rw [t2, t3, t4]
  refine ⟨?_, ?_, ?_, ?_, ?_, (aesni_init_bind env ⟨none, none, none, []⟩).trace, post, t0,
    ?_, t1, ?_, ?_, ?_, ?_⟩
  · intro h
    simp only [aesni_init_bind, if_pos h]
    split_ifs <;> exact ⟨rfl, rfl⟩
  · intro h2 h
    simp only [aesni_init_bind, if_neg h2, if_pos h]
    exact ⟨trivial, trivial⟩
  · intro h2 h
    simp only [aesni_init_bind, if_neg h2, if_neg h]
    exact ⟨trivial, trivial⟩
  · intro h
    simp only [aesni_init_bind, if_pos h]
  · intro h
    simp only [aesni_init_bind, if_neg h]
  all_goals
    simp only [aesni_init_bind]
    split_ifs <;> simp [init_event.is_binding, init_event.is_registration]

theorem aesni_init_binding_witness :
    ((init_env0.CONFIG_AS_AVX2 = true ∧ init_env0.boot_cpu_has_avx2 = true) →
      (aesni_init init_env0).2.aesni_gcm_enc_tfm = some .aesni_gcm_enc_avx2 ∧
      (aesni_init init_env0).2.aesni_gcm_dec_tfm = some .aesni_gcm_dec_avx2) ∧
    (¬ (init_env0.CONFIG_AS_AVX2 = true ∧ init_env0.boot_cpu_has_avx2 = true) →
      (init_env0.CONFIG_AS_AVX = true ∧ init_env0.boot_cpu_has_avx = true) →
      (aesni_init init_env0).2.aesni_gcm_enc_tfm = some .aesni_gcm_enc_avx ∧
      (aesni_init init_env0).2.aesni_gcm_dec_tfm = some .aesni_gcm_dec_avx) ∧
    (¬ (init_env0.CONFIG_AS_AVX2 = true ∧ init_env0.boot_cpu_has_avx2 = true) →
      ¬ (init_env0.CONFIG_AS_AVX = true ∧ init_env0.boot_cpu_has_avx = true) →
      (aesni_init init_env0).2.aesni_gcm_enc_tfm = some .aesni_gcm_enc ∧
      (aesni_init init_env0).2.aesni_gcm_dec_tfm = some .aesni_gcm_dec) ∧
    ((init_env0.CONFIG_AS_AVX = true ∧ init_env0.boot_cpu_has_avx = true) →
      (aesni_init init_env0).2.aesni_ctr_enc_tfm = some .aesni_ctr_enc_avx_tfm) ∧
    (¬ (init_env0.CONFIG_AS_AVX = true ∧ init_env0.boot_cpu_has_avx = true) →
      (aesni_init init_env0).2.aesni_ctr_enc_tfm = some .aesni_ctr_enc) ∧
    (∃ pre post, (aesni_init init_env0).2.trace = pre ++ post ∧
      (∀ e ∈ pre, e.is_binding = true) ∧ (∀ e ∈ post, e.is_binding = false) ∧
      (∀ e ∈ pre, e.is_registration = false) ∧
      (∃ f, .set_aesni_gcm_enc_tfm f ∈ pre) ∧ (∃ f, .set_aesni_gcm_dec_tfm f ∈ pre) ∧
      (∃ f, .set_aesni_ctr_enc_tfm f ∈ pre)) :=
  aesni_init_binding init_env0 rfl rfl
/-- C18, as stated, fails for the baseline binding: on a CPU without AVX `aesni_init`
stores `aesni_gcm_enc` and `aesni_gcm_dec`, and with a 128-bit key payloads of 639
and of 640 bytes both go to the baseline routine. -/
theorem gcm_threshold_baseline_binding :
    (aesni_init init_env1).1 = 0 ∧
    (aesni_init init_env1).2.aesni_gcm_enc_tfm = some .aesni_gcm_enc ∧
    (aesni_init init_env1).2.aesni_gcm_dec_tfm = some .aesni_gcm_dec ∧
    (gcm_args0 639).ctx.key_length = AES_KEYSIZE_128 ∧
    ¬ (gcm_backends (gcm_target.aesni_gcm_enc.call (gcm_args0 639)) ≠
      gcm_backends (gcm_target.aesni_gcm_enc.call (gcm_args0 640))) ∧
    ¬ (gcm_backends (gcm_target.aesni_gcm_dec.call (gcm_args0 639)) ≠
      gcm_backends (gcm_target.aesni_gcm_dec.call (gcm_args0 640))) := by
  decide

/-- C18 (amended): with a 128-bit key, a GCM payload of exactly 639 bytes and one of
exactly 640 bytes select different backend tiers (baseline and gen2) through the
pointers `aesni_init` installs when AVX2 or AVX is present; through the baseline
pointers, which it installs when neither is present, both select the baseline
routine.  (The 639-byte payload goes to the baseline routine whatever its key.) -/
theorem gcm_threshold (env : init_env) (hx : env.CONFIG_X86_64 = true)
    (hc : env.x86_match_cpu = true) (a b : gcm_args) (ha : a.len = 639) (hb : b.len = 640)
    (hkb : b.ctx.key_length = AES_KEYSIZE_128)
    (f g : gcm_target) (hf : (aesni_init env).2.aesni_gcm_enc_tfm = some f)
    (hg : (aesni_init env).2.aesni_gcm_dec_tfm = some g) :
    (((env.CONFIG_AS_AVX2 = true ∧ env.boot_cpu_has_avx2 = true) ∨
        (env.CONFIG_AS_AVX = true ∧ env.boot_cpu_has_avx = true)) →
      gcm_backends (f.call a) = [.baseline] ∧ gcm_backends (f.call b) = [.gen2] ∧
      gcm_backends (g.call a) = [.baseline] ∧ gcm_backends (g.call b) = [.gen2]) ∧
    (¬ ((env.CONFIG_AS_AVX2 = true ∧ env.boot_cpu_has_avx2 = true) ∨
        (env.CONFIG_AS_AVX = true ∧ env.boot_cpu_has_avx = true)) →
      gcm_backends (f.call a) = [.baseline] ∧ gcm_backends (f.call b) = [.baseline] ∧
      gcm_backends (g.call a) = [.baseline] ∧ gcm_backends (g.call b) = [.baseline]) := by
  obtain ⟨post, -, -, t2, t3, -⟩ := aesni_init_trace env hx hc
  rw [t2] at hf
  rw [t3] at hg
  have e1 : aesni_gcm_enc_avx a = [.aesni_gcm_enc] := by
    simp [aesni_gcm_enc_avx, ha, AVX_GEN2_OPTSIZE]
  have e2 : aesni_gcm_dec_avx a = [.aesni_gcm_dec] := by
    simp [aesni_gcm_dec_avx, ha, AVX_GEN2_OPTSIZE]
  have e3 : aesni_gcm_enc_avx2 a = [.aesni_gcm_enc] := by
    simp [aesni_gcm_enc_avx2, ha, AVX_GEN2_OPTSIZE]
  have e4 : aesni_gcm_dec_avx2 a = [.aesni_gcm_dec] := by
    simp [aesni_gcm_dec_avx2, ha, AVX_GEN2_OPTSIZE]
  have e5 : aesni_gcm_enc_avx b = [.aesni_gcm_precomp_avx_gen2, .aesni_gcm_enc_avx_gen2] := by
    simp [aesni_gcm_enc_avx, hb, hkb, AVX_GEN2_OPTSIZE]
  have e6 : aesni_gcm_dec_avx b = [.aesni_gcm_precomp_avx_gen2, .aesni_gcm_dec_avx_gen2] := by
    simp [aesni_gcm_dec_avx, hb, hkb, AVX_GEN2_OPTSIZE]
  have e7 : aesni_gcm_enc_avx2 b = [.aesni_gcm_precomp_avx_gen2, .aesni_gcm_enc_avx_gen2] := by
    simp [aesni_gcm_enc_avx2, hb, hkb, AVX_GEN2_OPTSIZE, AVX_GEN4_OPTSIZE]
  have e8 : aesni_gcm_dec_avx2 b = [.aesni_gcm_precomp_avx_gen2, .aesni_gcm_dec_avx_gen2] := by
    simp [aesni_gcm_dec_avx2, hb, hkb, AVX_GEN2_OPTSIZE, AVX_GEN4_OPTSIZE]
  by_cases h2 : env.CONFIG_AS_AVX2 = true ∧ env.boot_cpu_has_avx2 = true
  · have hf2 : f = .aesni_gcm_enc_avx2 := by
      simp only [aesni_init_bind, if_pos h2] at hf
      split_ifs at hf <;> exact (Option.some.inj hf).symm
    have hg2 : g = .aesni_gcm_dec_avx2 := by
      simp only [aesni_init_bind, if_pos h2] at hg
      split_ifs at hg <;> exact (Option.some.inj hg).symm
    subst hf2 hg2
    refine ⟨fun _ => ?_, fun h => absurd (Or.inl h2) h⟩
    simp only [gcm_target.call, e3, e4, e7, e8]
    decide
  · by_cases h1 : env.CONFIG_AS_AVX = true ∧ env.boot_cpu_has_avx = true
    · have hf2 : f = .aesni_gcm_enc_avx := by
        simp only [aesni_init_bind, if_neg h2, if_pos h1] at hf
        exact (Option.some.inj hf).symm
      have hg2 : g = .aesni_gcm_dec_avx := by
        simp only [aesni_init_bind, if_neg h2, if_pos h1] at hg
        exact (Option.some.inj hg).symm
      subst hf2 hg2
      refine ⟨fun _ => ?_, fun h => absurd (Or.inr h1) h⟩
      simp only [gcm_target.call, e1, e2, e5, e6]
      decide
    · have hf2 : f = .aesni_gcm_enc := by
        simp only [aesni_init_bind, if_neg h2, if_neg h1] at hf
        exact (Option.some.inj hf).symm
      have hg2 : g = .aesni_gcm_dec := by
        simp only [aesni_init_bind, if_neg h2, if_neg h1] at hg
        exact (Option.some.inj hg).symm
      subst hf2 hg2
      refine ⟨fun h => ?_, fun _ => ?_⟩
      · rcases h with h | h
        · exact absurd h h2
        · exact absurd h h1
      · exact ⟨rfl, rfl, rfl, rfl⟩

theorem gcm_threshold_witness :
    (((init_env0.CONFIG_AS_AVX2 = true ∧ init_env0.boot_cpu_has_avx2 = true) ∨
        (init_env0.CONFIG_AS_AVX = true ∧ init_env0.boot_cpu_has_avx = true)) →
      gcm_backends (gcm_target.aesni_gcm_enc_avx2.call (gcm_args0 639)) = [.baseline] ∧
      gcm_backends (gcm_target.aesni_gcm_enc_avx2.call (gcm_args0 640)) = [.gen2] ∧
      gcm_backends (gcm_target.aesni_gcm_dec_avx2.call (gcm_args0 639)) = [.baseline] ∧
      gcm_backends (gcm_target.aesni_gcm_dec_avx2.call (gcm_args0 640)) = [.gen2]) ∧
    (¬ ((init_env0.CONFIG_AS_AVX2 = true ∧ init_env0.boot_cpu_has_avx2 = true) ∨
        (init_env0.CONFIG_AS_AVX = true ∧ init_env0.boot_cpu_has_avx = true)) →
      gcm_backends (gcm_target.aesni_gcm_enc_avx2.call (gcm_args0 639)) = [.baseline] ∧
      gcm_backends (gcm_target.aesni_gcm_enc_avx2.call (gcm_args0 640)) = [.baseline] ∧
      gcm_backends (gcm_target.aesni_gcm_dec_avx2.call (gcm_args0 639)) = [.baseline] ∧
      gcm_backends (gcm_target.aesni_gcm_dec_avx2.call (gcm_args0 640)) = [.baseline]) :=
  gcm_threshold init_env0 rfl rfl (gcm_args0 639) (gcm_args0 640) rfl rfl rfl
    .aesni_gcm_enc_avx2 .aesni_gcm_dec_avx2 (by decide) (by decide)

/-- The block loop of `compute_mac` calls nothing but `aesni_enc`. -/
theorem compute_mac_loop_trace_enc (E : ccm_env) (ctx : crypto_aes_ctx) :
    ∀ (fuel : Nat) (odata data : List Nat) (n : Nat),
      ∀ e ∈ (compute_mac_loop E ctx fuel odata data n).2.2.2, e = Event.aesni_enc
  | 0, _, _, _ => by simp [compute_mac_loop]
  | fuel + 1, odata, data, n => by
    intro e he
    simp only [compute_mac_loop] at he
    split_ifs at he
    · rcases List.mem_cons.1 he with h | h
      · exact h
      · exact compute_mac_loop_trace_enc E ctx fuel _ _ _ e h
    · simp at he

/-- The function `compute_mac` calls nothing but `aesni_enc`. -/
theorem compute_mac_trace_enc (E : ccm_env) (ctx : crypto_aes_ctx) (mac data : List Nat)
    (n ilen : Nat) (idata : List Nat) :
    ∀ e ∈ (compute_mac E ctx mac data n ilen idata).trace, e = Event.aesni_enc := by
  intro e he
  simp only [compute_mac] at he
  split_ifs at he <;>
    · rcases List.mem_append.1 he with h | h
      · first
          | exact List.mem_singleton.1 h
          | exact absurd h (List.not_mem_nil _)
      · exact compute_mac_loop_trace_enc E ctx _ _ _ _ e h

/-- The loop of `get_data_to_compute` calls nothing but `aesni_enc`. -/
theorem get_data_to_compute_walk_trace_enc (E : ccm_env) (ctx : crypto_aes_ctx) :
    ∀ (frags : List (List Nat)) (s : mac_state), (∀ e ∈ s.trace, e = Event.aesni_enc) →
      ∀ e ∈ (get_data_to_compute_walk E ctx s frags).trace, e = Event.aesni_enc
  | [], _, hs => hs
  | f :: fs, s, hs => by
    rw [get_data_to_compute_walk, List.foldl_cons]
    apply get_data_to_compute_walk_trace_enc E ctx fs
    intro e he
    rcases List.mem_append.1 he with h | h
    · exact hs e h
    · exact compute_mac_trace_enc E ctx _ _ _ _ _ e h

/-- The function `get_data_to_compute` calls nothing but `aesni_enc`. -/
theorem get_data_to_compute_trace_enc (E : ccm_env) (ctx : crypto_aes_ctx)
    (mac idata : List Nat) (frags : List (List Nat)) (ilen : Nat) :
    ∀ e ∈ (get_data_to_compute E ctx mac idata frags ilen).trace, e = Event.aesni_enc := by
  have h := get_data_to_compute_walk_trace_enc E ctx frags
    { mac := mac, idata := idata, ilen := ilen, trace := [] } (by simp)
  intro e he
  simp only [get_data_to_compute] at he
  split_ifs at he
  · rcases List.mem_append.1 he with h1 | h1
    · exact h e h1
    · simpa using h1
  · exact h e he

/-- The function `ccm_calculate_auth_mac` calls nothing but `aesni_enc`. -/
theorem ccm_calculate_auth_mac_trace_enc (E : ccm_env) (req : aead_request)
    (ctx : crypto_aes_ctx) (mac : List Nat) (src : List scatterlist) (src_start : Nat)
    (cryptlen : Nat) :
    ∀ e ∈ (ccm_calculate_auth_mac E req ctx mac src src_start cryptlen).2,
      e = Event.aesni_enc := by
  intro e he
  have hg := fun m i f l => get_data_to_compute_trace_enc E ctx m i f l e
  simp only [ccm_calculate_auth_mac] at he
  split_ifs at he <;>
    simp only [List.mem_cons, List.mem_append, List.not_mem_nil, or_false, false_or] at he <;>
    first
    | exact he
    | exact he.elim id (fun h => hg _ _ _ _ h)
    | exact he.elim (fun h => h.elim id (fun h => hg _ _ _ _ h)) (fun h => hg _ _ _ _ h)
/-- The trace of the shared loop: chunk by chunk, the bulk call on the chunk length
rounded down to a multiple of 16, then the walker call reporting the chunk length
modulo 16. -/
theorem blk_loop_trace (E : ccm_env) (hW : walk_bounded E) (least : Nat)
    (prim : List Nat → Nat → List Nat → List Nat × List Nat) (ev : Nat → Event)
    (inp : List Nat) :
    ∀ (fuel : Nat) (w : walk_state), w.nbytes ≤ w.total → w.total < 2 ^ 32 →
      (blk_loop E least prim ev inp fuel w).trace =
        w.trace ++ (blk_chunks E least fuel w.nbytes w.total).flatMap (chunk_events ev)
  | 0, w, _, _ => by simp [blk_loop, blk_chunks]
  | fuel + 1, w, hn, ht => by
    by_cases h : w.nbytes ≥ least
    · have ih := blk_loop_trace E hW least prim ev inp fuel
        (blkcipher_walk_done E
          { w with iv := (prim (inp.drop w.pos) (w.nbytes - w.nbytes % 16) w.iv).2,
                   out := memcpy_at w.out w.pos
                     (prim (inp.drop w.pos) (w.nbytes - w.nbytes % 16) w.iv).1
                     (w.nbytes - w.nbytes % 16),
                   trace := w.trace ++ [ev (w.nbytes - w.nbytes % 16)] }
          (w.nbytes % 16)) (hW _)
        (by
          show w.total - (w.nbytes - w.nbytes % 16) < 2 ^ 32
          omega)
      simp only [blk_loop, if_pos h, and_block_mask _ (lt_of_le_of_lt hn ht), and_block_residue,
        blk_chunks, List.flatMap_cons, chunk_events]
      rw [ih]
      simp only [blkcipher_walk_done, List.append_assoc, List.cons_append, List.nil_append,
        chunk_events]
    · simp only [blk_loop, if_neg h, blk_chunks, List.flatMap_nil, List.append_nil]

/-- The loop of the CCM functions is the shared loop on `aesni_ctr_enc`. -/
theorem ccm_ctr_loop_eq_blk_loop (E : ccm_env) (ctx : crypto_aes_ctx) (inp : List Nat) :
    ∀ (fuel : Nat) (w : walk_state),
      ccm_ctr_loop E ctx inp fuel w =
        blk_loop E AES_BLOCK_SIZE (E.aesni_ctr_enc ctx) .aesni_ctr_enc inp fuel w
  | 0, _ => rfl
  | fuel + 1, w => by
    simp only [ccm_ctr_loop, blk_loop]
    split_ifs
    · exact ccm_ctr_loop_eq_blk_loop E ctx inp fuel _
    · rfl

/-- The events of the single-block tail of the CTR functions: none when no partial
chunk is left, else the cipher call of `ctr_crypt_final` and the walker call that
reports nothing as left over. -/
theorem ctr_tail_trace (E : ccm_env) (ctx : crypto_aes_ctx) (inp : List Nat)
    (w : walk_state) :
    (if w.nbytes ≠ 0 then blkcipher_walk_done E (ctr_crypt_final E ctx inp w) 0
      else w).trace =
      w.trace ++ (if w.nbytes ≠ 0 then [.aesni_enc, .blkcipher_walk_done 0] else []) := by
  split_ifs
  · simp [blkcipher_walk_done, ctr_crypt_final]
  · simp
/-- The trace of a function made of the shared loop between `kernel_fpu_begin` and
`kernel_fpu_end`. -/
theorem blk_loop_guarded_trace (E : ccm_env) (hW : walk_bounded E) (least : Nat)
    (prim : List Nat → Nat → List Nat → List Nat × List Nat) (ev : Nat → Event)
    (inp out iv : List Nat) (nbytes : Nat) :
    (blk_loop E least prim ev inp (blkcipher_walk_start E (u32 nbytes) iv out).total
      { blkcipher_walk_start E (u32 nbytes) iv out with trace := [.kernel_fpu_begin] }).trace =
      [.kernel_fpu_begin] ++
        (blk_chunks E least (u32 nbytes) (E.walk (u32 nbytes)).2 (u32 nbytes)).flatMap
          (chunk_events ev) := by
  have hu : u32 nbytes < 2 ^ 32 := Nat.mod_lt _ (by norm_num)
  exact blk_loop_trace E hW least prim ev inp (u32 nbytes)
    { blkcipher_walk_start E (u32 nbytes) iv out with trace := [.kernel_fpu_begin] }
    (hW _) hu

/-- The trace of the CTR pass of the CCM functions. -/
theorem ccm_ctr_pass_trace (E : ccm_env) (hW : walk_bounded E) (ctx : crypto_aes_ctx)
    (inp out iv : List Nat) (N : Nat) (hN : N < 2 ^ 32) :
    ∃ tail, (ccm_ctr_pass E ctx inp (blkcipher_walk_start E N iv out)).trace =
        (blk_chunks E AES_BLOCK_SIZE N (E.walk N).2 N).flatMap
          (chunk_events .aesni_ctr_enc) ++ tail ∧
      (tail = [] ∨ tail = [.aesni_enc, .blkcipher_walk_done 0]) := by
  have h := blk_loop_trace E hW AES_BLOCK_SIZE (E.aesni_ctr_enc ctx) .aesni_ctr_enc inp N
    (blkcipher_walk_start E N iv out) (hW _) hN
  refine ⟨if (blk_loop E AES_BLOCK_SIZE (E.aesni_ctr_enc ctx) .aesni_ctr_enc inp N
      (blkcipher_walk_start E N iv out)).nbytes ≠ 0
    then [.aesni_enc, .blkcipher_walk_done 0] else [], ?_, ?_⟩
  · rw [ccm_ctr_pass, ctr_tail_trace, ccm_ctr_loop_eq_blk_loop]
    rw [show (blkcipher_walk_start E N iv out).total = N from rfl, h]
    rfl
  · split_ifs
    · exact Or.inr rfl
    · exact Or.inl rfl
/-- The trace of `__ccm_encrypt`: the cipher calls of the MAC, then the chunks of the
CTR pass, then the single-block tail; nothing at all when `ccm_init_mac` fails. -/
theorem __ccm_encrypt_trace (E : ccm_env) (hW : walk_bounded E)
    (aead : crypto_aead crypto_aes_ctx) (req : aead_request) :
    ∃ pre cs tail, (__ccm_encrypt E aead req).trace =
        pre ++ cs.flatMap (chunk_events .aesni_ctr_enc) ++ tail ∧
      single_block_events pre ∧ single_block_events tail ∧
      (cs = [] ∨ cs = blk_chunks E AES_BLOCK_SIZE (u32 (u32 req.cryptlen + AES_BLOCK_SIZE))
        (E.walk (u32 (u32 req.cryptlen + AES_BLOCK_SIZE))).2
        (u32 (u32 req.cryptlen + AES_BLOCK_SIZE))) := by
  by_cases hi : (ccm_init_mac aead.authsize req (List.replicate AES_BLOCK_SIZE 0)
      (u32 req.cryptlen)).ret ≠ 0
  · refine ⟨[], [], [], ?_, by simp [single_block_events], by simp [single_block_events],
      Or.inl rfl⟩
    simp only [__ccm_encrypt, if_pos hi]
    rfl
  · obtain ⟨tail, ht, htl⟩ := ccm_ctr_pass_trace E hW aead.ctx
      ((ccm_calculate_auth_mac E req aead.ctx
          (ccm_init_mac aead.authsize req (List.replicate AES_BLOCK_SIZE 0)
            (u32 req.cryptlen)).maciv req.src req.assoclen (u32 req.cryptlen)).1 ++
        sg_copy_from req.src req.assoclen (u32 req.cryptlen))
      ((ccm_calculate_auth_mac E req aead.ctx
          (ccm_init_mac aead.authsize req (List.replicate AES_BLOCK_SIZE 0)
            (u32 req.cryptlen)).maciv req.src req.assoclen (u32 req.cryptlen)).1 ++
        sg_copy_from (if req.src_is_dst then req.src else req.dst) req.assoclen
          (u32 req.cryptlen))
      (ccm_init_mac aead.authsize req (List.replicate AES_BLOCK_SIZE 0)
        (u32 req.cryptlen)).iv
      (u32 (u32 req.cryptlen + AES_BLOCK_SIZE)) (Nat.mod_lt _ (by norm_num))
    refine ⟨(ccm_calculate_auth_mac E req aead.ctx
        (ccm_init_mac aead.authsize req (List.replicate AES_BLOCK_SIZE 0)
          (u32 req.cryptlen)).maciv req.src req.assoclen (u32 req.cryptlen)).2,
      _, tail, ?_, ?_, ?_, Or.inr rfl⟩
    · simp only [__ccm_encrypt, if_neg hi]
      simp only [apply_ite ccm_result.trace, ite_self]
      rw [List.append_assoc, ← ht]
    · intro e he
      exact Or.inl (ccm_calculate_auth_mac_trace_enc E req aead.ctx _ _ _ _ e he)
    · intro e he
      rcases htl with h | h
      · rw [h] at he; exact absurd he (List.not_mem_nil _)
      · rw [h] at he
        simpa using he

/-- The trace of `__ccm_decrypt`: the chunks of the CTR pass, then the single-block
tail and the cipher calls of the MAC; nothing at all when the request is refused. -/
theorem __ccm_decrypt_trace (E : ccm_env) (hW : walk_bounded E)
    (aead : crypto_aead crypto_aes_ctx) (req : aead_request) :
    ∃ cs tail, (__ccm_decrypt E aead req).trace =
        cs.flatMap (chunk_events .aesni_ctr_enc) ++ tail ∧
      single_block_events tail ∧
      (cs = [] ∨ cs = blk_chunks E AES_BLOCK_SIZE
        (u32 (sub_u32 req.cryptlen (u32 aead.authsize) + AES_BLOCK_SIZE))
        (E.walk (u32 (sub_u32 req.cryptlen (u32 aead.authsize) + AES_BLOCK_SIZE))).2
        (u32 (sub_u32 req.cryptlen (u32 aead.authsize) + AES_BLOCK_SIZE))) := by
  by_cases h0 : u32 req.cryptlen < u32 aead.authsize
  · refine ⟨[], [], ?_, by simp [single_block_events], Or.inl rfl⟩
    simp only [__ccm_decrypt, if_pos h0]
    rfl
  by_cases hi : (ccm_init_mac aead.authsize req (List.replicate AES_BLOCK_SIZE 0)
      (sub_u32 req.cryptlen (u32 aead.authsize))).ret ≠ 0
  · refine ⟨[], [], ?_, by simp [single_block_events], Or.inl rfl⟩
    simp only [__ccm_decrypt, if_neg h0, if_pos hi]
    rfl
  · obtain ⟨tail, ht, htl⟩ := ccm_ctr_pass_trace E hW aead.ctx
      (memcpy_at (List.replicate AES_BLOCK_SIZE 0) 0
          (sg_copy_from req.src (req.assoclen + sub_u32 req.cryptlen (u32 aead.authsize))
            (u32 aead.authsize)) (u32 aead.authsize) ++
        sg_copy_from req.src req.assoclen (sub_u32 req.cryptlen (u32 aead.authsize)))
      (memcpy_at (List.replicate AES_BLOCK_SIZE 0) 0
          (sg_copy_from req.src (req.assoclen + sub_u32 req.cryptlen (u32 aead.authsize))
            (u32 aead.authsize)) (u32 aead.authsize) ++
        sg_copy_from (if req.src_is_dst then req.src else req.dst) req.assoclen
          (sub_u32 req.cryptlen (u32 aead.authsize)))
      (ccm_init_mac aead.authsize req (List.replicate AES_BLOCK_SIZE 0)
        (sub_u32 req.cryptlen (u32 aead.authsize))).iv
      (u32 (sub_u32 req.cryptlen (u32 aead.authsize) + AES_BLOCK_SIZE))
      (Nat.mod_lt _ (by norm_num))
    have hsb : ∀ m : List Event, (∀ e ∈ m, e = Event.aesni_enc) →
        single_block_events (tail ++ m) := by
      intro m hm e he
      rcases List.mem_append.1 he with h | h
      · rcases htl with h1 | h1
        · rw [h1] at h; exact absurd h (List.not_mem_nil _)
        · rw [h1] at h
          simpa using h
      · exact Or.inl (hm e h)
    simp only [__ccm_decrypt, if_neg h0, if_neg hi]
    simp only [apply_ite ccm_result.trace, ite_self]
    exact ⟨_, tail ++ (ccm_calculate_auth_mac E _ aead.ctx _ _ _ _).2,
      by rw [← List.append_assoc, ← ht],
      hsb _ (ccm_calculate_auth_mac_trace_enc E _ aead.ctx _ _ _ _), Or.inr rfl⟩
/-- The trace of `ctr_crypt`: inside the FPU section, the chunks of the loop and then
the single-block tail. -/
theorem ctr_crypt_trace (E : blk_env) (hW : walk_bounded E.toccm_env) (ctx : crypto_aes_ctx)
    (inp out iv : List Nat) (nbytes : Nat) :
    ∃ tail, (ctr_crypt E ctx inp out iv nbytes).trace =
        [.kernel_fpu_begin] ++
          (blk_chunks E.toccm_env AES_BLOCK_SIZE (u32 nbytes) (E.walk (u32 nbytes)).2
            (u32 nbytes)).flatMap (chunk_events .aesni_ctr_enc_tfm) ++ tail ++
          [.kernel_fpu_end] ∧
      (tail = [] ∨ tail = [.aesni_enc, .blkcipher_walk_done 0]) := by
  have h := blk_loop_guarded_trace E.toccm_env hW AES_BLOCK_SIZE (E.aesni_ctr_enc_tfm ctx)
    .aesni_ctr_enc_tfm inp out iv nbytes
  refine ⟨if (blk_loop E.toccm_env AES_BLOCK_SIZE (E.aesni_ctr_enc_tfm ctx)
      .aesni_ctr_enc_tfm inp (blkcipher_walk_start E.toccm_env (u32 nbytes) iv out).total
      { blkcipher_walk_start E.toccm_env (u32 nbytes) iv out with
        trace := [.kernel_fpu_begin] }).nbytes ≠ 0
    then [.aesni_enc, .blkcipher_walk_done 0] else [], ?_, ?_⟩
  · simp only [ctr_crypt]
    rw [ctr_tail_trace, h]
  · split_ifs
    · exact Or.inr rfl
    · exact Or.inl rfl

/-- The walker of the evaluation environment never maps more than is left. -/
theorem ccm_env0_walk_bounded : walk_bounded ccm_env0 := fun _ => le_refl _

/-- C20: block-multiple invariant.  In `ecb_encrypt`, `ecb_decrypt`, `cbc_encrypt`,
`cbc_decrypt`, `ctr_crypt`, `__ccm_encrypt` and `__ccm_decrypt`, for a walker that
never maps more than is left, the calls of the bulk primitive and of the walker come
chunk by chunk: for a chunk of `n` bytes the bulk primitive is called with `n`
rounded down to a multiple of 16 and the walker is told that `n mod 16` bytes were
not processed, and the two add up to `n`.  What else the CTR and CCM functions call
belongs to their single-block paths. -/
theorem block_multiple_invariant (E : blk_env) (hW : walk_bounded E.toccm_env)
    (ctx : crypto_aes_ctx) (inp out iv : List Nat) (nbytes : Nat)
    (aead : crypto_aead crypto_aes_ctx) (req : aead_request) :
    (∀ (ev : Nat → Event) (n : Nat),
      chunk_events ev n = [ev (n - n % 16), .blkcipher_walk_done (n % 16)] ∧
      (n - n % 16) % 16 = 0 ∧ (n - n % 16) + n % 16 = n) ∧
    (ecb_encrypt E ctx inp out iv nbytes).trace =
      [.kernel_fpu_begin] ++
        (blk_chunks E.toccm_env 1 (u32 nbytes) (E.walk (u32 nbytes)).2 (u32 nbytes)).flatMap
          (chunk_events .aesni_ecb_enc) ++ [.kernel_fpu_end] ∧
    (ecb_decrypt E ctx inp out iv nbytes).trace =
      [.kernel_fpu_begin] ++
        (blk_chunks E.toccm_env 1 (u32 nbytes) (E.walk (u32 nbytes)).2 (u32 nbytes)).flatMap
          (chunk_events .aesni_ecb_dec) ++ [.kernel_fpu_end] ∧
    (cbc_encrypt E ctx inp out iv nbytes).trace =
      [.kernel_fpu_begin] ++
        (blk_chunks E.toccm_env 1 (u32 nbytes) (E.walk (u32 nbytes)).2 (u32 nbytes)).flatMap
          (chunk_events .aesni_cbc_enc) ++ [.kernel_fpu_end] ∧
    (cbc_decrypt E ctx inp out iv nbytes).trace =
      [.kernel_fpu_begin] ++
        (blk_chunks E.toccm_env 1 (u32 nbytes) (E.walk (u32 nbytes)).2 (u32 nbytes)).flatMap
          (chunk_events .aesni_cbc_dec) ++ [.kernel_fpu_end] ∧
    (∃ tail, (ctr_crypt E ctx inp out iv nbytes).trace =
        [.kernel_fpu_begin] ++
          (blk_chunks E.toccm_env AES_BLOCK_SIZE (u32 nbytes) (E.walk (u32 nbytes)).2
            (u32 nbytes)).flatMap (chunk_events .aesni_ctr_enc_tfm) ++ tail ++
          [.kernel_fpu_end] ∧
      single_block_events tail) ∧
    (∃ pre cs tail, (__ccm_encrypt E.toccm_env aead req).trace =
        pre ++ cs.flatMap (chunk_events .aesni_ctr_enc) ++ tail ∧
      single_block_events pre ∧ single_block_events tail ∧
      (cs = [] ∨ cs = blk_chunks E.toccm_env AES_BLOCK_SIZE
        (u32 (u32 req.cryptlen + AES_BLOCK_SIZE))
        (E.walk (u32 (u32 req.cryptlen + AES_BLOCK_SIZE))).2
        (u32 (u32 req.cryptlen + AES_BLOCK_SIZE)))) ∧
    (∃ cs tail, (__ccm_decrypt E.toccm_env aead req).trace =
        cs.flatMap (chunk_events .aesni_ctr_enc) ++ tail ∧
      single_block_events tail ∧
      (cs = [] ∨ cs = blk_chunks E.toccm_env AES_BLOCK_SIZE
        (u32 (sub_u32 req.cryptlen (u32 aead.authsize) + AES_BLOCK_SIZE))
        (E.walk (u32 (sub_u32 req.cryptlen (u32 aead.authsize) + AES_BLOCK_SIZE))).2
        (u32 (sub_u32 req.cryptlen (u32 aead.authsize) + AES_BLOCK_SIZE)))) := by
  refine ⟨fun ev n => ⟨rfl, by omega, by omega⟩, ?_, ?_, ?_, ?_, ?_,
    __ccm_encrypt_trace E.toccm_env hW aead req, __ccm_decrypt_trace E.toccm_env hW aead req⟩
  · simp only [ecb_encrypt]
    rw [blk_loop_guarded_trace E.toccm_env hW]
  · simp only [ecb_decrypt]
    rw [blk_loop_guarded_trace E.toccm_env hW]
  · simp only [cbc_encrypt]
    rw [blk_loop_guarded_trace E.toccm_env hW]
  · simp only [cbc_decrypt]
    rw [blk_loop_guarded_trace E.toccm_env hW]
  · obtain ⟨tail, h1, h2⟩ := ctr_crypt_trace E hW ctx inp out iv nbytes
    refine ⟨tail, h1, ?_⟩
    intro e he
    rcases h2 with h | h
    · rw [h] at he; exact absurd he (List.not_mem_nil _)
    · rw [h] at he
      simpa using he

theorem block_multiple_invariant_witness :
    (∀ (ev : Nat → Event) (n : Nat),
      chunk_events ev n = [ev (n - n % 16), .blkcipher_walk_done (n % 16)] ∧
      (n - n % 16) % 16 = 0 ∧ (n - n % 16) + n % 16 = n) ∧
    (ecb_encrypt blk_env0 ccm_tfm0.ctx (List.range 32) (List.replicate 32 0)
        (List.replicate 16 0) 32).trace =
      [.kernel_fpu_begin] ++
        (blk_chunks blk_env0.toccm_env 1 (u32 32) (blk_env0.walk (u32 32)).2 (u32 32)).flatMap
          (chunk_events .aesni_ecb_enc) ++ [.kernel_fpu_end] ∧
    (ecb_decrypt blk_env0 ccm_tfm0.ctx (List.range 32) (List.replicate 32 0)
        (List.replicate 16 0) 32).trace =
      [.kernel_fpu_begin] ++
        (blk_chunks blk_env0.toccm_env 1 (u32 32) (blk_env0.walk (u32 32)).2 (u32 32)).flatMap
          (chunk_events .aesni_ecb_dec) ++ [.kernel_fpu_end] ∧
    (cbc_encrypt blk_env0 ccm_tfm0.ctx (List.range 32) (List.replicate 32 0)
        (List.replicate 16 0) 32).trace =
      [.kernel_fpu_begin] ++
        (blk_chunks blk_env0.toccm_env 1 (u32 32) (blk_env0.walk (u32 32)).2 (u32 32)).flatMap
          (chunk_events .aesni_cbc_enc) ++ [.kernel_fpu_end] ∧
    (cbc_decrypt blk_env0 ccm_tfm0.ctx (List.range 32) (List.replicate 32 0)
        (List.replicate 16 0) 32).trace =
      [.kernel_fpu_begin] ++
        (blk_chunks blk_env0.toccm_env 1 (u32 32) (blk_env0.walk (u32 32)).2 (u32 32)).flatMap
          (chunk_events .aesni_cbc_dec) ++ [.kernel_fpu_end] ∧
    (∃ tail, (ctr_crypt blk_env0 ccm_tfm0.ctx (List.range 32) (List.replicate 32 0)
        (List.replicate 16 0) 32).trace =
        [.kernel_fpu_begin] ++
          (blk_chunks blk_env0.toccm_env AES_BLOCK_SIZE (u32 32) (blk_env0.walk (u32 32)).2
            (u32 32)).flatMap (chunk_events .aesni_ctr_enc_tfm) ++ tail ++
          [.kernel_fpu_end] ∧
      single_block_events tail) ∧
    (∃ pre cs tail, (__ccm_encrypt blk_env0.toccm_env ccm_tfm0 (ccm_req1 1 0 16)).trace =
        pre ++ cs.flatMap (chunk_events .aesni_ctr_enc) ++ tail ∧
      single_block_events pre ∧ single_block_events tail ∧
      (cs = [] ∨ cs = blk_chunks blk_env0.toccm_env AES_BLOCK_SIZE
        (u32 (u32 (ccm_req1 1 0 16).cryptlen + AES_BLOCK_SIZE))
        (blk_env0.walk (u32 (u32 (ccm_req1 1 0 16).cryptlen + AES_BLOCK_SIZE))).2
        (u32 (u32 (ccm_req1 1 0 16).cryptlen + AES_BLOCK_SIZE)))) ∧
    (∃ cs tail, (__ccm_decrypt blk_env0.toccm_env ccm_tfm0 (ccm_req1 1 0 16)).trace =
        cs.flatMap (chunk_events .aesni_ctr_enc) ++ tail ∧
      single_block_events tail ∧
      (cs = [] ∨ cs = blk_chunks blk_env0.toccm_env AES_BLOCK_SIZE
        (u32 (sub_u32 (ccm_req1 1 0 16).cryptlen (u32 ccm_tfm0.authsize) + AES_BLOCK_SIZE))
        (blk_env0.walk
          (u32 (sub_u32 (ccm_req1 1 0 16).cryptlen (u32 ccm_tfm0.authsize) +
            AES_BLOCK_SIZE))).2
        (u32 (sub_u32 (ccm_req1 1 0 16).cryptlen (u32 ccm_tfm0.authsize) +
          AES_BLOCK_SIZE)))) :=
  block_multiple_invariant blk_env0 ccm_env0_walk_bounded ccm_tfm0.ctx (List.range 32)
    (List.replicate 32 0) (List.replicate 16 0) 32 ccm_tfm0 (ccm_req1 1 0 16)

/-- The big-endian value of a byte string with one more byte at the end. -/
theorem be_value_append (l : List Nat) (b : Nat) :
    be_value (l ++ [b]) = be_value l * 256 + b := by
  simp [be_value, List.foldl_append]

/-- The big-endian value of bytes is below `256 ^ length`. -/
theorem be_value_reverse_lt : ∀ (l : List Nat), (∀ b ∈ l, b < 256) →
    be_value l.reverse < 256 ^ l.length
  | [], _ => by simp [be_value]
  | b :: bs, h => by
    have ih := be_value_reverse_lt bs (fun x hx => h x (List.mem_cons_of_mem _ hx))
    have hb := h b (List.mem_cons_self _ _)
    rw [List.reverse_cons, be_value_append, List.length_cons, pow_succ]
    omega

/-- The function `inc_le` adds one to the value of a little-endian byte string,
modulo `256 ^ length`, and keeps bytes below 256. -/
theorem inc_le_value : ∀ (l : List Nat), (∀ b ∈ l, b < 256) →
    be_value (inc_le l).reverse = (be_value l.reverse + 1) % 256 ^ l.length
  | [], _ => by simp [inc_le, be_value]
  | b :: bs, h => by
    have hbs : ∀ x ∈ bs, x < 256 := fun x hx => h x (List.mem_cons_of_mem _ hx)
    have ih := inc_le_value bs hbs
    have hlt := be_value_reverse_lt bs hbs
    have hb := h b (List.mem_cons_self _ _)
    by_cases hc : (b + 1) % 256 = 0
    · have hb255 : b = 255 := by omega
      simp only [inc_le, if_pos hc, List.reverse_cons, be_value_append, ih, List.length_cons,
        pow_succ]
      rw [hb255, show be_value bs.reverse * 256 + 255 + 1 = (be_value bs.reverse + 1) * 256
        by ring, Nat.mul_mod_mul_right]
      omega
    · simp only [inc_le, if_neg hc, List.reverse_cons, be_value_append, List.length_cons,
        pow_succ]
      have h1 : (b + 1) % 256 = b + 1 := Nat.mod_eq_of_lt (by omega)
      rw [h1, Nat.mod_eq_of_lt (by omega)]
      omega

/-- On a 16-byte block of bytes, `crypto_inc` adds one to the big-endian value,
modulo `2 ^ 128`. -/
theorem crypto_inc_value (a : List Nat) (ha : a.length = 16) (hb : ∀ b ∈ a, b < 256) :
    be_value (crypto_inc a 16) = (be_value a + 1) % 2 ^ 128 := by
  have h := inc_le_value a.reverse (fun b hx => hb b (List.mem_reverse.1 hx))
  rw [List.reverse_reverse, List.length_reverse, ha] at h
  rw [crypto_inc, List.take_of_length_le (le_of_eq ha), List.drop_of_length_le (le_of_eq ha),
    List.append_nil, h]
  norm_num
/-- With a walker that never maps more than is left and enough iterations, the shared
loop of the CTR functions ends on a chunk shorter than a block. -/
theorem blk_loop_exit (E : ccm_env) (hW : walk_bounded E)
    (prim : List Nat → Nat → List Nat → List Nat × List Nat) (ev : Nat → Event)
    (inp : List Nat) :
    ∀ (fuel : Nat) (w : walk_state), w.nbytes ≤ w.total → w.total < 2 ^ 32 → w.total ≤ fuel →
      (blk_loop E AES_BLOCK_SIZE prim ev inp fuel w).nbytes < 16
  | 0, w, hn, _, hf => by
    have h : blk_loop E AES_BLOCK_SIZE prim ev inp 0 w = w := rfl
    rw [h]; omega
  | fuel + 1, w, hn, ht, hf => by
    by_cases h : w.nbytes ≥ AES_BLOCK_SIZE
    · have h16 : 16 ≤ w.nbytes := h
      have ih := blk_loop_exit E hW prim ev inp fuel
        (blkcipher_walk_done E
          { w with iv := (prim (inp.drop w.pos) (w.nbytes - w.nbytes % 16) w.iv).2,
                   out := memcpy_at w.out w.pos
                     (prim (inp.drop w.pos) (w.nbytes - w.nbytes % 16) w.iv).1
                     (w.nbytes - w.nbytes % 16),
                   trace := w.trace ++ [ev (w.nbytes - w.nbytes % 16)] }
          (w.nbytes % 16)) (hW _)
        (by
          show w.total - (w.nbytes - w.nbytes % 16) < 2 ^ 32
          omega)
        (by
          show w.total - (w.nbytes - w.nbytes % 16) ≤ fuel
          omega)
      simp only [blk_loop, if_pos h, and_block_mask _ (lt_of_le_of_lt hn ht),
        and_block_residue]
      exact ih
    · simp only [blk_loop, if_neg h]
      simp only [AES_BLOCK_SIZE] at h
      omega

/-- What `ctr_crypt_final` does on a partial chunk: one call of `aesni_enc` on the
counter block, the chunk of the destination becomes source xor key stream, the rest
of the destination stays, and the counter block is incremented. -/
theorem ctr_crypt_final_eq (E : ccm_env) (ctx : crypto_aes_ctx) (inp : List Nat)
    (w : walk_state) (hE : stores_block E) (hn : w.nbytes < 16)
    (hin : w.pos + w.nbytes ≤ inp.length) (hout : w.pos + w.nbytes ≤ w.out.length) :
    (ctr_crypt_final E ctx inp w).trace = w.trace ++ [.aesni_enc] ∧
    ((ctr_crypt_final E ctx inp w).out.drop w.pos).take w.nbytes =
      xor_bytes ((inp.drop w.pos).take w.nbytes) ((E.aesni_enc ctx w.iv).take w.nbytes) ∧
    (ctr_crypt_final E ctx inp w).out.take w.pos = w.out.take w.pos ∧
    (ctr_crypt_final E ctx inp w).out.drop (w.pos + w.nbytes) =
      w.out.drop (w.pos + w.nbytes) ∧
    (ctr_crypt_final E ctx inp w).out.length = w.out.length ∧
    (ctr_crypt_final E ctx inp w).iv = crypto_inc w.iv 16 := by
  have hk : memcpy_at (List.replicate AES_BLOCK_SIZE 0) 0 (E.aesni_enc ctx w.iv)
      AES_BLOCK_SIZE = E.aesni_enc ctx w.iv := by
    have := hE ctx w.iv
    rw [memcpy_at, AES_BLOCK_SIZE, List.take_of_length_le (le_of_eq this)]
    simp
  have hkl := hE ctx w.iv
  have hx : (crypto_xor (E.aesni_enc ctx w.iv) (inp.drop w.pos) w.nbytes).length = 16 := by
    simp [crypto_xor, hkl]
  have hd : w.nbytes ≤ (inp.drop w.pos).length := by rw [List.length_drop]; omega
  simp only [ctr_crypt_final, hk]
  refine ⟨trivial, ?_, ?_, ?_, ?_, rfl⟩
  · rw [memcpy_at_region _ _ _ _ (by omega) hout,
      crypto_xor_take _ _ _ (by omega) hd, xor_bytes_comm]
  · have := memcpy_at_before w.out (crypto_xor (E.aesni_enc ctx w.iv) (inp.drop w.pos)
      w.nbytes) w.pos w.nbytes 0 w.pos hout (by omega)
    simpa using this
  · have := memcpy_at_after w.out (crypto_xor (E.aesni_enc ctx w.iv) (inp.drop w.pos)
      w.nbytes) w.pos w.nbytes (by omega) hout
    rw [List.drop_drop] at this
    rw [← this, Nat.add_comm]
  · exact memcpy_at_length _ _ _ _ (by omega) hout
/-- C21: CTR tail.  For a final chunk of `n` bytes with `0 < n < 16`,
`ctr_crypt_final` makes exactly one call, the single-block encryption of the current
counter block, and no bulk call; it writes `dst[i] = src[i] xor E(counter)[i]` for
every `i < n` and leaves the rest of the destination as it was; and it increments the
16-byte counter block by one as a big-endian integer modulo `2 ^ 128`.  In
`ctr_crypt` the chunk left when the loop ends is shorter than 16 bytes, and the tail
is taken exactly when that chunk is not empty. -/
theorem ctr_crypt_final_tail (B : blk_env) (ctx : crypto_aes_ctx) (inp : List Nat)
    (w : walk_state) (hE : stores_block B.toccm_env) (hW : walk_bounded B.toccm_env)
    (hn : 0 < w.nbytes ∧ w.nbytes < 16) (hiv : w.iv.length = 16)
    (hb : ∀ b ∈ w.iv, b < 256) (hin : w.pos + w.nbytes ≤ inp.length)
    (hout : w.pos + w.nbytes ≤ w.out.length) (inp2 out2 iv2 : List Nat) (nbytes : Nat) :
    (ctr_crypt_final B.toccm_env ctx inp w).trace = w.trace ++ [.aesni_enc] ∧
    ((ctr_crypt_final B.toccm_env ctx inp w).out.drop w.pos).take w.nbytes =
      xor_bytes ((inp.drop w.pos).take w.nbytes) ((B.aesni_enc ctx w.iv).take w.nbytes) ∧
    (ctr_crypt_final B.toccm_env ctx inp w).out.take w.pos = w.out.take w.pos ∧
    (ctr_crypt_final B.toccm_env ctx inp w).out.drop (w.pos + w.nbytes) =
      w.out.drop (w.pos + w.nbytes) ∧
    (ctr_crypt_final B.toccm_env ctx inp w).out.length = w.out.length ∧
    be_value (ctr_crypt_final B.toccm_env ctx inp w).iv = (be_value w.iv + 1) % 2 ^ 128 ∧
    (ctr_crypt_final B.toccm_env ctx inp w).iv.length = 16 ∧
    (blk_loop B.toccm_env AES_BLOCK_SIZE (B.aesni_ctr_enc_tfm ctx) .aesni_ctr_enc_tfm inp2
      (u32 nbytes) { blkcipher_walk_start B.toccm_env (u32 nbytes) iv2 out2 with
        trace := [.kernel_fpu_begin] }).nbytes < 16 ∧
    (ctr_crypt B ctx inp2 out2 iv2 nbytes).trace =
      (blk_loop B.toccm_env AES_BLOCK_SIZE (B.aesni_ctr_enc_tfm ctx) .aesni_ctr_enc_tfm inp2
        (u32 nbytes) { blkcipher_walk_start B.toccm_env (u32 nbytes) iv2 out2 with
          trace := [.kernel_fpu_begin] }).trace ++
      (if (blk_loop B.toccm_env AES_BLOCK_SIZE (B.aesni_ctr_enc_tfm ctx) .aesni_ctr_enc_tfm
          inp2 (u32 nbytes) { blkcipher_walk_start B.toccm_env (u32 nbytes) iv2 out2 with
            trace := [.kernel_fpu_begin] }).nbytes ≠ 0
        then [.aesni_enc, .blkcipher_walk_done 0] else []) ++ [.kernel_fpu_end] := by
  obtain ⟨f1, f2, f3, f4, f5, f6⟩ := ctr_crypt_final_eq B.toccm_env ctx inp w hE hn.2 hin hout
  refine ⟨f1, f2, f3, f4, f5, ?_, ?_, ?_, ?_⟩
  · rw [f6, crypto_inc_value w.iv hiv hb]
  · rw [f6]
    exact crypto_inc_length _ hiv
  · exact blk_loop_exit B.toccm_env hW _ _ inp2 (u32 nbytes) _ (hW _)
      (Nat.mod_lt _ (by norm_num)) (le_refl _)
  · simp only [ctr_crypt]
    rw [ctr_tail_trace]
    rfl

theorem ctr_crypt_final_tail_witness :
    (ctr_crypt_final blk_env0.toccm_env ccm_tfm0.ctx (List.range 21) walk_state0).trace =
      walk_state0.trace ++ [.aesni_enc] ∧
    ((ctr_crypt_final blk_env0.toccm_env ccm_tfm0.ctx (List.range 21) walk_state0).out.drop
        walk_state0.pos).take walk_state0.nbytes =
      xor_bytes (((List.range 21).drop walk_state0.pos).take walk_state0.nbytes)
        ((blk_env0.aesni_enc ccm_tfm0.ctx walk_state0.iv).take walk_state0.nbytes) ∧
    (ctr_crypt_final blk_env0.toccm_env ccm_tfm0.ctx (List.range 21) walk_state0).out.take
        walk_state0.pos = walk_state0.out.take walk_state0.pos ∧
    (ctr_crypt_final blk_env0.toccm_env ccm_tfm0.ctx (List.range 21) walk_state0).out.drop
        (walk_state0.pos + walk_state0.nbytes) =
      walk_state0.out.drop (walk_state0.pos + walk_state0.nbytes) ∧
    (ctr_crypt_final blk_env0.toccm_env ccm_tfm0.ctx (List.range 21) walk_state0).out.length =
      walk_state0.out.length ∧
    be_value (ctr_crypt_final blk_env0.toccm_env ccm_tfm0.ctx (List.range 21) walk_state0).iv =
      (be_value walk_state0.iv + 1) % 2 ^ 128 ∧
    (ctr_crypt_final blk_env0.toccm_env ccm_tfm0.ctx (List.range 21) walk_state0).iv.length =
      16 ∧
    (blk_loop blk_env0.toccm_env AES_BLOCK_SIZE (blk_env0.aesni_ctr_enc_tfm ccm_tfm0.ctx)
      .aesni_ctr_enc_tfm (List.range 21) (u32 21)
      { blkcipher_walk_start blk_env0.toccm_env (u32 21) (List.replicate 16 255)
          (List.replicate 21 0) with trace := [.kernel_fpu_begin] }).nbytes < 16 ∧
    (ctr_crypt blk_env0 ccm_tfm0.ctx (List.range 21) (List.replicate 21 0)
        (List.replicate 16 255) 21).trace =
      (blk_loop blk_env0.toccm_env AES_BLOCK_SIZE (blk_env0.aesni_ctr_enc_tfm ccm_tfm0.ctx)
        .aesni_ctr_enc_tfm (List.range 21) (u32 21)
        { blkcipher_walk_start blk_env0.toccm_env (u32 21) (List.replicate 16 255)
            (List.replicate 21 0) with trace := [.kernel_fpu_begin] }).trace ++
      (if (blk_loop blk_env0.toccm_env AES_BLOCK_SIZE
          (blk_env0.aesni_ctr_enc_tfm ccm_tfm0.ctx) .aesni_ctr_enc_tfm (List.range 21) (u32 21)
          { blkcipher_walk_start blk_env0.toccm_env (u32 21) (List.replicate 16 255)
              (List.replicate 21 0) with trace := [.kernel_fpu_begin] }).nbytes ≠ 0
        then [.aesni_enc, .blkcipher_walk_done 0] else []) ++ [.kernel_fpu_end] :=
  ctr_crypt_final_tail blk_env0 ccm_tfm0.ctx (List.range 21) walk_state0
    ccm_env0_stores_block ccm_env0_walk_bounded (by decide) (by decide) (by decide)
    (by decide) (by decide) (List.range 21) (List.replicate 21 0) (List.replicate 16 255) 21
/-- The shared loop does not depend on the trace, nor on the trace event, and on the
environment only through the walker. -/
theorem blk_loop_same (E E2 : ccm_env) (hw : E2.walk = E.walk) (least : Nat)
    (prim : List Nat → Nat → List Nat → List Nat × List Nat) (ev ev2 : Nat → Event)
    (inp : List Nat) :
    ∀ (fuel : Nat) (w w2 : walk_state), w.same w2 →
      (blk_loop E least prim ev inp fuel w).same (blk_loop E2 least prim ev2 inp fuel w2)
  | 0, _, _, h => h
  | fuel + 1, w, w2, h => by
    obtain ⟨h1, h2, h3, h4, h5, h6⟩ := h
    simp only [blk_loop]
    rw [← h2]
    split_ifs
    · apply blk_loop_same E E2 hw least prim ev ev2 inp fuel
      simp only [walk_state.same, blkcipher_walk_done, hw, ← h2, ← h3, ← h4, ← h5, ← h6,
        and_self]
    · exact ⟨h1, h2, h3, h4, h5, h6⟩

/-- The single-block tail does not depend on the trace, and on the environment only
through the walker and the block function. -/
theorem ctr_tail_same (E E2 : ccm_env) (hw : E2.walk = E.walk)
    (he : E2.aesni_enc = E.aesni_enc) (ctx : crypto_aes_ctx) (inp : List Nat)
    (a b : walk_state) (h : a.same b) :
    (if a.nbytes ≠ 0 then blkcipher_walk_done E (ctr_crypt_final E ctx inp a) 0
      else a).same
    (if b.nbytes ≠ 0 then blkcipher_walk_done E2 (ctr_crypt_final E2 ctx inp b) 0
      else b) := by
  obtain ⟨h1, h2, h3, h4, h5, h6⟩ := h
  rw [← h2]
  split_ifs
  · simp only [walk_state.same, blkcipher_walk_done, ctr_crypt_final, hw, he, ← h2, ← h3,
      ← h4, ← h5, ← h6, and_self]
  · exact ⟨h1, h2, h3, h4, h5, h6⟩

/-- The destination stream and status of `ctr_crypt` are those of the CTR pass of the
CCM functions with the bound routine as bulk routine. -/
theorem ctr_crypt_eq_pass (B : blk_env) (ctx : crypto_aes_ctx) (inp out iv : List Nat)
    (nbytes : Nat) :
    (ctr_crypt B ctx inp out iv nbytes).out =
      (ccm_ctr_pass B.ctr_env ctx inp
        (blkcipher_walk_start B.ctr_env (u32 nbytes) iv out)).out ∧
    (ctr_crypt B ctx inp out iv nbytes).err =
      (ccm_ctr_pass B.ctr_env ctx inp
        (blkcipher_walk_start B.ctr_env (u32 nbytes) iv out)).err := by
  have hs := blk_loop_same B.toccm_env B.ctr_env rfl AES_BLOCK_SIZE (B.aesni_ctr_enc_tfm ctx)
    .aesni_ctr_enc_tfm .aesni_ctr_enc inp (u32 nbytes)
    { blkcipher_walk_start B.toccm_env (u32 nbytes) iv out with trace := [.kernel_fpu_begin] }
    (blkcipher_walk_start B.ctr_env (u32 nbytes) iv out) ⟨rfl, rfl, rfl, rfl, rfl, rfl⟩
  have ht := ctr_tail_same B.toccm_env B.ctr_env rfl rfl ctx inp _ _ hs
  rw [ccm_ctr_pass, ccm_ctr_loop_eq_blk_loop]
  exact ⟨ht.2.2.2.2.2, ht.1⟩

/-- What `ctr_crypt` computes: the source stream xor the key stream that starts at
the counter block, with status 0. -/
theorem ctr_crypt_eq (B : blk_env) (ctx : crypto_aes_ctx) (hE : stores_block B.toccm_env)
    (hC : ctr_contract B.ctr_env) (hW : walker_ok B.toccm_env) (inp out iv : List Nat)
    (nbytes : Nat) (hN : nbytes < 2 ^ 32) (hinp : inp.length = nbytes)
    (hout : out.length = nbytes) (hiv : iv.length = 16) :
    (ctr_crypt B ctx inp out iv nbytes).err = 0 ∧
    (ctr_crypt B ctx inp out iv nbytes).out =
      xor_bytes inp (ctr_keystream (B.aesni_enc ctx) (nbytes / 16 + 1) iv) := by
  have hu : u32 nbytes = nbytes := Nat.mod_eq_of_lt hN
  obtain ⟨h1, h2⟩ := ctr_crypt_eq_pass B ctx inp out iv nbytes
  obtain ⟨p1, p2⟩ := ccm_ctr_pass_eq B.ctr_env ctx hE hC hW inp out iv nbytes hN hinp hout hiv
  rw [hu] at h1 h2
  rw [h1, h2]
  exact ⟨p1, p2⟩
/-- C22: CTR round trip.  For every key, every 16-byte initial counter block and
every message `m` (of any length that `unsigned int` holds, walked in any chunks on
either side), applying `ctr_crypt` to the result of `ctr_crypt` on `m` with the same
key and the same initial counter yields `m`, both calls returning 0, given that the
bulk CTR routine xors each 16-byte block with the encryption of the successive
counter values and advances the counter by the number of blocks processed. -/
theorem ctr_crypt_round_trip (B B2 : blk_env) (ctx : crypto_aes_ctx)
    (hE : stores_block B.toccm_env) (hC : ctr_contract B.ctr_env)
    (hW : walker_ok B.toccm_env) (hC2 : ctr_contract B2.ctr_env)
    (hW2 : walker_ok B2.toccm_env) (henc : B2.aesni_enc = B.aesni_enc)
    (m out out2 iv : List Nat) (hN : m.length < 2 ^ 32) (hout : out.length = m.length)
    (hout2 : out2.length = m.length) (hiv : iv.length = 16) :
    (ctr_crypt B ctx m out iv m.length).err = 0 ∧
    (ctr_crypt B2 ctx (ctr_crypt B ctx m out iv m.length).out out2 iv m.length).err = 0 ∧
    (ctr_crypt B2 ctx (ctr_crypt B ctx m out iv m.length).out out2 iv m.length).out = m := by
  have hE2 : stores_block B2.toccm_env := by
    intro c b
    rw [henc]
    exact hE c b
  obtain ⟨e1, o1⟩ := ctr_crypt_eq B ctx hE hC hW m out iv m.length hN rfl hout hiv
  have hkl := ctr_keystream_length (B.aesni_enc ctx) (hE ctx) (m.length / 16 + 1) iv
  have hcl : (ctr_crypt B ctx m out iv m.length).out.length = m.length := by
    rw [o1, xor_bytes, List.length_zipWith, hkl]
    omega
  obtain ⟨e2, o2⟩ := ctr_crypt_eq B2 ctx hE2 hC2 hW2 (ctr_crypt B ctx m out iv m.length).out
    out2 iv m.length hN hcl hout2 hiv
  refine ⟨e1, e2, ?_⟩
  rw [o2, henc, o1]
  exact xor_bytes_cancel _ _ (by rw [hkl]; omega)

/-- The second block-cipher environment meets the counter-mode contract. -/
theorem blk_env_ctr_contract : ctr_contract blk_env0.ctr_env ∧ ctr_contract blk_env1.ctr_env :=
  ⟨fun ctx inp len iv => toy_ctr_eq ctx (len / 16) inp iv,
    fun ctx inp len iv => toy_ctr_eq ctx (len / 16) inp iv⟩

theorem ctr_crypt_round_trip_witness :
    (ctr_crypt blk_env0 ccm_tfm0.ctx (List.range 17) (List.replicate 17 0)
      (List.replicate 16 255) (List.range 17).length).err = 0 ∧
    (ctr_crypt blk_env1 ccm_tfm0.ctx
      (ctr_crypt blk_env0 ccm_tfm0.ctx (List.range 17) (List.replicate 17 0)
        (List.replicate 16 255) (List.range 17).length).out
      (List.replicate 17 0) (List.replicate 16 255) (List.range 17).length).err = 0 ∧
    (ctr_crypt blk_env1 ccm_tfm0.ctx
      (ctr_crypt blk_env0 ccm_tfm0.ctx (List.range 17) (List.replicate 17 0)
        (List.replicate 16 255) (List.range 17).length).out
      (List.replicate 17 0) (List.replicate 16 255) (List.range 17).length).out =
      List.range 17 :=
  ctr_crypt_round_trip blk_env0 blk_env1 ccm_tfm0.ctx ccm_env0_stores_block
    blk_env_ctr_contract.1 ccm_env0_ok.2.2 blk_env_ctr_contract.2 ccm_env1_ok.2.2 rfl
    (List.range 17) (List.replicate 17 0) (List.replicate 17 0) (List.replicate 16 255)
    (by decide) (by decide) (by decide) (by decide)

/-- The key-expansion routine selected by `aes_set_key_common`, when it depends on the
key only, gives the same result whatever schedule it starts from. -/
theorem key_expansion_provider_indep (E : key_env)
    (hx : expands_key_only (key_expansion_provider E)) (c c2 : crypto_aes_ctx)
    (key : List Nat) (key_len : Nat) :
    key_expansion_provider E c2 key key_len = key_expansion_provider E c key key_len :=
  (hx c2 c key key_len).trans (hx c c key key_len).symm

/-- Two transforms with the same flags, tag size and context are the same. -/
theorem crypto_aead_eq {κ : Type} (x y : crypto_aead κ) (h1 : x.crt_flags = y.crt_flags)
    (h2 : x.authsize = y.authsize) (h3 : x.ctx = y.ctx) : x = y := by
  cases x; cases y
  simp only [crypto_aead.mk.injEq]
  exact ⟨h1, h2, h3⟩

/-- A successful `common_rfc4106_set_key` leaves flags and tag size as they were. -/
theorem common_rfc4106_set_key_frame (E : key_env) (aead : crypto_aead aesni_rfc4106_gcm_ctx)
    (key : List Nat) (key_len : Nat)
    (h0 : (common_rfc4106_set_key E aead key key_len).ret = 0) :
    (common_rfc4106_set_key E aead key key_len).tfm.crt_flags = aead.crt_flags ∧
    (common_rfc4106_set_key E aead key key_len).tfm.authsize = aead.authsize := by
  have hne : (-EINVAL : Int) ≠ 0 := by decide
  by_cases h4 : key_len < 4
  · simp [common_rfc4106_set_key, h4, hne] at h0
  · by_cases hb : key_len - 4 ≠ 16 ∧ key_len - 4 ≠ 24 ∧ key_len - 4 ≠ 32
    · simp [common_rfc4106_set_key, h4,
        aes_set_key_common_unsupported E _ _ key (key_len - 4) hb, hne] at h0
    · have hg : key_len - 4 = 16 ∨ key_len - 4 = 24 ∨ key_len - 4 = 32 := by omega
      obtain ⟨-, -, hf, -⟩ :=
        aes_set_key_common_supported E aead.crt_flags aead.ctx.aes_key_expanded key
          (key_len - 4) hg
      by_cases hr : (aes_set_key_common E aead.crt_flags aead.ctx.aes_key_expanded key
          (key_len - 4)).ret ≠ 0
      · simp only [common_rfc4106_set_key, if_neg h4, if_pos hr] at h0
        exact absurd h0 hr
      · simp only [common_rfc4106_set_key, if_neg h4, if_neg hr]
        exact ⟨hf, trivial⟩

/-- Setting an accepted RFC4106 key again: the second call succeeds as well and leaves
the transform as the first call left it. -/
theorem common_rfc4106_set_key_again (E : key_env) (aead : crypto_aead aesni_rfc4106_gcm_ctx)
    (key : List Nat) (key_len : Nat) (hk : key.length = key_len)
    (hs : rfc4106_ctx_sized aead.ctx) (hx : expands_key_only (key_expansion_provider E))
    (hblk : 16 ≤ (E.crypto_cipher_encrypt_one (key.take (key_len - 4))
      (List.replicate 16 0)).length)
    (h0 : (common_rfc4106_set_key E aead key key_len).ret = 0) :
    (common_rfc4106_set_key E (common_rfc4106_set_key E aead key key_len).tfm key
      key_len).ret = 0 ∧
    (common_rfc4106_set_key E (common_rfc4106_set_key E aead key key_len).tfm key
      key_len).tfm = (common_rfc4106_set_key E aead key key_len).tfm := by
  obtain ⟨hn, hp, hh, hctx⟩ := common_rfc4106_set_key_ok E aead key key_len hk hs h0
  obtain ⟨a1, ha1⟩ : ∃ a1, a1 = (common_rfc4106_set_key E aead key key_len).tfm := ⟨_, rfl⟩
  rw [← ha1] at hctx ⊢
  have hs1 : rfc4106_ctx_sized a1.ctx := by
    rw [hctx]
    refine ⟨?_, ?_⟩
    · show ((E.crypto_cipher_encrypt_one (key.take (key_len - 4))
        (List.replicate 16 0)).take 16).length = 16
      rw [List.length_take]; omega
    · show (key.drop (key_len - 4)).length = 4
      rw [List.length_drop]; omega
  have h4 : ¬ key_len < 4 := by omega
  have hg : key_len - 4 = 16 ∨ key_len - 4 = 24 ∨ key_len - 4 = 32 := by omega
  have hpe := key_expansion_provider_indep E hx aead.ctx.aes_key_expanded
    a1.ctx.aes_key_expanded key (key_len - 4)
  obtain ⟨hret, -, -, -⟩ :=
    aes_set_key_common_supported E a1.crt_flags a1.ctx.aes_key_expanded key (key_len - 4) hg
  have hr : ¬ (aes_set_key_common E a1.crt_flags a1.ctx.aes_key_expanded key
      (key_len - 4)).ret ≠ 0 := by
    rw [hret, hpe, hp]; simp
  have h1 : (common_rfc4106_set_key E a1 key key_len).ret = 0 := by
    simp only [common_rfc4106_set_key, if_neg h4, if_neg hr]
    rw [rfc4106_set_hash_subkey_ret E a1.ctx.hash_subkey aead.ctx.hash_subkey]
    exact hh
  obtain ⟨f1, f2⟩ := common_rfc4106_set_key_frame E a1 key key_len h1
  refine ⟨h1, crypto_aead_eq _ _ f1 f2 ?_⟩
  rw [(common_rfc4106_set_key_ok E a1 key key_len hk hs1 h1).2.2.2, hpe, hctx]

/-- Calling `aes_set_key_common` again with the same key, on the flags and the
schedule the first call left: status, schedule and flags are those of the first
call, for a key-expansion routine whose result depends on the key only. -/
theorem aes_set_key_common_again (E : key_env)
    (hx : expands_key_only (key_expansion_provider E)) (crt_flags : Nat)
    (ctx : crypto_aes_ctx) (in_key : List Nat) (key_len : Nat) :
    (aes_set_key_common E (aes_set_key_common E crt_flags ctx in_key key_len).crt_flags
        (aes_set_key_common E crt_flags ctx in_key key_len).ctx in_key key_len).ret =
      (aes_set_key_common E crt_flags ctx in_key key_len).ret ∧
    (aes_set_key_common E (aes_set_key_common E crt_flags ctx in_key key_len).crt_flags
        (aes_set_key_common E crt_flags ctx in_key key_len).ctx in_key key_len).ctx =
      (aes_set_key_common E crt_flags ctx in_key key_len).ctx ∧
    (aes_set_key_common E (aes_set_key_common E crt_flags ctx in_key key_len).crt_flags
        (aes_set_key_common E crt_flags ctx in_key key_len).ctx in_key key_len).crt_flags =
      (aes_set_key_common E crt_flags ctx in_key key_len).crt_flags := by
  by_cases hb : key_len ≠ 16 ∧ key_len ≠ 24 ∧ key_len ≠ 32
  · rw [aes_set_key_common_unsupported E crt_flags ctx in_key key_len hb]
    simp only []
    rw [aes_set_key_common_unsupported E _ ctx in_key key_len hb]
    refine ⟨rfl, rfl, ?_⟩
    simp only [Nat.lor_assoc, Nat.or_self]
  · have hg : key_len = 16 ∨ key_len = 24 ∨ key_len = 32 := by omega
    obtain ⟨a1, a2, a3, -⟩ := aes_set_key_common_supported E crt_flags ctx in_key key_len hg
    obtain ⟨b1, b2, b3, -⟩ := aes_set_key_common_supported E
      (aes_set_key_common E crt_flags ctx in_key key_len).crt_flags
      (aes_set_key_common E crt_flags ctx in_key key_len).ctx in_key key_len hg
    have hpe := key_expansion_provider_indep E hx ctx
      (aes_set_key_common E crt_flags ctx in_key key_len).ctx in_key key_len
    exact ⟨by rw [b1, hpe, a1], by rw [b2, hpe, a2], b3⟩

/-- C24: idempotence of key setup.  With a key-expansion routine whose result depends
on the key only, calling `aes_set_key_common` twice in a row with the same key (an
accepted one or not) leaves the schedule and the flags as a single call leaves them,
with the same status.  Likewise for `common_rfc4106_set_key`, on its own conditions:
for a key buffer of `key_len` bytes, a context of the C sizes and a cipher that stores
a whole block, when the key is accepted the second call leaves the transform as the
first left it and returns the same status. -/
theorem set_key_idempotent (E : key_env) (hx : expands_key_only (key_expansion_provider E))
    (crt_flags : Nat) (ctx : crypto_aes_ctx) (in_key : List Nat) (key_len : Nat)
    (aead : crypto_aead aesni_rfc4106_gcm_ctx) (key : List Nat) (klen : Nat) :
    ((aes_set_key_common E (aes_set_key_common E crt_flags ctx in_key key_len).crt_flags
          (aes_set_key_common E crt_flags ctx in_key key_len).ctx in_key key_len).ret =
        (aes_set_key_common E crt_flags ctx in_key key_len).ret ∧
      (aes_set_key_common E (aes_set_key_common E crt_flags ctx in_key key_len).crt_flags
          (aes_set_key_common E crt_flags ctx in_key key_len).ctx in_key key_len).ctx =
        (aes_set_key_common E crt_flags ctx in_key key_len).ctx ∧
      (aes_set_key_common E (aes_set_key_common E crt_flags ctx in_key key_len).crt_flags
          (aes_set_key_common E crt_flags ctx in_key key_len).ctx in_key key_len).crt_flags =
        (aes_set_key_common E crt_flags ctx in_key key_len).crt_flags) ∧
    (key.length = klen → rfc4106_ctx_sized aead.ctx →
      16 ≤ (E.crypto_cipher_encrypt_one (key.take (klen - 4)) (List.replicate 16 0)).length →
      (common_rfc4106_set_key E aead key klen).ret = 0 →
      (common_rfc4106_set_key E (common_rfc4106_set_key E aead key klen).tfm key klen).ret =
        (common_rfc4106_set_key E aead key klen).ret ∧
      (common_rfc4106_set_key E (common_rfc4106_set_key E aead key klen).tfm key klen).tfm =
        (common_rfc4106_set_key E aead key klen).tfm) := by
  refine ⟨aes_set_key_common_again E hx crt_flags ctx in_key key_len,
    fun hk hs hblk h1 => ?_⟩
  obtain ⟨r1, r2⟩ := common_rfc4106_set_key_again E aead key klen hk hs hx hblk h1
  exact ⟨by rw [r1, h1], r2⟩

/-- The idempotence evaluated in the environment `kenv0`, for the 16-byte AES key
`00 .. 0f` and the 20-byte RFC4106 key `00 .. 13`. -/
theorem set_key_idempotent_witness :
    ((aes_set_key_common kenv0 (aes_set_key_common kenv0 0 tfm0.ctx.aes_key_expanded
            (List.range 16) 16).crt_flags
          (aes_set_key_common kenv0 0 tfm0.ctx.aes_key_expanded (List.range 16) 16).ctx
          (List.range 16) 16).ret =
        (aes_set_key_common kenv0 0 tfm0.ctx.aes_key_expanded (List.range 16) 16).ret ∧
      (aes_set_key_common kenv0 (aes_set_key_common kenv0 0 tfm0.ctx.aes_key_expanded
            (List.range 16) 16).crt_flags
          (aes_set_key_common kenv0 0 tfm0.ctx.aes_key_expanded (List.range 16) 16).ctx
          (List.range 16) 16).ctx =
        (aes_set_key_common kenv0 0 tfm0.ctx.aes_key_expanded (List.range 16) 16).ctx ∧
      (aes_set_key_common kenv0 (aes_set_key_common kenv0 0 tfm0.ctx.aes_key_expanded
            (List.range 16) 16).crt_flags
          (aes_set_key_common kenv0 0 tfm0.ctx.aes_key_expanded (List.range 16) 16).ctx
          (List.range 16) 16).crt_flags =
        (aes_set_key_common kenv0 0 tfm0.ctx.aes_key_expanded (List.range 16) 16).crt_flags) ∧
    (common_rfc4106_set_key kenv0 (common_rfc4106_set_key kenv0 tfm0 key20 20).tfm key20
      20).ret = (common_rfc4106_set_key kenv0 tfm0 key20 20).ret ∧
    (common_rfc4106_set_key kenv0 (common_rfc4106_set_key kenv0 tfm0 key20 20).tfm key20
      20).tfm = (common_rfc4106_set_key kenv0 tfm0 key20 20).tfm :=
  ⟨(set_key_idempotent kenv0
      (fun _ _ _ _ => by simp [key_expansion_provider, kenv0, expand0])
      0 tfm0.ctx.aes_key_expanded (List.range 16) 16 tfm0 key20 20).1,
    (set_key_idempotent kenv0
      (fun _ _ _ _ => by simp [key_expansion_provider, kenv0, expand0])
      0 tfm0.ctx.aes_key_expanded (List.range 16) 16 tfm0 key20 20).2
      (by decide) (by decide) (by decide) (by decide)⟩

/-- C23: CCM fallback dispatch.  `ccm_encrypt` and `ccm_decrypt` run the accelerated
path (`__ccm_encrypt`, `__ccm_decrypt`, inside the FPU section) if and only if
`irq_fpu_usable()` holds; otherwise they submit to the fallback transform a request
whose source, destination, payload length, IV, associated-data length, flags and
completion callback (with its data) are those of the original request, and nothing
else runs; in both cases they return the result code of the path taken. -/
theorem ccm_fallback_dispatch (E : ccm_async_env) (aead : crypto_aead ccm_async_ctx)
    (req : aead_request) (base : crypto_async_request) :
    (E.irq_fpu_usable = true →
      (ccm_encrypt E aead req base).ret =
        (__ccm_encrypt E.toccm_env (ccm_async_aead aead) req).ret ∧
      (ccm_encrypt E aead req base).trace =
        [.kernel_fpu_begin] ++ (__ccm_encrypt E.toccm_env (ccm_async_aead aead) req).trace ++
          [.kernel_fpu_end] ∧
      (ccm_encrypt E aead req base).submitted = none ∧
      (ccm_decrypt E aead req base).ret =
        (__ccm_decrypt E.toccm_env (ccm_async_aead aead) req).ret ∧
      (ccm_decrypt E aead req base).trace =
        [.kernel_fpu_begin] ++ (__ccm_decrypt E.toccm_env (ccm_async_aead aead) req).trace ++
          [.kernel_fpu_end] ∧
      (ccm_decrypt E aead req base).submitted = none) ∧
    (E.irq_fpu_usable = false →
      ∃ r : fallback_request,
        r.tfm = aead.ctx.fallback ∧ r.src = req.src ∧ r.dst = req.dst ∧
        r.src_is_dst = req.src_is_dst ∧ r.cryptlen = req.cryptlen ∧ r.iv = req.iv ∧
        r.assoclen = req.assoclen ∧ r.base = base ∧
        (ccm_encrypt E aead req base).submitted = some r ∧
        (ccm_encrypt E aead req base).ret = (E.crypto_aead_encrypt r).1 ∧
        (ccm_encrypt E aead req base).trace = [.crypto_aead_encrypt] ∧
        (ccm_decrypt E aead req base).submitted = some r ∧
        (ccm_decrypt E aead req base).ret = (E.crypto_aead_decrypt r).1 ∧
        (ccm_decrypt E aead req base).trace = [.crypto_aead_decrypt]) := by
  refine ⟨fun h => ?_, fun h => ?_⟩
  · simp only [ccm_encrypt, ccm_decrypt, h, not_true_eq_false, if_false, and_self]
  · refine ⟨ccm_fallback_request aead req base, rfl, rfl, rfl, rfl, rfl, rfl, rfl, rfl, ?_⟩
    simp only [ccm_encrypt, ccm_decrypt, h, Bool.false_eq_true, not_false_eq_true, if_true,
      and_self]

/-- Events that are no guard events do not change the guard state, and are in order
when those that are accelerated come while the guard is held. -/
theorem guard_scan_inner : ∀ (l rest : List Event) (held : Bool),
    (∀ e ∈ l, e.guard = false) → (∀ e ∈ l, e.accelerated = true → held = true) →
    guard_scan held (l ++ rest) = guard_scan held rest
  | [], _, _, _, _ => rfl
  | e :: l, rest, held, hg, ha => by
    have ih := guard_scan_inner l rest held (fun x hx => hg x (List.mem_cons_of_mem _ hx))
      (fun x hx => ha x (List.mem_cons_of_mem _ hx))
    have h1 := hg e (List.mem_cons_self _ _)
    have h2 := ha e (List.mem_cons_self _ _)
    cases e <;> simp only [Event.guard, Bool.true_eq_false] at h1 <;>
      simp only [List.cons_append, guard_scan, ih] <;>
      cases held <;> simp_all [Event.accelerated]

/-- Events that are no guard events do not count as enters. -/
theorem count_begin_inner : ∀ (l : List Event), (∀ e ∈ l, e.guard = false) →
    l.count .kernel_fpu_begin = 0
  | [], _ => rfl
  | e :: l, hg => by
    have ih := count_begin_inner l (fun x hx => hg x (List.mem_cons_of_mem _ hx))
    have h1 := hg e (List.mem_cons_self _ _)
    rw [List.count_cons, ih]
    cases e <;> simp_all [Event.guard]

/-- A section of the form enter, events that are no guard events, exit is paired. -/
theorem guard_paired_section (l : List Event) (hg : ∀ e ∈ l, e.guard = false) :
    guard_paired ([.kernel_fpu_begin] ++ l ++ [.kernel_fpu_end]) := by
  refine ⟨?_, ?_⟩
  · rw [List.append_assoc, List.singleton_append, guard_scan, guard_scan_inner l _ true hg
      (fun _ _ _ => rfl)]
    rfl
  · rw [List.count_append, List.count_append, count_begin_inner l hg]
    decide

/-- A trace without guard events and without accelerated primitives is paired. -/
theorem guard_paired_free (l : List Event) (hg : ∀ e ∈ l, e.guard = false)
    (ha : ∀ e ∈ l, e.accelerated = false) : guard_paired l := by
  refine ⟨?_, ?_⟩
  · have := guard_scan_inner l [] false hg (fun e he h => by rw [ha e he] at h; exact h)
    rw [List.append_nil] at this
    rw [this]
    rfl
  · rw [count_begin_inner l hg]
    exact Nat.zero_le _
/-- The shared loop adds no guard events to the trace. -/
theorem blk_loop_trace_inner (E : ccm_env) (least : Nat)
    (prim : List Nat → Nat → List Nat → List Nat × List Nat) (ev : Nat → Event)
    (hev : ∀ n, (ev n).guard = false) (inp : List Nat) :
    ∀ (fuel : Nat) (w : walk_state),
      ∃ X, (blk_loop E least prim ev inp fuel w).trace = w.trace ++ X ∧
        ∀ e ∈ X, e.guard = false
  | 0, w => ⟨[], by simp [blk_loop], by simp⟩
  | fuel + 1, w => by
    by_cases h : w.nbytes ≥ least
    · obtain ⟨X, hX, hg⟩ := blk_loop_trace_inner E least prim ev hev inp fuel
        (blkcipher_walk_done E
          { w with iv := (prim (inp.drop w.pos) (w.nbytes &&& AES_BLOCK_MASK) w.iv).2,
                   out := memcpy_at w.out w.pos
                     (prim (inp.drop w.pos) (w.nbytes &&& AES_BLOCK_MASK) w.iv).1
                     (w.nbytes &&& AES_BLOCK_MASK),
                   trace := w.trace ++ [ev (w.nbytes &&& AES_BLOCK_MASK)] }
          (w.nbytes &&& (AES_BLOCK_SIZE - 1)))
      refine ⟨[ev (w.nbytes &&& AES_BLOCK_MASK),
        .blkcipher_walk_done (w.nbytes &&& (AES_BLOCK_SIZE - 1))] ++ X, ?_, ?_⟩
      · simp only [blk_loop, if_pos h]
        rw [hX]
        simp only [blkcipher_walk_done, List.append_assoc, List.cons_append, List.nil_append]
      · intro e he
        rcases List.mem_append.1 he with h1 | h1
        · simp only [List.mem_cons, List.not_mem_nil, or_false] at h1
          rcases h1 with h1 | h1
          · rw [h1]; exact hev _
          · rw [h1]; rfl
        · exact hg e h1
    · exact ⟨[], by simp [blk_loop, if_neg h], by simp⟩

/-- A function made of the shared loop between `kernel_fpu_begin` and
`kernel_fpu_end` is paired. -/
theorem blk_loop_guard_paired (E : ccm_env) (least : Nat)
    (prim : List Nat → Nat → List Nat → List Nat × List Nat) (ev : Nat → Event)
    (hev : ∀ n, (ev n).guard = false) (inp : List Nat) (fuel : Nat) (w : walk_state) :
    guard_paired ((blk_loop E least prim ev inp fuel
      { w with trace := [.kernel_fpu_begin] }).trace ++ [.kernel_fpu_end]) := by
  obtain ⟨X, hX, hg⟩ := blk_loop_trace_inner E least prim ev hev inp fuel
    { w with trace := [.kernel_fpu_begin] }
  rw [hX]
  exact guard_paired_section X hg

/-- The CTR pass of the CCM functions adds no guard events to the trace. -/
theorem ccm_ctr_pass_inner (E : ccm_env) (ctx : crypto_aes_ctx) (inp : List Nat)
    (w : walk_state) :
    ∃ X, (ccm_ctr_pass E ctx inp w).trace = w.trace ++ X ∧ ∀ e ∈ X, e.guard = false := by
  obtain ⟨X, hX, hg⟩ := blk_loop_trace_inner E AES_BLOCK_SIZE (E.aesni_ctr_enc ctx)
    .aesni_ctr_enc (fun _ => rfl) inp w.total w
  refine ⟨X ++ (if (blk_loop E AES_BLOCK_SIZE (E.aesni_ctr_enc ctx) .aesni_ctr_enc inp
      w.total w).nbytes ≠ 0 then [.aesni_enc, .blkcipher_walk_done 0] else []), ?_, ?_⟩
  · rw [ccm_ctr_pass, ctr_tail_trace, ccm_ctr_loop_eq_blk_loop, hX, List.append_assoc]
  · intro e he
    rcases List.mem_append.1 he with h | h
    · exact hg e h
    · split_ifs at h
      · simp only [List.mem_cons, List.not_mem_nil, or_false] at h
        rcases h with h | h <;> rw [h] <;> rfl
      · exact absurd h (List.not_mem_nil _)

/-- The function `__ccm_encrypt` itself makes no guard calls. -/
theorem __ccm_encrypt_inner (E : ccm_env) (aead : crypto_aead crypto_aes_ctx)
    (req : aead_request) : ∀ e ∈ (__ccm_encrypt E aead req).trace, e.guard = false := by
  intro e he
  by_cases hi : (ccm_init_mac aead.authsize req (List.replicate AES_BLOCK_SIZE 0)
      (u32 req.cryptlen)).ret ≠ 0
  · simp only [__ccm_encrypt, if_pos hi] at he
    exact absurd he (List.not_mem_nil _)
  · simp only [__ccm_encrypt, if_neg hi, apply_ite ccm_result.trace, ite_self] at he
    rcases List.mem_append.1 he with h | h
    · rw [ccm_calculate_auth_mac_trace_enc E _ _ _ _ _ _ e h]; rfl
    · obtain ⟨X, hX, hg⟩ := ccm_ctr_pass_inner E aead.ctx _ _
      rw [hX] at h
      exact hg e (by simpa [blkcipher_walk_start] using h)

/-- The function `__ccm_decrypt` itself makes no guard calls. -/
theorem __ccm_decrypt_inner (E : ccm_env) (aead : crypto_aead crypto_aes_ctx)
    (req : aead_request) : ∀ e ∈ (__ccm_decrypt E aead req).trace, e.guard = false := by
  intro e he
  by_cases h0 : u32 req.cryptlen < u32 aead.authsize
  · simp only [__ccm_decrypt, if_pos h0] at he
    exact absurd he (List.not_mem_nil _)
  by_cases hi : (ccm_init_mac aead.authsize req (List.replicate AES_BLOCK_SIZE 0)
      (sub_u32 req.cryptlen (u32 aead.authsize))).ret ≠ 0
  · simp only [__ccm_decrypt, if_neg h0, if_pos hi] at he
    exact absurd he (List.not_mem_nil _)
  · simp only [__ccm_decrypt, if_neg h0, if_neg hi, apply_ite ccm_result.trace, ite_self] at he
    rcases List.mem_append.1 he with h | h
    · obtain ⟨X, hX, hg⟩ := ccm_ctr_pass_inner E aead.ctx _ _
      rw [hX] at h
      exact hg e (by simpa [blkcipher_walk_start] using h)
    · rw [ccm_calculate_auth_mac_trace_enc E _ _ _ _ _ _ e h]; rfl
/-- The RFC4106 helpers are paired: they return before the guard is entered or enter
it once around the backend call. -/
theorem helper_rfc4106_guard_paired (E : gcm_env) (tfm : crypto_aead aesni_rfc4106_gcm_ctx)
    (req : aead_request) :
    guard_paired (helper_rfc4106_encrypt E tfm req).trace ∧
    guard_paired (helper_rfc4106_decrypt E tfm req).trace := by
  refine ⟨?_, ?_⟩
  · simp only [helper_rfc4106_encrypt]
    split_ifs <;> exact ⟨by simp [guard_scan, Event.accelerated], by simp⟩
  · simp only [helper_rfc4106_decrypt]
    split_ifs <;> exact ⟨by simp [guard_scan, Event.accelerated], by simp⟩

/-- C25: guard pairing.  On every execution path of `ecb_encrypt`, `ecb_decrypt`,
`cbc_encrypt`, `cbc_decrypt`, `ctr_crypt`, `aes_encrypt`, `aes_decrypt`,
`ccm_encrypt`, `ccm_decrypt`, `helper_rfc4106_encrypt` and `helper_rfc4106_decrypt`
the guard is entered at most once, every enter is followed by its exit before the
function returns, the guard is never entered while held, and every call of an
accelerated primitive lies between the enter and the exit. -/
theorem guard_pairing (B : blk_env) (ctx : crypto_aes_ctx) (inp out iv : List Nat)
    (nbytes : Nat) (src : List Nat) (C : ccm_async_env) (aead : crypto_aead ccm_async_ctx)
    (req : aead_request) (base : crypto_async_request) (G : gcm_env)
    (tfm : crypto_aead aesni_rfc4106_gcm_ctx) (greq : aead_request) :
    guard_paired (ecb_encrypt B ctx inp out iv nbytes).trace ∧
    guard_paired (ecb_decrypt B ctx inp out iv nbytes).trace ∧
    guard_paired (cbc_encrypt B ctx inp out iv nbytes).trace ∧
    guard_paired (cbc_decrypt B ctx inp out iv nbytes).trace ∧
    guard_paired (ctr_crypt B ctx inp out iv nbytes).trace ∧
    guard_paired (aes_encrypt B ctx src).2 ∧
    guard_paired (aes_decrypt B ctx src).2 ∧
    guard_paired (ccm_encrypt C aead req base).trace ∧
    guard_paired (ccm_decrypt C aead req base).trace ∧
    guard_paired (helper_rfc4106_encrypt G tfm greq).trace ∧
    guard_paired (helper_rfc4106_decrypt G tfm greq).trace := by
  refine ⟨?_, ?_, ?_, ?_, ?_, ?_, ?_, ?_, ?_, (helper_rfc4106_guard_paired G tfm greq).1,
    (helper_rfc4106_guard_paired G tfm greq).2⟩
  · exact blk_loop_guard_paired B.toccm_env 1 _ .aesni_ecb_enc (fun _ => rfl) inp _ _
  · exact blk_loop_guard_paired B.toccm_env 1 _ .aesni_ecb_dec (fun _ => rfl) inp _ _
  · exact blk_loop_guard_paired B.toccm_env 1 _ .aesni_cbc_enc (fun _ => rfl) inp _ _
  · exact blk_loop_guard_paired B.toccm_env 1 _ .aesni_cbc_dec (fun _ => rfl) inp _ _
  · obtain ⟨X, hX, hg⟩ := blk_loop_trace_inner B.toccm_env AES_BLOCK_SIZE
      (B.aesni_ctr_enc_tfm ctx) .aesni_ctr_enc_tfm (fun _ => rfl) inp
      (blkcipher_walk_start B.toccm_env (u32 nbytes) iv out).total
      { blkcipher_walk_start B.toccm_env (u32 nbytes) iv out with
        trace := [.kernel_fpu_begin] }
    have key := guard_paired_section
      (X ++ (if (blk_loop B.toccm_env AES_BLOCK_SIZE (B.aesni_ctr_enc_tfm ctx)
          .aesni_ctr_enc_tfm inp (blkcipher_walk_start B.toccm_env (u32 nbytes) iv out).total
          { blkcipher_walk_start B.toccm_env (u32 nbytes) iv out with
            trace := [.kernel_fpu_begin] }).nbytes ≠ 0
        then [.aesni_enc, .blkcipher_walk_done 0] else []))
      (by
        intro e he
        rcases List.mem_append.1 he with h | h
        · exact hg e h
        · split_ifs at h
          · simp only [List.mem_cons, List.not_mem_nil, or_false] at h
            rcases h with h | h <;> rw [h] <;> rfl
          · exact absurd h (List.not_mem_nil _))
    simp only [ctr_crypt]
    rw [ctr_tail_trace, hX]
    simp only [List.append_assoc] at key ⊢
    exact key
  · simp only [aes_encrypt]
    split_ifs
    · exact (by decide : guard_paired [Event.kernel_fpu_begin, Event.aesni_enc,
        Event.kernel_fpu_end])
    · exact (by decide : guard_paired [Event.crypto_aes_encrypt_x86])
  · simp only [aes_decrypt]
    split_ifs
    · exact (by decide : guard_paired [Event.kernel_fpu_begin, Event.aesni_dec,
        Event.kernel_fpu_end])
    · exact (by decide : guard_paired [Event.crypto_aes_decrypt_x86])
  · simp only [ccm_encrypt]
    split_ifs
    · exact guard_paired_section _ (__ccm_encrypt_inner _ _ _)
    · exact (by decide : guard_paired [Event.crypto_aead_encrypt])
  · simp only [ccm_decrypt]
    split_ifs
    · exact guard_paired_section _ (__ccm_decrypt_inner _ _ _)
    · exact (by decide : guard_paired [Event.crypto_aead_decrypt])

/-- The block loop of `compute_mac` counts: it leaves `datalen % 16` bytes at
`data + 16 * (datalen / 16)` after `datalen / 16` block encryptions, whatever the
buffers hold. -/
theorem compute_mac_loop_count (E : ccm_env) (ctx : crypto_aes_ctx) :
    ∀ (fuel : Nat) (odata data : List Nat) (datalen : Nat), datalen ≤ fuel →
      (compute_mac_loop E ctx fuel odata data datalen).2.1 = data.drop (16 * (datalen / 16)) ∧
      (compute_mac_loop E ctx fuel odata data datalen).2.2.1 = datalen % 16 ∧
      (compute_mac_loop E ctx fuel odata data datalen).2.2.2 =
        List.replicate (datalen / 16) Event.aesni_enc
  | 0, odata, data, datalen, hf => by
    have : datalen = 0 := by omega
    subst this
    simp [compute_mac_loop]
  | fuel + 1, odata, data, datalen, hf => by
    by_cases h16 : datalen ≥ AES_BLOCK_SIZE
    · have h16' : 16 ≤ datalen := h16
      have hq : datalen / 16 = (datalen - 16) / 16 + 1 := by omega
      have hr : datalen % 16 = (datalen - 16) % 16 := by omega
      obtain ⟨i1, i2, i3⟩ := compute_mac_loop_count E ctx fuel
        (memcpy_at (crypto_xor odata data AES_BLOCK_SIZE) 0
          (E.aesni_enc ctx (crypto_xor odata data AES_BLOCK_SIZE)) AES_BLOCK_SIZE)
        (data.drop AES_BLOCK_SIZE) (datalen - AES_BLOCK_SIZE)
        (by simp only [AES_BLOCK_SIZE]; omega)
      simp only [compute_mac_loop, if_pos h16]
      simp only [AES_BLOCK_SIZE] at i1 i2 i3 ⊢
      rw [i1, i2, i3, hq, hr, List.drop_drop, List.replicate_succ]
      refine ⟨?_, rfl, rfl⟩
      congr 1
      ring
    · have h16' : datalen < 16 := by simpa [AES_BLOCK_SIZE] using h16
      have hq : datalen / 16 = 0 := by omega
      have hr : datalen % 16 = datalen := by omega
      simp [compute_mac_loop, if_neg h16, hq, hr]

/-- The return value and the number of block encryptions of `compute_mac`, for a
carry of fewer than 16 bytes and whatever the buffers hold. -/
theorem compute_mac_count (E : ccm_env) (ctx : crypto_aes_ctx) (mac data idata : List Nat)
    (n ilen : Nat) (hil : ilen < 16) :
    (compute_mac E ctx mac data n ilen idata).ilen = (ilen + n) % 16 ∧
    (compute_mac E ctx mac data n ilen idata).trace =
      List.replicate ((ilen + n) / 16) Event.aesni_enc := by
  by_cases hg : n ≥ AES_BLOCK_SIZE - ilen
  · have hg' : 16 - ilen ≤ n := hg
    obtain ⟨-, i2, i3⟩ := compute_mac_loop_count E ctx (n - (16 - ilen))
      (memcpy_at (crypto_xor mac (memcpy_at idata ilen data (16 - ilen)) 16) 0
        (E.aesni_enc ctx (crypto_xor mac (memcpy_at idata ilen data (16 - ilen)) 16)) 16)
      (data.drop (16 - ilen)) (n - (16 - ilen)) (le_refl _)
    have hq : (ilen + n) / 16 = (n - (16 - ilen)) / 16 + 1 := by omega
    have hr : (ilen + n) % 16 = (n - (16 - ilen)) % 16 := by omega
    simp only [compute_mac, AES_BLOCK_SIZE, if_pos hg', i2, i3, hq, hr]
    split_ifs with h0
    · exact ⟨by simp, by simp [List.replicate_succ]⟩
    · exact ⟨by simp at h0; simp [h0], by simp [List.replicate_succ]⟩
  · have hg' : n < 16 - ilen := by simp only [AES_BLOCK_SIZE] at hg; omega
    obtain ⟨-, i2, i3⟩ := compute_mac_loop_count E ctx n mac data n (le_refl _)
    have hq : (ilen + n) / 16 = 0 := by omega
    have hr : (ilen + n) % 16 = ilen + n := by omega
    have hq' : n / 16 = 0 := by omega
    have hr' : n % 16 = n := by omega
    have hgn : ¬ (16 - ilen ≤ n) := by omega
    simp only [compute_mac, AES_BLOCK_SIZE, if_neg hgn, i2, i3, hq, hr, hq', hr']
    split_ifs with h0
    · exact ⟨rfl, rfl⟩
    · have : n = 0 := by simpa using h0
      exact ⟨by simp [this], rfl⟩

/-- The stores of `compute_mac` into the carry buffer stay inside its 16 bytes: the
buffer keeps its length, which a store past the end would increase. -/
theorem compute_mac_idata_length (E : ccm_env) (ctx : crypto_aes_ctx)
    (mac data idata : List Nat) (n ilen : Nat) (hil : ilen < 16) (hid : idata.length = 16)
    (hn : n ≤ data.length) :
    (compute_mac E ctx mac data n ilen idata).idata.length = 16 := by
  by_cases hg : n ≥ AES_BLOCK_SIZE - ilen
  · have hg' : 16 - ilen ≤ n := hg
    obtain ⟨i1, i2, -⟩ := compute_mac_loop_count E ctx (n - (16 - ilen))
      (memcpy_at (crypto_xor mac (memcpy_at idata ilen data (16 - ilen)) 16) 0
        (E.aesni_enc ctx (crypto_xor mac (memcpy_at idata ilen data (16 - ilen)) 16)) 16)
      (data.drop (16 - ilen)) (n - (16 - ilen)) (le_refl _)
    have h1 : (memcpy_at idata ilen data (16 - ilen)).length = 16 := by
      rw [memcpy_at_length _ _ _ _ (by omega) (by omega), hid]
    simp only [compute_mac, AES_BLOCK_SIZE, if_pos hg', i1, i2]
    split_ifs with h0
    · rw [memcpy_at_length _ _ _ _
        (by simp only [List.length_drop]; omega) (by rw [h1]; omega), h1]
    · exact h1
  · have hg' : n < 16 - ilen := by simp only [AES_BLOCK_SIZE] at hg; omega
    obtain ⟨i1, i2, -⟩ := compute_mac_loop_count E ctx n mac data n (le_refl _)
    have hr' : n % 16 = n := by omega
    have hgn : ¬ (16 - ilen ≤ n) := by omega
    simp only [compute_mac, AES_BLOCK_SIZE, if_neg hgn, i1, i2, hr']
    split_ifs with h0
    · rw [memcpy_at_length _ _ _ _
        (by simp only [List.length_drop]; omega) (by rw [hid]; omega), hid]
    · exact hid

/-- A store by `memcpy` into a 16-byte buffer keeps the length of the buffer exactly
when it writes nothing or stays inside the buffer. -/
theorem memcpy_at_length_iff (dst src : List Nat) (off n : Nat) (hs : n ≤ src.length)
    (hd : dst.length = 16) :
    (memcpy_at dst off src n).length = 16 ↔ n = 0 ∨ off + n ≤ 16 := by
  simp only [memcpy_at, List.length_append, List.length_take, List.length_drop]
  omega

/-- Across the fragments of a scatter walk the carry stays a 16-byte buffer with
fewer than 16 carried bytes. -/
theorem get_data_to_compute_walk_carry (E : ccm_env) (ctx : crypto_aes_ctx) :
    ∀ (frags : List (List Nat)) (s : mac_state), s.ilen < 16 → s.idata.length = 16 →
      (get_data_to_compute_walk E ctx s frags).ilen = (s.ilen + frags.flatten.length) % 16 ∧
      (get_data_to_compute_walk E ctx s frags).idata.length = 16 ∧
      (get_data_to_compute_walk E ctx s frags).trace =
        s.trace ++ List.replicate ((s.ilen + frags.flatten.length) / 16) Event.aesni_enc
  | [], s, hil, hid => by
    have hq : s.ilen / 16 = 0 := by omega
    have hr : s.ilen % 16 = s.ilen := by omega
    simp [get_data_to_compute_walk, hid, hq, hr]
  | d :: fs, s, hil, hid => by
    obtain ⟨c1, c2⟩ := compute_mac_count E ctx s.mac d s.idata d.length s.ilen hil
    have c3 := compute_mac_idata_length E ctx s.mac d s.idata d.length s.ilen hil hid
      (le_refl _)
    obtain ⟨i1, i2, i3⟩ := get_data_to_compute_walk_carry E ctx fs
      { compute_mac E ctx s.mac d d.length s.ilen s.idata with
        trace := s.trace ++ (compute_mac E ctx s.mac d d.length s.ilen s.idata).trace }
      (by show (compute_mac E ctx s.mac d d.length s.ilen s.idata).ilen < 16
          rw [c1]; exact Nat.mod_lt _ (by norm_num))
      c3
    have hw : get_data_to_compute_walk E ctx s (d :: fs) =
        get_data_to_compute_walk E ctx
          { compute_mac E ctx s.mac d d.length s.ilen s.idata with
            trace := s.trace ++ (compute_mac E ctx s.mac d d.length s.ilen s.idata).trace }
          fs := by
      simp [get_data_to_compute_walk]
    rw [hw, i1, i3]
    refine ⟨?_, i2, ?_⟩
    · show ((compute_mac E ctx s.mac d d.length s.ilen s.idata).ilen + _) % 16 = _
      rw [c1, List.flatten_cons, List.length_append]
      omega
    · show s.trace ++ (compute_mac E ctx s.mac d d.length s.ilen s.idata).trace ++
        List.replicate (((compute_mac E ctx s.mac d d.length s.ilen s.idata).ilen + _) / 16)
          Event.aesni_enc = _
      rw [c1, c2, List.flatten_cons, List.length_append, List.append_assoc,
        ← List.replicate_add]
      congr 2
      omega

/-- The function `get_data_to_compute` returns 0, keeps the carry buffer 16 bytes
long, and encrypts one block for every 16 bytes of carry and data, the last one
zero-padded. -/
theorem get_data_to_compute_carry (E : ccm_env) (ctx : crypto_aes_ctx)
    (mac idata : List Nat) (frags : List (List Nat)) (ilen : Nat) (hil : ilen < 16)
    (hid : idata.length = 16) :
    (get_data_to_compute E ctx mac idata frags ilen).ilen = 0 ∧
    (get_data_to_compute E ctx mac idata frags ilen).idata.length = 16 ∧
    (get_data_to_compute E ctx mac idata frags ilen).trace =
      List.replicate ((ilen + frags.flatten.length + 15) / 16) Event.aesni_enc := by
  obtain ⟨i1, i2, i3⟩ := get_data_to_compute_walk_carry E ctx frags
    { mac := mac, idata := idata, ilen := ilen, trace := [] } hil hid
  simp only [List.nil_append] at i1 i3
  by_cases hz : (get_data_to_compute_walk E ctx
      { mac := mac, idata := idata, ilen := ilen, trace := [] } frags).ilen ≠ 0
  · simp only [get_data_to_compute, if_pos hz]
    have hlt : (get_data_to_compute_walk E ctx
      { mac := mac, idata := idata, ilen := ilen, trace := [] } frags).ilen < 16 := by
      rw [i1]; exact Nat.mod_lt _ (by norm_num)
    refine ⟨trivial, ?_, ?_⟩
    · rw [memset_at_length _ _ _ _ (by rw [i2]; simp only [AES_BLOCK_SIZE]; omega), i2]
    · rw [i3, show [Event.aesni_enc] = List.replicate 1 Event.aesni_enc from rfl,
        ← List.replicate_add]
      congr 1
      rw [i1] at hz
      omega
  · simp only [get_data_to_compute, if_neg hz]
    have hz' := not_not.1 hz
    refine ⟨hz', i2, ?_⟩
    rw [i3]
    congr 1
    rw [i1] at hz'
    omega

/-- C26: `compute_mac` keeps the carry buffer within bounds.  For every carry
length `ilen < 16`, every fragment length `n` (of a fragment that holds `n` bytes) and
a 16-byte carry buffer, `compute_mac` returns `(ilen + n) mod 16`, performs exactly
`(ilen + n) div 16` block encryptions, and its stores into `idata` stay below index
16 (the buffer keeps its 16 bytes, which a store past the end would not); so across
any sequence of fragments the carry length stays below 16 and the buffer 16 bytes
long, and `get_data_to_compute` returns 0, with the zero-padding again inside the
buffer. -/
theorem compute_mac_carry_bounds (E : ccm_env) (ctx : crypto_aes_ctx)
    (mac data idata : List Nat) (n ilen : Nat) (frags : List (List Nat)) (hil : ilen < 16)
    (hid : idata.length = 16) (hn : n ≤ data.length) :
    (compute_mac E ctx mac data n ilen idata).ilen = (ilen + n) % 16 ∧
    (compute_mac E ctx mac data n ilen idata).trace =
      List.replicate ((ilen + n) / 16) Event.aesni_enc ∧
    (compute_mac E ctx mac data n ilen idata).idata.length = 16 ∧
    (get_data_to_compute_walk E ctx
      { mac := mac, idata := idata, ilen := ilen, trace := [] } frags).ilen < 16 ∧
    (get_data_to_compute_walk E ctx
      { mac := mac, idata := idata, ilen := ilen, trace := [] } frags).idata.length = 16 ∧
    (get_data_to_compute E ctx mac idata frags ilen).ilen = 0 ∧
    (get_data_to_compute E ctx mac idata frags ilen).idata.length = 16 := by
  obtain ⟨c1, c2⟩ := compute_mac_count E ctx mac data idata n ilen hil
  obtain ⟨w1, w2, -⟩ := get_data_to_compute_walk_carry E ctx frags
    { mac := mac, idata := idata, ilen := ilen, trace := [] } hil hid
  obtain ⟨g1, g2, -⟩ := get_data_to_compute_carry E ctx mac idata frags ilen hil hid
  exact ⟨c1, c2, compute_mac_idata_length E ctx mac data idata n ilen hil hid hn,
    by rw [w1]; exact Nat.mod_lt _ (by norm_num), w2, g1, g2⟩

/-- The carry bounds evaluated on a state with three carried bytes, a fragment of 30
bytes and a walk of three fragments. -/
theorem compute_mac_carry_bounds_witness :
    (compute_mac ccm_env0 ccm_tfm0.ctx mac_state0.mac (List.range 30) 30 3
      mac_state0.idata).ilen = (3 + 30) % 16 ∧
    (compute_mac ccm_env0 ccm_tfm0.ctx mac_state0.mac (List.range 30) 30 3
      mac_state0.idata).trace = List.replicate ((3 + 30) / 16) Event.aesni_enc ∧
    (compute_mac ccm_env0 ccm_tfm0.ctx mac_state0.mac (List.range 30) 30 3
      mac_state0.idata).idata.length = 16 ∧
    (get_data_to_compute_walk ccm_env0 ccm_tfm0.ctx
      { mac := mac_state0.mac, idata := mac_state0.idata, ilen := 3, trace := [] }
      [List.range 5, [7], List.range 30]).ilen < 16 ∧
    (get_data_to_compute_walk ccm_env0 ccm_tfm0.ctx
      { mac := mac_state0.mac, idata := mac_state0.idata, ilen := 3, trace := [] }
      [List.range 5, [7], List.range 30]).idata.length = 16 ∧
    (get_data_to_compute ccm_env0 ccm_tfm0.ctx mac_state0.mac mac_state0.idata
      [List.range 5, [7], List.range 30] 3).ilen = 0 ∧
    (get_data_to_compute ccm_env0 ccm_tfm0.ctx mac_state0.mac mac_state0.idata
      [List.range 5, [7], List.range 30] 3).idata.length = 16 :=
  compute_mac_carry_bounds ccm_env0 ccm_tfm0.ctx mac_state0.mac (List.range 30)
    mac_state0.idata 30 3 [List.range 5, [7], List.range 30] (by decide) (by decide)
    (by decide)

/-- Every request with an accepted associated-data length that is mapped or copied
reaches the GCM decryption routine, with the payload length
`(unsigned long)(req->cryptlen - auth_tag_len)`; no test of `cryptlen` against the
tag size comes before. -/
theorem helper_rfc4106_decrypt_reaches_backend (E : gcm_env)
    (tfm : crypto_aead aesni_rfc4106_gcm_ctx) (req : aead_request)
    (ha : req.assoclen = 16 ∨ req.assoclen = 20)
    (hk : one_entry_in_sg_dec req = true ∨ E.kmalloc (u32 (req.cryptlen + req.assoclen)) = true) :
    Event.aesni_gcm_dec_tfm (sub_u64 req.cryptlen tfm.authsize)
        (rfc4106_build_iv tfm.ctx.nonce req.iv) (sub_u32 req.assoclen 8) tfm.authsize ∈
      (helper_rfc4106_decrypt E tfm req).trace := by
  have hna : ¬ (req.assoclen ≠ 16 ∧ req.assoclen ≠ 20) := by omega
  simp only [helper_rfc4106_decrypt, if_neg hna]
  by_cases h1 : one_entry_in_sg_dec req = true
  · simp only [if_pos h1]
    simp
  · have hk' : E.kmalloc (u32 (req.cryptlen + req.assoclen)) = true := hk.resolve_left h1
    simp only [if_neg h1, hk', not_true_eq_false, if_false]
    simp

/-- The payload length `helper_rfc4106_decrypt` computes is `cryptlen - auth_tag_len`
and at most `cryptlen` when the request holds a whole tag, and wraps to
`2 ^ 64 - (auth_tag_len - cryptlen)` when it does not. -/
theorem tempCipherLen_eq (cryptlen auth_tag_len : Nat) (hc : cryptlen < 2 ^ 32)
    (ht : auth_tag_len ≤ 16) :
    (auth_tag_len ≤ cryptlen →
      sub_u64 cryptlen auth_tag_len = cryptlen - auth_tag_len ∧
      sub_u64 cryptlen auth_tag_len ≤ cryptlen) ∧
    (cryptlen < auth_tag_len →
      sub_u64 cryptlen auth_tag_len = 2 ^ 64 - (auth_tag_len - cryptlen) ∧
      cryptlen < sub_u64 cryptlen auth_tag_len) := by
  have h32 : (2 : Nat) ^ 32 = 4294967296 := by norm_num
  have h64 : (2 : Nat) ^ 64 = 18446744073709551616 := by norm_num
  simp only [sub_u64, u64, h64]
  rw [h32] at hc
  refine ⟨fun h => ?_, fun h => ?_⟩ <;> omega

/-- The return code and the IV of `ccm_init_mac` by cases: outside `[2, 8]` it is
`-EINVAL` and the IV is untouched; for a length that does not fit it is `-EOVERFLOW`
and the IV is untouched; otherwise it is 0 and the last `L` bytes of the IV are
cleared. -/
theorem ccm_init_mac_cases (authsize : Nat) (req : aead_request) (maciv : List Nat)
    (msglen : Nat) :
    ((ccm_init_mac authsize req maciv msglen).ret = -EINVAL ∧
      (ccm_init_mac authsize req maciv msglen).iv = req.iv) ∨
    ((ccm_init_mac authsize req maciv msglen).ret = -EOVERFLOW ∧
      (ccm_init_mac authsize req maciv msglen).iv = req.iv) ∨
    ((ccm_init_mac authsize req maciv msglen).ret = 0 ∧
      (2 ≤ ccm_L req ∧ ccm_L req ≤ 8) ∧
      (ccm_init_mac authsize req maciv msglen).iv =
        memset_at req.iv (AES_BLOCK_SIZE - ccm_L req) 0 (ccm_L req)) := by
  by_cases h : ccm_L req < 2 ∨ ccm_L req > 8
  · left
    simp only [ccm_init_mac, if_pos h, and_self]
  · by_cases ho : ccm_L req < 4 ∧ msglen >>> (8 * ccm_L req) ≠ 0
    · right; left
      simp only [ccm_init_mac, if_neg h, if_pos ho, and_self]
    · right; right
      have hfit : 4 ≤ ccm_L req ∨ msglen < 2 ^ (8 * ccm_L req) := by
        rw [shiftRight_ne_zero_iff] at ho
        omega
      simp only [ccm_init_mac, if_neg h, if_neg ho]
      exact ⟨set_msg_len_fits _ _ _ _ hfit, by omega, trivial⟩

/-- C29: the effect of `ccm_init_mac` on the request IV, for a 16-byte IV whose
first byte is a byte.  It returns 0, `-EINVAL` or `-EOVERFLOW`.  When it returns 0,
`L` is in `[2, 8]`, bytes `0 .. 15 - L` of the IV are unchanged and the last `L` bytes
are zero, so the IV is the RFC 3610 counter block A0: the flag byte `L - 1`, the
nonce (bytes `1 .. 15 - L` of the IV) and an `L`-byte counter of zero.  When it
returns `-EINVAL` or `-EOVERFLOW` the IV is unchanged. -/
theorem ccm_init_mac_iv (authsize : Nat) (req : aead_request) (maciv : List Nat)
    (msglen : Nat) (hiv : req.iv.length = 16) (hb : req.iv.getD 0 0 < 256) :
    ((ccm_init_mac authsize req maciv msglen).ret = 0 ∨
      (ccm_init_mac authsize req maciv msglen).ret = -EINVAL ∨
      (ccm_init_mac authsize req maciv msglen).ret = -EOVERFLOW) ∧
    ((ccm_init_mac authsize req maciv msglen).ret = 0 →
      (2 ≤ ccm_L req ∧ ccm_L req ≤ 8) ∧
      (ccm_init_mac authsize req maciv msglen).iv.length = 16 ∧
      (ccm_init_mac authsize req maciv msglen).iv.take (16 - ccm_L req) =
        req.iv.take (16 - ccm_L req) ∧
      (ccm_init_mac authsize req maciv msglen).iv.drop (16 - ccm_L req) =
        List.replicate (ccm_L req) 0 ∧
      (ccm_init_mac authsize req maciv msglen).iv =
        [ccm_L req - 1] ++ (req.iv.drop 1).take (15 - ccm_L req) ++
          List.replicate (ccm_L req) 0) ∧
    ((ccm_init_mac authsize req maciv msglen).ret = -EINVAL ∨
      (ccm_init_mac authsize req maciv msglen).ret = -EOVERFLOW →
      (ccm_init_mac authsize req maciv msglen).iv = req.iv) := by
  have hL : ccm_L req = req.iv.getD 0 0 + 1 := by unfold ccm_L u32; omega
  have hne : (-EINVAL : Int) ≠ 0 := by decide
  have hne' : (-EOVERFLOW : Int) ≠ 0 := by decide
  rcases ccm_init_mac_cases authsize req maciv msglen with ⟨hr, hi⟩ | ⟨hr, hi⟩ | ⟨hr, hl, hi⟩
  · exact ⟨Or.inr (Or.inl hr), fun h0 => absurd (hr.symm.trans h0) hne, fun _ => hi⟩
  · exact ⟨Or.inr (Or.inr hr), fun h0 => absurd (hr.symm.trans h0) hne', fun _ => hi⟩
  · refine ⟨Or.inl hr, fun _ => ?_, fun hc => ?_⟩
    · have htk : (req.iv.take (16 - ccm_L req)).length = 16 - ccm_L req := by
        rw [List.length_take]; omega
      have hd : req.iv.drop (16 - ccm_L req + ccm_L req) = [] :=
        List.drop_of_length_le (by omega)
      have hiv1 : (ccm_init_mac authsize req maciv msglen).iv =
          req.iv.take (16 - ccm_L req) ++ List.replicate (ccm_L req) 0 := by
        rw [hi, memset_at, show AES_BLOCK_SIZE - ccm_L req = 16 - ccm_L req from rfl, hd,
          List.append_nil]
      refine ⟨hl, ?_, ?_, ?_, ?_⟩
      · rw [hiv1, List.length_append, htk, List.length_replicate]; omega
      · rw [hiv1, List.take_append_of_le_length (le_of_eq htk.symm),
          List.take_of_length_le (le_of_eq htk)]
      · rw [hiv1, List.drop_append_of_le_length (le_of_eq htk.symm),
          List.drop_of_length_le (le_of_eq htk), List.nil_append]
      · rw [hiv1]
        congr 1
        generalize req.iv = iv at hiv hL hb ⊢
        match iv, hiv with
        | i0 :: t, _ =>
          simp only [List.getD_cons_zero] at hL
          have e : 16 - ccm_L req = (15 - ccm_L req) + 1 := by omega
          rw [e, List.take_succ_cons, List.drop_succ_cons, List.drop_zero, hL,
            Nat.add_sub_cancel]
          rfl
    · rcases hc with hc | hc
      · exact absurd (hc.symm.trans hr) hne
      · exact absurd (hc.symm.trans hr) hne'

/-- The effect on the IV `01 01 02 .. 0f` (`L = 2`) with a length that fits: the
last two bytes are cleared. -/
theorem ccm_init_mac_iv_witness :
    (ccm_init_mac 8 (ccm_req0 1) (List.replicate 16 0xaa) 0x1234).ret = 0 ∧
    (ccm_init_mac 8 (ccm_req0 1) (List.replicate 16 0xaa) 0x1234).iv =
      [1, 1, 2, 3, 4, 5, 6, 7, 8, 9, 10, 11, 12, 13, 0, 0] :=
  ⟨by decide,
   ((ccm_init_mac_iv 8 (ccm_req0 1) (List.replicate 16 0xaa) 0x1234 (by decide)
      (by decide)).2.1 (by decide)).2.2.2.2.trans (by decide)⟩

/-- The function `__ccm_encrypt` on a payload of `2 ^ 32 - 16` bytes stores as tag
the first bytes of the CBC-MAC value itself: nothing was walked, so the MAC block was
not encrypted. -/
theorem __ccm_encrypt_wrap_tag (E : ccm_env) (aead : crypto_aead crypto_aes_ctx)
    (req : aead_request) (hE : ccm_env_ok E) (hM : aead.authsize ≤ 16)
    (hiv : req.iv.length = 16) (hL : 4 ≤ ccm_L req ∧ ccm_L req ≤ 8)
    (ha32 : req.assoclen < 2 ^ 32) (hw : req.cryptlen + 16 = 2 ^ 32)
    (hbuf : ccm_buffers_ok req req.cryptlen (req.cryptlen + aead.authsize)) :
    sg_sized (__ccm_encrypt E aead req).dst ∧
    sg_copy_from (__ccm_encrypt E aead req).dst (req.assoclen + req.cryptlen)
        aead.authsize =
      (ccm_calculate_auth_mac E req aead.ctx
        (ccm_init_mac aead.authsize req (List.replicate 16 0) req.cryptlen).maciv req.src
        req.assoclen req.cryptlen).1.take aead.authsize := by
  obtain ⟨hS, hC, hW⟩ := hE
  obtain ⟨hs1, hs2, hb1, hb2⟩ := hbuf
  have hu : u32 req.cryptlen = req.cryptlen := by unfold u32; omega
  have hu1 : u32 (req.cryptlen + 16) = 0 := by unfold u32; omega
  obtain ⟨I, hI⟩ : ∃ I, I = ccm_init_mac aead.authsize req (List.replicate 16 0)
    req.cryptlen := ⟨_, rfl⟩
  obtain ⟨i0, i1, i2⟩ := ccm_init_mac_ok aead.authsize req (List.replicate 16 0)
    req.cryptlen hiv (by simp) ⟨by omega, hL.2⟩ (Or.inl hL.1)
  rw [← hI] at i0 i1 i2 ⊢
  have hsd : sg_sized (if req.src_is_dst then req.src else req.dst) := by
    split_ifs
    · exact hs1
    · exact hs2
  have hmd := sg_copy_from_length (if req.src_is_dst then req.src else req.dst)
    req.assoclen req.cryptlen (by omega)
  obtain ⟨T, hT⟩ : ∃ T, T = (ccm_calculate_auth_mac E req aead.ctx I.maciv req.src
    req.assoclen req.cryptlen).1 := ⟨_, rfl⟩
  have hTl : T.length = 16 := by
    rw [hT, ccm_calculate_auth_mac_chain E hS req aead.ctx I.maciv req.src req.assoclen
      req.cryptlen i2 ha32 hs1 hs1 (by omega) hb1]
    exact cbc_mac_absorb_length _ (hS aead.ctx) _ _ _
      (cbc_mac_absorb_length _ (hS aead.ctx) _ _ _ (hS aead.ctx _))
  rw [← hT]
  have hd : ((T ++ sg_copy_from (if req.src_is_dst then req.src else req.dst) req.assoclen
      req.cryptlen).drop 16).length = req.cryptlen := by
    rw [List.length_drop, List.length_append, hTl, hmd]; omega
  have htk : (T ++ sg_copy_from (if req.src_is_dst then req.src else req.dst) req.assoclen
      req.cryptlen).take 16 = T := by
    rw [List.take_append_of_le_length (le_of_eq hTl.symm),
      List.take_of_length_le (le_of_eq hTl)]
  obtain ⟨c1, c2⟩ := sg_bytes_copy_to (if req.src_is_dst then req.src else req.dst)
    req.assoclen ((T ++ sg_copy_from (if req.src_is_dst then req.src else req.dst)
      req.assoclen req.cryptlen).drop 16) req.cryptlen hsd (le_of_eq hd.symm) (by omega)
  have c3 := memcpy_at_length (sg_bytes (if req.src_is_dst then req.src else req.dst))
    ((T ++ sg_copy_from (if req.src_is_dst then req.src else req.dst)
      req.assoclen req.cryptlen).drop 16) req.assoclen req.cryptlen (le_of_eq hd.symm)
    (by omega)
  obtain ⟨d1, d2⟩ := sg_bytes_copy_to _ (req.assoclen + req.cryptlen) T aead.authsize c2
    (by rw [hTl]; exact hM) (by rw [c1, c3]; omega)
  have hwe : (blkcipher_walk_start E 0 I.iv
      (T ++ sg_copy_from (if req.src_is_dst then req.src else req.dst) req.assoclen
        req.cryptlen)).err = 0 := (hW 0).1
  have hwo : (blkcipher_walk_start E 0 I.iv
      (T ++ sg_copy_from (if req.src_is_dst then req.src else req.dst) req.assoclen
        req.cryptlen)).out = T ++ sg_copy_from (if req.src_is_dst then req.src else req.dst)
        req.assoclen req.cryptlen := rfl
  have hdst : (__ccm_encrypt E aead req).dst =
      sg_copy_to (sg_copy_to (if req.src_is_dst then req.src else req.dst) req.assoclen
        ((T ++ sg_copy_from (if req.src_is_dst then req.src else req.dst) req.assoclen
          req.cryptlen).drop 16) req.cryptlen) (req.assoclen + req.cryptlen) T
        aead.authsize := by
    simp only [__ccm_encrypt, hu, hu1, AES_BLOCK_SIZE, ← hI, i0, ← hT,
      ccm_ctr_pass_zero E hW, hwe, hwo, htk]
    simp only [ne_eq, not_true_eq_false, if_false]
  rw [hdst]
  refine ⟨d2, ?_⟩
  rw [sg_copy_from, d1, memcpy_at_region _ _ _ _ (by rw [hTl]; exact hM)
    (by rw [c1, c3]; omega)]

/-- The function `__ccm_decrypt` on a payload of `2 ^ 32 - 16` bytes, not in place:
the walk length wraps to 0 in 32 bits and nothing is walked, so the received tag is
compared as it is with the CBC-MAC value of what the destination held before the
call. -/
theorem __ccm_decrypt_wrap_ret (E : ccm_env) (aead : crypto_aead crypto_aes_ctx)
    (req : aead_request) (hE : ccm_env_ok E) (hM : aead.authsize < 16) (len : Nat)
    (hlen : req.cryptlen = len + aead.authsize) (hw : len + 16 = 2 ^ 32)
    (hnot : req.src_is_dst = false) (hiv : req.iv.length = 16)
    (hL : 4 ≤ ccm_L req ∧ ccm_L req ≤ 8) (ha32 : req.assoclen < 2 ^ 32)
    (hss : sg_sized req.src) (hs : sg_sized req.dst)
    (hsrc : req.assoclen + req.cryptlen ≤ (sg_bytes req.src).length)
    (hdst : req.assoclen + len ≤ (sg_bytes req.dst).length) :
    (__ccm_decrypt E aead req).ret =
      if crypto_memneq
          (ccm_calculate_auth_mac E req aead.ctx
            (ccm_init_mac aead.authsize req (List.replicate 16 0) len).maciv req.dst
            req.assoclen len).1
          (memcpy_at (List.replicate 16 0) 0
            (sg_copy_from req.src (req.assoclen + len) aead.authsize) aead.authsize)
          aead.authsize
      then -EBADMSG else 0 := by
  obtain ⟨hS, hC, hW⟩ := hE
  have hua : u32 aead.authsize = aead.authsize := by unfold u32; omega
  have hu : u32 req.cryptlen = req.cryptlen := by unfold u32; omega
  have hsub : sub_u32 req.cryptlen aead.authsize = len := by unfold sub_u32 u32; omega
  have hu1 : u32 (len + 16) = 0 := by unfold u32; omega
  have hnlt : ¬ req.cryptlen < aead.authsize := by omega
  obtain ⟨I, hI⟩ : ∃ I, I = ccm_init_mac aead.authsize req (List.replicate 16 0) len :=
    ⟨_, rfl⟩
  obtain ⟨i0, i1, i2⟩ := ccm_init_mac_ok aead.authsize req (List.replicate 16 0)
    len hiv (by simp) ⟨by omega, hL.2⟩ (Or.inl hL.1)
  rw [← hI] at i0 i1 i2 ⊢
  have htl := sg_copy_from_length req.src (req.assoclen + len) aead.authsize (by omega)
  have hpl := sg_copy_from_length req.dst req.assoclen len hdst
  obtain ⟨tag, htag⟩ : ∃ tag, tag = memcpy_at (List.replicate 16 0) 0
      (sg_copy_from req.src (req.assoclen + len) aead.authsize) aead.authsize := ⟨_, rfl⟩
  rw [← htag]
  have htagl : tag.length = 16 := by
    rw [htag, memcpy_at_length _ _ _ _ (le_of_eq htl.symm) (by simp; omega)]
    simp
  have hd : (tag ++ sg_copy_from req.dst req.assoclen len).drop 16 =
      sg_copy_from req.dst req.assoclen len := by
    rw [List.drop_append_of_le_length (le_of_eq htagl.symm), ← htagl, List.drop_length,
      List.nil_append]
  have htk : (tag ++ sg_copy_from req.dst req.assoclen len).take 16 = tag := by
    rw [List.take_append_of_le_length (le_of_eq htagl.symm),
      List.take_of_length_le (le_of_eq htagl)]
  obtain ⟨c1, c2⟩ := sg_bytes_copy_to req.dst req.assoclen
    (sg_copy_from req.dst req.assoclen len) len hs (le_of_eq hpl.symm) hdst
  have c3 := memcpy_at_length (sg_bytes req.dst) (sg_copy_from req.dst req.assoclen len)
    req.assoclen len (le_of_eq hpl.symm) hdst
  have key : sg_copy_from (sg_copy_to req.dst req.assoclen
      (sg_copy_from req.dst req.assoclen len) len) req.assoclen len =
      sg_copy_from req.dst req.assoclen len := by
    rw [sg_copy_from, c1, memcpy_at_region _ _ _ _ (le_of_eq hpl.symm) hdst,
      List.take_of_length_le (le_of_eq hpl)]
  have hmac : ∀ req2 : aead_request, req2.src = req.src → req2.assoclen = req.assoclen →
      (ccm_calculate_auth_mac E req2 aead.ctx I.maciv
        (sg_copy_to req.dst req.assoclen (sg_copy_from req.dst req.assoclen len) len)
        req.assoclen len).1 =
      (ccm_calculate_auth_mac E req aead.ctx I.maciv req.dst req.assoclen len).1 := by
    intro req2 h1 h2
    rw [ccm_calculate_auth_mac_chain E hS req2 aead.ctx I.maciv _ req.assoclen len i2
        (by rw [h2]; exact ha32) (by rw [h1]; exact hss) c2 (by rw [h1, h2]; omega)
        (by rw [c1, c3]; exact hdst),
      ccm_calculate_auth_mac_chain E hS req aead.ctx I.maciv req.dst req.assoclen len i2
        ha32 hss hs (by omega) hdst, key, h1, h2]
  have hwe : (blkcipher_walk_start E 0 I.iv
      (tag ++ sg_copy_from req.dst req.assoclen len)).err = 0 := (hW 0).1
  have hwo : (blkcipher_walk_start E 0 I.iv
      (tag ++ sg_copy_from req.dst req.assoclen len)).out =
      tag ++ sg_copy_from req.dst req.assoclen len := rfl
  simp only [__ccm_decrypt, hua, hu, hsub, hu1, AES_BLOCK_SIZE, hnot, Bool.false_eq_true,
    if_false, ← htag, ← hI, i0, hnlt, ccm_ctr_pass_zero E hW, hwo, hwe, hd, htk]
  simp only [ne_eq, not_true_eq_false, if_false]
  rw [hmac { req with src_is_dst := false } rfl rfl]
  split_ifs <;> rfl
/-- After at least one block, the running CBC-MAC value is an output of the block
function. -/
theorem cbc_mac_absorb_is_enc (enc : List Nat → List Nat) :
    ∀ (k : Nat) (mac msg : List Nat), 1 ≤ k → ∃ b, cbc_mac_absorb enc k mac msg = enc b
  | 0, _, _, h => absurd h (by decide)
  | 1, mac, msg, _ => ⟨xor_bytes mac (msg.take 16), rfl⟩
  | k + 2, mac, msg, _ => by
    obtain ⟨b, hb⟩ := cbc_mac_absorb_is_enc enc (k + 1) (enc (xor_bytes mac (msg.take 16)))
      (msg.drop 16) (by omega)
    exact ⟨b, by rw [← hb]; rfl⟩

/-- The MAC of a request without associated data whose payload is whole blocks: the
last block is xor-ed into the chaining value of the blocks before it and
encrypted. -/
theorem ccm_calculate_auth_mac_last_block (E : ccm_env) (hE : stores_block E)
    (req : aead_request) (ctx : crypto_aes_ctx) (mac : List Nat) (src : List scatterlist)
    (src_start cryptlen : Nat) (A B : List Nat) (hm : mac.length = 16)
    (ha0 : req.assoclen = 0) (hsa : sg_sized req.src) (hsp : sg_sized src)
    (hp : src_start + cryptlen ≤ (sg_bytes src).length)
    (hAB : sg_copy_from src src_start cryptlen = A ++ B) (hA : A.length % 16 = 0)
    (hB : B.length = 16) :
    (ccm_calculate_auth_mac E req ctx mac src src_start cryptlen).1 =
      E.aesni_enc ctx (xor_bytes
        (cbc_mac_absorb (E.aesni_enc ctx) (A.length / 16) (E.aesni_enc ctx mac) A) B) := by
  have hpad : pad16 (A ++ B) = A ++ B := by
    have : (16 - (A ++ B).length % 16) % 16 = 0 := by
      rw [List.length_append, hB]; omega
    rw [pad16, this, List.replicate_zero, List.append_nil]
  have h0 : sg_copy_from req.src 0 req.assoclen = [] := by
    rw [ha0, sg_copy_from, List.take_zero]
  rw [ccm_calculate_auth_mac_chain E hE req ctx mac src src_start cryptlen hm
    (by rw [ha0]; decide) hsa hsp (by rw [ha0]; exact Nat.zero_le _) hp, h0, hAB, hpad]
  simp only [List.length_nil, if_true, Nat.zero_div, cbc_mac_absorb]
  rw [cbc_mac_absorb_blocks _ _ A B hA, hB]
  simp only [Nat.div_self (show 0 < 16 by decide), cbc_mac_absorb]
  rw [List.take_of_length_le (le_of_eq hB)]

/-- Storing one byte at position `N` of a buffer: of the `n` bytes from `N` the first
is the new byte, the others are as they were. -/
theorem memcpy_at_one (B : List Nat) (N n v : Nat) (h : N + n ≤ B.length) (hn : 1 ≤ n) :
    ((memcpy_at B N [v] 1).drop N).take n = v :: ((B.drop N).take n).drop 1 := by
  have h1 : (B.take N).length = N := by rw [List.length_take]; omega
  obtain ⟨m, rfl⟩ : ∃ m, n = m + 1 := ⟨n - 1, by omega⟩
  rw [memcpy_at, List.append_assoc, List.drop_append_of_le_length (le_of_eq h1.symm)]
  nth_rewrite 1 [← h1]
  rw [List.drop_length, List.nil_append]
  simp only [List.take_succ_cons, List.take_zero, List.singleton_append, List.cons.injEq,
    true_and]
  rw [List.drop_take, List.drop_drop]
  simp only [Nat.add_sub_cancel]
set_option maxRecDepth 100000 in
/-- Changing the lowest bit of a byte before the toy block function changes the byte
it gives. -/
theorem xor_one_changes_byte :
    ∀ y, y < 256 → (y + 16 + 1) % 256 ≠ ((y ^^^ 1) + 16 + 1) % 256 := by
  decide

/-- C15, as stated, fails at the 32-bit limit.  With `L = 4`, a 4-byte tag and a
payload of `2 ^ 32 - 16` bytes, `__ccm_encrypt` returns 0 after a walk over no bytes.
There is a byte `v` other than the first tag byte it stored such that
`__ccm_decrypt`, called not in place on that output with the first tag byte replaced
by `v` (ciphertext and the other tag bytes unchanged), returns 0 and not `-EBADMSG`:
again nothing is walked, and the received tag is compared as it is with the CBC-MAC
value of what the destination held before the call. -/
theorem ccm_corrupted_tag_wraps :
    ccm_L ccm_req_big = 4 ∧ ccm_req_big.cryptlen < 2 ^ (8 * ccm_L ccm_req_big) ∧
    (__ccm_encrypt ccm_env0 ccm_tfm0 ccm_req_big).ret = 0 ∧
    ∃ v, v < 256 ∧
      v ≠ (sg_copy_from (__ccm_encrypt ccm_env0 ccm_tfm0 ccm_req_big).dst
          4294967280 4).getD 0 0 ∧
      sg_copy_from (ccm_req_big3 v).src 0 4294967280 =
        sg_copy_from (__ccm_encrypt ccm_env0 ccm_tfm0 ccm_req_big).dst 0 4294967280 ∧
      (sg_copy_from (ccm_req_big3 v).src 4294967280 4).drop 1 =
        (sg_copy_from (__ccm_encrypt ccm_env0 ccm_tfm0 ccm_req_big).dst
          4294967280 4).drop 1 ∧
      (__ccm_decrypt ccm_env0 ccm_tfm0 (ccm_req_big3 v)).ret = 0 := by
  have hL : ccm_L ccm_req_big = 4 := by decide
  have hs : sg_sized ccm_req_big.src := by
    intro e he
    simp only [ccm_req_big, List.mem_singleton] at he
    rw [he]
    simp only [List.length_replicate, le_refl]
  have hd : sg_sized ccm_req_big.dst := by
    intro e he
    simp only [ccm_req_big, List.mem_singleton] at he
    rw [he]
    simp only [List.length_replicate, le_refl]
  have hbs : sg_bytes ccm_req_big.src = List.replicate 4294967284 1 := by
    simp only [ccm_req_big, sg_bytes, List.take_replicate, Nat.min_self, List.append_nil]
  have hbd : sg_bytes ccm_req_big.dst = List.replicate 4294967284 0 := by
    simp only [ccm_req_big, sg_bytes, List.take_replicate, Nat.min_self, List.append_nil]
  have hbuf : ccm_buffers_ok ccm_req_big ccm_req_big.cryptlen
      (ccm_req_big.cryptlen + ccm_tfm0.authsize) := by
    refine ⟨hs, hd, ?_, ?_⟩
    · rw [hbs, List.length_replicate]
      decide
    · rw [show (if ccm_req_big.src_is_dst = true then ccm_req_big.src else ccm_req_big.dst) =
        ccm_req_big.dst from rfl, hbd, List.length_replicate]
      decide
  obtain ⟨e0, e1⟩ := __ccm_encrypt_wrap ccm_env0 ccm_tfm0 ccm_req_big ccm_env0_ok
    (by decide) (by decide) (by rw [hL]; decide) (by decide) (by decide) hbuf
  rw [show (if ccm_req_big.src_is_dst = true then ccm_req_big.src else ccm_req_big.dst) =
    ccm_req_big.dst from rfl, hbd, List.length_replicate] at e1
  obtain ⟨t1, t2⟩ := __ccm_encrypt_wrap_tag ccm_env0 ccm_tfm0 ccm_req_big ccm_env0_ok
    (by decide) (by decide) (by rw [hL]; decide) (by decide) (by decide) hbuf
  -- the stored output and the first MAC block
  obtain ⟨D, hD⟩ : ∃ D, D = (__ccm_encrypt ccm_env0 ccm_tfm0 ccm_req_big).dst := ⟨_, rfl⟩
  obtain ⟨I, hI⟩ : ∃ I, I = (ccm_init_mac ccm_tfm0.authsize ccm_req_big
    (List.replicate 16 0) 4294967280).maciv := ⟨_, rfl⟩
  have hIl : I.length = 16 := by
    rw [hI]
    exact (ccm_init_mac_ok ccm_tfm0.authsize ccm_req_big (List.replicate 16 0) 4294967280
      (by decide) (by decide) (by rw [hL]; decide) (Or.inl (by rw [hL]))).2.2
  rw [← hD] at e1 t1 t2
  rw [show ccm_req_big.assoclen + ccm_req_big.cryptlen = 4294967280 from rfl,
    show ccm_req_big.cryptlen = 4294967280 from rfl, ← hI,
    show ccm_req_big.assoclen = 0 from rfl, show ccm_tfm0.authsize = 4 from rfl] at t2
  -- the chaining value before the last block
  obtain ⟨X, hX⟩ : ∃ X, X = cbc_mac_absorb (ccm_env0.aesni_enc ccm_tfm0.ctx)
    ((List.replicate 4294967264 1).length / 16) (ccm_env0.aesni_enc ccm_tfm0.ctx I)
    (List.replicate 4294967264 1) := ⟨_, rfl⟩
  obtain ⟨b, hb⟩ := cbc_mac_absorb_is_enc (ccm_env0.aesni_enc ccm_tfm0.ctx)
    ((List.replicate 4294967264 1).length / 16) (ccm_env0.aesni_enc ccm_tfm0.ctx I)
    (List.replicate 4294967264 1) (by rw [List.length_replicate]; decide)
  rw [← hX] at hb
  -- the MAC of the payload of the encrypt request
  have hP : sg_copy_from ccm_req_big.src 0 4294967280 =
      List.replicate 4294967264 1 ++ [1, 1, 1, 1, 1, 1, 1, 1, 1, 1, 1, 1, 1, 1, 1, 1] := by
    rw [sg_copy_from, hbs, List.drop_zero, List.take_replicate,
      show min 4294967280 4294967284 = 4294967264 + 16 from by decide, List.replicate_add]
    rfl
  have hT := ccm_calculate_auth_mac_last_block ccm_env0 ccm_env0_ok.1 ccm_req_big
    ccm_tfm0.ctx I ccm_req_big.src 0 4294967280 _ _ hIl rfl hs hs
    (by rw [hbs, List.length_replicate]; decide) hP
    (by rw [List.length_replicate]) rfl
  rw [← hX, hb] at hT
  rw [hT] at t2
  -- the decrypt request
  have hsrc3 : ∀ v, (ccm_req_big3 v).src = sg_copy_to D 4294967280 [v] 1 := by
    intro v; rw [hD]; rfl
  have hc3 : ∀ v, sg_bytes (ccm_req_big3 v).src = memcpy_at (sg_bytes D) 4294967280 [v] 1 ∧
      sg_sized (ccm_req_big3 v).src := by
    intro v
    rw [hsrc3]
    exact sg_bytes_copy_to D 4294967280 [v] 1 t1 (le_refl _)
      (by rw [e1]; exact (by decide : 4294967280 + 1 ≤ 4294967284))
  have hl3 : ∀ v, (sg_bytes (ccm_req_big3 v).src).length = 4294967284 := by
    intro v
    rw [(hc3 v).1, memcpy_at_length (sg_bytes D) [v] 4294967280 1 (le_refl _)
      (by rw [e1]; exact (by decide : 4294967280 + 1 ≤ 4294967284)), e1]
  have hdl : (List.replicate 4294967264 1 ++
      [1, 1, 1, 1, 1, 1, 1, 1, 1, 1, 1, 1, 1, 1, 1, 0]).length = 4294967280 := by
    rw [List.length_append, List.length_replicate]
    rfl
  have hbd3 : ∀ v, sg_bytes (ccm_req_big3 v).dst = List.replicate 4294967264 1 ++
      [1, 1, 1, 1, 1, 1, 1, 1, 1, 1, 1, 1, 1, 1, 1, 0] := by
    intro v
    simp only [ccm_req_big3, sg_bytes, List.append_nil]
    exact List.take_of_length_le (le_of_eq hdl)
  have hd3 : ∀ v, sg_sized (ccm_req_big3 v).dst := by
    intro v e he
    simp only [ccm_req_big3, List.mem_singleton] at he
    rw [he]
    exact le_of_eq hdl.symm
  have hP3 : ∀ v, sg_copy_from (ccm_req_big3 v).dst 0 4294967280 =
      List.replicate 4294967264 1 ++ [1, 1, 1, 1, 1, 1, 1, 1, 1, 1, 1, 1, 1, 1, 1, 0] := by
    intro v
    rw [sg_copy_from, hbd3, List.drop_zero, List.take_of_length_le (le_of_eq hdl)]
  have hI3 : ∀ v, (ccm_init_mac ccm_tfm0.authsize (ccm_req_big3 v) (List.replicate 16 0)
      4294967280).maciv = I := by
    intro v
    rw [hI, ccm_init_mac_congr ccm_tfm0.authsize ccm_req_big (ccm_req_big3 v) _ _ rfl rfl]
  have hM3 : ∀ v, (ccm_calculate_auth_mac ccm_env0 (ccm_req_big3 v) ccm_tfm0.ctx I
      (ccm_req_big3 v).dst 0 4294967280).1 =
      ccm_env0.aesni_enc ccm_tfm0.ctx (xor_bytes (ccm_env0.aesni_enc ccm_tfm0.ctx b)
        [1, 1, 1, 1, 1, 1, 1, 1, 1, 1, 1, 1, 1, 1, 1, 0]) := by
    intro v
    have h := ccm_calculate_auth_mac_last_block ccm_env0 ccm_env0_ok.1 (ccm_req_big3 v)
      ccm_tfm0.ctx I (ccm_req_big3 v).dst 0 4294967280 _ _ hIl rfl (hc3 v).2 (hd3 v)
      (by rw [hbd3, hdl]) (hP3 v) (by rw [List.length_replicate]) rfl
    rw [← hX, hb] at h
    exact h
  have hret : ∀ v, (__ccm_decrypt ccm_env0 ccm_tfm0 (ccm_req_big3 v)).ret =
      if crypto_memneq
          (ccm_env0.aesni_enc ccm_tfm0.ctx (xor_bytes (ccm_env0.aesni_enc ccm_tfm0.ctx b)
            [1, 1, 1, 1, 1, 1, 1, 1, 1, 1, 1, 1, 1, 1, 1, 0]))
          (memcpy_at (List.replicate 16 0) 0
            (sg_copy_from (ccm_req_big3 v).src 4294967280 4) 4) 4
      then -EBADMSG else 0 := by
    intro v
    have h := __ccm_decrypt_wrap_ret ccm_env0 ccm_tfm0 (ccm_req_big3 v) ccm_env0_ok
      (by decide) 4294967280 rfl (by decide) rfl (show ccm_req_big.iv.length = 16 by decide)
      (show 4 ≤ ccm_L ccm_req_big ∧ ccm_L ccm_req_big ≤ 8 by rw [hL]; decide)
      (show (0 : Nat) < 2 ^ 32 by decide) (hc3 v).2 (hd3 v)
      (by rw [hl3]; exact (by decide : 0 + 4294967284 ≤ 4294967284))
      (by rw [hbd3, hdl]; exact (by decide : 0 + 4294967280 ≤ 4294967280))
    rw [hI3 v] at h
    rw [show (ccm_req_big3 v).assoclen = 0 from rfl, hM3 v] at h
    exact h
  -- the tag of the decrypt request
  have htag3 : ∀ v, sg_copy_from (ccm_req_big3 v).src 4294967280 4 =
      v :: (sg_copy_from D 4294967280 4).drop 1 := by
    intro v
    rw [sg_copy_from, (hc3 v).1, memcpy_at_one (sg_bytes D) 4294967280 4 v
      (by rw [e1]) (by decide)]
    rfl
  have hct3 : ∀ v, sg_copy_from (ccm_req_big3 v).src 0 4294967280 =
      sg_copy_from D 0 4294967280 := by
    intro v
    rw [sg_copy_from, (hc3 v).1, memcpy_at_before (sg_bytes D) [v] 4294967280 1 0 4294967280
      (by rw [e1]; exact (by decide : 4294967280 + 1 ≤ 4294967284)) (by decide)]
    rfl
  -- the two MAC values, byte by byte
  have hy : (b.getD 0 0 + 16 + 1) % 256 < 256 := Nat.mod_lt _ (by decide)
  obtain ⟨MD, hMD⟩ : ∃ MD, MD = ccm_env0.aesni_enc ccm_tfm0.ctx
    (xor_bytes (ccm_env0.aesni_enc ccm_tfm0.ctx b)
      [1, 1, 1, 1, 1, 1, 1, 1, 1, 1, 1, 1, 1, 1, 1, 0]) := ⟨_, rfl⟩
  rw [← hMD] at hret
  simp only [ccm_env0, toy_enc, ccm_tfm0, xor_bytes, List.range, List.range.loop,
    List.map_cons, List.map_nil, List.zipWith_cons_cons, List.zipWith_nil_left,
    List.getD_cons_succ, List.getD_cons_zero, Nat.sub_self, Nat.reduceSub, Nat.xor_zero,
    List.take_succ_cons, List.take_zero] at t2 hMD
  rw [← hD]
  refine ⟨hL, by rw [hL]; decide, e0, ((b.getD 0 0 + 16 + 1) % 256 + 16 + 1) % 256,
    Nat.mod_lt _ (by decide), ?_, hct3 _, ?_, ?_⟩
  · rw [t2, List.getD_cons_zero]
    exact xor_one_changes_byte _ hy
  · rw [htag3, List.drop_succ_cons, List.drop_zero]
  · rw [hret, htag3, t2, hMD]
    simp [crypto_memneq, memcpy_at, List.range, List.range.loop]

end AesniGlue

